import Mathlib

/-! btparse: list and name splitting (names.c), tree traversal (traversal.c),
the macro table (macros.c) and the tables of the lexer (scan.c).

A shallow embedding of `bt_split_list` and `bt_split_name` with their helpers
(`find_commas`, `find_tokens`, `find_lc_tokens`, `resolve_token_range`,
`split_simple_name`, `split_general_name`), of the traversal functions
`bt_next_entry`, `bt_entry_metatype`, `bt_entry_type`, `bt_entry_key`,
`bt_next_field`, `bt_next_macro`, `bt_next_value` and `bt_get_text`, of the
option flags of btparse.h, of `add_macro`, `macro_length` and `macro_text`, and
of the character-class, transition and action tables of the lexer's automaton.

Conventions.
* A C string is a `List Char`; the buffer that holds it is the list followed by
  the terminating NUL.  `charAt` reads one byte of a buffer.
* `int` variables that index a string are `Nat`; `depth`, `stop`, `start`,
  `first_lc`, `last_lc` and token ranges, which may go below zero, are `Int`.
* A `char *` into a buffer is the offset it points at; `none` is `NULL`.
* Calls to `name_warning` are collected, in order, as a list of `Diag`.
* Behaviour the C standard leaves undefined (division by zero, reading through
  `NULL`, reading an unset field) and `internal_error` are reported as a `Fault`.
-/

set_option maxRecDepth 20000

namespace Btparse

/-! ## Characters and buffers -/

/-- The NUL byte that ends a C string. -/
def NUL : Char := Char.ofNat 0

/-- Read `s[i]`: a byte of the buffer, NUL past its end. -/
def charAt (s : List Char) (i : Nat) : Char := s.getD i NUL

/-- The C library `tolower` in the C locale. -/
def tolower (c : Char) : Char := c.toLower

/-- The C library `islower` in the C locale. -/
def islower (c : Char) : Bool := c.isLower

/-- The C library `strlen`: the number of bytes before the first NUL. -/
def strlen (buf : List Char) : Nat := (buf.takeWhile (fun c => c != NUL)).length

/-- The C string that starts at offset `off` of a buffer. -/
def cstr_at (buf : List Char) (off : Nat) : List Char :=
  (buf.drop off).takeWhile (fun c => c != NUL)

/-- The macro `update_depth (s, offs, depth)`, given the byte `s[offs]`. -/
def update_depth (c : Char) (depth : Int) : Int :=
  if c = '{' then depth + 1 else if c = '}' then depth - 1 else depth

/-! ## Diagnostics and faults -/

/-- The warnings `names.c` sends to `name_warning`. -/
inductive Diag where
  /-- The message `"%s %d is empty"` of `bt_split_list`, with the 1-based item number. -/
  | item_empty (n : Nat)
  /-- The message `"too many commas in name (removing extras)"` of `find_commas`. -/
  | too_many_commas
  /-- The message `"comma(s) at end of name (removing)"` of `find_commas`. -/
  | comma_at_end
  /-- The message `"no capitalized token at end of name; using \"%s\" as lastname"`. -/
  | no_capitalized_at_end (lastname : Option (List Char))
  /-- The message `"no capitalized tokens before first comma"`. -/
  | no_capitalized_before_comma
  deriving DecidableEq, Repr

/-- The ways a call can fail to return. -/
inductive Fault where
  /-- Integer division by zero (`string_len / delim_len` with an empty delimiter). -/
  | division_by_zero
  /-- The call `internal_error ("stop == start for substring %d", i)`. -/
  | internal_stop_eq_start (i : Nat)
  /-- A read through a `NULL` pointer. -/
  | null_dereference
  /-- A read of a field that was never written. -/
  | uninitialized_read
  /-- A read or write outside an array. -/
  | out_of_bounds
  /-- The failure of `assert (num_commas <= max_commas)`. -/
  | assertion_failed
  /-- The call `internal_error ("found comment or preamble with non-string value")`. -/
  | internal_nonstring_value
  /-- The call `internal_error ("add_macro: macro value was not correctly preprocessed")`. -/
  | internal_macro_value
  deriving DecidableEq, Repr

instance {ε α : Type} [DecidableEq ε] [DecidableEq α] : DecidableEq (Except ε α)
  | .ok a, .ok b =>
    if h : a = b then isTrue (by rw [h]) else isFalse (fun e => h (Except.ok.inj e))
  | .error a, .error b =>
    if h : a = b then isTrue (by rw [h]) else isFalse (fun e => h (Except.error.inj e))
  | .ok _, .error _ => isFalse (fun e => Except.noConfusion e)
  | .error _, .ok _ => isFalse (fun e => Except.noConfusion e)

/-! ## bt_split_list -/

/-- The struct `bt_stringlist`: the scribbled-on copy of the string (with its
terminating NUL) and the items, each an offset into it or `NULL`.
`num_items` is `none` while the field is unset. -/
structure bt_stringlist where
  string : List Char
  num_items : Option Nat
  items : List (Option Nat)
  deriving DecidableEq, Repr

/-- The local variables of the scanning loop of `bt_split_list`.
`numdiv` is `stop.length`: the source writes `stop[numdiv]` and then
`start[++numdiv]`, so both arrays grow by one entry per division. -/
structure SplitLoop where
  i : Nat
  j : Nat
  depth : Int
  inword : Bool
  start : List Int
  stop : List Int
  deriving DecidableEq, Repr

/-- One pass through the body of `while (i < maxoffs)`. -/
def split_step (string delim : List Char) (st : SplitLoop) : SplitLoop :=
  if st.depth = 0 ∧ st.inword = false ∧ tolower (charAt string st.i) = charAt delim st.j then
    if st.j + 1 = delim.length ∧ charAt string (st.i + 1) = ' ' then
      { st with
        i := st.i + 2
        j := 0
        stop := st.stop ++ [((st.i + 1 : Nat) : Int) - (delim.length : Int) - 1]
        start := st.start ++ [((st.i + 2 : Nat) : Int)] }
    else
      { st with i := st.i + 1, j := st.j + 1 }
  else
    { st with
      depth := update_depth (charAt string st.i) st.depth
      inword := decide (st.i < string.length) && (charAt string st.i != ' ')
      i := st.i + 1
      j := 0 }

/-- The loop `while (i < maxoffs)`, run for at most `fuel` passes. -/
def split_loop (string delim : List Char) (maxoffs : Int) : Nat → SplitLoop → SplitLoop
  | 0, st => st
  | fuel + 1, st =>
    if (st.i : Int) < maxoffs then
      split_loop string delim maxoffs fuel (split_step string delim st)
    else st

/-- The value `maxoffs = string_len - delim_len + 1`. -/
def maxoffs (string delim : List Char) : Int :=
  (string.length : Int) - (delim.length : Int) + 1

/-- The state before the loop: `depth = 0`, `i = j = 0`, `inword = 1`,
`numdiv = 0`, `start[0] = 0`. -/
def split_init : SplitLoop :=
  { i := 0, j := 0, depth := 0, inword := true, start := [0], stop := [] }

/-- The scanning loop of `bt_split_list` from its initial state.  Every pass
advances `i`, so `string.length` passes are enough (`split_scan_done`). -/
def split_scan (string delim : List Char) : SplitLoop :=
  split_loop string delim (maxoffs string delim) string.length split_init

/-- The offsets at which the loop recognized a delimiter: `stop[k] + 1`. -/
def split_points (string delim : List Char) : List Int :=
  (split_scan string delim).stop.map (fun e => e + 1)

/-- The loop `for (i = 0; i < list->num_items; i++)` of `bt_split_list`, over
the pairs `(start[i], stop[i])` from index `i` on: it returns the buffer, the
items and the warnings. -/
def split_fill : List (Int × Int) → Nat → List Char →
    Except Fault (List Char × List (Option Nat) × List Diag)
  | [], _, buf => .ok (buf, [], [])
  | (start, stop) :: rest, i, buf =>
    if stop > start then
      match split_fill rest (i + 1) (buf.set stop.toNat NUL) with
      | .ok (buf', items, diags) => .ok (buf', some start.toNat :: items, diags)
      | .error e => .error e
    else if stop < start then
      match split_fill rest (i + 1) buf with
      | .ok (buf', items, diags) => .ok (buf', none :: items, Diag.item_empty (i + 1) :: diags)
      | .error e => .error e
    else .error (Fault.internal_stop_eq_start i)

/-- The function `bt_split_list (string, delim, filename, line, description)`.
`filename`, `line` and `description` only decorate the warning text. -/
def bt_split_list (string delim : List Char) : Except Fault (bt_stringlist × List Diag) :=
  if delim.length = 0 then .error Fault.division_by_zero
  else
    let st := split_scan string delim
    let stop := st.stop ++ [(string.length : Int)]
    match split_fill (st.start.zip stop) 0 (string ++ [NUL]) with
    | .ok (buf, items, diags) =>
      .ok ({ string := buf, num_items := some (st.stop.length + 1), items := items }, diags)
    | .error e => .error e

/-- The text of each item of a list as its caller reads it: the C string at
the item's pointer, `none` for a `NULL` item. -/
def bt_stringlist.texts (l : bt_stringlist) : List (Option (List Char)) :=
  l.items.map (fun it => it.map (cstr_at l.string))

/-- The items and warnings of `bt_split_list`, `none` when the call faults. -/
def split_list_texts (string delim : List Char) :
    Option (List (Option (List Char)) × List Diag) :=
  match bt_split_list string delim with
  | .ok (l, diags) => some (l.texts, diags)
  | .error _ => none

/-! ## bt_split_name -/

/-- The C library `isspace` in the C locale. -/
def isspace (c : Char) : Bool :=
  c = ' ' || c = '\t' || c = '\n' || c = '\r' || c = Char.ofNat 11 || c = Char.ofNat 12

/-- Modelled from the spec: whitespace collapsing, the part of
`postprocess_string` (post_parse.c, not among the sources) that `find_commas`
asks for: "collapse any run of whitespace to one space and trim
leading/trailing whitespace". -/
def collapse_whitespace (s : List Char) : List Char :=
  [' '].intercalate ((s.splitOnP isspace).filter (fun w => !w.isEmpty))

/-- Modelled from the spec: the call `postprocess_string (name, 1, 0, 0)` on a
buffer (post_parse.c is not among the sources).  The C string at the start of
the buffer is replaced by its collapsed form and a NUL; the bytes after that
keep their old values. -/
def postprocess_string (buf : List Char) : List Char :=
  let t := collapse_whitespace (cstr_at buf 0)
  t ++ [NUL] ++ buf.drop (t.length + 1)

/-- The state of the first loop of `find_commas`. -/
structure CommaScan where
  name : List Char
  num_commas : Nat
  warned : Bool
  diags : List Diag
  deriving DecidableEq, Repr

/-- One pass of `for (i = 0; i < len; i++)`, the first loop of `find_commas`.
The loop never calls `update_depth`, so `depth` is the constant it was
initialized to. -/
def comma_scan_step (max_commas : Nat) (st : CommaScan) (i : Nat) : CommaScan :=
  let depth : Int := 0
  if depth = 0 ∧ charAt st.name i = ',' then
    if st.num_commas + 1 > max_commas then
      { name := st.name.set i ' '
        num_commas := st.num_commas + 1
        warned := true
        diags := if st.warned then st.diags else st.diags ++ [Diag.too_many_commas] }
    else { st with num_commas := st.num_commas + 1 }
  else st

/-- The first loop of `find_commas`: count commas, blank out the excess ones. -/
def comma_scan (max_commas len : Nat) (name : List Char) : CommaScan :=
  (List.range len).foldl (comma_scan_step max_commas)
    { name := name, num_commas := 0, warned := false, diags := [] }

/-- The loop `while (j > 0 && name[j-1] == ' ') j--;`. -/
def back_over_spaces (name : List Char) : Nat → Nat
  | 0 => 0
  | j + 1 => if charAt name j = ' ' then back_over_spaces name j else j + 1

/-- The loop `while (i < len && name[i] == ' ') i++;`, for at most `fuel` passes. -/
def skip_spaces (name : List Char) (len : Nat) : Nat → Nat → Nat
  | 0, i => i
  | fuel + 1, i =>
    if i < len ∧ charAt name i = ' ' then skip_spaces name len fuel (i + 1) else i

/-- The local variables of the second loop of `find_commas`. -/
structure CommaLoop where
  i : Nat
  j : Nat
  depth : Int
  num_commas : Int
  commas : List Nat
  name : List Char
  deriving DecidableEq, Repr

/-- One pass through the body of `while (i < len)` in `find_commas`. -/
def comma_step (len : Nat) (st : CommaLoop) : CommaLoop :=
  let at_comma : Bool := decide (st.depth = 0) && (charAt st.name st.i == ',')
  let j := if at_comma then back_over_spaces st.name st.j else st.j
  let commas := if at_comma then st.commas ++ [j] else st.commas
  let num_commas := if at_comma then st.num_commas + 1 else st.num_commas
  let depth := update_depth (charAt st.name st.i) st.depth
  let name := if st.i ≠ j then st.name.set j (charAt st.name st.i) else st.name
  let i := st.i + 1
  { i := if at_comma then skip_spaces name len (len - i) i else i
    j := j + 1
    depth := depth
    num_commas := num_commas
    commas := commas
    name := name }

/-- The loop `while (i < len)` of `find_commas`, for at most `fuel` passes. -/
def comma_loop (len : Nat) : Nat → CommaLoop → CommaLoop
  | 0, st => st
  | fuel + 1, st => if st.i < len then comma_loop len fuel (comma_step len st) else st

/-- The loop `while (name[j] == ',') { name[j--] = 0; num_commas--; }`; the
first argument is `j + 1`, so `0` stands for the read of `name[-1]`. -/
def strip_commas : Nat → List Char → Int → Except Fault (List Char × Int)
  | 0, _, _ => .error Fault.out_of_bounds
  | j + 1, name, num_commas =>
    if charAt name j = ',' then strip_commas j (name.set j NUL) (num_commas - 1)
    else .ok (name, num_commas)

/-- The result of `find_commas`: the edited buffer, the return value, the
`commas` array and the warnings. -/
structure CommaResult where
  name : List Char
  num_commas : Int
  commas : List Nat
  diags : List Diag
  deriving DecidableEq, Repr

/-- The function `find_commas (name, max_commas, commas)` on the buffer `name`. -/
def find_commas (name : List Char) (max_commas : Nat) : Except Fault CommaResult :=
  let len := strlen name
  let scan := comma_scan max_commas len name
  let name1 := if scan.warned then postprocess_string scan.name else scan.name
  if scan.num_commas = 0 then
    .ok { name := name1, num_commas := 0, commas := [], diags := scan.diags }
  else
    let st := comma_loop len len
      { i := 0, j := 0, depth := 0, num_commas := 0, commas := [], name := name1 }
    let name2 := if st.i ≠ st.j then st.name.set st.j NUL else st.name
    match st.j with
    | 0 => .error Fault.out_of_bounds
    | j + 1 =>
      if charAt name2 j = ',' then
        match strip_commas (j + 1) name2 st.num_commas with
        | .ok (name3, n) =>
          .ok { name := name3, num_commas := n, commas := st.commas,
                diags := scan.diags ++ [Diag.comma_at_end] }
        | .error e => .error e
      else
        .ok { name := name2, num_commas := st.num_commas, commas := st.commas,
              diags := scan.diags }

/-- The local variables of the loop of `find_tokens`; `items` is
`tokens->items[0 .. num_tok-1]` and `comma_token` the entries written so far. -/
structure TokenLoop where
  i : Nat
  in_boundary : Bool
  depth : Int
  items : List (Option Nat)
  comma_token : List Int
  name : List Char
  deriving DecidableEq, Repr

/-- One pass through the body of `while (i < len)` in `find_tokens`; `cap` is
the number of entries the caller allocated for `comma_token` (none: `NULL`). -/
def token_step (cap : Int) (st : TokenLoop) : Except Fault TokenLoop :=
  let items :=
    if st.depth = 0 ∧ st.in_boundary = true then st.items ++ [some st.i] else st.items
  if st.depth = 0 ∧ (charAt st.name st.i = ' ' ∨ charAt st.name st.i = ',') then
    let name := st.name.set st.i NUL
    let next (comma_token : List Int) : TokenLoop :=
      { i := st.i + 1
        in_boundary := true
        depth := update_depth (charAt name st.i) st.depth
        items := if st.in_boundary then items.set (items.length - 1) none else items
        comma_token := comma_token
        name := name }
    if charAt st.name st.i = ',' then
      if cap ≤ 0 then .error Fault.null_dereference
      else if cap ≤ (st.comma_token.length : Int) then .error Fault.out_of_bounds
      else .ok (next (st.comma_token ++ [(items.length : Int) - 1]))
    else .ok (next st.comma_token)
  else
    .ok { st with
          i := st.i + 1
          in_boundary := false
          depth := update_depth (charAt st.name st.i) st.depth
          items := items }

/-- The loop `while (i < len)` of `find_tokens`, for at most `fuel` passes. -/
def token_loop (len : Nat) (cap : Int) : Nat → TokenLoop → Except Fault TokenLoop
  | 0, st => .ok st
  | fuel + 1, st =>
    if st.i < len then
      match token_step cap st with
      | .ok st' => token_loop len cap fuel st'
      | .error e => .error e
    else .ok st

/-- The function `find_tokens (name, comma_token)`: the token list (whose
`string` is the edited buffer) and the `comma_token` array.  For an empty name
the source returns before it sets `num_items`. -/
def find_tokens (name : List Char) (cap : Int) : Except Fault (bt_stringlist × List Int) :=
  let len := strlen name
  if len = 0 then .ok ({ string := name, num_items := none, items := [] }, [])
  else
    match token_loop len cap len
      { i := 0, in_boundary := true, depth := 0, items := [], comma_token := [], name := name } with
    | .ok st =>
      .ok ({ string := st.name, num_items := some st.items.length, items := st.items },
           st.comma_token)
    | .error e => .error e

/-- The byte `tokens->items[i][0]`. -/
def token_first_char (tokens : bt_stringlist) (i : Nat) : Except Fault Char :=
  match tokens.items.get? i with
  | some (some off) => .ok (charAt tokens.string off)
  | some none => .error Fault.null_dereference
  | none => .error Fault.out_of_bounds

/-- The loop `while (i < tokens->num_items && islower (tokens->items[i][0])) i++;`
of `find_lc_tokens`, for at most `fuel` passes; it returns the final `i`. -/
def lc_run (tokens : bt_stringlist) (num_items : Nat) : Nat → Nat → Except Fault Nat
  | 0, i => .ok i
  | fuel + 1, i =>
    if i < num_items then
      match token_first_char tokens i with
      | .ok c => if islower c then lc_run tokens num_items fuel (i + 1) else .ok i
      | .error e => .error e
    else .ok i

/-- The outer loop `while (i < tokens->num_items)` of `find_lc_tokens`, for at
most `fuel` passes; it returns `(*first_lc, *last_lc)`. -/
def lc_loop (tokens : bt_stringlist) (num_items : Nat) :
    Nat → Nat → Int → Int → Except Fault (Int × Int)
  | 0, _, first_lc, last_lc => .ok (first_lc, last_lc)
  | fuel + 1, i, first_lc, last_lc =>
    if i < num_items then
      if first_lc = -1 then
        match token_first_char tokens i with
        | .ok c =>
          if islower c then
            match lc_run tokens num_items (num_items - (i + 1)) (i + 1) with
            | .ok i' => lc_loop tokens num_items fuel i' (i : Int) ((i' : Int) - 1)
            | .error e => .error e
          else lc_loop tokens num_items fuel (i + 1) first_lc last_lc
        | .error e => .error e
      else lc_loop tokens num_items fuel (i + 1) first_lc last_lc
    else .ok (first_lc, last_lc)

/-- The function `find_lc_tokens (tokens, &first_lc, &last_lc)`. -/
def find_lc_tokens (tokens : bt_stringlist) : Except Fault (Int × Int) :=
  match tokens.num_items with
  | none => .error Fault.uninitialized_read
  | some n => lc_loop tokens n n 0 (-1) (-1)

/-- The function `resolve_token_range`: the component (a pointer into
`tokens->items`, as the index it points at) and its number of tokens. -/
def resolve_token_range (tok_range : Int × Int) : Option Int × Int :=
  let num_tok := (tok_range.2 - tok_range.1) + 1
  if num_tok ≤ 0 then (none, 0) else (some tok_range.1, num_tok)

/-- The struct `bt_name`; `tokens` is `none` where the source leaves it unset. -/
structure bt_name where
  tokens : Option bt_stringlist
  first : Option Int
  von : Option Int
  last : Option Int
  jr : Option Int
  n_first : Int
  n_von : Int
  n_last : Int
  n_jr : Int
  deriving DecidableEq, Repr

/-- The text of token `k`: the C string at `tokens->items[k]`. -/
def token_text (tokens : bt_stringlist) (k : Int) : Option (List Char) :=
  match tokens.items.get? k.toNat with
  | some (some off) => some (cstr_at tokens.string off)
  | _ => none

/-- The function `split_simple_name (name, first_lc, last_lc)`. -/
def split_simple_name (tokens : bt_stringlist) (num_items : Int) (first_lc last_lc : Int) :
    bt_name × List Diag :=
  let «end» := num_items - 1
  let (first_t, von_t, last_t, diags) :=
    if first_lc > -1 then
      let (last_lc, diags) :=
        if last_lc = «end» then
          (last_lc - 1, [Diag.no_capitalized_at_end (token_text tokens «end»)])
        else (last_lc, [])
      (((0 : Int), first_lc - 1), (first_lc, last_lc), (last_lc + 1, «end»), diags)
    else
      (((0 : Int), «end» - 1), ((0 : Int), (-1 : Int)), («end», «end»), [])
  let first := resolve_token_range first_t
  let von := resolve_token_range von_t
  let last := resolve_token_range last_t
  ({ tokens := some tokens
     first := first.1, n_first := first.2
     von := von.1, n_von := von.2
     last := last.1, n_last := last.2
     jr := none, n_jr := 0 }, diags)

/-- The read `comma_token[k]` of an array allocated with `cap` entries
(`NULL` when `cap <= 0`) of which `comma_token` lists the ones written. -/
def read_comma_token (cap : Int) (comma_token : List Int) (k : Nat) : Except Fault Int :=
  if cap ≤ 0 then .error Fault.null_dereference
  else if cap ≤ (k : Int) then .error Fault.out_of_bounds
  else match comma_token.get? k with
    | some v => .ok v
    | none => .error Fault.uninitialized_read

/-- The function `split_general_name (name, num_commas, comma_token, first_lc, last_lc)`. -/
def split_general_name (tokens : bt_stringlist) (num_items : Int) (num_commas : Int)
    (comma_token : List Int) (first_lc last_lc : Int) : Except Fault (bt_name × List Diag) :=
  let «end» := num_items - 1
  let read := read_comma_token num_commas comma_token
  let head : Except Fault ((Int × Int) × List Diag) :=
    if first_lc = 0 then
      match read 0 with
      | .ok c0 =>
        if last_lc = c0 then .ok ((first_lc, last_lc - 1), [Diag.no_capitalized_before_comma])
        else .ok ((first_lc, last_lc), [])
      | .error e => .error e
    else .ok (((0 : Int), (-1 : Int)), [])
  match head with
  | .error e => .error e
  | .ok (von_t, diags) =>
    match read 0 with
    | .error e => .error e
    | .ok c0 =>
      let last_t : Int × Int := (von_t.2 + 1, c0)
      let rest : Except Fault ((Int × Int) × (Int × Int)) :=
        if num_commas = 1 then .ok ((c0 + 1, «end»), ((0 : Int), (-1 : Int)))
        else
          match read 1 with
          | .ok c1 => .ok ((c1 + 1, «end»), (c0 + 1, c1))
          | .error e => .error e
      match rest with
      | .error e => .error e
      | .ok (first_t, jr_t) =>
        let first := resolve_token_range first_t
        let von := resolve_token_range von_t
        let last := resolve_token_range last_t
        let jr := resolve_token_range jr_t
        .ok ({ tokens := some tokens
               first := first.1, n_first := first.2
               von := von.1, n_von := von.2
               last := last.1, n_last := last.2
               jr := jr.1, n_jr := jr.2 }, diags)

/-- The name the macro `EMPTY` leaves: every component `NULL` with count 0. -/
def empty_name : bt_name :=
  { tokens := none, first := none, von := none, last := none, jr := none,
    n_first := 0, n_von := 0, n_last := 0, n_jr := 0 }

/-- The function `bt_split_name (name, filename, line, name_num)`; `none` is a
`NULL` name.  `filename`, `line` and `name_num` only decorate the warning text. -/
def bt_split_name (name : Option (List Char)) : Except Fault (bt_name × List Diag) :=
  match name with
  | none => .ok (empty_name, [])
  | some s =>
    let len := strlen (s ++ [NUL])
    let max_commas := len
    match find_commas (s ++ [NUL]) 2 with
    | .error e => .error e
    | .ok cr =>
      if cr.num_commas > (max_commas : Int) then .error Fault.assertion_failed
      else
        match find_tokens cr.name cr.num_commas with
        | .error e => .error e
        | .ok (tokens, comma_token) =>
          match find_lc_tokens tokens with
          | .error e => .error e
          | .ok (first_lc, last_lc) =>
            if strlen tokens.string = 0 then .ok (empty_name, cr.diags)
            else
              match tokens.num_items with
              | none => .error Fault.uninitialized_read
              | some n =>
                if cr.num_commas = 0 then
                  let r := split_simple_name tokens n first_lc last_lc
                  .ok (r.1, cr.diags ++ r.2)
                else
                  match split_general_name tokens n cr.num_commas comma_token
                      first_lc last_lc with
                  | .ok r => .ok (r.1, cr.diags ++ r.2)
                  | .error e => .error e

/-- The tokens of one component as its caller reads them: `n` C strings from
the pointer `comp` on. -/
def component_texts (nm : bt_name) (comp : Option Int) (n : Int) :
    List (Option (List Char)) :=
  match nm.tokens, comp with
  | some tokens, some c =>
    (List.range n.toNat).map (fun k : Nat => token_text tokens (c + (k : Int)))
  | _, _ => []

/-- The four components of a split name, as token texts. -/
structure NameParts where
  first : List (Option (List Char))
  von : List (Option (List Char))
  last : List (Option (List Char))
  jr : List (Option (List Char))
  deriving DecidableEq, Repr

/-- The components of a `bt_name`, read through its pointers and counts. -/
def bt_name.parts (nm : bt_name) : NameParts :=
  { first := component_texts nm nm.first nm.n_first
    von := component_texts nm nm.von nm.n_von
    last := component_texts nm nm.last nm.n_last
    jr := component_texts nm nm.jr nm.n_jr }

/-- The components and warnings `bt_split_name` gives for a name, `none` when
the call faults. -/
def split_name_parts (name : List Char) : Option (NameParts × List Diag) :=
  match bt_split_name (some name) with
  | .ok (nm, diags) => some (nm.parts, diags)
  | .error _ => none

/-! ## traversal.c -/

/-- The enum `bt_metatype_t` of btparse.h. -/
inductive bt_metatype_t where
  | BTE_UNKNOWN
  | BTE_REGULAR
  | BTE_COMMENT
  | BTE_PREAMBLE
  | BTE_MACRODEF
  deriving DecidableEq, Repr

/-- The enum `bt_nodetype_t` of btparse.h. -/
inductive bt_nodetype_t where
  | BTAST_BOGUS
  | BTAST_ENTRY
  | BTAST_KEY
  | BTAST_FIELD
  | BTAST_STRING
  | BTAST_NUMBER
  | BTAST_MACRO
  deriving DecidableEq, Repr

/-- A pointer `AST *`: `NULL`, or a node of the struct `AST` of btparse.h with
its fields in the order of the struct (`right`, `down`, `line`, `offset`,
`nodetype`, `metatype`, `text`).  The nodes reachable from a pointer form a
finite tree. -/
inductive AST where
  | null : AST
  | node (right down : AST) (line offset : Int) (nodetype : bt_nodetype_t)
      (metatype : bt_metatype_t) (text : Option (List Char)) : AST
  deriving DecidableEq, Repr

/-- The test `p == NULL`. -/
def AST.isNull : AST → Bool
  | .null => true
  | .node .. => false

/-- The read `p->right`. -/
def AST.right : AST → Except Fault AST
  | .null => .error Fault.null_dereference
  | .node right _ _ _ _ _ _ => .ok right

/-- The read `p->down`. -/
def AST.down : AST → Except Fault AST
  | .null => .error Fault.null_dereference
  | .node _ down _ _ _ _ _ => .ok down

/-- The read `p->nodetype`. -/
def AST.nodetype : AST → Except Fault bt_nodetype_t
  | .null => .error Fault.null_dereference
  | .node _ _ _ _ nodetype _ _ => .ok nodetype

/-- The read `p->metatype`. -/
def AST.metatype : AST → Except Fault bt_metatype_t
  | .null => .error Fault.null_dereference
  | .node _ _ _ _ _ metatype _ => .ok metatype

/-- The read `p->text`. -/
def AST.text : AST → Except Fault (Option (List Char))
  | .null => .error Fault.null_dereference
  | .node _ _ _ _ _ _ text => .ok text

/-- The function `bt_next_entry (entry_list, prev_entry)`. -/
def bt_next_entry (entry_list prev_entry : AST) : AST :=
  match entry_list with
  | .null => .null
  | .node _ _ _ _ nodetype _ _ =>
    if nodetype ≠ .BTAST_ENTRY then .null
    else
      match prev_entry with
      | .node right _ _ _ prev_nodetype _ _ =>
        if prev_nodetype ≠ .BTAST_ENTRY then .null else right
      | .null => entry_list

/-- The function `bt_entry_metatype (entry)`. -/
def bt_entry_metatype (entry : AST) : bt_metatype_t :=
  match entry with
  | .null => .BTE_UNKNOWN
  | .node _ _ _ _ nodetype metatype _ =>
    if nodetype ≠ .BTAST_ENTRY then .BTE_UNKNOWN else metatype

/-- The function `bt_entry_type (entry)`. -/
def bt_entry_type (entry : AST) : Option (List Char) :=
  match entry with
  | .null => none
  | .node _ _ _ _ nodetype _ text =>
    if nodetype ≠ .BTAST_ENTRY then none else text

/-- The function `bt_entry_key (entry)`; it reads `entry->metatype` without
testing `entry`. -/
def bt_entry_key (entry : AST) : Except Fault (Option (List Char)) :=
  match entry with
  | .null => .error Fault.null_dereference
  | .node _ down _ _ _ metatype _ =>
    match down with
    | .node _ _ _ _ down_nodetype _ down_text =>
      if metatype = .BTE_REGULAR ∧ down_nodetype = .BTAST_KEY then .ok down_text
      else .ok none
    | .null => .ok none

/-- The function `bt_next_field (entry, prev, name)`: the returned pointer and
the value left in `*name`.  `name_given` says that `name` is not `NULL`: the
first statement, `*name = NULL`, writes through it untested. -/
def bt_next_field (entry prev : AST) (name_given : Bool) :
    Except Fault (AST × Option (List Char)) :=
  if name_given = false then .error Fault.null_dereference
  else
    match entry with
    | .null => .ok (.null, none)
    | .node _ down _ _ _ metatype _ =>
      match down with
      | .null => .ok (.null, none)
      | .node down_right _ _ _ down_nodetype _ _ =>
        if metatype ≠ .BTE_MACRODEF ∧ metatype ≠ .BTE_REGULAR then .ok (.null, none)
        else
          let field : Except Fault AST :=
            match prev with
            | .null =>
              if metatype = .BTE_REGULAR ∧ down_nodetype = .BTAST_KEY then .ok down_right
              else .ok down
            | .node prev_right _ _ _ _ _ _ => .ok prev_right
          match field with
          | .error e => .error e
          | .ok .null => .ok (.null, none)
          | .ok (.node r d l o nt mt text) => .ok (.node r d l o nt mt text, text)

/-- The function `bt_next_macro (entry, prev, name)`. -/
def bt_next_macro (entry prev : AST) (name_given : Bool) :
    Except Fault (AST × Option (List Char)) :=
  bt_next_field entry prev name_given

/-- The function `bt_next_value (top, prev, nodetype, text)`: the returned
pointer and the values left in `*nodetype` and `*text` (which the source
writes only when those pointers are given). -/
def bt_next_value (top prev : AST) :
    Except Fault (AST × bt_nodetype_t × Option (List Char)) :=
  match top with
  | .null => .ok (.null, .BTAST_BOGUS, none)
  | .node _ down _ _ nt mt _ =>
    if nt = .BTAST_FIELD ∨ (nt = .BTAST_ENTRY ∧ (mt = .BTE_COMMENT ∨ mt = .BTE_PREAMBLE)) then
      let value : AST :=
        match prev with
        | .null => down
        | .node prev_right _ _ _ _ _ _ => prev_right
      match value with
      | .null => .ok (.null, .BTAST_BOGUS, none)
      | .node r d l o value_nodetype m text =>
        if nt = .BTAST_ENTRY ∧ value_nodetype ≠ .BTAST_STRING then
          .error Fault.internal_nonstring_value
        else .ok (.node r d l o value_nodetype m text, value_nodetype, text)
    else .ok (.null, .BTAST_BOGUS, none)

/-- The loop of `dump_names`,
`field = NULL; while ((field = bt_next_field (entry, field, &fname)))`, for at
most `fuel` calls: the fields it visits with the names reported for them;
`none` when the fuel runs out before a call returns `NULL`. -/
def field_loop (entry : AST) : Nat → AST →
    Except Fault (Option (List (AST × Option (List Char))))
  | 0, _ => .ok none
  | fuel + 1, prev =>
    match bt_next_field entry prev true with
    | .error e => .error e
    | .ok (.null, _) => .ok (some [])
    | .ok (.node r d l o nt mt text, name) =>
      match field_loop entry fuel (.node r d l o nt mt text) with
      | .error e => .error e
      | .ok none => .ok none
      | .ok (some rest) => .ok (some ((.node r d l o nt mt text, name) :: rest))

/-! ## btparse.h: the post-processing options -/

/-- The flag `BTO_DELQUOTES`. -/
def BTO_DELQUOTES : Nat := 1

/-- The flag `BTO_EXPAND`. -/
def BTO_EXPAND : Nat := 2

/-- The flag `BTO_PASTE`. -/
def BTO_PASTE : Nat := 4

/-- The flag `BTO_COLLAPSE`. -/
def BTO_COLLAPSE : Nat := 8

/-- The flag `BTO_NOSTORE`. -/
def BTO_NOSTORE : Nat := 16

/-- The preset `BTO_FULL`. -/
def BTO_FULL : Nat := BTO_DELQUOTES ||| BTO_EXPAND ||| BTO_PASTE ||| BTO_COLLAPSE

/-- The preset `BTO_MACRO`. -/
def BTO_MACRO : Nat := BTO_DELQUOTES ||| BTO_EXPAND ||| BTO_PASTE

/-- The preset `BTO_MINIMAL`. -/
def BTO_MINIMAL : Nat := BTO_DELQUOTES

/-- The mask `BTO_STRINGMASK`. -/
def BTO_STRINGMASK : Nat := BTO_DELQUOTES ||| BTO_EXPAND ||| BTO_PASTE ||| BTO_COLLAPSE

/-- The function `bt_get_text (node)`; it reads `node->nodetype` without
testing `node`.  `postprocess_field` and `postprocess_value` (post_parse.c)
are not among the sources: they are parameters, each taking the node, the
options and the `replace` flag and giving the `char *` it returns.
`pp_options` is a `ushort`. -/
def bt_get_text (postprocess_field postprocess_value : AST → Nat → Bool → Option (List Char))
    (node : AST) : Except Fault (Option (List Char)) :=
  let pp_options : Nat := (BTO_DELQUOTES ||| BTO_EXPAND ||| BTO_PASTE ||| BTO_COLLAPSE) % 2 ^ 16
  match node with
  | .null => .error Fault.null_dereference
  | .node _ down _ _ nt mt _ =>
    if nt = .BTAST_FIELD then .ok (postprocess_field node pp_options false)
    else if nt = .BTAST_ENTRY ∧ (mt = .BTE_COMMENT ∨ mt = .BTE_PREAMBLE) then
      .ok (postprocess_value down pp_options false)
    else .ok none

/-! ## macros.c -/

/-- A record `Sym` of the symbol table, as far as macros.c uses it: the fields
`symbol` and `text`. -/
structure Sym where
  symbol : List Char
  text : Option (List Char)
  deriving DecidableEq, Repr

/-- Modelled from the spec: the lookup `zzs_get (key)` of the symbol table
(sym.c is not among the sources).  The macro table is a "mapping from macro
name (string, case treated as written — lookups are exact-match in this
design) to owned text" and "last-definition-wins": the table is the list of
its records, the newest first, and the lookup gives the newest record with
that very symbol, `NULL` when there is none. -/
def zzs_get (table : List Sym) (key : List Char) : Option Sym :=
  table.find? (fun sym => sym.symbol = key)

/-- Modelled from the spec: the call `zzs_newadd (text)` of the symbol table
(sym.c is not among the sources): "insert (name, owned text)".  A new record
for the symbol, its `text` still `NULL`, is put into the table, where it
takes the place of an older record of that symbol in every lookup; it is the
head of the list. -/
def zzs_newadd (table : List Sym) (key : List Char) : List Sym :=
  { symbol := key, text := none } :: table

/-- The warnings macros.c sends to `content_warning`. -/
inductive ContentWarning where
  /-- The message `"overriding existing definition of macro \"%s\""`. -/
  | overriding_definition (name : List Char)
  /-- The message `"undefined macro \"%s\""`. -/
  | undefined_name (name : List Char)
  deriving DecidableEq, Repr

/-- The state macros.c works on: the macro table and the warnings given so
far, in order. -/
structure MacroState where
  table : List Sym
  warnings : List ContentWarning
  deriving DecidableEq, Repr

/-- The function `add_macro (assignment, options)`.  `postprocess_field`
(post_parse.c) is not among the sources: it is a parameter giving the
`char *` it returns.  In the sanity check the C operator `||` reads
`value->text[len-1]` only when the tests before it are false; with `len == 0`
that is a read of `value->text[-1]`. -/
def add_macro (postprocess_field : AST → Nat → Bool → Option (List Char))
    (assignment : AST) (options : Nat) (st : MacroState) : Except Fault MacroState :=
  match assignment with
  | .null => .ok st
  | .node _ value _ _ _ _ assignment_text =>
    match value with
    | .null => .ok st
    | .node value_right _ _ _ value_nodetype _ value_text =>
      let text : Except Fault (Option (List Char)) :=
        if options &&& BTO_STRINGMASK ≠ BTO_MACRO then
          .ok (postprocess_field assignment BTO_MACRO false)
        else
          match value_text with
          | none => .error Fault.null_dereference
          | some vt =>
            let len := vt.length
            if value_nodetype ≠ .BTAST_STRING ∨ value_right ≠ .null ∨
                charAt vt 0 = '"' ∨ charAt vt 0 = '{' then
              .error Fault.internal_macro_value
            else if len = 0 then .error Fault.out_of_bounds
            else if charAt vt (len - 1) = '"' ∨ charAt vt (len - 1) = '}' then
              .error Fault.internal_macro_value
            else .ok (some vt)
      match text with
      | .error e => .error e
      | .ok text =>
        match assignment_text with
        | none => .error Fault.null_dereference
        | some macro_name =>
          let warnings :=
            if (zzs_get st.table macro_name).isSome then
              st.warnings ++ [ContentWarning.overriding_definition macro_name]
            else st.warnings
          let table := (zzs_newadd st.table macro_name).modifyHead
            (fun new_rec => { new_rec with text := text })
          .ok { table := table, warnings := warnings }

/-- The function `macro_length (macro)`; `macro_name` is its argument. -/
def macro_length (macro_name : Option (List Char)) (st : MacroState) : Except Fault Nat :=
  match macro_name with
  | none => .error Fault.null_dereference
  | some m =>
    match zzs_get st.table m with
    | some sym =>
      match sym.text with
      | some t => .ok t.length
      | none => .error Fault.null_dereference
    | none => .ok 0

/-- The function `macro_text (macro_use)`: the `char *` it returns and the
state with the warning it may have given. -/
def macro_text (macro_use : AST) (st : MacroState) :
    Except Fault (Option (List Char) × MacroState) :=
  match macro_use with
  | .null => .error Fault.null_dereference
  | .node _ _ _ _ _ _ text =>
    match text with
    | none => .error Fault.null_dereference
    | some macro_name =>
      match zzs_get st.table macro_name with
      | none =>
        .ok (none,
          { st with warnings := st.warnings ++ [ContentWarning.undefined_name macro_name] })
      | some sym => .ok (sym.text, st)

/-! ## scan.c: the tables of the lexer -/

/-- The value `DfaStates`: the number of states of the automaton, which also
stands for the dead state in the transition tables. -/
def DfaStates : Nat := 39

/-- The table `shift0[257]`: the character class of end-of-input (entry 0)
and of each byte `c` (entry `1 + c`) in lexer mode 0. -/
def shift0 : List Nat :=
  [0, 5, 5, 5, 5, 5, 5, 5, 5, 5, 4, 2, 5, 5, 4, 5, 5, 5, 5, 5,
   5, 5, 5, 5, 5, 5, 5, 5, 5, 5, 5, 5, 5, 4, 5, 5, 5, 5, 3, 5,
   5, 5, 5, 5, 5, 5, 5, 5, 5, 5, 5, 5, 5, 5, 5, 5, 5, 5, 5, 5,
   5, 5, 5, 5, 5, 1, 5, 5, 5, 5, 5, 5, 5, 5, 5, 5, 5, 5, 5, 5,
   5, 5, 5, 5, 5, 5, 5, 5, 5, 5, 5, 5, 5, 5, 5, 5, 5, 5, 5, 5,
   5, 5, 5, 5, 5, 5, 5, 5, 5, 5, 5, 5, 5, 5, 5, 5, 5, 5, 5, 5,
   5, 5, 5, 5, 5, 5, 5, 5, 5, 5, 5, 5, 5, 5, 5, 5, 5, 5, 5, 5,
   5, 5, 5, 5, 5, 5, 5, 5, 5, 5, 5, 5, 5, 5, 5, 5, 5, 5, 5, 5,
   5, 5, 5, 5, 5, 5, 5, 5, 5, 5, 5, 5, 5, 5, 5, 5, 5, 5, 5, 5,
   5, 5, 5, 5, 5, 5, 5, 5, 5, 5, 5, 5, 5, 5, 5, 5, 5, 5, 5, 5,
   5, 5, 5, 5, 5, 5, 5, 5, 5, 5, 5, 5, 5, 5, 5, 5, 5, 5, 5, 5,
   5, 5, 5, 5, 5, 5, 5, 5, 5, 5, 5, 5, 5, 5, 5, 5, 5, 5, 5, 5,
   5, 5, 5, 5, 5, 5, 5, 5, 5, 5, 5, 5, 5, 5, 5, 5, 5]

/-- The table `shift1[257]`: the character class of end-of-input (entry 0)
and of each byte `c` (entry `1 + c`) in lexer mode 1. -/
def shift1 : List Nat :=
  [0, 15, 15, 15, 15, 15, 15, 15, 15, 15, 3, 1, 15, 15, 3, 15, 15, 15, 15, 15,
   15, 15, 15, 15, 15, 15, 15, 15, 15, 15, 15, 15, 15, 3, 15, 14, 12, 15, 2, 15,
   6, 9, 10, 15, 6, 13, 6, 6, 6, 5, 5, 5, 5, 5, 5, 5, 5, 5, 5, 6,
   15, 15, 11, 15, 15, 15, 4, 4, 4, 4, 4, 4, 4, 4, 4, 4, 4, 4, 4, 4,
   4, 4, 4, 4, 4, 4, 4, 4, 4, 4, 4, 4, 15, 15, 15, 15, 6, 15, 4, 4,
   4, 4, 4, 4, 4, 4, 4, 4, 4, 4, 4, 4, 4, 4, 4, 4, 4, 4, 4, 4,
   4, 4, 4, 4, 7, 15, 8, 15, 15, 15, 15, 15, 15, 15, 15, 15, 15, 15, 15, 15,
   15, 15, 15, 15, 15, 15, 15, 15, 15, 15, 15, 15, 15, 15, 15, 15, 15, 15, 15, 15,
   15, 15, 15, 15, 15, 15, 15, 15, 15, 15, 15, 15, 15, 15, 15, 15, 15, 15, 15, 15,
   15, 15, 15, 15, 15, 15, 15, 15, 15, 15, 15, 15, 15, 15, 15, 15, 15, 15, 15, 15,
   15, 15, 15, 15, 15, 15, 15, 15, 15, 15, 15, 15, 15, 15, 15, 15, 15, 15, 15, 15,
   15, 15, 15, 15, 15, 15, 15, 15, 15, 15, 15, 15, 15, 15, 15, 15, 15, 15, 15, 15,
   15, 15, 15, 15, 15, 15, 15, 15, 15, 15, 15, 15, 15, 15, 15, 15, 15]

/-- The table `shift2[257]`: the character class of end-of-input (entry 0)
and of each byte `c` (entry `1 + c`) in lexer mode 2. -/
def shift2 : List Nat :=
  [0, 3, 3, 3, 3, 3, 3, 3, 3, 3, 2, 1, 3, 3, 2, 3, 3, 3, 3, 3,
   3, 3, 3, 3, 3, 3, 3, 3, 3, 3, 3, 3, 3, 3, 3, 8, 3, 3, 3, 3,
   3, 6, 7, 3, 3, 3, 3, 3, 3, 3, 3, 3, 3, 3, 3, 3, 3, 3, 3, 3,
   3, 3, 3, 3, 3, 3, 3, 3, 3, 3, 3, 3, 3, 3, 3, 3, 3, 3, 3, 3,
   3, 3, 3, 3, 3, 3, 3, 3, 3, 3, 3, 3, 3, 9, 3, 3, 3, 3, 3, 3,
   3, 3, 3, 3, 3, 3, 3, 3, 3, 3, 3, 3, 3, 3, 3, 3, 3, 3, 3, 3,
   3, 3, 3, 3, 4, 3, 5, 3, 3, 3, 3, 3, 3, 3, 3, 3, 3, 3, 3, 3,
   3, 3, 3, 3, 3, 3, 3, 3, 3, 3, 3, 3, 3, 3, 3, 3, 3, 3, 3, 3,
   3, 3, 3, 3, 3, 3, 3, 3, 3, 3, 3, 3, 3, 3, 3, 3, 3, 3, 3, 3,
   3, 3, 3, 3, 3, 3, 3, 3, 3, 3, 3, 3, 3, 3, 3, 3, 3, 3, 3, 3,
   3, 3, 3, 3, 3, 3, 3, 3, 3, 3, 3, 3, 3, 3, 3, 3, 3, 3, 3, 3,
   3, 3, 3, 3, 3, 3, 3, 3, 3, 3, 3, 3, 3, 3, 3, 3, 3, 3, 3, 3,
   3, 3, 3, 3, 3, 3, 3, 3, 3, 3, 3, 3, 3, 3, 3, 3, 3]

/-- The transition row `st0[7]`. -/
def st0 : List Nat := [1, 2, 3, 4, 5, 6, 39]

/-- The transition row `st1[7]`. -/
def st1 : List Nat := [39, 39, 39, 39, 39, 39, 39]

/-- The transition row `st2[7]`. -/
def st2 : List Nat := [39, 39, 39, 39, 39, 39, 39]

/-- The transition row `st3[7]`. -/
def st3 : List Nat := [39, 39, 39, 39, 39, 39, 39]

/-- The transition row `st4[7]`. -/
def st4 : List Nat := [39, 7, 8, 9, 7, 9, 39]

/-- The transition row `st5[7]`. -/
def st5 : List Nat := [39, 39, 39, 39, 5, 39, 39]

/-- The transition row `st6[7]`. -/
def st6 : List Nat := [39, 39, 39, 6, 39, 6, 39]

/-- The transition row `st7[7]`. -/
def st7 : List Nat := [39, 7, 8, 7, 7, 7, 39]

/-- The transition row `st8[7]`. -/
def st8 : List Nat := [39, 39, 39, 39, 39, 39, 39]

/-- The transition row `st9[7]`. -/
def st9 : List Nat := [39, 7, 8, 9, 7, 9, 39]

/-- The transition row `st10[17]`. -/
def st10 : List Nat := [11, 12, 13, 14, 15, 16, 39, 17, 18, 19, 20, 21, 22, 23, 24, 39, 39]

/-- The transition row `st11[17]`. -/
def st11 : List Nat := [39, 39, 39, 39, 39, 39, 39, 39, 39, 39, 39, 39, 39, 39, 39, 39, 39]

/-- The transition row `st12[17]`. -/
def st12 : List Nat := [39, 39, 39, 39, 39, 39, 39, 39, 39, 39, 39, 39, 39, 39, 39, 39, 39]

/-- The transition row `st13[17]`. -/
def st13 : List Nat := [39, 25, 26, 26, 26, 26, 26, 26, 26, 26, 26, 26, 26, 26, 26, 26, 39]

/-- The transition row `st14[17]`. -/
def st14 : List Nat := [39, 39, 39, 14, 39, 39, 39, 39, 39, 39, 39, 39, 39, 39, 39, 39, 39]

/-- The transition row `st15[17]`. -/
def st15 : List Nat := [39, 39, 39, 39, 27, 27, 27, 39, 39, 39, 39, 39, 39, 39, 39, 39, 39]

/-- The transition row `st16[17]`. -/
def st16 : List Nat := [39, 39, 39, 39, 39, 16, 39, 39, 39, 39, 39, 39, 39, 39, 39, 39, 39]

/-- The transition row `st17[17]`. -/
def st17 : List Nat := [39, 39, 39, 39, 39, 39, 39, 39, 39, 39, 39, 39, 39, 39, 39, 39, 39]

/-- The transition row `st18[17]`. -/
def st18 : List Nat := [39, 39, 39, 39, 39, 39, 39, 39, 39, 39, 39, 39, 39, 39, 39, 39, 39]

/-- The transition row `st19[17]`. -/
def st19 : List Nat := [39, 39, 39, 39, 39, 39, 39, 39, 39, 39, 39, 39, 39, 39, 39, 39, 39]

/-- The transition row `st20[17]`. -/
def st20 : List Nat := [39, 39, 39, 39, 39, 39, 39, 39, 39, 39, 39, 39, 39, 39, 39, 39, 39]

/-- The transition row `st21[17]`. -/
def st21 : List Nat := [39, 39, 39, 39, 39, 39, 39, 39, 39, 39, 39, 39, 39, 39, 39, 39, 39]

/-- The transition row `st22[17]`. -/
def st22 : List Nat := [39, 39, 39, 39, 39, 39, 39, 39, 39, 39, 39, 39, 39, 39, 39, 39, 39]

/-- The transition row `st23[17]`. -/
def st23 : List Nat := [39, 39, 39, 39, 39, 39, 39, 39, 39, 39, 39, 39, 39, 39, 39, 39, 39]

/-- The transition row `st24[17]`. -/
def st24 : List Nat := [39, 39, 39, 39, 39, 39, 39, 39, 39, 39, 39, 39, 39, 39, 39, 39, 39]

/-- The transition row `st25[17]`. -/
def st25 : List Nat := [39, 39, 39, 39, 39, 39, 39, 39, 39, 39, 39, 39, 39, 39, 39, 39, 39]

/-- The transition row `st26[17]`. -/
def st26 : List Nat := [39, 25, 26, 26, 26, 26, 26, 26, 26, 26, 26, 26, 26, 26, 26, 26, 39]

/-- The transition row `st27[17]`. -/
def st27 : List Nat := [39, 39, 39, 39, 27, 27, 27, 39, 39, 39, 39, 39, 39, 39, 39, 39, 39]

/-- The transition row `st28[11]`. -/
def st28 : List Nat := [29, 30, 31, 32, 33, 34, 35, 36, 37, 32, 39]

/-- The transition row `st29[11]`. -/
def st29 : List Nat := [39, 39, 39, 39, 39, 39, 39, 39, 39, 39, 39]

/-- The transition row `st30[11]`. -/
def st30 : List Nat := [39, 39, 38, 38, 39, 39, 39, 39, 39, 39, 39]

/-- The transition row `st31[11]`. -/
def st31 : List Nat := [39, 39, 32, 32, 39, 39, 39, 39, 39, 32, 39]

/-- The transition row `st32[11]`. -/
def st32 : List Nat := [39, 39, 32, 32, 39, 39, 39, 39, 39, 32, 39]

/-- The transition row `st33[11]`. -/
def st33 : List Nat := [39, 39, 39, 39, 39, 39, 39, 39, 39, 39, 39]

/-- The transition row `st34[11]`. -/
def st34 : List Nat := [39, 39, 39, 39, 39, 39, 39, 39, 39, 39, 39]

/-- The transition row `st35[11]`. -/
def st35 : List Nat := [39, 39, 39, 39, 39, 39, 39, 39, 39, 39, 39]

/-- The transition row `st36[11]`. -/
def st36 : List Nat := [39, 39, 39, 39, 39, 39, 39, 39, 39, 39, 39]

/-- The transition row `st37[11]`. -/
def st37 : List Nat := [39, 39, 39, 39, 39, 39, 39, 39, 39, 39, 39]

/-- The transition row `st38[11]`. -/
def st38 : List Nat := [39, 39, 38, 38, 39, 39, 39, 39, 39, 39, 39]

/-- The table `dfa[39]`: the transition row of each state. -/
def dfa : List (List Nat) :=
  [st0, st1, st2, st3, st4, st5, st6, st7, st8, st9,
   st10, st11, st12, st13, st14, st15, st16, st17, st18, st19,
   st20, st21, st22, st23, st24, st25, st26, st27, st28, st29,
   st30, st31, st32, st33, st34, st35, st36, st37, st38]

/-- The table `accepts[40]`: for each state, and for the dead state, the index
of its action in `actions`. -/
def accepts : List Nat :=
  [0, 1, 2, 3, 6, 5, 6, 0, 4, 6, 0, 7, 8, 0, 10, 11, 12, 13, 14, 15,
   16, 17, 18, 19, 20, 9, 0, 11, 0, 21, 22, 23, 29, 24, 25, 26, 27, 28, 22, 0]

/-- The value an action stores in `NLA`: a number, or one of the token codes
that tokens.h (not among the sources) defines. -/
inductive TokenCode where
  | code (n : Nat)
  | AT
  | COMMENT
  | NAME
  | NUMBER
  | LBRACE
  | RBRACE
  | ENTRY_OPEN
  | ENTRY_CLOSE
  | EQUALS
  | HASH
  | COMMA
  | STRING
  deriving DecidableEq, Repr

/-- The calls the actions make after they have set `NLA` (functions of
lex_auxiliary.c and of the scanner, none of them among the sources). -/
inductive LexCall where
  | at_sign
  | newline
  | comment
  | zzskip
  | toplevel_junk
  | name
  | lbrace
  | rbrace
  | lparen
  | rparen
  /-- The call `start_string ('"')`. -/
  | start_string
  | check_runaway_string
  /-- The calls `zzreplchar (' '); zzmore ();`. -/
  | zzreplchar_zzmore
  | open_brace
  | close_brace
  | lparen_in_string
  | rparen_in_string
  | quote_in_string
  | zzmore
  deriving DecidableEq, Repr

/-- An entry of `actions`: `zzerraction`, which reports "invalid token", or
one of `act1` .. `act29`, which sets `NLA` and may make a call. -/
inductive Action where
  | zzerraction
  | act (nla : TokenCode) (call : Option LexCall)
  deriving DecidableEq, Repr

/-- The table `actions[30]`: `zzerraction` followed by `act1` .. `act29`. -/
def actions : List Action :=
  [.zzerraction,
   .act (.code 1) none,
   .act .AT (some .at_sign),
   .act (.code 3) (some .newline),
   .act .COMMENT (some .comment),
   .act (.code 5) (some .zzskip),
   .act (.code 6) (some .toplevel_junk),
   .act (.code 1) none,
   .act (.code 7) (some .newline),
   .act .COMMENT (some .comment),
   .act (.code 8) (some .zzskip),
   .act .NAME (some .name),
   .act .NUMBER none,
   .act .LBRACE (some .lbrace),
   .act .RBRACE (some .rbrace),
   .act .ENTRY_OPEN (some .lparen),
   .act .ENTRY_CLOSE (some .rparen),
   .act .EQUALS none,
   .act .HASH none,
   .act .COMMA none,
   .act (.code 18) (some .start_string),
   .act (.code 1) none,
   .act (.code 19) (some .check_runaway_string),
   .act (.code 20) (some .zzreplchar_zzmore),
   .act (.code 21) (some .open_brace),
   .act (.code 22) (some .close_brace),
   .act (.code 23) (some .lparen_in_string),
   .act (.code 24) (some .rparen_in_string),
   .act .STRING (some .quote_in_string),
   .act (.code 26) (some .zzmore)]

/-- The table `dfa_base[]`: the start state of each lexer mode. -/
def dfa_base : List Nat := [0, 10, 28]

/-- The table `b_class_no[]`: the character-class table of each lexer mode. -/
def b_class_no : List (List Nat) := [shift0, shift1, shift2]

/-- The macro `ZZSHIFT (c)`, `b_class_no[zzauto][1+c]`: the class of the input
`c` in mode `zzauto`, where `c` is a byte or -1 for end-of-input; `none`
outside the tables. -/
def ZZSHIFT (zzauto : Nat) (c : Int) : Option Nat :=
  if c < -1 then none
  else (b_class_no[zzauto]?).bind (fun shift => shift[(1 + c).toNat]?)

/-- The transition `dfa[state][ZZSHIFT (c)]` of the automaton; `none` outside
the tables (the dead state has no row). -/
def dfa_next (zzauto state : Nat) (c : Int) : Option Nat :=
  (ZZSHIFT zzauto c).bind (fun cls => (dfa[state]?).bind (fun row => row[cls]?))

/-- The state the automaton is in after it has followed the transitions for
the inputs `w` from `state`. -/
def dfa_run (zzauto : Nat) : Nat → List Int → Option Nat
  | state, [] => some state
  | state, c :: w => (dfa_next zzauto state c).bind (fun s => dfa_run zzauto s w)

/-- The action of a state: `actions[accepts[state]]`. -/
def state_action (state : Nat) : Option Action :=
  (accepts[state]?).bind (fun a => actions[a]?)

/-! ## Predicates used to state the properties -/

/-- The brace depth after a string: the number of `{` minus the number of `}`. -/
def brace_depth (s : List Char) : Int :=
  s.foldl (fun depth c => update_depth c depth) 0

/-- The word-boundary conditions on a delimiter occurrence at offset `p`: it
follows a space, matches the delimiter once lowercased, and is followed by a
space. -/
def BoundaryAt (s d : List Char) (p : Nat) : Prop :=
  1 ≤ p ∧ charAt s (p - 1) = ' ' ∧
    (∀ k, k < d.length → tolower (charAt s (p + k)) = charAt d k) ∧
    charAt s (p + d.length) = ' '

/-- What holds of the loop variables of `bt_split_list` before every pass,
for any delimiter: a match in progress started right after a space, and every
division recorded so far sits on a delimiter bounded by spaces. -/
structure SplitInv (s d : List Char) (st : SplitLoop) : Prop where
  j_le : st.j ≤ st.i
  inw : st.inword = false → 1 ≤ st.i - st.j ∧ charAt s (st.i - st.j - 1) = ' '
  jpos : 0 < st.j → st.inword = false ∧ st.depth = 0
  mtch : ∀ k, k < st.j → tolower (charAt s (st.i - st.j + k)) = charAt d k
  stops : ∀ e ∈ st.stop, ∃ p : Nat, e = (p : Int) - 1 ∧ BoundaryAt s d p ∧
    p + d.length < st.i - st.j
  starts : st.start = 0 :: st.stop.map (fun e => e + (d.length : Int) + 2)

/-- What holds in addition when the delimiter has no brace: `depth` is the
brace depth of the text scanned so far, and every division was made at depth 0. -/
structure SplitDepthInv (s : List Char) (st : SplitLoop) : Prop where
  depth_i : st.depth = brace_depth (s.take st.i)
  depth_p : st.depth = brace_depth (s.take (st.i - st.j))
  stops_depth : ∀ e ∈ st.stop, brace_depth (s.take (e + 1).toNat) = 0

/-- A string that is one brace group: it opens with `{`, the depth stays
positive strictly inside it and is back to 0 at its end. -/
def BraceGroup (s : List Char) : Prop :=
  s.head? = some '{' ∧ brace_depth s = 0 ∧
    ∀ p, 1 ≤ p → p < s.length → 0 < brace_depth (s.take p)

/-- The loop `while (i < maxoffs)` of `bt_split_list` run from the state `st`
to its end: `maxoffs - i` passes are enough, since every pass advances `i`. -/
def split_run (s d : List Char) (st : SplitLoop) : SplitLoop :=
  split_loop s d (maxoffs s d) (maxoffs s d - (st.i : Int)).toNat st

/-- An occurrence of the delimiter `d` in `s` at offset `p` that is bounded by
spaces and lies at brace depth 0. -/
def DelimAt (s d : List Char) (p : Nat) : Prop :=
  BoundaryAt s d p ∧ brace_depth (s.take p) = 0

/-- The word `w` stands in `x` at offset `q`: at brace depth 0, in any letter
case, with a space or the start of `x` before it and a space or the end of `x`
after it. -/
def WordAt (w x : List Char) (q : Nat) : Prop :=
  q + w.length ≤ x.length ∧ brace_depth (x.take q) = 0 ∧
    (q = 0 ∨ charAt x (q - 1) = ' ') ∧
    (∀ k, k < w.length → tolower (charAt x (q + k)) = charAt w k) ∧
    (q + w.length = x.length ∨ charAt x (q + w.length) = ' ')

instance (w x : List Char) (q : Nat) : Decidable (WordAt w x q) := by
  unfold WordAt
  infer_instance

/-- The string `x` contains `w` as a space-delimited word at brace depth 0. -/
def HasWord (w x : List Char) : Prop :=
  ∃ q, q < x.length + 1 ∧ WordAt w x q

instance (w x : List Char) : Decidable (HasWord w x) := by
  unfold HasWord
  infer_instance

/-- The separator made of a delimiter with a space on each side. -/
def spaced (d : List Char) : List Char := ' ' :: d ++ [' ']

/-- The entries `start[1..]` the loop of `bt_split_list` records for items
joined by `spaced d`, the first item beginning at offset `off`. -/
def starts_of (dl : Nat) : Nat → List (List Char) → List Int
  | off, x :: y :: rest =>
    ((off + x.length + dl + 2 : Nat) : Int) :: starts_of dl (off + x.length + dl + 2) (y :: rest)
  | _, _ => []

/-- The entries of `stop` the loop of `bt_split_list` records for items
joined by `spaced d`, the first item beginning at offset `off`. -/
def stops_of (dl : Nat) : Nat → List (List Char) → List Int
  | off, x :: y :: rest =>
    ((off + x.length : Nat) : Int) :: stops_of dl (off + x.length + dl + 2) (y :: rest)
  | _, _ => []

/-- The pairs `(start[i], stop[i])` of items joined by `spaced d`, the first
item beginning at offset `off`. -/
def item_bounds (dl : Nat) : Nat → List (List Char) → List (Int × Int)
  | off, x :: y :: rest =>
    ((off : Int), ((off + x.length : Nat) : Int)) ::
      item_bounds dl (off + x.length + dl + 2) (y :: rest)
  | off, [x] => [((off : Int), ((off + x.length : Nat) : Int))]
  | _, [] => []

/-- The warning `bt_split_list` gives for item `k` (0-based) of its result:
one for a `NULL` item, naming its 1-based position, none otherwise. -/
def item_warning (ki : Nat × Option Nat) : Option Diag :=
  if ki.2.isNone then some (Diag.item_empty (ki.1 + 1)) else none

/-- A whitespace-collapsed string: no space at either end and no two spaces
in a row. -/
def Collapsed (s : List Char) : Prop :=
  charAt s 0 ≠ ' ' ∧ s.getLast? ≠ some ' ' ∧
    ∀ i, i < s.length → charAt s i = ' ' → charAt s (i + 1) ≠ ' '

instance (s : List Char) : Decidable (Collapsed s) := by
  unfold Collapsed
  infer_instance

/-- What holds of the loop variables of `find_tokens` before every pass, on
the buffer `buf0` of a comma-free, whitespace-collapsed name: only spaces
have been overwritten, no token is `NULL`, and a boundary is the start of the
name or follows a space. -/
structure TokenInv (buf0 : List Char) (st : TokenLoop) : Prop where
  name_eq : ∀ k, (st.i ≤ k ∨ charAt buf0 k ≠ ' ') → charAt st.name k = charAt buf0 k
  items_some : ∀ it ∈ st.items, it ≠ none
  no_comma : st.comma_token = []
  boundary : st.in_boundary = true → st.i = 0 ∨ charAt buf0 (st.i - 1) = ' '
  items_ne : 1 ≤ st.i → st.items ≠ []
  first : st.i = 0 → st.in_boundary = true ∧ st.depth = 0

/-- Whether token `k` of a list begins with a lowercase letter; false for a
`NULL` token and past the end of the list. -/
def token_is_lc (toks : bt_stringlist) (k : Nat) : Bool :=
  match toks.items[k]? with
  | some (some off) => islower (charAt toks.string off)
  | _ => false

/-- The first run of lowercase tokens among `n` tokens, as the pair
`(first_lc, last_lc)`: `(-1, -1)` when no token is lowercase, otherwise the
first lowercase token and the last token of the run it starts. -/
def FirstLcRun (flag : Nat → Bool) (n : Nat) (first_lc last_lc : Int) : Prop :=
  (first_lc = -1 ∧ last_lc = -1 ∧ ∀ k, k < n → flag k = false) ∨
    ∃ a b : Nat, first_lc = (a : Int) ∧ last_lc = (b : Int) ∧ a ≤ b ∧ b < n ∧
      (∀ k, k < a → flag k = false) ∧ (∀ k, a ≤ k → k ≤ b → flag k = true) ∧
      (b + 1 < n → flag (b + 1) = false)

/-- Whether a token text begins with a lowercase letter. -/
def lc_initial (t : List Char) : Bool := islower (t.headD NUL)

/-- The first run of lowercase-initial tokens of `T` starts at token `a` and
extends to the final token. -/
def LcRunToEnd (T : List (List Char)) (a : Nat) : Prop :=
  a < T.length ∧ (∀ k t, k < a → T[k]? = some t → lc_initial t = false) ∧
    (∀ k t, a ≤ k → T[k]? = some t → lc_initial t = true)

/-- The fields of a node other than `right`. -/
structure NodeData where
  down : AST
  line : Int
  offset : Int
  nodetype : bt_nodetype_t
  metatype : bt_metatype_t
  text : Option (List Char)
  deriving DecidableEq, Repr

/-- The pointer to the first of the given nodes, linked in order through
`right`, the last with `right == NULL`; `NULL` for no node. -/
def siblings : List NodeData → AST
  | [] => .null
  | n :: rest => .node (siblings rest) n.down n.line n.offset n.nodetype n.metatype n.text

/-- The given fields in order, each as the pointer to it in its sibling chain
together with its text. -/
def fields_with_names : List NodeData → List (AST × Option (List Char))
  | [] => []
  | f :: rest => (siblings (f :: rest), f.text) :: fields_with_names rest

/-- The node `bt_next_value` goes to: the container's first child when `prev`
is absent, otherwise the next sibling of `prev`. -/
def value_after (down prev : AST) : AST :=
  match prev with
  | .null => down
  | .node right _ _ _ _ _ _ => right

/-- A pointer together with the kind and text of its node; `BTAST_BOGUS` and
no text for `NULL`. -/
def reported (v : AST) : AST × bt_nodetype_t × Option (List Char) :=
  match v with
  | .null => (.null, .BTAST_BOGUS, none)
  | .node r d l o nodetype m text => (.node r d l o nodetype m text, nodetype, text)

/-- What holds of the second loop of `find_commas` on the buffer `I` between
two commas: the first `j` bytes of the buffer are the squeezed text `out`
written so far, and the bytes from `i` on are still those of `I`. -/
structure CommaInv (I out : List Char) (st : CommaLoop) : Prop where
  j_eq : st.j = out.length
  j_le : st.j ≤ st.i
  done : ∀ k, k < out.length → charAt st.name k = charAt out k
  todo : ∀ k, st.i ≤ k → charAt st.name k = charAt I k
  len_eq : st.name.length = I.length

/-- What holds of the loop variables of `find_tokens` while the loop crosses
a comma-free, whitespace-collapsed stretch `seg` of the buffer `buf0` that
starts at offset `off`, having entered it in the state `st0`: the bytes from
`i` on are untouched, the bytes before the stretch are as they were, new
tokens have been added and none of them is `NULL`, no comma has been
recorded, and the depth is the brace depth of the part of the stretch read. -/
structure SegInv (buf0 seg : List Char) (off : Nat) (st0 st : TokenLoop) : Prop where
  i_ge : off ≤ st.i
  name_ge : ∀ k, st.i ≤ k → charAt st.name k = charAt buf0 k
  name_lt : ∀ k, k < off → charAt st.name k = charAt st0.name k
  name_first : off < st.i → charAt st.name off = charAt seg 0
  items_ext : ∃ new, st.items = st0.items ++ new ∧ (∀ it ∈ new, it ≠ none) ∧
    (off < st.i → new ≠ [])
  comma_eq : st.comma_token = st0.comma_token
  boundary : st.in_boundary = true → st.i = off ∨ charAt seg (st.i - off - 1) = ' '
  at_start : st.i = off → st.in_boundary = true
  depth_eq : st.depth = brace_depth (seg.take (st.i - off))

/-- The loop of `find_tokens` stands at offset `off` of the buffer `buf0`, at
depth 0 and at the start of a token, and has not touched the bytes from `off`
on. -/
structure AtBoundary (buf0 : List Char) (off : Nat) (st : TokenLoop) : Prop where
  i_eq : st.i = off
  inb : st.in_boundary = true
  depth0 : st.depth = 0
  name_ge : ∀ k, off ≤ k → charAt st.name k = charAt buf0 k

/-- The run of lowercase-initial tokens that starts at token 0 of `T` ends at
token `b`: tokens `0..b` begin with a lowercase letter and token `b + 1`
exists and does not. -/
def LcRunFromStart (T : List (List Char)) (b : Nat) : Prop :=
  b + 1 < T.length ∧ (∀ k t, k ≤ b → T[k]? = some t → lc_initial t = true) ∧
    ∀ t, T[b + 1]? = some t → lc_initial t = false

/-- Each component of a split name is `NULL` exactly when its count is 0. -/
def CountsAgree (nm : bt_name) : Prop :=
  (nm.first = none ↔ nm.n_first = 0) ∧ (nm.von = none ↔ nm.n_von = 0) ∧
    (nm.last = none ↔ nm.n_last = 0) ∧ (nm.jr = none ↔ nm.n_jr = 0)

/-- An option set: the union of those of the five flags that are chosen. -/
def option_set (delquotes expand paste collapse nostore : Bool) : Nat :=
  (if delquotes then BTO_DELQUOTES else 0) ||| (if expand then BTO_EXPAND else 0) |||
    (if paste then BTO_PASTE else 0) ||| (if collapse then BTO_COLLAPSE else 0) |||
    (if nostore then BTO_NOSTORE else 0)

/-- The text `add_macro` installs for a definition with the given value:
what `postprocess_field` returns when the options are not the macro preset,
the text of the value node when they are. -/
def installed_text (postprocess_field : AST → Nat → Bool → Option (List Char))
    (assignment : AST) (options : Nat) (value_text : Option (List Char)) :
    Option (List Char) :=
  if options &&& BTO_STRINGMASK ≠ BTO_MACRO then postprocess_field assignment BTO_MACRO false
  else value_text

/-- What bounds the number of divisions in the loop of `bt_split_list`: every
division took `delim_len + 1` bytes of the string, the bytes of a match in
progress come on top, and `i` is at most one past `maxoffs` once it has
moved. -/
structure SplitBound (s d : List Char) (st : SplitLoop) : Prop where
  used : st.stop.length * (d.length + 1) + st.j ≤ st.i
  i_le : st.i = 0 ∨ (st.i : Int) ≤ maxoffs s d + 1
  lens : st.start.length = st.stop.length + 1

/-- The items `xs` joined by the separators `ms`, each separator with a space
on either side: `x1 ++ " " ++ m1 ++ " " ++ x2 ++ ...`. -/
def join_with : List (List Char) → List (List Char) → List Char
  | x :: y :: rest, m :: ms => x ++ ' ' :: (m ++ ' ' :: join_with (y :: rest) ms)
  | x :: _, _ => x
  | [], _ => []

/-- The bytes of a text, as inputs of the automaton. -/
def input_bytes (s : List Char) : List Int := s.map (fun ch => (ch.toNat : Int))

/-- Whether a byte is one of the two token delimiters, the space and the
comma. -/
def is_delim (c : Char) : Bool := c == ' ' || c == ','

/-- The tokens of a name as the specification describes them: the name is cut
at every space and comma at brace depth 0, a token that is empty (one that
ends where it starts, between two consecutive delimiters or before a leading
one) is absent, and what follows the last delimiter is a token unless it is
empty.  `d` is the brace depth and `cur` the text of the token in progress. -/
def spec_tokens : Int → List Char → List Char → List (Option (List Char))
  | _, cur, [] => if cur = [] then [] else [some cur]
  | d, cur, c :: rest =>
    if d = 0 ∧ is_delim c = true then
      (if cur = [] then none else some cur) :: spec_tokens d [] rest
    else spec_tokens (update_depth c d) (cur ++ [c]) rest

/-- The array `comma_token` as the specification describes it: for each comma
at brace depth 0, in order, the index of the token that the comma ends.  `k`
is the number of delimiters passed, which is the index of the token in
progress. -/
def spec_comma_token : Int → Nat → List Char → List Int
  | _, _, [] => []
  | d, k, c :: rest =>
    if d = 0 ∧ is_delim c = true then
      (if c = ',' then [(k : Int)] else []) ++ spec_comma_token d (k + 1) rest
    else spec_comma_token (update_depth c d) k rest

/-- A text with every space and comma at brace depth 0 overwritten by NUL. -/
def nul_out : Int → List Char → List Char
  | _, [] => []
  | d, c :: rest =>
    if d = 0 ∧ is_delim c = true then NUL :: nul_out d rest
    else c :: nul_out (update_depth c d) rest

/-- The entries `find_tokens` adds to `tokens->items` while it reads the text
`t` that begins at offset `off`, from the brace depth `d` and the flag
`in_boundary`. -/
def scan_items : Int → Bool → Nat → List Char → List (Option Nat)
  | _, _, _, [] => []
  | d, in_boundary, off, c :: rest =>
    if d = 0 ∧ is_delim c = true then
      (if in_boundary then [none] else []) ++ scan_items d true (off + 1) rest
    else
      (if d = 0 ∧ in_boundary = true then [some off] else [])
        ++ scan_items (update_depth c d) false (off + 1) rest

/-- A text without the bytes `c0` at its end. -/
def drop_trailing (c0 : Char) : List Char → List Char
  | [] => []
  | c :: r => if drop_trailing c0 r = [] ∧ c = c0 then [] else c :: drop_trailing c0 r

/-- What the second loop of `find_commas` makes of the text `t`: the text with
the spaces before and after each comma at brace depth 0 left out, together
with the offsets of those commas in it.  `d` is the brace depth, `skip` says
that the loop stands after such a comma, `out` is the text and `commas` the
offsets so far. -/
def squeeze : Int → Bool → List Char → List Nat → List Char → List Char × List Nat
  | _, _, out, commas, [] => (out, commas)
  | d, skip, out, commas, c :: r =>
    if skip = true ∧ c = ' ' then squeeze d true out commas r
    else if d = 0 ∧ c = ',' then
      squeeze d true (drop_trailing ' ' out ++ [','])
        (commas ++ [(drop_trailing ' ' out).length]) r
    else squeeze (update_depth c d) false (out ++ [c]) commas r

/-- The part of `bt_split_name` that follows the call of `find_commas` and the
assertion on its result, for the buffer, the count and the warnings that
`find_commas` has returned. -/
def split_after_commas (name : List Char) (num_commas : Int) (diags : List Diag) :
    Except Fault (bt_name × List Diag) :=
  match find_tokens name num_commas with
  | .error e => .error e
  | .ok (tokens, comma_token) =>
    match find_lc_tokens tokens with
    | .error e => .error e
    | .ok (first_lc, last_lc) =>
      if strlen tokens.string = 0 then .ok (empty_name, diags)
      else
        match tokens.num_items with
        | none => .error Fault.uninitialized_read
        | some n =>
          if num_commas = 0 then
            let r := split_simple_name tokens n first_lc last_lc
            .ok (r.1, diags ++ r.2)
          else
            match split_general_name tokens n num_commas comma_token
                first_lc last_lc with
            | .ok r => .ok (r.1, diags ++ r.2)
            | .error e => .error e

/-- The components and warnings of a result of `bt_split_name`, `none` for a
call that faults. -/
def result_parts : Except Fault (bt_name × List Diag) → Option (NameParts × List Diag)
  | .ok (nm, diags) => some (nm.parts, diags)
  | .error _ => none

/-- Two token lists that read alike: they have the same items and count,
their buffers hold C strings of the same length, and every item points at the
same first byte and the same C string in both. -/
structure TokensAgree (toks1 toks2 : bt_stringlist) : Prop where
  items : toks1.items = toks2.items
  num_items : toks1.num_items = toks2.num_items
  len : strlen toks1.string = strlen toks2.string
  first : ∀ off, some off ∈ toks1.items → charAt toks1.string off = charAt toks2.string off
  text : ∀ off, some off ∈ toks1.items → cstr_at toks1.string off = cstr_at toks2.string off

/-- No space stands next to a comma at brace depth 0 of the text `t`: for a
comma at offset `p` with brace depth 0 before it, the byte before it and the
byte after it (NUL at the end of the text) are not spaces. -/
def NoSpaceAtCommas (t : List Char) : Prop :=
  ∀ p, p < t.length → charAt t p = ',' → brace_depth (t.take p) = 0 →
    (1 ≤ p → charAt t (p - 1) ≠ ' ') ∧ charAt t (p + 1) ≠ ' '

instance (t : List Char) : Decidable (NoSpaceAtCommas t) := by
  unfold NoSpaceAtCommas
  infer_instance

/-- The name after the first loop of `find_commas`: every comma beyond the
first `max_commas` is replaced by a space.  `n` is the number of commas
counted so far. -/
def blank_excess (max_commas : Nat) : Nat → List Char → List Char
  | _, [] => []
  | n, c :: r =>
    if c = ',' then
      (if n + 1 > max_commas then ' ' else ',') :: blank_excess max_commas (n + 1) r
    else c :: blank_excess max_commas n r

/-- Whitespace collapsing, read from left to right: `started` says that a
byte other than whitespace has been written, `gap` that whitespace has been
passed since; a space is written for the gap when the next such byte
comes. -/
def collapse_run : Bool → Bool → List Char → List Char
  | _, _, [] => []
  | started, gap, c :: r =>
    if isspace c = true then collapse_run started started r
    else (if gap = true then [' ', c] else [c]) ++ collapse_run true false r

/-- The values of `started` and `gap` after a text. -/
def collapse_state : Bool → Bool → List Char → Bool × Bool
  | started, gap, [] => (started, gap)
  | started, _, c :: r =>
    if isspace c = true then collapse_state started started r
    else collapse_state true false r

/-! # Theorems -/

/-! ## The scanning loop of bt_split_list -/

theorem charAt_lt_of_ne_NUL {s : List Char} {i : Nat} (h : charAt s i ≠ NUL) :
    i < s.length := by
  by_contra hlt
  apply h
  simp only [charAt, List.getD_eq_getElem?_getD]
  rw [List.getElem?_eq_none (by omega)]
  rfl

theorem charAt_lt_of_space {s : List Char} {i : Nat} (h : charAt s i = ' ') :
    i < s.length :=
  charAt_lt_of_ne_NUL (by rw [h]; decide)

theorem charAt_of_le {s : List Char} {i : Nat} (h : s.length ≤ i) : charAt s i = NUL := by
  simp only [charAt, List.getD_eq_getElem?_getD]
  rw [List.getElem?_eq_none h]
  rfl

theorem charAt_eq_getElem {s : List Char} {i : Nat} (h : i < s.length) :
    charAt s i = s[i] := by
  simp [charAt, List.getD_eq_getElem?_getD, List.getElem?_eq_getElem h]

theorem brace_depth_append (s t : List Char) :
    brace_depth (s ++ t) = brace_depth s + brace_depth t := by
  have key : ∀ (t : List Char) (a : Int),
      t.foldl (fun depth c => update_depth c depth) a
        = a + t.foldl (fun depth c => update_depth c depth) 0 := by
    intro t
    induction t with
    | nil => intro a; simp
    | cons c t ih =>
      intro a
      simp only [List.foldl_cons]
      rw [ih (update_depth c a), ih (update_depth c 0)]
      unfold update_depth
      split_ifs <;> omega
  unfold brace_depth
  rw [List.foldl_append, key t]

theorem brace_depth_take_succ (s : List Char) (i : Nat) :
    brace_depth (s.take (i + 1)) = update_depth (charAt s i) (brace_depth (s.take i)) := by
  by_cases h : i < s.length
  · rw [List.take_succ, brace_depth_append, charAt_eq_getElem h, List.getElem?_eq_getElem h]
    simp only [Option.toList, brace_depth, List.foldl_cons, List.foldl_nil]
    unfold update_depth
    split_ifs <;> omega
  · have h' : s.length ≤ i := by omega
    rw [List.take_of_length_le (by omega), List.take_of_length_le h', charAt_of_le h']
    rfl

theorem split_init_inv (s d : List Char) : SplitInv s d split_init where
  j_le := by simp [split_init]
  inw := by simp [split_init]
  jpos := by simp [split_init]
  mtch := by simp [split_init]
  stops := by simp [split_init]
  starts := by simp [split_init]

theorem split_step_inv {s d : List Char} {st : SplitLoop} (hlen : st.i < s.length)
    (h : SplitInv s d st) : SplitInv s d (split_step s d st) := by
  obtain ⟨hj, hinw, hjpos, hm, hstops, hstarts⟩ := h
  unfold split_step
  split_ifs with hc hsp
  · -- a whole delimiter followed by a space
    obtain ⟨hd0, hiw, hch⟩ := hc
    obtain ⟨hjd, hspace⟩ := hsp
    obtain ⟨hp1, hpsp⟩ := hinw hiw
    have hB : BoundaryAt s d (st.i - st.j) := by
      refine ⟨hp1, hpsp, ?_, ?_⟩
      · intro k hk
        by_cases hkj : k < st.j
        · exact hm k hkj
        · have : k = st.j := by omega
          subst this
          have e : st.i - st.j + st.j = st.i := by omega
          rw [e]; exact hch
      · have e : st.i - st.j + d.length = st.i + 1 := by omega
        rw [e]; exact hspace
    refine ⟨by simp, ?_, by simp, by simp, ?_, ?_⟩
    · intro _
      simp only [Nat.sub_zero]
      exact ⟨by omega, by simpa using hspace⟩
    · intro e he
      simp only [List.mem_append, List.mem_singleton] at he
      rcases he with he | he
      · obtain ⟨p, hp, hb, hlt⟩ := hstops e he
        exact ⟨p, hp, hb, by simp only [Nat.sub_zero]; omega⟩
      · refine ⟨st.i - st.j, ?_, hB, by simp only [Nat.sub_zero]; omega⟩
        rw [he]; omega
    · simp only [hstarts, List.map_append, List.map_cons, List.map_nil, List.cons_append,
        List.cons.injEq, true_and, List.append_cancel_left_eq]
      exact ⟨by omega, trivial⟩
  · -- one more byte of the delimiter
    obtain ⟨hd0, hiw, hch⟩ := hc
    have e : st.i + 1 - (st.j + 1) = st.i - st.j := by omega
    refine ⟨by simp; omega, ?_, ?_, ?_, ?_, hstarts⟩
    · intro hw
      simp only [e]
      exact hinw hw
    · intro _
      exact ⟨hiw, hd0⟩
    · intro k hk
      simp only [e]
      by_cases hkj : k < st.j
      · exact hm k hkj
      · have : k = st.j := by simp only at hk; omega
        subst this
        have e' : st.i - st.j + st.j = st.i := by omega
        rw [e']; exact hch
    · intro x hx
      obtain ⟨p, hp, hb, hlt⟩ := hstops x hx
      exact ⟨p, hp, hb, by simp only [e]; exact hlt⟩
  · -- no match
    refine ⟨by simp, ?_, by simp, by simp, ?_, hstarts⟩
    · intro hw
      simp only [Nat.sub_zero, Nat.add_sub_cancel]
      simp only [Bool.and_eq_false_imp, decide_eq_true_eq, bne_eq_false_iff_eq] at hw
      exact ⟨by omega, hw hlen⟩
    · intro x hx
      obtain ⟨p, hp, hb, hlt⟩ := hstops x hx
      exact ⟨p, hp, hb, by simp only [Nat.sub_zero]; omega⟩

theorem split_loop_inv {s d : List Char} (hd : 1 ≤ d.length) (fuel : Nat) :
    ∀ st : SplitLoop, SplitInv s d st →
      SplitInv s d (split_loop s d (maxoffs s d) fuel st) := by
  induction fuel with
  | zero => intro st h; exact h
  | succ n ih =>
    intro st h
    unfold split_loop
    split_ifs with hg
    · exact ih _ (split_step_inv (by unfold maxoffs at hg; omega) h)
    · exact h

theorem split_scan_inv {s d : List Char} (hd : 1 ≤ d.length) :
    SplitInv s d (split_scan s d) :=
  split_loop_inv hd _ _ (split_init_inv s d)

theorem charAt_mem_or_NUL (d : List Char) (j : Nat) : charAt d j = NUL ∨ charAt d j ∈ d := by
  by_cases h : j < d.length
  · right
    rw [charAt_eq_getElem h]
    exact List.getElem_mem h
  · left
    exact charAt_of_le (by omega)

/-- A byte that `tolower` maps to a byte of a brace-free delimiter (or to the
NUL after it) is not a brace. -/
theorem not_brace_of_tolower_eq {d : List Char} (hl : '{' ∉ d) (hr : '}' ∉ d) {c : Char}
    {j : Nat} (h : tolower c = charAt d j) : c ≠ '{' ∧ c ≠ '}' := by
  constructor
  · intro hc
    subst hc
    rcases charAt_mem_or_NUL d j with h0 | hmem
    · rw [h0] at h; revert h; decide
    · rw [← h] at hmem; exact hl (by simpa [tolower] using hmem)
  · intro hc
    subst hc
    rcases charAt_mem_or_NUL d j with h0 | hmem
    · rw [h0] at h; revert h; decide
    · rw [← h] at hmem; exact hr (by simpa [tolower] using hmem)

theorem update_depth_of_not_brace {c : Char} (h : c ≠ '{' ∧ c ≠ '}') (depth : Int) :
    update_depth c depth = depth := by
  simp [update_depth, h.1, h.2]

theorem split_init_depth_inv (s : List Char) : SplitDepthInv s split_init where
  depth_i := by simp [split_init, brace_depth]
  depth_p := by simp [split_init, brace_depth]
  stops_depth := by simp [split_init]

theorem split_step_depth_inv {s d : List Char} {st : SplitLoop} (hl : '{' ∉ d) (hr : '}' ∉ d)
    (hinv : SplitInv s d st) (h : SplitDepthInv s st) :
    SplitDepthInv s (split_step s d st) := by
  obtain ⟨hdi, hdp, hsd⟩ := h
  have hj := hinv.j_le
  unfold split_step
  split_ifs with hc hsp
  · obtain ⟨hd0, hiw, hch⟩ := hc
    obtain ⟨hjd, hspace⟩ := hsp
    have h1 : brace_depth (s.take (st.i + 1)) = st.depth := by
      rw [brace_depth_take_succ, update_depth_of_not_brace (not_brace_of_tolower_eq hl hr hch),
        ← hdi]
    have h2 : brace_depth (s.take (st.i + 2)) = st.depth := by
      rw [brace_depth_take_succ, hspace, h1]
      simp [update_depth]
    refine ⟨h2.symm, by simpa using h2.symm, ?_⟩
    intro e he
    simp only [List.mem_append, List.mem_singleton] at he
    rcases he with he | he
    · exact hsd e he
    · have e1 : (e + 1).toNat = st.i - st.j := by rw [he]; omega
      rw [e1, ← hdp, hd0]
  · obtain ⟨hd0, hiw, hch⟩ := hc
    have h1 : brace_depth (s.take (st.i + 1)) = st.depth := by
      rw [brace_depth_take_succ, update_depth_of_not_brace (not_brace_of_tolower_eq hl hr hch),
        ← hdi]
    have e : st.i + 1 - (st.j + 1) = st.i - st.j := by omega
    exact ⟨h1.symm, by simpa only [e] using hdp, hsd⟩
  · have h1 : brace_depth (s.take (st.i + 1)) = update_depth (charAt s st.i) st.depth := by
      rw [brace_depth_take_succ, ← hdi]
    exact ⟨h1.symm, by simpa using h1.symm, hsd⟩

theorem split_loop_depth_inv {s d : List Char} (hd : 1 ≤ d.length) (hl : '{' ∉ d)
    (hr : '}' ∉ d) (fuel : Nat) :
    ∀ st : SplitLoop, SplitInv s d st → SplitDepthInv s st →
      SplitDepthInv s (split_loop s d (maxoffs s d) fuel st) := by
  induction fuel with
  | zero => intro st _ h; exact h
  | succ n ih =>
    intro st hinv h
    unfold split_loop
    split_ifs with hg
    · exact ih _ (split_step_inv (by unfold maxoffs at hg; omega) hinv)
        (split_step_depth_inv hl hr hinv h)
    · exact h

/-- With an empty delimiter the loop never records a division. -/
theorem split_loop_nil_stop (s : List Char) (m : Int) (fuel : Nat) :
    ∀ st : SplitLoop, st.stop = [] → (split_loop s [] m fuel st).stop = [] := by
  induction fuel with
  | zero => intro st h; exact h
  | succ n ih =>
    intro st h
    unfold split_loop
    split_ifs with hg
    · apply ih
      unfold split_step
      split_ifs with hc hsp
      · simp at hsp
      · exact h
      · exact h
    · exact h

/-- Every recognized delimiter follows a space, matches the delimiter once
lowercased and is followed by a space. -/
theorem split_points_boundary (s d : List Char) (e : Int) (he : e ∈ split_points s d) :
    ∃ p : Nat, e = (p : Int) ∧ BoundaryAt s d p := by
  unfold split_points at he
  obtain ⟨x, hx, rfl⟩ := List.mem_map.1 he
  by_cases hd : 1 ≤ d.length
  · obtain ⟨p, hp, hb, _⟩ := (split_scan_inv (s := s) hd).stops x hx
    exact ⟨p, by omega, hb⟩
  · have hnil : d = [] := List.length_eq_zero.1 (by omega)
    subst hnil
    have := split_loop_nil_stop s (maxoffs s []) s.length split_init rfl
    unfold split_scan at hx
    rw [this] at hx
    simp at hx

/-- With a brace-free delimiter every recognized delimiter is at brace depth 0. -/
theorem split_points_depth (s d : List Char) (hl : '{' ∉ d) (hr : '}' ∉ d) (e : Int)
    (he : e ∈ split_points s d) : brace_depth (s.take e.toNat) = 0 := by
  unfold split_points at he
  obtain ⟨x, hx, rfl⟩ := List.mem_map.1 he
  by_cases hd : 1 ≤ d.length
  · exact (split_loop_depth_inv hd hl hr s.length split_init (split_init_inv s d)
      (split_init_depth_inv s)).stops_depth x hx
  · have hnil : d = [] := List.length_eq_zero.1 (by omega)
    subst hnil
    have := split_loop_nil_stop s (maxoffs s []) s.length split_init rfl
    unfold split_scan at hx
    rw [this] at hx
    simp at hx

theorem tolower_idem (c : Char) : tolower (tolower c) = tolower c := by
  unfold tolower Char.toLower
  by_cases h : c.toNat ≥ 65 ∧ c.toNat ≤ 90
  · simp only [h, and_self, if_true]
    obtain ⟨h1, h2⟩ := h
    generalize c.toNat = n at *
    interval_cases n <;> decide
  · simp [h]


theorem takeWhile_ne_NUL_append (s t : List Char) (h : NUL ∉ s) :
    (s ++ NUL :: t).takeWhile (fun c => c != NUL) = s := by
  induction s with
  | nil => simp
  | cons c s ih =>
    have hc : c ≠ NUL := fun e => h (by simp [e])
    have hs : NUL ∉ s := fun e => h (by simp [e])
    simp [List.takeWhile_cons, hc, ih hs]

/-- When the loop records no division, the list is the whole string. -/
theorem split_list_texts_of_no_division {s d : List Char} (hd : 1 ≤ d.length) (hs : s ≠ [])
    (hnul : NUL ∉ s) (h : (split_scan s d).stop = []) :
    split_list_texts s d = some ([some s], []) := by
  have hstart := (split_scan_inv (s := s) hd).starts
  rw [h] at hstart
  have hpos : 0 < s.length := List.length_pos.2 hs
  have hset : (s ++ [NUL]).set s.length NUL = s ++ [NUL] := by
    rw [List.set_append_right _ _ (Nat.le_refl _)]
    simp
  have hlt : ((s.length : Int) > 0) := by omega
  unfold split_list_texts bt_split_list
  rw [if_neg (by omega)]
  simp only [h, hstart, List.map_nil, List.nil_append, List.zip_cons_cons, List.zip_nil_right,
    split_fill, hlt, if_true, Int.toNat_ofNat, hset, bt_stringlist.texts, List.map_cons,
    Option.map_some', cstr_at, Int.toNat_zero, List.drop_zero]
  rw [takeWhile_ne_NUL_append s [] hnul]

/-- Inside one brace group the loop never gets to compare a byte with the
delimiter, whatever the delimiter is. -/
theorem split_loop_brace_group {s d : List Char} (hd : 1 ≤ d.length)
    (hg : ∀ p, 1 ≤ p → p < s.length → 0 < brace_depth (s.take p)) (fuel : Nat) :
    ∀ st : SplitLoop, st.j = 0 → st.stop = [] → (st.i = 0 → st.inword = true ∧ st.depth = 0) →
      (1 ≤ st.i → st.depth = brace_depth (s.take st.i)) →
      (split_loop s d (maxoffs s d) fuel st).stop = [] := by
  induction fuel with
  | zero => intro st _ h _ _; exact h
  | succ n ih =>
    intro st hj hstop h0 h1
    unfold split_loop
    split_ifs with hguard
    · have hlen : st.i < s.length := by unfold maxoffs at hguard; omega
      have hstep : split_step s d st =
          { st with
            depth := update_depth (charAt s st.i) st.depth
            inword := decide (st.i < s.length) && (charAt s st.i != ' ')
            i := st.i + 1
            j := 0 } := by
        unfold split_step
        rw [if_neg]
        rintro ⟨hdep, hiw, _⟩
        by_cases hi : st.i = 0
        · have := (h0 hi).1
          rw [hiw] at this
          exact Bool.noConfusion this
        · have hpos := hg st.i (by omega) hlen
          rw [← h1 (by omega), hdep] at hpos
          exact absurd hpos (by decide)
      rw [hstep]
      apply ih
      · rfl
      · exact hstop
      · intro hi; simp at hi
      · intro _
        simp only
        by_cases hi : st.i = 0
        · rw [brace_depth_take_succ, hi]
          rw [(h0 hi).2]; simp [brace_depth]
        · rw [brace_depth_take_succ, ← h1 (by omega)]
    · exact hstop

/-! ## Claims about bt_split_list -/

/-- C2, as stated, fails: with the delimiter `{` the string `x { y { z` is
divided at offset 6, which lies at brace depth 1. -/
theorem split_list_brace_delim_divides_inside :
    split_list_texts "x \x7b y \x7b z".toList "\x7b".toList
        = some ([some "x".toList, some "y".toList, some "z".toList], []) ∧
      (6 : Int) ∈ split_points "x \x7b y \x7b z".toList "\x7b".toList ∧
      brace_depth ("x \x7b y \x7b z".toList.take 6) = 1 := by
  decide

/-- C2 (amended): for a delimiter without brace characters, no recognized
delimiter lies at brace depth greater than 0; and for every non-empty
delimiter a string that is one brace group comes back as a single item equal
to the whole string, as `{foo and bar}` does for the delimiter `and`. -/
theorem split_list_brace_protection :
    (∀ s d : List Char, '{' ∉ d → '}' ∉ d → ∀ e ∈ split_points s d,
        ¬ 0 < brace_depth (s.take e.toNat)) ∧
    (∀ s d : List Char, d ≠ [] → NUL ∉ s → BraceGroup s →
        split_list_texts s d = some ([some s], [])) ∧
    split_list_texts "\x7bfoo and bar\x7d".toList "and".toList
        = some ([some "\x7bfoo and bar\x7d".toList], []) := by
  refine ⟨?_, ?_, by decide⟩
  · intro s d hl hr e he
    rw [split_points_depth s d hl hr e he]
    decide
  · intro s d hd hnul hg
    have hd1 : 1 ≤ d.length := List.length_pos.2 hd
    have hs : s ≠ [] := by
      intro e
      rw [e] at hg
      exact Option.noConfusion hg.1
    apply split_list_texts_of_no_division hd1 hs hnul
    exact split_loop_brace_group hd1 hg.2.2 s.length split_init rfl rfl
      (fun _ => ⟨rfl, rfl⟩) (fun h => absurd h (by decide))

/-- C2 (amended), at concrete inputs: `a {b and c} and d` with the delimiter
`and`, and the brace group `{a and b}`. -/
theorem split_list_brace_protection_witness :
    ('{' ∉ "and".toList ∧ '}' ∉ "and".toList ∧
      (12 : Int) ∈ split_points "a \x7bb and c\x7d and d".toList "and".toList ∧
      ¬ 0 < brace_depth ("a \x7bb and c\x7d and d".toList.take (12 : Int).toNat)) ∧
    ("and".toList ≠ [] ∧ NUL ∉ "\x7ba and b\x7d".toList ∧ BraceGroup "\x7ba and b\x7d".toList ∧
      split_list_texts "\x7ba and b\x7d".toList "and".toList = some ([some "\x7ba and b\x7d".toList], [])) :=
  ⟨⟨by decide, by decide, by decide,
      split_list_brace_protection.1 "a \x7bb and c\x7d and d".toList "and".toList
        (by decide) (by decide) 12 (by decide)⟩,
    ⟨by decide, by decide, ⟨by decide, by decide, by decide⟩,
      split_list_brace_protection.2.1 "\x7ba and b\x7d".toList "and".toList (by decide) (by decide)
        ⟨by decide, by decide, by decide⟩⟩⟩

/-- C4, as stated, fails: with the delimiter `{` the string `a { b { c` has a
recognized delimiter at offset 6, where the brace depth is 1. -/
theorem split_point_inside_braces :
    (6 : Int) ∈ split_points "a \x7b b \x7b c".toList "\x7b".toList ∧
      brace_depth ("a \x7b b \x7b c".toList.take 6) ≠ 0 := by
  decide

/-- C4 (amended): for every string and every delimiter without brace
characters, every recognized delimiter is at brace depth 0, equals the
delimiter ignoring letter case, begins at the start of the string or right
after a space, and is followed by a space or the end of the string. -/
theorem split_point_sound (s d : List Char) (hl : '{' ∉ d) (hr : '}' ∉ d) (e : Int)
    (he : e ∈ split_points s d) :
    ∃ p : Nat, e = (p : Int) ∧ brace_depth (s.take p) = 0 ∧
      (∀ k, k < d.length → tolower (charAt s (p + k)) = tolower (charAt d k)) ∧
      (p = 0 ∨ charAt s (p - 1) = ' ') ∧
      (charAt s (p + d.length) = ' ' ∨ p + d.length = s.length) := by
  obtain ⟨p, hp, _, hsp, hm, hfol⟩ := split_points_boundary s d e he
  have hdepth := split_points_depth s d hl hr e he
  rw [hp, Int.toNat_ofNat] at hdepth
  refine ⟨p, hp, hdepth, ?_, Or.inr hsp, Or.inl hfol⟩
  intro k hk
  rw [← hm k hk, tolower_idem]

/-- C4 (amended), at a concrete input: the delimiter of `a AND b`. -/
theorem split_point_sound_witness :
    '{' ∉ "and".toList ∧ '}' ∉ "and".toList ∧
      (2 : Int) ∈ split_points "a AND b".toList "and".toList ∧
      ∃ p : Nat, (2 : Int) = (p : Int) ∧ brace_depth ("a AND b".toList.take p) = 0 ∧
        (∀ k, k < "and".toList.length →
          tolower (charAt "a AND b".toList (p + k)) = tolower (charAt "and".toList k)) ∧
        (p = 0 ∨ charAt "a AND b".toList (p - 1) = ' ') ∧
        (charAt "a AND b".toList (p + "and".toList.length) = ' ' ∨
          p + "and".toList.length = "a AND b".toList.length) :=
  ⟨by decide, by decide, by decide,
    split_point_sound "a AND b".toList "and".toList (by decide) (by decide) 2 (by decide)⟩

/-- C5, at the failing input: in `a also b` the delimiter `also` stands
between two spaces at depth 0, yet the loop records no division and the list
is the single item `a also b`. -/
theorem split_list_misses_late_delimiter :
    split_points "a also b".toList "also".toList = [] ∧
      split_list_texts "a also b".toList "also".toList
        = some ([some "a also b".toList], []) := by
  decide

/-- C6: a delimiter occurrence that starts at offset 0 or ends at the last
byte of the string is never recognized; `and bob` and `bob and` each come
back as a single item. -/
theorem split_point_not_at_edge (s d : List Char) (e : Int) (he : e ∈ split_points s d) :
    (e ≠ 0 ∧ e + (d.length : Int) ≠ (s.length : Int)) ∧
      split_list_texts "and bob".toList "and".toList = some ([some "and bob".toList], []) ∧
      split_list_texts "bob and".toList "and".toList = some ([some "bob and".toList], []) := by
  refine ⟨?_, by decide, by decide⟩
  obtain ⟨p, hp, h1, _, _, hfol⟩ := split_points_boundary s d e he
  have := charAt_lt_of_space hfol
  omega

/-- C6 at a concrete input: of the three `and` in `and a and b and` only the
middle one is recognized. -/
theorem split_point_not_at_edge_witness :
    split_points "and a and b and".toList "and".toList = [6] ∧
      (((6 : Int) ≠ 0 ∧
          (6 : Int) + ("and".toList.length : Int) ≠ ("and a and b and".toList.length : Int)) ∧
        split_list_texts "and bob".toList "and".toList = some ([some "and bob".toList], []) ∧
        split_list_texts "bob and".toList "and".toList = some ([some "bob and".toList], [])) :=
  ⟨by decide,
    split_point_not_at_edge "and a and b and".toList "and".toList 6 (by decide)⟩

/-! ## Running the loop of bt_split_list to its end -/

theorem split_step_i_ge (s d : List Char) (st : SplitLoop) :
    st.i + 1 ≤ (split_step s d st).i := by
  unfold split_step
  split_ifs <;> simp

theorem split_loop_fuel_succ (s d : List Char) (m : Int) (fuel : Nat) :
    ∀ st : SplitLoop, (m - (st.i : Int)).toNat ≤ fuel →
      split_loop s d m (fuel + 1) st = split_loop s d m fuel st := by
  induction fuel with
  | zero =>
    intro st h
    have : ¬ (st.i : Int) < m := by omega
    simp [split_loop, this]
  | succ n ih =>
    intro st h
    show (if (st.i : Int) < m then split_loop s d m (n + 1) (split_step s d st) else st)
      = (if (st.i : Int) < m then split_loop s d m n (split_step s d st) else st)
    split_ifs with hg
    · apply ih
      have := split_step_i_ge s d st
      omega
    · rfl

theorem split_loop_fuel_add (s d : List Char) (m : Int) (k fuel : Nat) (st : SplitLoop)
    (h : (m - (st.i : Int)).toNat ≤ fuel) :
    split_loop s d m (fuel + k) st = split_loop s d m fuel st := by
  induction k with
  | zero => rfl
  | succ k ih =>
    rw [← Nat.add_assoc, split_loop_fuel_succ s d m (fuel + k) st (by omega), ih]

theorem split_loop_eq_run (s d : List Char) (fuel : Nat) (st : SplitLoop)
    (h : (maxoffs s d - (st.i : Int)).toNat ≤ fuel) :
    split_loop s d (maxoffs s d) fuel st = split_run s d st := by
  unfold split_run
  obtain ⟨k, rfl⟩ := Nat.exists_eq_add_of_le h
  exact split_loop_fuel_add s d _ k _ st (Nat.le_refl _)

theorem split_run_step {s d : List Char} {st : SplitLoop} (h : (st.i : Int) < maxoffs s d) :
    split_run s d st = split_run s d (split_step s d st) := by
  have hf : (maxoffs s d - (st.i : Int)).toNat
      = (maxoffs s d - (st.i : Int)).toNat - 1 + 1 := by omega
  have hge := split_step_i_ge s d st
  conv_lhs => unfold split_run
  rw [hf, split_loop, if_pos h]
  exact split_loop_eq_run s d _ _ (by omega)

theorem split_run_done {s d : List Char} {st : SplitLoop} (h : ¬ (st.i : Int) < maxoffs s d) :
    split_run s d st = st := by
  unfold split_run
  have : (maxoffs s d - (st.i : Int)).toNat = 0 := by omega
  rw [this]
  rfl

/-- The scan of `bt_split_list` runs its loop to the end: `string_len` passes
are enough for a non-empty delimiter. -/
theorem split_scan_eq_run {s d : List Char} (hd : 1 ≤ d.length) :
    split_scan s d = split_run s d split_init := by
  unfold split_scan
  apply split_loop_eq_run
  simp only [split_init, maxoffs]
  omega

/-- The loop has left its `while` when the scan returns. -/
theorem split_scan_done {s d : List Char} (hd : 1 ≤ d.length) :
    ¬ ((split_scan s d).i : Int) < maxoffs s d := by
  have key : ∀ (fuel : Nat) (st : SplitLoop), (maxoffs s d - (st.i : Int)).toNat ≤ fuel →
      ¬ ((split_loop s d (maxoffs s d) fuel st).i : Int) < maxoffs s d := by
    intro fuel
    induction fuel with
    | zero => intro st h; simp only [split_loop]; omega
    | succ n ih =>
      intro st h
      rw [split_loop]
      split_ifs with hg
      · apply ih
        have := split_step_i_ge s d st
        omega
      · exact hg
  apply key
  simp only [split_init, maxoffs]
  omega

/-- A pass that starts where no delimiter stands records no division. -/
theorem split_step_quiet {s d : List Char} {st : SplitLoop} (hl : '{' ∉ d) (hr : '}' ∉ d)
    (hlen : st.i < s.length) (hinv : SplitInv s d st) (hdep : SplitDepthInv s st)
    (hno : ¬ DelimAt s d (st.i - st.j)) :
    (split_step s d st).stop = st.stop ∧ (split_step s d st).start = st.start ∧
      (split_step s d st).i = st.i + 1 ∧
      st.i - st.j ≤ (split_step s d st).i - (split_step s d st).j := by
  have hinv' := split_step_inv hlen hinv
  have hdep' := split_step_depth_inv hl hr hinv hdep
  have hj := hinv.j_le
  unfold split_step at hinv' hdep' ⊢
  split_ifs at hinv' hdep' ⊢ with hc hsp
  · exfalso
    apply hno
    obtain ⟨p, hp, hb, _⟩ := hinv'.stops
      (((st.i + 1 : Nat) : Int) - (d.length : Int) - 1) (by simp)
    have hdz := hdep'.stops_depth
      (((st.i + 1 : Nat) : Int) - (d.length : Int) - 1) (by simp)
    have hb1 := hb.1
    have e1 : p = st.i - st.j := by omega
    have e2 : (((st.i + 1 : Nat) : Int) - (d.length : Int) - 1 + 1).toNat = st.i - st.j := by
      omega
    rw [e2] at hdz
    rw [e1] at hb
    exact ⟨hb, hdz⟩
  · refine ⟨rfl, rfl, rfl, ?_⟩
    simp only
    omega
  · refine ⟨rfl, rfl, rfl, ?_⟩
    simp only
    omega

/-- Across a stretch of the string where no delimiter stands the loop records
no division. -/
theorem split_run_quiet {s d : List Char} (hd : 1 ≤ d.length) (hl : '{' ∉ d) (hr : '}' ∉ d)
    (n : Nat) :
    ∀ st : SplitLoop, SplitInv s d st → SplitDepthInv s st →
      ((st.i + n : Nat) : Int) ≤ maxoffs s d →
      (∀ p, st.i - st.j ≤ p → p < st.i + n → ¬ DelimAt s d p) →
      ∃ st', split_run s d st = split_run s d st' ∧ SplitInv s d st' ∧ SplitDepthInv s st' ∧
        st'.i = st.i + n ∧ st'.stop = st.stop ∧ st'.start = st.start := by
  induction n with
  | zero => intro st hinv hdep _ _; exact ⟨st, rfl, hinv, hdep, rfl, rfl, rfl⟩
  | succ n ih =>
    intro st hinv hdep hm hno
    have hg : (st.i : Int) < maxoffs s d := by omega
    have hlen : st.i < s.length := by unfold maxoffs at hg; omega
    have hj := hinv.j_le
    obtain ⟨h1, h2, h3, h4⟩ :=
      split_step_quiet hl hr hlen hinv hdep (hno _ (Nat.le_refl _) (by omega))
    obtain ⟨st', e, i1, i2, i3, i4, i5⟩ := ih (split_step s d st)
      (split_step_inv hlen hinv) (split_step_depth_inv hl hr hinv hdep)
      (by rw [h3]; omega)
      (fun p hp hlt => hno p (by omega) (by rw [h3] at hlt; omega))
    exact ⟨st', by rw [split_run_step hg, e], i1, i2, by rw [i3, h3]; omega,
      by rw [i4, h1], by rw [i5, h2]⟩

/-- A space that is not part of a delimiter ends any match in progress and
leaves the loop at a word start. -/
theorem split_step_space {s d : List Char} {st : SplitLoop} (hsp : ' ' ∉ d)
    (hc : charAt s st.i = ' ') :
    split_step s d st = { st with i := st.i + 1, j := 0, inword := false } := by
  have hne : ¬ tolower (charAt s st.i) = charAt d st.j := by
    rw [hc]
    intro h
    rcases charAt_mem_or_NUL d st.j with h0 | hmem
    · rw [h0] at h; revert h; decide
    · rw [← h] at hmem; exact hsp (by simpa [tolower] using hmem)
  unfold split_step
  rw [if_neg (fun h => hne h.2.2), hc]
  simp [update_depth]

/-! ## Splitting a joined list -/

theorem charAt_append_left {a b : List Char} {i : Nat} (h : i < a.length) :
    charAt (a ++ b) i = charAt a i := by
  simp [charAt, List.getD_eq_getElem?_getD, List.getElem?_append_left h]

theorem charAt_append_right (a b : List Char) (i : Nat) :
    charAt (a ++ b) (a.length + i) = charAt b i := by
  simp [charAt, List.getD_eq_getElem?_getD, List.getElem?_append_right]

theorem intercalate_cons_cons (sep x y : List Char) (rest : List (List Char)) :
    sep.intercalate (x :: y :: rest) = x ++ sep ++ sep.intercalate (y :: rest) := by
  simp [List.intercalate, List.intersperse]

theorem length_le_intercalate (sep y : List Char) (rest : List (List Char)) :
    y.length ≤ (sep.intercalate (y :: rest)).length := by
  cases rest with
  | nil => simp [List.intercalate, List.intersperse]
  | cons z r => rw [intercalate_cons_cons]; simp

/-- The matching of a whole delimiter, byte by byte, ending in a division. -/
theorem split_run_match {s d : List Char} {p : Nat} (hl : '{' ∉ d) (hr : '}' ∉ d)
    (hm : ∀ k, k < d.length → tolower (charAt s (p + k)) = charAt d k)
    (hsp : charAt s (p + d.length) = ' ')
    (hM : ((p + d.length : Nat) : Int) ≤ maxoffs s d) (n : Nat) :
    ∀ (k : Nat) (st : SplitLoop), k + n + 1 = d.length → st.i = p + k → st.j = k →
      st.depth = 0 → st.inword = false → SplitInv s d st → SplitDepthInv s st →
      ∃ st', split_run s d st = split_run s d st' ∧ SplitInv s d st' ∧ SplitDepthInv s st' ∧
        st'.i = p + d.length + 1 ∧ st'.j = 0 ∧ st'.depth = 0 ∧
        st'.start = st.start ++ [((p + d.length + 1 : Nat) : Int)] ∧
        st'.stop = st.stop ++ [(p : Int) - 1] := by
  induction n with
  | zero =>
    intro k st hk hi hj hd hw hinv hdep
    have hg : (st.i : Int) < maxoffs s d := by omega
    have hlen : st.i < s.length := by unfold maxoffs at hg; omega
    have hinv' := split_step_inv hlen hinv
    have hdep' := split_step_depth_inv hl hr hinv hdep
    have hstep : split_step s d st =
        { st with
          i := st.i + 2
          j := 0
          stop := st.stop ++ [((st.i + 1 : Nat) : Int) - (d.length : Int) - 1]
          start := st.start ++ [((st.i + 2 : Nat) : Int)] } := by
      unfold split_step
      have e1 : st.i + 1 = p + d.length := by omega
      rw [if_pos ⟨hd, hw, by rw [hi, hj]; exact hm k (by omega)⟩,
        if_pos ⟨by omega, by rw [e1]; exact hsp⟩]
    rw [hstep] at hinv' hdep'
    refine ⟨_, by rw [split_run_step hg, hstep], hinv', hdep', ?_, rfl, hd, ?_, ?_⟩
    · simp only; omega
    · simp only [List.append_cancel_left_eq, List.cons.injEq, and_true]; omega
    · simp only [List.append_cancel_left_eq, List.cons.injEq, and_true]; omega
  | succ n ih =>
    intro k st hk hi hj hd hw hinv hdep
    have hg : (st.i : Int) < maxoffs s d := by omega
    have hlen : st.i < s.length := by unfold maxoffs at hg; omega
    have hinv' := split_step_inv hlen hinv
    have hdep' := split_step_depth_inv hl hr hinv hdep
    have hstep : split_step s d st = { st with i := st.i + 1, j := st.j + 1 } := by
      unfold split_step
      rw [if_pos ⟨hd, hw, by rw [hi, hj]; exact hm k (by omega)⟩,
        if_neg (fun h => by omega)]
    obtain ⟨st', e, i1, i0, i2, i3, i4, i5, i6⟩ := ih (k + 1) (split_step s d st) (by omega)
      (by rw [hstep]; simp only; omega) (by rw [hstep]; simp only; omega)
      (by rw [hstep]; exact hd) (by rw [hstep]; exact hw) hinv' hdep'
    rw [hstep] at i5 i6
    exact ⟨st', by rw [split_run_step hg, e], i1, i0, i2, i3, i4, i5, i6⟩

/-- Inside an item that does not contain the delimiter as a word, and that is
followed by a space or by the end of the string, no delimiter stands. -/
theorem item_no_delim {d pre x suf : List Char} (hsp : ' ' ∉ d)
    (hpre : brace_depth pre = 0) (hx : ¬ HasWord d x) (hsuf : suf = [] ∨ charAt suf 0 = ' ')
    (p : Nat) (h1 : pre.length ≤ p) (h2 : p ≤ pre.length + x.length) :
    ¬ DelimAt (pre ++ x ++ suf) d p := by
  rintro ⟨⟨hp1, hbefore, hmatch, hafter⟩, hdepth⟩
  apply hx
  obtain ⟨q, rfl⟩ := Nat.exists_eq_add_of_le h1
  have hq : q ≤ x.length := by omega
  have hnsp : ∀ k, k < d.length → charAt (pre ++ x ++ suf) (pre.length + q + k) ≠ ' ' := by
    intro k hk hc
    have := hmatch k hk
    rw [hc] at this
    have hmem : charAt d k ∈ d := by
      rw [charAt_eq_getElem hk]; exact List.getElem_mem hk
    rw [← this] at hmem
    exact hsp (by simpa [tolower] using hmem)
  have hfit : q + d.length ≤ x.length := by
    rcases hsuf with hnil | hhead
    · subst hnil
      have := charAt_lt_of_space hafter
      simp at this
      omega
    · by_contra hlt
      apply hnsp (x.length - q) (by omega)
      have e : pre.length + q + (x.length - q) = (pre ++ x).length + 0 := by simp; omega
      rw [e, charAt_append_right]
      exact hhead
  refine ⟨q, by omega, hfit, ?_, ?_, ?_, ?_⟩
  · have e : (pre ++ x ++ suf).take (pre.length + q) = pre ++ x.take q := by
      rw [List.append_assoc, List.take_append, List.take_append_of_le_length hq]
    rw [e, brace_depth_append, hpre] at hdepth
    simpa using hdepth
  · by_cases hq0 : q = 0
    · exact Or.inl hq0
    · right
      have e : pre.length + q - 1 = pre.length + (q - 1) := by omega
      rw [e, List.append_assoc, charAt_append_right,
        charAt_append_left (by omega)] at hbefore
      exact hbefore
  · intro k hk
    have := hmatch k hk
    rw [Nat.add_assoc, List.append_assoc, charAt_append_right,
      charAt_append_left (by omega)] at this
    exact this
  · by_cases hend : q + d.length = x.length
    · exact Or.inl hend
    · right
      rw [Nat.add_assoc, List.append_assoc, charAt_append_right,
        charAt_append_left (by omega)] at hafter
      exact hafter

theorem brace_depth_of_no_brace (t : List Char) (hl : '{' ∉ t) (hr : '}' ∉ t) :
    brace_depth t = 0 := by
  induction t with
  | nil => rfl
  | cons c t ih =>
    have h1 : c ≠ '{' := fun e => hl (by simp [e])
    have h2 : c ≠ '}' := fun e => hr (by simp [e])
    have e : c :: t = [c] ++ t := rfl
    rw [e, brace_depth_append, ih (fun h => hl (by simp [h])) (fun h => hr (by simp [h]))]
    simp [brace_depth, update_depth, h1, h2]

/-- The loop over a joined list: it records one division per separator, at
the separator's place. -/
theorem split_run_items {s d : List Char} (hd : 1 ≤ d.length) (hl : '{' ∉ d) (hr : '}' ∉ d)
    (hsp : ' ' ∉ d) (hlow : ∀ k, k < d.length → tolower (charAt d k) = charAt d k) :
    ∀ xs : List (List Char), xs ≠ [] →
      (∀ x ∈ xs, brace_depth x = 0 ∧ ¬ HasWord d x ∧ d.length ≤ x.length + 2) →
      ∀ (pre : List Char) (st : SplitLoop), s = pre ++ (spaced d).intercalate xs →
        brace_depth pre = 0 → SplitInv s d st → SplitDepthInv s st →
        st.i = pre.length → st.j = 0 →
        (split_run s d st).start = st.start ++ starts_of d.length pre.length xs ∧
          (split_run s d st).stop = st.stop ++ stops_of d.length pre.length xs := by
  intro xs
  induction xs with
  | nil => intro h; exact absurd rfl h
  | cons x rest ih =>
    intro _ hgood pre st hs hpre hinv hdep hi hj
    obtain ⟨hx0, hxw, _⟩ := hgood x (by simp)
    cases rest with
    | nil =>
      have hs' : s = pre ++ x ++ [] := by
        rw [hs]; simp [List.intercalate, List.intersperse]
      simp only [starts_of, stops_of, List.append_nil]
      by_cases hg : (st.i : Int) < maxoffs s d
      · obtain ⟨st', e, _, _, i3, i4, i5⟩ := split_run_quiet hd hl hr
          (maxoffs s d - (st.i : Int)).toNat st hinv hdep (by omega)
          (by
            intro p hp1 hp2
            rw [hs']
            apply item_no_delim hsp hpre hxw (Or.inl rfl) p (by omega)
            have : s.length = pre.length + x.length := by rw [hs']; simp
            unfold maxoffs at hg hp2
            omega)
        rw [e, split_run_done (by omega)]
        exact ⟨i5, i4⟩
      · rw [split_run_done hg]
        exact ⟨rfl, rfl⟩
    | cons y r =>
      obtain ⟨_, _, hylen⟩ := hgood y (by simp)
      have hJ := length_le_intercalate (spaced d) y r
      have hs1 : s = pre ++ x ++ (spaced d ++ (spaced d).intercalate (y :: r)) := by
        rw [hs, intercalate_cons_cons]; simp
      have hlen : s.length = pre.length + x.length + (d.length + 2)
          + ((spaced d).intercalate (y :: r)).length := by
        rw [hs1]; simp [spaced]; omega
      have hM : maxoffs s d = (s.length : Int) - (d.length : Int) + 1 := rfl
      -- the item
      obtain ⟨st1, e1, inv1, dep1, i1, stop1, start1⟩ := split_run_quiet hd hl hr x.length st
        hinv hdep (by omega)
        (by
          intro p hp1 hp2
          rw [hs1]
          exact item_no_delim hsp hpre hxw (Or.inr (by simp [spaced, charAt])) p
            (by omega) (by omega))
      -- the space after it
      have hc1 : charAt s st1.i = ' ' := by
        have e : s = (pre ++ x) ++ (spaced d ++ (spaced d).intercalate (y :: r)) := by
          rw [hs1]
        have e' : st1.i = (pre ++ x).length + 0 := by rw [i1, hi]; simp
        rw [e, e', charAt_append_right]
        simp [spaced, charAt]
      have hg1 : (st1.i : Int) < maxoffs s d := by omega
      have hstep1 := @split_step_space s d st1 hsp hc1
      have inv2 := split_step_inv (by omega) inv1
      have dep2 := split_step_depth_inv hl hr inv1 dep1
      rw [hstep1] at inv2 dep2
      have hdepth1 : st1.depth = 0 := by
        have e : s.take st1.i = pre ++ x := by
          rw [hs1, i1, hi, ← List.length_append, List.take_left']
          rfl
        rw [dep1.depth_i, e, brace_depth_append, hpre, hx0]
        rfl
      -- the delimiter
      obtain ⟨st3, e3, inv3, dep3, i3, j3, _, start3, stop3⟩ :=
        split_run_match (s := s) (d := d) (p := pre.length + x.length + 1) hl hr
          (by
            intro k hk
            have e : s = (pre ++ x ++ [' ']) ++ (d ++ ([' '] ++ (spaced d).intercalate (y :: r))) := by
              rw [hs1]; simp [spaced]
            have e' : pre.length + x.length + 1 + k = (pre ++ x ++ [' ']).length + k := by
              simp; omega
            rw [e, e', charAt_append_right, charAt_append_left hk]
            exact hlow k hk)
          (by
            have e : s = (pre ++ x ++ [' '] ++ d) ++ (' ' :: (spaced d).intercalate (y :: r)) := by
              rw [hs1]; simp [spaced]
            have e' : pre.length + x.length + 1 + d.length
                = (pre ++ x ++ [' '] ++ d).length + 0 := by simp; omega
            rw [e, e', charAt_append_right]
            simp [charAt])
          (by omega) (d.length - 1) 0
          { st1 with i := st1.i + 1, j := 0, inword := false }
          (by omega) (by simp only; omega) rfl hdepth1 rfl inv2 dep2
      obtain ⟨r1, r2⟩ := ih (by simp) (fun z hz => hgood z (by simp [hz]))
        (pre ++ x ++ spaced d) st3 (by rw [hs1]; simp)
        (by
          rw [brace_depth_append, brace_depth_append, hpre, hx0,
            brace_depth_of_no_brace (spaced d) (by simp [spaced, hl]) (by simp [spaced, hr])]
          rfl)
        inv3 dep3 (by rw [i3]; simp [spaced]; omega) j3
      have elen : (pre ++ x ++ spaced d).length = pre.length + x.length + d.length + 2 := by
        simp [spaced]; omega
      rw [elen] at r1 r2
      rw [e1, split_run_step hg1, hstep1, e3, r1, r2, start3, stop3]
      simp only [starts_of, stops_of, start1, stop1, List.append_assoc, List.singleton_append,
        List.append_cancel_left_eq, List.cons.injEq, and_true]
      constructor <;> omega

theorem zip_starts_stops (d : List Char) :
    ∀ (xs : List (List Char)) (off : Nat), xs ≠ [] →
      List.zip ((off : Int) :: starts_of d.length off xs)
          (stops_of d.length off xs ++ [((off + ((spaced d).intercalate xs).length : Nat) : Int)])
        = item_bounds d.length off xs := by
  intro xs
  induction xs with
  | nil => intro _ h; exact absurd rfl h
  | cons x rest ih =>
    intro off _
    cases rest with
    | nil => simp [starts_of, stops_of, item_bounds, List.intercalate, List.intersperse]
    | cons y r =>
      have e : off + ((spaced d).intercalate (x :: y :: r)).length
          = off + x.length + d.length + 2 + ((spaced d).intercalate (y :: r)).length := by
        rw [intercalate_cons_cons]; simp [spaced]; omega
      simp only [starts_of, stops_of, item_bounds, List.cons_append, List.zip_cons_cons, e]
      rw [ih (off + x.length + d.length + 2) (by simp)]

theorem stops_of_length (dl : Nat) :
    ∀ (xs : List (List Char)) (off : Nat), xs ≠ [] →
      (stops_of dl off xs).length + 1 = xs.length := by
  intro xs
  induction xs with
  | nil => intro _ h; exact absurd rfl h
  | cons x rest ih =>
    intro off _
    cases rest with
    | nil => simp [stops_of]
    | cons y r =>
      simp only [stops_of, List.length_cons]
      rw [ih (off + x.length + dl + 2) (by simp)]
      simp

theorem cstr_at_append (A x t : List Char) (h : NUL ∉ x) :
    cstr_at (A ++ (x ++ NUL :: t)) A.length = x := by
  unfold cstr_at
  rw [List.drop_left]
  exact takeWhile_ne_NUL_append x t h

/-- The second loop of `bt_split_list` on a joined list of non-empty items:
no warning, and every item reads back as it was. -/
theorem split_fill_items (d : List Char) :
    ∀ xs : List (List Char), xs ≠ [] → (∀ x ∈ xs, x ≠ [] ∧ NUL ∉ x) →
      ∀ (i : Nat) (A : List Char),
        ∃ B items,
          split_fill (item_bounds d.length A.length xs) i
              (A ++ ((spaced d).intercalate xs ++ [NUL])) = .ok (A ++ B, items, []) ∧
            items.map (fun it => it.map (cstr_at (A ++ B))) = xs.map some := by
  intro xs
  induction xs with
  | nil => intro h; exact absurd rfl h
  | cons x rest ih =>
    intro _ hgood i A
    obtain ⟨hxne, hxnul⟩ := hgood x (by simp)
    have hxpos : 0 < x.length := List.length_pos.2 hxne
    have hgt : ((A.length + x.length : Nat) : Int) > (A.length : Int) := by omega
    cases rest with
    | nil =>
      refine ⟨x ++ [NUL], [some A.length], ?_, ?_⟩
      · have hset : (A ++ (x ++ [NUL])).set (A.length + x.length) NUL = A ++ (x ++ [NUL]) := by
          rw [← List.append_assoc, List.set_append_right _ _ (by simp)]
          simp
        have eJ : (spaced d).intercalate [x] = x := by
          simp [List.intercalate, List.intersperse]
        simp only [item_bounds, split_fill, hgt, if_true, Int.toNat_ofNat, eJ, hset]
      · simp only [List.map_cons, List.map_nil, Option.map_some']
        rw [cstr_at_append A x [] hxnul]
    | cons y r =>
      have e1 : A ++ ((spaced d).intercalate (x :: y :: r) ++ [NUL])
          = (A ++ x) ++ (' ' :: (d ++ [' '] ++ ((spaced d).intercalate (y :: r) ++ [NUL]))) := by
        rw [intercalate_cons_cons]; simp [spaced]
      have hset : (A ++ ((spaced d).intercalate (x :: y :: r) ++ [NUL])).set
            (A.length + x.length) NUL
          = (A ++ x ++ NUL :: (d ++ [' '])) ++ ((spaced d).intercalate (y :: r) ++ [NUL]) := by
        rw [e1, List.set_append_right _ _ (by simp)]
        simp
      have elen : (A ++ x ++ NUL :: (d ++ [' '])).length = A.length + x.length + d.length + 2 := by
        simp; omega
      obtain ⟨B, items, hfill, htexts⟩ := ih (by simp) (fun z hz => hgood z (by simp [hz]))
        (i + 1) (A ++ x ++ NUL :: (d ++ [' ']))
      rw [elen] at hfill
      have eB : A ++ x ++ NUL :: (d ++ [' ']) ++ B = A ++ (x ++ NUL :: (d ++ [' '] ++ B)) := by
        simp
      refine ⟨x ++ NUL :: (d ++ [' '] ++ B), some A.length :: items, ?_, ?_⟩
      · simp only [item_bounds, split_fill, hgt, if_true, Int.toNat_ofNat, hset, hfill, eB]
      · rw [eB] at htexts
        simp only [List.map_cons, Option.map_some', htexts]
        rw [cstr_at_append A x _ hxnul]

/-- C1: split undoes join for the delimiter `and`.  For every list of n >= 1
non-empty items (C strings, so free of NUL) that have as many `{` as `}` and
do not contain the word `and`, in any letter case, as a space-delimited word
at brace depth 0, `bt_split_list` applied to the items joined with ` and `
returns without a warning, with `num_items = n` and exactly those items in
the same order.  (Whitespace-collapsed items are a special case: the proof
does not need that hypothesis.) -/
theorem split_list_join_and (items : List (List Char)) (hne : items ≠ [])
    (hitems : ∀ x ∈ items,
      x ≠ [] ∧ NUL ∉ x ∧ brace_depth x = 0 ∧ ¬ HasWord "and".toList x) :
    ∃ l : bt_stringlist,
      bt_split_list (" and ".toList.intercalate items) "and".toList = .ok (l, []) ∧
        l.num_items = some items.length ∧ l.texts = items.map some := by
  have hsep : " and ".toList = spaced "and".toList := by decide
  have hd : 1 ≤ "and".toList.length := by decide
  have hd3 : "and".toList.length = 3 := by decide
  have hl : '{' ∉ "and".toList := by decide
  have hr : '}' ∉ "and".toList := by decide
  have hsp : ' ' ∉ "and".toList := by decide
  have hlow : ∀ k, k < "and".toList.length →
      tolower (charAt "and".toList k) = charAt "and".toList k := by decide
  rw [hsep]
  generalize hs : (spaced "and".toList).intercalate items = s
  obtain ⟨hstart, hstop⟩ := split_run_items (s := s) hd hl hr hsp hlow items hne
    (fun x hx => ⟨(hitems x hx).2.2.1, (hitems x hx).2.2.2, by
      have := List.length_pos.2 (hitems x hx).1
      omega⟩)
    [] split_init (by rw [hs]; rfl) rfl (split_init_inv s _) (split_init_depth_inv s) rfl rfl
  rw [← split_scan_eq_run hd] at hstart hstop
  simp only [List.length_nil, split_init, List.nil_append, List.singleton_append]
    at hstart hstop
  have hzip := zip_starts_stops "and".toList items 0 hne
  obtain ⟨B, its, hfill, htexts⟩ := split_fill_items "and".toList items hne
    (fun x hx => ⟨(hitems x hx).1, (hitems x hx).2.1⟩) 0 []
  simp only [List.length_nil, List.nil_append, hs] at hfill htexts
  simp only [Nat.zero_add, Nat.cast_zero, hs] at hzip
  refine ⟨{ string := B, num_items := some ((split_scan s "and".toList).stop.length + 1),
            items := its }, ?_, ?_, htexts⟩
  · unfold bt_split_list
    rw [if_neg (by omega)]
    simp only [hstart, hstop, hzip, hfill]
  · simp only [hstop]
    rw [stops_of_length _ items 0 hne]

/-- C1 at a concrete input: `john and jane and al` gives `john`, `jane`, `al`. -/
theorem split_list_join_and_witness :
    (["john".toList, "jane".toList, "al".toList] ≠ [] ∧
      (∀ x ∈ ["john".toList, "jane".toList, "al".toList],
        x ≠ [] ∧ NUL ∉ x ∧ brace_depth x = 0 ∧ ¬ HasWord "and".toList x) ∧
      " and ".toList.intercalate ["john".toList, "jane".toList, "al".toList]
        = "john and jane and al".toList) ∧
    ∃ l : bt_stringlist,
      bt_split_list
          (" and ".toList.intercalate ["john".toList, "jane".toList, "al".toList])
          "and".toList = .ok (l, []) ∧
        l.num_items = some ["john".toList, "jane".toList, "al".toList].length ∧
        l.texts = ["john".toList, "jane".toList, "al".toList].map some :=
  ⟨⟨by decide, by decide, by decide⟩,
    split_list_join_and ["john".toList, "jane".toList, "al".toList] (by decide) (by decide)⟩

/-- What the second loop of `bt_split_list` returns: an item is `NULL`
exactly where `stop < start`, and there is one warning per `NULL` item. -/
theorem split_fill_ok :
    ∀ (pairs : List (Int × Int)) (i : Nat) (buf buf' : List Char) (items : List (Option Nat))
      (diags : List Diag), split_fill pairs i buf = .ok (buf', items, diags) →
      items = pairs.map (fun p => if p.2 > p.1 then some p.1.toNat else none) ∧
        diags = (items.enumFrom i).filterMap item_warning := by
  intro pairs
  induction pairs with
  | nil =>
    intro i buf buf' items diags h
    simp only [split_fill, Except.ok.injEq, Prod.mk.injEq] at h
    obtain ⟨_, h2, h3⟩ := h
    subst h2 h3
    simp
  | cons p rest ih =>
    intro i buf buf' items diags h
    obtain ⟨start, stop⟩ := p
    simp only [split_fill] at h
    split_ifs at h with h1 h2
    · split at h
      · rename_i b its ds heq
        simp only [Except.ok.injEq, Prod.mk.injEq] at h
        obtain ⟨_, h2, h3⟩ := h
        obtain ⟨e1, e2⟩ := ih _ _ _ _ _ heq
        subst h2 h3
        simp [h1, item_warning, ← e1, ← e2]
      · exact Except.noConfusion h
    · split at h
      · rename_i b its ds heq
        simp only [Except.ok.injEq, Prod.mk.injEq] at h
        obtain ⟨_, h2, h3⟩ := h
        obtain ⟨e1, e2⟩ := ih _ _ _ _ _ heq
        subst h2 h3
        simp [h1, item_warning, ← e1, ← e2]
      · exact Except.noConfusion h

/-- C3: in every list `bt_split_list` returns, the item between two adjacent
recognized delimiters (the second starting right after the space that follows
the first) is absent; the warnings are exactly one per absent item, in order,
each naming the item's 1-based position, and none for a present item.  For
`al and and bob` the result is `al`, absent, `bob` with the one warning for
item 2. -/
theorem split_list_empty_items (s d : List Char) (l : bt_stringlist) (diags : List Diag)
    (h : bt_split_list s d = .ok (l, diags)) :
    (∀ (k : Nat) (a : Int), (split_points s d)[k]? = some a →
        (split_points s d)[k + 1]? = some (a + (d.length : Int) + 1) →
        l.items[k + 1]? = some none) ∧
      diags = l.items.enum.filterMap item_warning ∧
      split_list_texts "al and and bob".toList "and".toList
        = some ([some "al".toList, none, some "bob".toList], [Diag.item_empty 2]) := by
  refine ⟨?_, ?_, by decide⟩
  all_goals
    unfold bt_split_list at h
    split_ifs at h with hd0
    simp only at h
    split at h
    · rename_i buf items ds heq
      simp only [Except.ok.injEq, Prod.mk.injEq] at h
      obtain ⟨hl, hds⟩ := h
      obtain ⟨e1, e2⟩ := split_fill_ok _ _ _ _ _ _ heq
      subst hl hds
      simp only
      first
      | exact e2
      | intro k a hk hk1
        have hstarts := (split_scan_inv (s := s) (d := d) (by omega)).starts
        simp only [split_points, List.getElem?_map, Option.map_eq_some'] at hk hk1
        obtain ⟨x, hx, rfl⟩ := hk
        obtain ⟨y, hy, hxy⟩ := hk1
        have hlt : k + 1 < (split_scan s d).stop.length := (List.getElem?_eq_some.1 hy).1
        have hp : ((split_scan s d).start.zip ((split_scan s d).stop ++ [(s.length : Int)]))[k + 1]?
            = some (x + (d.length : Int) + 2, y) := by
          rw [List.getElem?_zip_eq_some, hstarts]
          constructor
          · simp [hx]
          · simp only
            rw [List.getElem?_append_left hlt]
            exact hy
        rw [e1, List.getElem?_map, hp]
        simp only [Option.map_some', Option.some.injEq, ite_eq_right_iff]
        intro hgt
        omega
    · exact Except.noConfusion h

/-- C3 at a concrete input: the list `bt_split_list` returns for
`al and and bob`, whose second item is absent. -/
theorem split_list_empty_items_witness :
    bt_split_list "al and and bob".toList "and".toList
        = .ok ({ string := "al".toList ++ NUL :: "and and bob".toList ++ [NUL],
                 num_items := some 3, items := [some 0, none, some 11] },
               [Diag.item_empty 2]) ∧
      ((∀ (k : Nat) (a : Int), (split_points "al and and bob".toList "and".toList)[k]? = some a →
          (split_points "al and and bob".toList "and".toList)[k + 1]?
            = some (a + ("and".toList.length : Int) + 1) →
          [some 0, none, some 11][k + 1]? = some (none : Option Nat)) ∧
        [Diag.item_empty 2]
          = [some 0, none, some 11].enum.filterMap item_warning ∧
        split_list_texts "al and and bob".toList "and".toList
          = some ([some "al".toList, none, some "bob".toList], [Diag.item_empty 2])) :=
  ⟨by decide,
    split_list_empty_items "al and and bob".toList "and".toList
      { string := "al".toList ++ NUL :: "and and bob".toList ++ [NUL],
        num_items := some 3, items := [some 0, none, some 11] }
      [Diag.item_empty 2] (by decide)⟩

/-! ## Claims about bt_split_name: concrete names -/

/-- C7, as stated, fails: for `Jean de la Fontaine` the first component is
not empty. -/
theorem split_name_jean_first_nonempty :
    (split_name_parts "Jean de la Fontaine".toList).map (fun r => r.1.first) ≠ some [] := by
  decide

/-- C7 (amended): `bt_split_name("Jean de la Fontaine")` returns
first = [Jean], von = [de, la], last = [Fontaine], jr = [], without a warning. -/
theorem split_name_jean_de_la_fontaine :
    split_name_parts "Jean de la Fontaine".toList
      = some ({ first := [some "Jean".toList]
                von := [some "de".toList, some "la".toList]
                last := [some "Fontaine".toList]
                jr := [] }, []) := by
  decide

/-- C8, at the failing input: for `{a,b,c,d} de Smith`, whose tokens are
`{a,b,c,d}`, `de` and `Smith`, the first component comes back as `{a,b,c d}`,
with the warning about too many commas. -/
theorem split_name_braced_commas_von :
    (find_tokens ("\x7ba,b,c,d\x7d de Smith".toList ++ [NUL]) 0).toOption.map (fun r => r.1.texts)
        = some [some "\x7ba,b,c,d\x7d".toList, some "de".toList, some "Smith".toList] ∧
      split_name_parts "\x7ba,b,c,d\x7d de Smith".toList
        = some ({ first := [some "\x7ba,b,c d\x7d".toList]
                  von := [some "de".toList]
                  last := [some "Smith".toList]
                  jr := [] }, [Diag.too_many_commas]) := by
  decide

/-- C9, at the failing input: for `{a,b,c,d} Smith`, whose tokens are
`{a,b,c,d}` and `Smith`, the first component comes back as `{a,b,c d}`, with
the warning about too many commas. -/
theorem split_name_braced_commas_first :
    (find_tokens ("\x7ba,b,c,d\x7d Smith".toList ++ [NUL]) 0).toOption.map (fun r => r.1.texts)
        = some [some "\x7ba,b,c,d\x7d".toList, some "Smith".toList] ∧
      split_name_parts "\x7ba,b,c,d\x7d Smith".toList
        = some ({ first := [some "\x7ba,b,c d\x7d".toList]
                  von := []
                  last := [some "Smith".toList]
                  jr := [] }, [Diag.too_many_commas]) := by
  decide

/-- C10, as stated, fails: the comma-free name `a  b`, with two spaces, has
an empty token, and `find_lc_tokens` reads through its `NULL` pointer. -/
theorem split_name_double_space_faults :
    bt_split_name (some "a  b".toList) = .error Fault.null_dereference := by
  decide

/-! ## bt_split_name on names without commas -/

theorem strlen_append_NUL (s t : List Char) (h : NUL ∉ s) : strlen (s ++ NUL :: t) = s.length := by
  unfold strlen
  rw [takeWhile_ne_NUL_append s t h]

theorem charAt_mem {s : List Char} {i : Nat} (h : i < s.length) : charAt s i ∈ s := by
  rw [charAt_eq_getElem h]
  exact List.getElem_mem h

theorem foldl_fixed {α β : Type} (f : α → β → α) (a : α) :
    ∀ l : List β, (∀ b ∈ l, f a b = a) → l.foldl f a = a := by
  intro l
  induction l with
  | nil => intro _; rfl
  | cons b l ih =>
    intro h
    rw [List.foldl_cons, h b (by simp)]
    exact ih (fun c hc => h c (by simp [hc]))

/-- On a name without any comma `find_commas` returns 0 and changes nothing. -/
theorem find_commas_of_no_comma (s : List Char) (hnul : NUL ∉ s) (hc : ',' ∉ s) :
    find_commas (s ++ [NUL]) 2
      = .ok { name := s ++ [NUL], num_commas := 0, commas := [], diags := [] } := by
  have hscan : comma_scan 2 s.length (s ++ [NUL])
      = { name := s ++ [NUL], num_commas := 0, warned := false, diags := [] } := by
    unfold comma_scan
    apply foldl_fixed
    intro i hi
    have hlt : i < s.length := List.mem_range.1 hi
    unfold comma_scan_step
    rw [if_neg]
    rintro ⟨_, h⟩
    simp only at h
    rw [charAt_append_left hlt] at h
    exact hc (h ▸ charAt_mem hlt)
  unfold find_commas
  simp only [strlen_append_NUL s [] hnul, hscan]
  rfl

theorem charAt_set_ne (l : List Char) (i k : Nat) (c : Char) (h : k ≠ i) :
    charAt (l.set i c) k = charAt l k := by
  simp only [charAt, List.getD_eq_getElem?_getD]
  rw [List.getElem?_set_ne (Ne.symm h)]

/-- One pass of the loop of `find_tokens` over a comma-free, collapsed name. -/
theorem token_step_inv {s : List Char} (hc : ',' ∉ s) (hcol : Collapsed s)
    {st : TokenLoop} (hlt : st.i < s.length) (h : TokenInv (s ++ [NUL]) st) :
    ∃ st', token_step 0 st = .ok st' ∧ TokenInv (s ++ [NUL]) st' ∧ st'.i = st.i + 1 := by
  obtain ⟨hname, hsome, hnc, hbd, hne, hfirst⟩ := h
  have hcur : charAt st.name st.i = charAt s st.i := by
    rw [hname st.i (Or.inl (Nat.le_refl _)), charAt_append_left hlt]
  have hnc' : charAt s st.i ≠ ',' := fun e => hc (e ▸ charAt_mem hlt)
  have hbuf : ∀ k, k < s.length → charAt (s ++ [NUL]) k = charAt s k :=
    fun k hk => charAt_append_left hk
  unfold token_step
  by_cases hsp : st.depth = 0 ∧ charAt s st.i = ' '
  · -- a space at depth 0 ends a token
    obtain ⟨hd0, hspace⟩ := hsp
    have hnb : st.in_boundary = false := by
      by_contra hb
      have hb' : st.in_boundary = true := by simpa using hb
      rcases hbd hb' with h0 | hprev
      · rw [h0] at hspace; exact hcol.1 hspace
      · have h1 : 1 ≤ st.i := by
          by_contra h0
          have : st.i = 0 := by omega
          rw [this] at hspace; exact hcol.1 hspace
        rw [hbuf _ (by omega)] at hprev
        have := hcol.2.2 (st.i - 1) (by omega) hprev
        rw [Nat.sub_add_cancel h1] at this
        exact this hspace
    have hi1 : 1 ≤ st.i := by
      by_contra h0
      have := (hfirst (by omega)).1
      rw [hnb] at this
      exact Bool.noConfusion this
    have hne' : ¬ charAt st.name st.i = ',' := by rw [hcur]; exact hnc'
    have hstep : token_step 0 st = .ok
        { i := st.i + 1
          in_boundary := true
          depth := update_depth (charAt (st.name.set st.i NUL) st.i) st.depth
          items := st.items
          comma_token := st.comma_token
          name := st.name.set st.i NUL } := by
      unfold token_step
      rw [if_pos ⟨hd0, Or.inl (by rw [hcur]; exact hspace)⟩, if_neg hne']
      simp [hnb]
    refine ⟨_, hstep, ⟨?_, ?_, hnc, ?_, ?_, ?_⟩, rfl⟩
    · intro k hk
      simp only at hk ⊢
      by_cases hki : k = st.i
      · exfalso
        rcases hk with hk | hk
        · omega
        · rw [hki, hbuf _ hlt] at hk; exact hk hspace
      · rw [charAt_set_ne _ _ _ _ hki]
        apply hname
        rcases hk with hk | hk
        · exact Or.inl (by omega)
        · exact Or.inr hk
    · exact hsome
    · intro _
      right
      simp only [Nat.add_sub_cancel]
      rw [hbuf _ hlt]; exact hspace
    · intro _
      exact hne hi1
    · intro h0; simp at h0
  · -- inside a token
    have hcond : ¬ (st.depth = 0 ∧ (charAt st.name st.i = ' ' ∨ charAt st.name st.i = ',')) := by
      rw [hcur]
      rintro ⟨h1, h2 | h2⟩
      · exact hsp ⟨h1, h2⟩
      · exact hnc' h2
    rw [if_neg hcond]
    refine ⟨_, rfl, ⟨?_, ?_, hnc, ?_, ?_, ?_⟩, rfl⟩
    · intro k hk
      apply hname
      rcases hk with hk | hk
      · exact Or.inl (by simp only at hk; omega)
      · exact Or.inr hk
    · intro it hit
      simp only at hit
      split_ifs at hit
      · rcases List.mem_append.1 hit with h1 | h1
        · exact hsome it h1
        · simp only [List.mem_singleton] at h1
          rw [h1]; simp
      · exact hsome it hit
    · intro hb; simp at hb
    · intro _
      simp only
      split_ifs with hpush
      · simp
      · apply hne
        by_contra h0
        exact hpush ⟨(hfirst (by omega)).2, (hfirst (by omega)).1⟩
    · intro h0; simp at h0

theorem token_loop_inv {s : List Char} (hc : ',' ∉ s) (hcol : Collapsed s) (fuel : Nat) :
    ∀ st : TokenLoop, TokenInv (s ++ [NUL]) st → st.i + fuel = s.length →
      ∃ st', token_loop s.length 0 fuel st = .ok st' ∧ TokenInv (s ++ [NUL]) st' ∧
        st'.i = s.length := by
  induction fuel with
  | zero => intro st h hi; exact ⟨st, rfl, h, by omega⟩
  | succ n ih =>
    intro st h hi
    obtain ⟨st1, e1, inv1, i1⟩ := token_step_inv hc hcol (by omega) h
    obtain ⟨st', e, inv', i'⟩ := ih st1 inv1 (by omega)
    refine ⟨st', ?_, inv', i'⟩
    unfold token_loop
    rw [if_pos (by omega), e1]
    exact e

theorem strlen_ne_zero {buf : List Char} (h : charAt buf 0 ≠ NUL) : strlen buf ≠ 0 := by
  cases buf with
  | nil => exact absurd rfl h
  | cons c rest =>
    have hc : c ≠ NUL := h
    simp [strlen, List.takeWhile_cons, hc]

theorem eq_map_some_of_ne_none {α : Type} :
    ∀ l : List (Option α), (∀ x ∈ l, x ≠ none) → ∃ T : List α, l = T.map some := by
  intro l
  induction l with
  | nil => intro _; exact ⟨[], rfl⟩
  | cons x l ih =>
    intro h
    obtain ⟨T, hT⟩ := ih (fun y hy => h y (by simp [hy]))
    cases x with
    | none => exact absurd rfl (h none (by simp))
    | some a => exact ⟨a :: T, by simp [hT]⟩

/-- On a comma-free, collapsed, non-empty name `find_tokens` returns a list
of at least one token, none of them `NULL`, in a buffer that still starts
with the first byte of the name. -/
theorem find_tokens_of_no_comma (s : List Char) (hne : s ≠ []) (hnul : NUL ∉ s)
    (hc : ',' ∉ s) (hcol : Collapsed s) :
    ∃ toks : bt_stringlist, find_tokens (s ++ [NUL]) 0 = .ok (toks, []) ∧
      toks.num_items = some toks.items.length ∧ toks.items ≠ [] ∧
      (∀ it ∈ toks.items, it ≠ none) ∧ strlen toks.string ≠ 0 := by
  have hpos : 0 < s.length := List.length_pos.2 hne
  obtain ⟨st', e, inv', i'⟩ := token_loop_inv hc hcol s.length
    { i := 0, in_boundary := true, depth := 0, items := [], comma_token := [],
      name := s ++ [NUL] }
    { name_eq := fun _ _ => rfl
      items_some := by simp
      no_comma := rfl
      boundary := fun _ => Or.inl rfl
      items_ne := fun h => absurd h (by simp)
      first := fun _ => ⟨rfl, rfl⟩ }
    (by simp)
  refine ⟨{ string := st'.name, num_items := some st'.items.length, items := st'.items },
    ?_, rfl, inv'.items_ne (by omega), inv'.items_some, ?_⟩
  · unfold find_tokens
    simp only [strlen_append_NUL s [] hnul]
    rw [if_neg (by omega), e]
    simp only [inv'.no_comma]
  · apply strlen_ne_zero
    simp only
    have h0 : charAt (s ++ [NUL]) 0 = charAt s 0 := charAt_append_left hpos
    rw [inv'.name_eq 0 (Or.inr (by rw [h0]; exact hcol.1)), h0]
    intro h
    exact hnul (h ▸ charAt_mem hpos)

theorem token_first_char_of_some {toks : bt_stringlist} (hsome : ∀ it ∈ toks.items, it ≠ none)
    {k : Nat} (hk : k < toks.items.length) :
    ∃ c, token_first_char toks k = .ok c ∧ islower c = token_is_lc toks k := by
  unfold token_first_char token_is_lc
  rw [List.get?_eq_getElem?, List.getElem?_eq_getElem hk]
  have hmem := List.getElem_mem hk
  cases hit : toks.items[k] with
  | none => rw [hit] at hmem; exact absurd rfl (hsome none hmem)
  | some off => exact ⟨_, rfl, rfl⟩

theorem lc_run_spec {toks : bt_stringlist} (hsome : ∀ it ∈ toks.items, it ≠ none)
    (fuel : Nat) :
    ∀ i, i + fuel = toks.items.length →
      ∃ i', lc_run toks toks.items.length fuel i = .ok i' ∧ i ≤ i' ∧
        i' ≤ toks.items.length ∧ (∀ k, i ≤ k → k < i' → token_is_lc toks k = true) ∧
        (i' < toks.items.length → token_is_lc toks i' = false) := by
  induction fuel with
  | zero =>
    intro i hi
    exact ⟨i, rfl, Nat.le_refl _, by omega, fun k h1 h2 => by omega, fun h => by omega⟩
  | succ n ih =>
    intro i hi
    obtain ⟨c, hc, hflag⟩ := token_first_char_of_some hsome (k := i) (by omega)
    unfold lc_run
    rw [if_pos (by omega), hc]
    by_cases hlow : islower c = true
    · simp only [hlow, if_true]
      obtain ⟨i', e, h1, h2, h3, h4⟩ := ih (i + 1) (by omega)
      refine ⟨i', e, by omega, h2, ?_, h4⟩
      intro k hk1 hk2
      by_cases hki : k = i
      · rw [hki, ← hflag, hlow]
      · exact h3 k (by omega) hk2
    · simp only [hlow]
      refine ⟨i, rfl, Nat.le_refl _, by omega, fun k h1 h2 => by omega, fun _ => ?_⟩
      rw [← hflag]
      simpa using hlow

theorem lc_loop_found (toks : bt_stringlist) (n : Nat) (first_lc last_lc : Int)
    (h : first_lc ≠ -1) (fuel : Nat) :
    ∀ i, lc_loop toks n fuel i first_lc last_lc = .ok (first_lc, last_lc) := by
  induction fuel with
  | zero => intro i; rfl
  | succ m ih =>
    intro i
    unfold lc_loop
    split_ifs
    · exact ih (i + 1)
    · rfl

theorem lc_loop_spec {toks : bt_stringlist} (hsome : ∀ it ∈ toks.items, it ≠ none)
    (fuel : Nat) :
    ∀ i, i + fuel = toks.items.length → (∀ k, k < i → token_is_lc toks k = false) →
      ∃ f l, lc_loop toks toks.items.length fuel i (-1) (-1) = .ok (f, l) ∧
        FirstLcRun (token_is_lc toks) toks.items.length f l := by
  induction fuel with
  | zero =>
    intro i hi hbefore
    exact ⟨-1, -1, rfl, Or.inl ⟨rfl, rfl, fun k hk => hbefore k (by omega)⟩⟩
  | succ m ih =>
    intro i hi hbefore
    obtain ⟨c, hc, hflag⟩ := token_first_char_of_some hsome (k := i) (by omega)
    unfold lc_loop
    rw [if_pos (by omega), if_pos rfl, hc]
    by_cases hlow : islower c = true
    · simp only [hlow, if_true]
      obtain ⟨i', e, h1, h2, h3, h4⟩ := lc_run_spec hsome (toks.items.length - (i + 1)) (i + 1)
        (by omega)
      rw [e]
      simp only
      rw [lc_loop_found _ _ _ _ (by omega)]
      refine ⟨_, _, rfl, Or.inr ⟨i, i' - 1, rfl, by omega, by omega, by omega, hbefore, ?_, ?_⟩⟩
      · intro k hk1 hk2
        by_cases hki : k = i
        · rw [hki, ← hflag, hlow]
        · exact h3 k (by omega) (by omega)
      · intro hlt
        have e' : i' - 1 + 1 = i' := by omega
        rw [e']
        exact h4 (by omega)
    · simp only [hlow]
      apply ih (i + 1) (by omega)
      intro k hk
      by_cases hki : k = i
      · rw [hki, ← hflag]; simpa using hlow
      · exact hbefore k (by omega)

/-- On a token list without `NULL` tokens `find_lc_tokens` returns the first
run of lowercase tokens. -/
theorem find_lc_tokens_spec {toks : bt_stringlist}
    (hnum : toks.num_items = some toks.items.length) (hsome : ∀ it ∈ toks.items, it ≠ none) :
    ∃ f l, find_lc_tokens toks = .ok (f, l) ∧
      FirstLcRun (token_is_lc toks) toks.items.length f l := by
  unfold find_lc_tokens
  rw [hnum]
  exact lc_loop_spec hsome toks.items.length 0 (by simp) (fun k hk => by omega)

theorem cstr_at_headD (buf : List Char) (off : Nat) :
    (cstr_at buf off).headD NUL = charAt buf off := by
  unfold cstr_at charAt
  rw [List.getD_eq_getElem?_getD, ← List.head?_drop]
  cases buf.drop off with
  | nil => rfl
  | cons c rest =>
    by_cases hc : c = NUL
    · simp [List.takeWhile_cons, hc]
    · simp [List.takeWhile_cons, hc]

theorem texts_getElem? {toks : bt_stringlist} {T : List (List Char)}
    (hT : toks.texts = T.map some) (k : Nat) :
    (toks.items[k]?).map (fun it => it.map (cstr_at toks.string)) = (T[k]?).map some := by
  have := congrArg (fun l => l[k]?) hT
  simpa [bt_stringlist.texts] using this

theorem token_text_eq {toks : bt_stringlist} {T : List (List Char)}
    (hT : toks.texts = T.map some) (k : Nat) : token_text toks (k : Int) = T[k]? := by
  have h := texts_getElem? hT k
  unfold token_text
  rw [List.get?_eq_getElem?, Int.toNat_ofNat]
  cases hi : toks.items[k]? with
  | none => rw [hi] at h; cases hk : T[k]? with
    | none => rfl
    | some t => rw [hk] at h; simp at h
  | some it =>
    rw [hi] at h
    cases it with
    | none => cases hk : T[k]? with
      | none => rfl
      | some t => rw [hk] at h; simp at h
    | some off => cases hk : T[k]? with
      | none => rw [hk] at h; simp at h
      | some t => rw [hk] at h; simpa using h

theorem token_is_lc_eq {toks : bt_stringlist} {T : List (List Char)}
    (hT : toks.texts = T.map some) {k : Nat} {t : List Char} (hk : T[k]? = some t) :
    token_is_lc toks k = lc_initial t := by
  have h := texts_getElem? hT k
  rw [hk] at h
  unfold token_is_lc lc_initial
  cases hi : toks.items[k]? with
  | none => rw [hi] at h; simp at h
  | some it =>
    rw [hi] at h
    cases it with
    | none => simp at h
    | some off =>
      simp only [Option.map_some', Option.some.injEq] at h
      rw [← h, cstr_at_headD]

/-- The tokens of a component given by a token range: a slice of the token
list. -/
theorem component_texts_range {nm : bt_name} {toks : bt_stringlist} {T : List (List Char)}
    (htok : nm.tokens = some toks) (hT : toks.texts = T.map some) (lo hi : Nat) (hi' : Int)
    (hhi : hi' + 1 = (hi : Int)) (hle : hi ≤ T.length) :
    component_texts nm (resolve_token_range ((lo : Int), hi')).1
        (resolve_token_range ((lo : Int), hi')).2
      = ((T.drop lo).take (hi - lo)).map some := by
  unfold resolve_token_range component_texts
  rw [htok]
  simp only
  split_ifs with h
  · have : hi - lo = 0 := by omega
    simp [this]
  · have hcnt : (hi' - (lo : Int) + 1).toNat = hi - lo := by omega
    simp only [hcnt]
    apply List.ext_getElem?
    intro k
    by_cases hk : k < hi - lo
    · have e : ((lo : Int) + (k : Int)) = ((lo + k : Nat) : Int) := by omega
      simp only [List.getElem?_map, List.getElem?_range hk, Option.map_some', e,
        token_text_eq hT, List.getElem?_take_of_lt hk, List.getElem?_drop]
      have hlt : lo + k < T.length := by omega
      rw [List.getElem?_eq_getElem hlt]
      rfl
    · have h1 : ((List.range (hi - lo)).map
          (fun k : Nat => token_text toks ((lo : Int) + (k : Int))))[k]? = none := by
        apply List.getElem?_eq_none
        simp; omega
      have h2 : (((T.drop lo).take (hi - lo)).map some)[k]? = none := by
        apply List.getElem?_eq_none
        simp; omega
      rw [h1, h2]

theorem split_simple_name_no_lc (toks : bt_stringlist) (n l : Int) :
    split_simple_name toks n (-1) l
      = ({ tokens := some toks
           first := (resolve_token_range (0, n - 1 - 1)).1
           n_first := (resolve_token_range (0, n - 1 - 1)).2
           von := (resolve_token_range (0, -1)).1
           n_von := (resolve_token_range (0, -1)).2
           last := (resolve_token_range (n - 1, n - 1)).1
           n_last := (resolve_token_range (n - 1, n - 1)).2
           jr := none, n_jr := 0 }, []) := by
  simp [split_simple_name]

theorem split_simple_name_to_end (toks : bt_stringlist) (n f : Int) (hf : f > -1) :
    split_simple_name toks n f (n - 1)
      = ({ tokens := some toks
           first := (resolve_token_range (0, f - 1)).1
           n_first := (resolve_token_range (0, f - 1)).2
           von := (resolve_token_range (f, n - 1 - 1)).1
           n_von := (resolve_token_range (f, n - 1 - 1)).2
           last := (resolve_token_range (n - 1 - 1 + 1, n - 1)).1
           n_last := (resolve_token_range (n - 1 - 1 + 1, n - 1)).2
           jr := none, n_jr := 0 },
         [Diag.no_capitalized_at_end (token_text toks (n - 1))]) := by
  simp [split_simple_name, hf]

theorem split_simple_name_inner (toks : bt_stringlist) (n f l : Int) (hf : f > -1)
    (hl : l ≠ n - 1) :
    split_simple_name toks n f l
      = ({ tokens := some toks
           first := (resolve_token_range (0, f - 1)).1
           n_first := (resolve_token_range (0, f - 1)).2
           von := (resolve_token_range (f, l)).1
           n_von := (resolve_token_range (f, l)).2
           last := (resolve_token_range (l + 1, n - 1)).1
           n_last := (resolve_token_range (l + 1, n - 1)).2
           jr := none, n_jr := 0 }, []) := by
  simp [split_simple_name, hf, hl]

/-- For a non-empty, comma-free, whitespace-collapsed name `bt_split_name`
returns what `split_simple_name` makes of the name's tokens and of their
first run of lowercase tokens. -/
theorem bt_split_name_simple (name : List Char) (hne : name ≠ []) (hnul : NUL ∉ name)
    (hcomma : ',' ∉ name) (hcol : Collapsed name) :
    ∃ (toks : bt_stringlist) (T : List (List Char)) (f l : Int),
      toks.texts = T.map some ∧ T ≠ [] ∧
        FirstLcRun (token_is_lc toks) T.length f l ∧
        bt_split_name (some name) = .ok (split_simple_name toks (T.length : Int) f l) := by
  obtain ⟨toks, htoks, hnum, hitems, hsome, hstr⟩ :=
    find_tokens_of_no_comma name hne hnul hcomma hcol
  obtain ⟨T, hT⟩ := eq_map_some_of_ne_none toks.texts (by
    intro x hx
    simp only [bt_stringlist.texts, List.mem_map] at hx
    obtain ⟨it, hit, rfl⟩ := hx
    cases it with
    | none => exact absurd rfl (hsome none hit)
    | some off => simp)
  have hlen : T.length = toks.items.length := by
    have := congrArg List.length hT
    simpa [bt_stringlist.texts] using this.symm
  obtain ⟨f, l, hlc, hrun⟩ := find_lc_tokens_spec hnum hsome
  refine ⟨toks, T, f, l, hT, ?_, by rw [hlen]; exact hrun, ?_⟩
  · intro hnil
    rw [hnil] at hlen
    exact hitems (List.length_eq_zero.1 hlen.symm)
  · unfold bt_split_name
    simp only [find_commas_of_no_comma name hnul hcomma, htoks, hlc, hnum, hlen]
    rw [if_neg (by omega), if_neg hstr]
    simp

theorem component_texts_slice {nm : bt_name} {toks : bt_stringlist} {T : List (List Char)}
    (htok : nm.tokens = some toks) (hT : toks.texts = T.map some) (lo' hi' : Int) (lo hi : Nat)
    (hlo : lo' = (lo : Int)) (hhi : hi' + 1 = (hi : Int)) (hle : hi ≤ T.length) :
    component_texts nm (resolve_token_range (lo', hi')).1 (resolve_token_range (lo', hi')).2
      = ((T.drop lo).take (hi - lo)).map some := by
  subst hlo
  exact component_texts_range htok hT lo hi hi' hhi hle

theorem slice_last (T : List (List Char)) (lo : Nat) (h : lo < T.length) :
    ((T.drop lo).take (T.length - lo)).map some ≠ [] ∧
      (((T.drop lo).take (T.length - lo)).map some).getLast? = T.getLast?.map some := by
  have e : (T.drop lo).take (T.length - lo) = T.drop lo :=
    List.take_of_length_le (by simp)
  rw [e, List.getLast?_map, List.getLast?_drop, if_neg (by omega)]
  refine ⟨?_, rfl⟩
  intro hnil
  have := List.map_eq_nil_iff.1 hnil
  rw [List.drop_eq_nil_iff] at this
  omega

theorem slice_final (T : List (List Char)) (h : 1 ≤ T.length) :
    ((T.drop (T.length - 1)).take (T.length - (T.length - 1))).map some = [T.getLast?] := by
  have e : (T.drop (T.length - 1)).take (T.length - (T.length - 1)) = T.drop (T.length - 1) :=
    List.take_of_length_le (by simp)
  rw [e, List.getLast?_eq_getElem?]
  have hlt : T.length - 1 < T.length := by omega
  rw [List.getElem?_eq_getElem hlt, List.drop_eq_getElem_cons hlt]
  have : T.length - 1 + 1 = T.length := by omega
  simp [this]

theorem lc_run_to_end_start {toks : bt_stringlist} {T : List (List Char)}
    (hT : toks.texts = T.map some) {a a' : Nat} (ha : a < T.length)
    (hbefore : ∀ k, k < a → token_is_lc toks k = false) (hat : token_is_lc toks a = true)
    (h : LcRunToEnd T a') : a' = a := by
  obtain ⟨h1, h2, h3⟩ := h
  have hge : a ≤ a' := by
    by_contra hlt
    have hb := hbefore a' (by omega)
    rw [token_is_lc_eq hT (List.getElem?_eq_getElem h1),
      h3 a' _ (Nat.le_refl _) (List.getElem?_eq_getElem h1)] at hb
    exact Bool.noConfusion hb
  have hle : a' ≤ a := by
    by_contra hlt
    rw [token_is_lc_eq hT (List.getElem?_eq_getElem ha),
      h2 a _ (by omega) (List.getElem?_eq_getElem ha)] at hat
    exact Bool.noConfusion hat
  omega

/-- C10 (amended): simple-form last-name guard.  For every non-empty,
comma-free, whitespace-collapsed name (a C string, so free of NUL)
`bt_split_name` returns; last contains at least the final token; the warning
"no capitalized token at end of name", naming the final token, is given if
and only if the first lowercase run extends to the final token, and there is
no other warning; in that case von is that run minus its final token and
last is the final token alone.  `jean de la fontaine` gives
von = [jean, de, la], last = [fontaine]; `plato` gives von = [], last = [plato]. -/
theorem split_name_last_guard (name : List Char) (hne : name ≠ []) (hnul : NUL ∉ name)
    (hcomma : ',' ∉ name) (hcol : Collapsed name) :
    (∃ (nm : bt_name) (diags : List Diag) (toks : bt_stringlist) (T : List (List Char)),
      bt_split_name (some name) = .ok (nm, diags) ∧ nm.tokens = some toks ∧
        toks.texts = T.map some ∧ T ≠ [] ∧
        (nm.parts.last ≠ [] ∧ nm.parts.last.getLast? = T.getLast?.map some) ∧
        (diags = [Diag.no_capitalized_at_end T.getLast?] ↔ ∃ a, LcRunToEnd T a) ∧
        ((¬ ∃ a, LcRunToEnd T a) → diags = []) ∧
        (∀ a, LcRunToEnd T a →
          nm.parts.von = ((T.drop a).dropLast).map some ∧ nm.parts.last = [T.getLast?])) ∧
      split_name_parts "jean de la fontaine".toList
        = some ({ first := []
                  von := [some "jean".toList, some "de".toList, some "la".toList]
                  last := [some "fontaine".toList]
                  jr := [] },
                [Diag.no_capitalized_at_end (some "fontaine".toList)]) ∧
      split_name_parts "plato".toList
        = some ({ first := [], von := [], last := [some "plato".toList], jr := [] },
                [Diag.no_capitalized_at_end (some "plato".toList)]) := by
  refine ⟨?_, by decide, by decide⟩
  obtain ⟨toks, T, f, l, hT, hTne, hrun, hres⟩ :=
    bt_split_name_simple name hne hnul hcomma hcol
  have hn : 1 ≤ T.length := List.length_pos.2 hTne
  have hflag : ∀ {k : Nat} (hk : k < T.length), token_is_lc toks k = lc_initial T[k] :=
    fun hk => token_is_lc_eq hT (List.getElem?_eq_getElem hk)
  rcases hrun with ⟨hf, hl, hnone⟩ | ⟨a, b, hf, hl, hab, hb, hbefore, hin, hafter⟩
  · -- no lowercase token
    subst hf
    rw [split_simple_name_no_lc] at hres
    have hno : ¬ ∃ a, LcRunToEnd T a := by
      rintro ⟨a, h1, _, h3⟩
      have := hnone a h1
      rw [hflag h1, h3 a _ (Nat.le_refl _) (List.getElem?_eq_getElem h1)] at this
      exact Bool.noConfusion this
    refine ⟨_, _, toks, T, hres, rfl, hT, hTne, ?_, ?_, fun _ => rfl, fun a ha => absurd ⟨a, ha⟩ hno⟩
    · simp only [bt_name.parts]
      rw [component_texts_slice rfl hT _ _ (T.length - 1) T.length (by omega) (by omega)
        (Nat.le_refl _)]
      exact slice_last T _ (by omega)
    · constructor
      · intro h; exact absurd h (by simp)
      · intro h; exact absurd h hno
  · subst hf hl
    have hata : token_is_lc toks a = true := hin a (Nat.le_refl _) hab
    by_cases hend : b + 1 = T.length
    · -- the run extends to the final token
      have e : ((b : Int)) = (T.length : Int) - 1 := by omega
      rw [e, split_simple_name_to_end _ _ _ (by omega)] at hres
      have hyes : LcRunToEnd T a := by
        refine ⟨by omega, ?_, ?_⟩
        · intro k t hk hkt
          rw [← token_is_lc_eq hT hkt]
          exact hbefore k hk
        · intro k t hk hkt
          rw [← token_is_lc_eq hT hkt]
          have hklt : k < T.length := (List.getElem?_eq_some.1 hkt).1
          exact hin k hk (by omega)
      have hlast : token_text toks ((T.length : Int) - 1) = T.getLast? := by
        have e1 : (T.length : Int) - 1 = ((T.length - 1 : Nat) : Int) := by omega
        rw [e1, token_text_eq hT, List.getLast?_eq_getElem?]
      rw [hlast] at hres
      refine ⟨_, _, toks, T, hres, rfl, hT, hTne, ?_, ?_, fun h => absurd ⟨a, hyes⟩ h, ?_⟩
      · simp only [bt_name.parts]
        rw [component_texts_slice rfl hT _ _ (T.length - 1) T.length (by omega) (by omega)
          (Nat.le_refl _)]
        exact slice_last T _ (by omega)
      · exact ⟨fun _ => ⟨a, hyes⟩, fun _ => rfl⟩
      · intro a' ha'
        have ea : a' = a := lc_run_to_end_start hT (by omega) hbefore hata ha'
        subst ea
        simp only [bt_name.parts]
        rw [component_texts_slice rfl hT _ _ a' (T.length - 1) rfl (by omega) (by omega),
          component_texts_slice rfl hT _ _ (T.length - 1) T.length (by omega) (by omega)
            (Nat.le_refl _),
          slice_final T hn, List.dropLast_eq_take]
        simp only [List.length_drop, List.take_take, and_true]
        congr 2
        omega
    · -- the run ends before the final token
      rw [split_simple_name_inner _ _ _ _ (by omega) (by omega)] at hres
      have hno : ¬ ∃ a, LcRunToEnd T a := by
        rintro ⟨a', ha'⟩
        have ea : a' = a := lc_run_to_end_start hT (by omega) hbefore hata ha'
        subst ea
        have hnext := hafter (by omega)
        have hlt : b + 1 < T.length := by omega
        rw [hflag hlt, ha'.2.2 (b + 1) _ (by omega) (List.getElem?_eq_getElem hlt)] at hnext
        exact Bool.noConfusion hnext
      refine ⟨_, _, toks, T, hres, rfl, hT, hTne, ?_, ?_, fun _ => rfl,
        fun a ha => absurd ⟨a, ha⟩ hno⟩
      · simp only [bt_name.parts]
        rw [component_texts_slice rfl hT _ _ (b + 1) T.length (by omega) (by omega)
          (Nat.le_refl _)]
        exact slice_last T _ (by omega)
      · constructor
        · intro h; exact absurd h (by simp)
        · intro h; exact absurd h hno

/-- C10 (amended) at a concrete input: the name `jean de la fontaine`. -/
theorem split_name_last_guard_witness :
    ("jean de la fontaine".toList ≠ [] ∧ NUL ∉ "jean de la fontaine".toList ∧
      ',' ∉ "jean de la fontaine".toList ∧ Collapsed "jean de la fontaine".toList) ∧
    ((∃ (nm : bt_name) (diags : List Diag) (toks : bt_stringlist) (T : List (List Char)),
      bt_split_name (some "jean de la fontaine".toList) = .ok (nm, diags) ∧
        nm.tokens = some toks ∧ toks.texts = T.map some ∧ T ≠ [] ∧
        (nm.parts.last ≠ [] ∧ nm.parts.last.getLast? = T.getLast?.map some) ∧
        (diags = [Diag.no_capitalized_at_end T.getLast?] ↔ ∃ a, LcRunToEnd T a) ∧
        ((¬ ∃ a, LcRunToEnd T a) → diags = []) ∧
        (∀ a, LcRunToEnd T a →
          nm.parts.von = ((T.drop a).dropLast).map some ∧ nm.parts.last = [T.getLast?])) ∧
      split_name_parts "jean de la fontaine".toList
        = some ({ first := []
                  von := [some "jean".toList, some "de".toList, some "la".toList]
                  last := [some "fontaine".toList]
                  jr := [] },
                [Diag.no_capitalized_at_end (some "fontaine".toList)]) ∧
      split_name_parts "plato".toList
        = some ({ first := [], von := [], last := [some "plato".toList], jr := [] },
                [Diag.no_capitalized_at_end (some "plato".toList)])) :=
  ⟨⟨by decide, by decide, by decide, by decide⟩,
    split_name_last_guard "jean de la fontaine".toList (by decide) (by decide) (by decide)
      (by decide)⟩

/-- The simple form on names without any comma (the part of C8 and C9 that
the code keeps).  For every non-empty, comma-free, whitespace-collapsed name
with tokens `T`: jr is empty; if no token is lowercase-initial, first is all
tokens but the last, von is empty and last is the final token; if the first
run of lowercase-initial tokens is `a..b` and ends before the final token,
first is the tokens before `a`, von is the run and last is everything after
`b`.  In both cases there is no warning. -/
theorem split_name_simple_form (name : List Char) (hne : name ≠ []) (hnul : NUL ∉ name)
    (hcomma : ',' ∉ name) (hcol : Collapsed name) :
    ∃ (nm : bt_name) (diags : List Diag) (toks : bt_stringlist) (T : List (List Char)),
      bt_split_name (some name) = .ok (nm, diags) ∧ nm.tokens = some toks ∧
        toks.texts = T.map some ∧ T ≠ [] ∧ nm.parts.jr = [] ∧
        ((∀ (k : Nat) (t : List Char), T[k]? = some t → lc_initial t = false) →
          nm.parts.first = T.dropLast.map some ∧ nm.parts.von = [] ∧
            nm.parts.last = [T.getLast?] ∧ diags = []) ∧
        (∀ a b : Nat, a ≤ b → b + 1 < T.length →
          (∀ k t, k < a → T[k]? = some t → lc_initial t = false) →
          (∀ k t, a ≤ k → k ≤ b → T[k]? = some t → lc_initial t = true) →
          (∀ t, T[b + 1]? = some t → lc_initial t = false) →
          nm.parts.first = (T.take a).map some ∧
            nm.parts.von = ((T.drop a).take (b + 1 - a)).map some ∧
            nm.parts.last = (T.drop (b + 1)).map some ∧ diags = []) := by
  obtain ⟨toks, T, f, l, hT, hTne, hrun, hres⟩ :=
    bt_split_name_simple name hne hnul hcomma hcol
  have hn : 1 ≤ T.length := List.length_pos.2 hTne
  have hflag : ∀ {k : Nat} (hk : k < T.length), token_is_lc toks k = lc_initial T[k] :=
    fun hk => token_is_lc_eq hT (List.getElem?_eq_getElem hk)
  have hjr : ∀ (nm : bt_name), nm.jr = none → nm.parts.jr = [] := by
    intro nm h
    simp only [bt_name.parts, component_texts, h]
    cases nm.tokens <;> rfl
  rcases hrun with ⟨hf, hl, hnone⟩ | ⟨a, b, hf, hl, hab, hb, hbefore, hin, hafter⟩
  · subst hf
    rw [split_simple_name_no_lc] at hres
    refine ⟨_, _, toks, T, hres, rfl, hT, hTne, hjr _ rfl, ?_, ?_⟩
    · intro _
      simp only [bt_name.parts]
      rw [component_texts_slice rfl hT 0 ((T.length : Int) - 1 - 1) 0 (T.length - 1) (by simp)
          (by omega) (by omega),
        component_texts_slice rfl hT 0 (-1) 0 0 (by simp) (by omega) (by omega),
        component_texts_slice rfl hT _ _ (T.length - 1) T.length (by omega) (by omega)
          (Nat.le_refl _),
        slice_final T hn, List.dropLast_eq_take]
      simp
    · intro a' b' hab' hb' _ hin' _
      exfalso
      have hlt : a' < T.length := by omega
      have := hnone a' hlt
      rw [hflag hlt, hin' a' _ (Nat.le_refl _) hab' (List.getElem?_eq_getElem hlt)] at this
      exact Bool.noConfusion this
  · subst hf hl
    have hata : token_is_lc toks a = true := hin a (Nat.le_refl _) hab
    have hfalse : ¬ ∀ (k : Nat) (t : List Char), T[k]? = some t → lc_initial t = false := by
      intro h
      have hlt : a < T.length := by omega
      rw [hflag hlt, h a _ (List.getElem?_eq_getElem hlt)] at hata
      exact Bool.noConfusion hata
    by_cases hend : b + 1 = T.length
    · have e : ((b : Int)) = (T.length : Int) - 1 := by omega
      rw [e, split_simple_name_to_end _ _ _ (by omega)] at hres
      refine ⟨_, _, toks, T, hres, rfl, hT, hTne, hjr _ rfl, fun h => absurd h hfalse, ?_⟩
      intro a' b' hab' hb' hbefore' hin' hafter'
      exfalso
      have hlta : a < T.length := by omega
      have hlta' : a' < T.length := by omega
      have h1 : a ≤ a' := by
        by_contra hlt
        have := hbefore a' (by omega)
        rw [hflag hlta', hin' a' _ (Nat.le_refl _) hab' (List.getElem?_eq_getElem hlta')] at this
        exact Bool.noConfusion this
      have hlt : b' + 1 < T.length := hb'
      have := hin (b' + 1) (by omega) (by omega)
      rw [hflag hlt, hafter' _ (List.getElem?_eq_getElem hlt)] at this
      exact Bool.noConfusion this
    · rw [split_simple_name_inner _ _ _ _ (by omega) (by omega)] at hres
      refine ⟨_, _, toks, T, hres, rfl, hT, hTne, hjr _ rfl, fun h => absurd h hfalse, ?_⟩
      intro a' b' hab' hb' hbefore' hin' hafter'
      have hlta : a < T.length := by omega
      have hlta' : a' < T.length := by omega
      have ea : a' = a := by
        have h1 : a ≤ a' := by
          by_contra hlt
          have := hbefore a' (by omega)
          rw [hflag hlta', hin' a' _ (Nat.le_refl _) hab' (List.getElem?_eq_getElem hlta')]
            at this
          exact Bool.noConfusion this
        have h2 : a' ≤ a := by
          by_contra hlt
          rw [hflag hlta, hbefore' a _ (by omega) (List.getElem?_eq_getElem hlta)] at hata
          exact Bool.noConfusion hata
        omega
      subst ea
      have eb : b' = b := by
        have h1 : b ≤ b' := by
          by_contra hlt
          have hlt' : b' + 1 < T.length := hb'
          have := hin (b' + 1) (by omega) (by omega)
          rw [hflag hlt', hafter' _ (List.getElem?_eq_getElem hlt')] at this
          exact Bool.noConfusion this
        have h2 : b' ≤ b := by
          by_contra hlt
          have hlt' : b + 1 < T.length := by omega
          have := hafter hlt'
          rw [hflag hlt', hin' (b + 1) _ (by omega) (by omega) (List.getElem?_eq_getElem hlt')]
            at this
          exact Bool.noConfusion this
        omega
      subst eb
      simp only [bt_name.parts]
      rw [component_texts_slice rfl hT 0 ((a' : Int) - 1) 0 a' (by simp) (by omega) (by omega),
        component_texts_slice rfl hT _ _ a' (b' + 1) rfl (by omega) (by omega),
        component_texts_slice rfl hT _ _ (b' + 1) T.length (by omega) (by omega)
          (Nat.le_refl _)]
      have e1 : (T.drop (b' + 1)).take (T.length - (b' + 1)) = T.drop (b' + 1) :=
        List.take_of_length_le (by simp)
      rw [e1]
      simp

/-! ## Claims about traversal.c -/

theorem field_loop_step (entry prev r d : AST) (l o : Int) (nt : bt_nodetype_t)
    (mt : bt_metatype_t) (text name : Option (List Char)) (fuel : Nat)
    (rest : List (AST × Option (List Char)))
    (h1 : bt_next_field entry prev true = .ok (.node r d l o nt mt text, name))
    (h2 : field_loop entry fuel (.node r d l o nt mt text) = .ok (some rest)) :
    field_loop entry (fuel + 1) prev = .ok (some ((.node r d l o nt mt text, name) :: rest)) := by
  rw [field_loop, h1]
  simp only
  rw [h2]

theorem field_loop_stop (entry prev : AST) (name : Option (List Char)) (fuel : Nat)
    (h1 : bt_next_field entry prev true = .ok (.null, name)) :
    field_loop entry (fuel + 1) prev = .ok (some []) := by
  rw [field_loop, h1]

/-- Once `bt_next_field` is given a previous field, the loop of `dump_names`
walks the rest of the sibling chain. -/
theorem field_loop_siblings (r d1r d1d : AST) (d1l d1o : Int) (d1n : bt_nodetype_t)
    (d1m : bt_metatype_t) (d1t : Option (List Char)) (l o : Int) (nt : bt_nodetype_t)
    (t : Option (List Char)) :
    ∀ (rest : List NodeData) (f : NodeData),
      field_loop (.node r (.node d1r d1d d1l d1o d1n d1m d1t) l o nt .BTE_REGULAR t)
          (rest.length + 1) (siblings (f :: rest))
        = .ok (some (fields_with_names rest)) := by
  intro rest
  induction rest with
  | nil =>
    intro f
    exact field_loop_stop _ _ none 0 (by simp [bt_next_field, siblings])
  | cons g rest ih =>
    intro f
    have h := ih g
    simp only [siblings] at h
    simp only [List.length_cons, fields_with_names, siblings]
    exact field_loop_step _ _ _ _ _ _ _ _ _ _ _ _ (by simp [bt_next_field]) h

/-- C18: field iteration.  For a regular entry whose children are an optional
Key node followed by the Field nodes `fields`, the loop that calls
`bt_next_field` with `prev` absent and then with each returned field visits
exactly the fields, in order, each reported with its own text, and then gets
absent; no visited node is a Key node.  For a macro-definition entry the first
child is returned without skipping.  For a comment, preamble or unknown entry,
an entry without children or an absent entry the result is absent with name
absent, whatever `prev` is. -/
theorem field_iteration (key : Option NodeData) (fields : List NodeData)
    (hkey : ∀ k, key = some k → k.nodetype = .BTAST_KEY)
    (hfields : ∀ f ∈ fields, f.nodetype = .BTAST_FIELD) :
    (∀ (r : AST) (l o : Int) (nt : bt_nodetype_t) (t : Option (List Char)),
      field_loop (.node r (siblings (key.toList ++ fields)) l o nt .BTE_REGULAR t)
          (fields.length + 1) .null
        = .ok (some (fields_with_names fields))) ∧
    (∀ v ∈ fields_with_names fields, v.1.nodetype = .ok .BTAST_FIELD) ∧
    (∀ (r cr cd : AST) (l o cl co : Int) (nt cn : bt_nodetype_t) (cm : bt_metatype_t)
        (t ct : Option (List Char)),
      bt_next_field (.node r (.node cr cd cl co cn cm ct) l o nt .BTE_MACRODEF t) .null true
        = .ok (.node cr cd cl co cn cm ct, ct)) ∧
    (∀ (r d prev : AST) (l o : Int) (nt : bt_nodetype_t) (mt : bt_metatype_t)
        (t : Option (List Char)),
      (mt = .BTE_COMMENT ∨ mt = .BTE_PREAMBLE ∨ mt = .BTE_UNKNOWN ∨ d = .null) →
      bt_next_field (.node r d l o nt mt t) prev true = .ok (.null, none)) ∧
    (∀ prev : AST, bt_next_field .null prev true = .ok (.null, none)) := by
  refine ⟨?_, ?_, ?_, ?_, ?_⟩
  · intro r l o nt t
    cases key with
    | none =>
      cases fields with
      | nil => simp [field_loop, bt_next_field, siblings, fields_with_names]
      | cons f rest =>
        have hf : f.nodetype = .BTAST_FIELD := hfields f (by simp)
        have h := field_loop_siblings r (siblings rest) f.down f.line f.offset f.nodetype
          f.metatype f.text l o nt t rest f
        simp only [siblings] at h
        simp only [Option.toList, List.nil_append, List.length_cons, siblings,
          fields_with_names]
        exact field_loop_step _ _ _ _ _ _ _ _ _ _ _ _ (by simp [bt_next_field, hf]) h
    | some k =>
      have hk : k.nodetype = .BTAST_KEY := hkey k rfl
      cases fields with
      | nil => simp [field_loop, bt_next_field, siblings, fields_with_names, hk]
      | cons f rest =>
        have h := field_loop_siblings r (siblings (f :: rest)) k.down k.line k.offset
          k.nodetype k.metatype k.text l o nt t rest f
        simp only [siblings] at h
        simp only [Option.toList, List.singleton_append, List.length_cons, siblings,
          fields_with_names]
        exact field_loop_step _ _ _ _ _ _ _ _ _ _ _ _ (by simp [bt_next_field, hk]) h
  · intro v hv
    induction fields with
    | nil => simp [fields_with_names] at hv
    | cons f rest ih =>
      simp only [fields_with_names, List.mem_cons] at hv
      rcases hv with hv | hv
      · rw [hv]
        simp [siblings, AST.nodetype, hfields f (by simp)]
      · exact ih (fun g hg => hfields g (by simp [hg])) hv
  · intro r cr cd l o cl co nt cn cm t ct
    simp [bt_next_field]
  · intro r d prev l o nt mt t h
    cases d with
    | null => simp [bt_next_field]
    | node dr dd dl d2 dn dm dt =>
      rcases h with h | h | h | h
      · subst h; simp [bt_next_field]
      · subst h; simp [bt_next_field]
      · subst h; simp [bt_next_field]
      · exact AST.noConfusion h
  · intro prev
    simp [bt_next_field]

/-- C18 at a concrete input: a regular entry with a key and the fields
`author` and `title`. -/
theorem field_iteration_witness :
    ((∀ k, some (NodeData.mk .null 1 0 .BTAST_KEY .BTE_UNKNOWN (some "knuth".toList)) = some k →
        k.nodetype = .BTAST_KEY) ∧
      (∀ f ∈ [NodeData.mk .null 2 0 .BTAST_FIELD .BTE_UNKNOWN (some "author".toList),
              NodeData.mk .null 3 0 .BTAST_FIELD .BTE_UNKNOWN (some "title".toList)],
        f.nodetype = .BTAST_FIELD)) ∧
    ((∀ (r : AST) (l o : Int) (nt : bt_nodetype_t) (t : Option (List Char)),
      field_loop
          (.node r
            (siblings
              ((some (NodeData.mk .null 1 0 .BTAST_KEY .BTE_UNKNOWN (some "knuth".toList))).toList
                ++ [NodeData.mk .null 2 0 .BTAST_FIELD .BTE_UNKNOWN (some "author".toList),
                    NodeData.mk .null 3 0 .BTAST_FIELD .BTE_UNKNOWN (some "title".toList)]))
            l o nt .BTE_REGULAR t)
          ([NodeData.mk .null 2 0 .BTAST_FIELD .BTE_UNKNOWN (some "author".toList),
            NodeData.mk .null 3 0 .BTAST_FIELD .BTE_UNKNOWN (some "title".toList)].length + 1)
          .null
        = .ok (some (fields_with_names
            [NodeData.mk .null 2 0 .BTAST_FIELD .BTE_UNKNOWN (some "author".toList),
             NodeData.mk .null 3 0 .BTAST_FIELD .BTE_UNKNOWN (some "title".toList)]))) ∧
    (∀ v ∈ fields_with_names
          [NodeData.mk .null 2 0 .BTAST_FIELD .BTE_UNKNOWN (some "author".toList),
           NodeData.mk .null 3 0 .BTAST_FIELD .BTE_UNKNOWN (some "title".toList)],
        v.1.nodetype = .ok .BTAST_FIELD) ∧
    (∀ (r cr cd : AST) (l o cl co : Int) (nt cn : bt_nodetype_t) (cm : bt_metatype_t)
        (t ct : Option (List Char)),
      bt_next_field (.node r (.node cr cd cl co cn cm ct) l o nt .BTE_MACRODEF t) .null true
        = .ok (.node cr cd cl co cn cm ct, ct)) ∧
    (∀ (r d prev : AST) (l o : Int) (nt : bt_nodetype_t) (mt : bt_metatype_t)
        (t : Option (List Char)),
      (mt = .BTE_COMMENT ∨ mt = .BTE_PREAMBLE ∨ mt = .BTE_UNKNOWN ∨ d = .null) →
      bt_next_field (.node r d l o nt mt t) prev true = .ok (.null, none)) ∧
    (∀ prev : AST, bt_next_field .null prev true = .ok (.null, none))) :=
  ⟨⟨fun k h => by cases h; rfl, by decide⟩,
    field_iteration
      (some (NodeData.mk .null 1 0 .BTAST_KEY .BTE_UNKNOWN (some "knuth".toList)))
      [NodeData.mk .null 2 0 .BTAST_FIELD .BTE_UNKNOWN (some "author".toList),
       NodeData.mk .null 3 0 .BTAST_FIELD .BTE_UNKNOWN (some "title".toList)]
      (fun k h => by cases h; rfl) (by decide)⟩

/-- C19: `bt_entry_key` returns the text of the entry's first child when the
entry's metatype is regular and that child exists and is a Key node, and
absent in every other case. -/
theorem entry_key_spec (right down : AST) (line offset : Int) (nodetype : bt_nodetype_t)
    (metatype : bt_metatype_t) (text : Option (List Char)) :
    ((metatype = .BTE_REGULAR ∧ down.nodetype = .ok .BTAST_KEY) →
      bt_entry_key (.node right down line offset nodetype metatype text) = down.text) ∧
    (¬ (metatype = .BTE_REGULAR ∧ down.nodetype = .ok .BTAST_KEY) →
      bt_entry_key (.node right down line offset nodetype metatype text) = .ok none) := by
  cases down with
  | null => simp [bt_entry_key, AST.nodetype]
  | node dr dd dl d2 dn dm dt =>
    constructor
    · rintro ⟨h1, h2⟩
      simp only [AST.nodetype, Except.ok.injEq] at h2
      simp [bt_entry_key, AST.text, h1, h2]
    · intro h
      simp only [AST.nodetype, Except.ok.injEq] at h
      simp [bt_entry_key, h]

/-- C19 at concrete inputs: a regular entry whose first child is the key
`knuth`, and a regular entry whose first child is a field. -/
theorem entry_key_spec_witness :
    ((bt_metatype_t.BTE_REGULAR = .BTE_REGULAR ∧
        (AST.node .null .null 1 0 .BTAST_KEY .BTE_UNKNOWN (some "knuth".toList)).nodetype
          = .ok .BTAST_KEY) ∧
      bt_entry_key (.node .null
          (.node .null .null 1 0 .BTAST_KEY .BTE_UNKNOWN (some "knuth".toList))
          1 0 .BTAST_ENTRY .BTE_REGULAR (some "book".toList))
        = .ok (some "knuth".toList)) ∧
    (¬ (bt_metatype_t.BTE_REGULAR = .BTE_REGULAR ∧
        (AST.node .null .null 1 0 .BTAST_FIELD .BTE_UNKNOWN (some "title".toList)).nodetype
          = .ok .BTAST_KEY) ∧
      bt_entry_key (.node .null
          (.node .null .null 1 0 .BTAST_FIELD .BTE_UNKNOWN (some "title".toList))
          1 0 .BTAST_ENTRY .BTE_REGULAR (some "book".toList))
        = .ok none) :=
  ⟨⟨by decide,
      (entry_key_spec .null
        (.node .null .null 1 0 .BTAST_KEY .BTE_UNKNOWN (some "knuth".toList))
        1 0 .BTAST_ENTRY .BTE_REGULAR (some "book".toList)).1 (by decide)⟩,
    ⟨by decide,
      (entry_key_spec .null
        (.node .null .null 1 0 .BTAST_FIELD .BTE_UNKNOWN (some "title".toList))
        1 0 .BTAST_ENTRY .BTE_REGULAR (some "book".toList)).2 (by decide)⟩⟩

/-- C20, as stated, fails: for a comment entry whose first child is a Number
node `bt_next_value` does not return that child but reports an internal
error. -/
theorem next_value_nonstring_faults :
    bt_next_value
        (.node .null (.node .null .null 1 0 .BTAST_NUMBER .BTE_UNKNOWN (some "1997".toList))
          1 0 .BTAST_ENTRY .BTE_COMMENT (some "comment".toList))
        .null
      = .error Fault.internal_nonstring_value := by
  decide

/-- C20 (amended): value iteration.  For a Field container `bt_next_value`
returns the container's first child when `prev` is absent and otherwise the
next sibling of `prev`, reporting that node's kind and text.  For an Entry of
metatype comment or preamble it does the same when that node is absent or a
String node, and reports an internal error when it is a node of another kind.
For every other container, and for an absent one, it returns absent.  Whenever
it returns absent the reported kind is `BTAST_BOGUS` and the reported text is
absent. -/
theorem next_value_spec :
    (∀ (r down prev : AST) (l o : Int) (mt : bt_metatype_t) (t : Option (List Char)),
      bt_next_value (.node r down l o .BTAST_FIELD mt t) prev
        = .ok (reported (value_after down prev))) ∧
    (∀ (r down prev : AST) (l o : Int) (mt : bt_metatype_t) (t : Option (List Char)),
      (mt = .BTE_COMMENT ∨ mt = .BTE_PREAMBLE) →
      (value_after down prev = .null ∨ (value_after down prev).nodetype = .ok .BTAST_STRING) →
      bt_next_value (.node r down l o .BTAST_ENTRY mt t) prev
        = .ok (reported (value_after down prev))) ∧
    (∀ (r down prev : AST) (l o : Int) (mt : bt_metatype_t) (t : Option (List Char)),
      (mt = .BTE_COMMENT ∨ mt = .BTE_PREAMBLE) →
      ¬ (value_after down prev = .null ∨ (value_after down prev).nodetype = .ok .BTAST_STRING) →
      bt_next_value (.node r down l o .BTAST_ENTRY mt t) prev
        = .error Fault.internal_nonstring_value) ∧
    (∀ (r down prev : AST) (l o : Int) (nt : bt_nodetype_t) (mt : bt_metatype_t)
        (t : Option (List Char)),
      ¬ (nt = .BTAST_FIELD ∨ (nt = .BTAST_ENTRY ∧ (mt = .BTE_COMMENT ∨ mt = .BTE_PREAMBLE))) →
      bt_next_value (.node r down l o nt mt t) prev = .ok (.null, .BTAST_BOGUS, none)) ∧
    (∀ prev : AST, bt_next_value .null prev = .ok (.null, .BTAST_BOGUS, none)) ∧
    (∀ (top prev : AST) (kind : bt_nodetype_t) (text : Option (List Char)),
      bt_next_value top prev = .ok (.null, kind, text) →
      kind = .BTAST_BOGUS ∧ text = none) := by
  refine ⟨?_, ?_, ?_, ?_, ?_, ?_⟩
  · intro r down prev l o mt t
    unfold bt_next_value
    simp only [true_or, if_true]
    cases hv : value_after down prev with
    | null =>
      unfold value_after at hv
      simp [hv, reported]
    | node vr vd vl vo vn vm vt =>
      unfold value_after at hv
      simp [hv, reported]
  · intro r down prev l o mt t hmt hv'
    dsimp only [bt_next_value]
    rw [if_pos (Or.inr ⟨rfl, hmt⟩)]
    cases hv : value_after down prev with
    | null =>
      unfold value_after at hv
      simp [hv, reported]
    | node vr vd vl vo vn vm vt =>
      rw [hv] at hv'
      have hs : vn = .BTAST_STRING := by
        rcases hv' with h | h
        · exact AST.noConfusion h
        · simpa [AST.nodetype] using h
      unfold value_after at hv
      simp [hv, reported, hs]
  · intro r down prev l o mt t hmt hv'
    dsimp only [bt_next_value]
    rw [if_pos (Or.inr ⟨rfl, hmt⟩)]
    cases hv : value_after down prev with
    | null => exact absurd (Or.inl hv) hv'
    | node vr vd vl vo vn vm vt =>
      rw [hv] at hv'
      have hs : vn ≠ .BTAST_STRING := by
        intro h
        apply hv'
        right
        simp [AST.nodetype, h]
      unfold value_after at hv
      simp [hv, hs]
  · intro r down prev l o nt mt t h
    dsimp only [bt_next_value]
    rw [if_neg h]
  · intro prev
    rfl
  · intro top prev kind text h
    cases top with
    | null =>
      simp only [bt_next_value, Except.ok.injEq, Prod.mk.injEq, true_and] at h
      exact ⟨h.1.symm, h.2.symm⟩
    | node r down l o nt mt t =>
      unfold bt_next_value at h
      simp only at h
      split_ifs at h with hc
      · split at h
        · simp only [Except.ok.injEq, Prod.mk.injEq, true_and] at h
          exact ⟨h.1.symm, h.2.symm⟩
        · split_ifs at h
          simp at h
      · simp only [Except.ok.injEq, Prod.mk.injEq, true_and] at h
        exact ⟨h.1.symm, h.2.symm⟩

/-- C20 (amended) at concrete inputs: a field with the values `"a" # 1997`,
and a preamble entry with a string value. -/
theorem next_value_spec_witness :
    bt_next_value
        (.node .null
          (.node (.node .null .null 1 8 .BTAST_NUMBER .BTE_UNKNOWN (some "1997".toList))
            .null 1 2 .BTAST_STRING .BTE_UNKNOWN (some "a".toList))
          1 0 .BTAST_FIELD .BTE_UNKNOWN (some "year".toList))
        (.node (.node .null .null 1 8 .BTAST_NUMBER .BTE_UNKNOWN (some "1997".toList))
          .null 1 2 .BTAST_STRING .BTE_UNKNOWN (some "a".toList))
      = .ok (.node .null .null 1 8 .BTAST_NUMBER .BTE_UNKNOWN (some "1997".toList),
             .BTAST_NUMBER, some "1997".toList) ∧
    ((bt_metatype_t.BTE_PREAMBLE = .BTE_COMMENT ∨ bt_metatype_t.BTE_PREAMBLE = .BTE_PREAMBLE) ∧
      (value_after (.node .null .null 1 0 .BTAST_STRING .BTE_UNKNOWN (some "x".toList)) .null
          = .null ∨
        (value_after (.node .null .null 1 0 .BTAST_STRING .BTE_UNKNOWN (some "x".toList))
          .null).nodetype = .ok .BTAST_STRING) ∧
      bt_next_value
          (.node .null (.node .null .null 1 0 .BTAST_STRING .BTE_UNKNOWN (some "x".toList))
            1 0 .BTAST_ENTRY .BTE_PREAMBLE (some "preamble".toList))
          .null
        = .ok (reported (value_after
            (.node .null .null 1 0 .BTAST_STRING .BTE_UNKNOWN (some "x".toList)) .null))) :=
  ⟨next_value_spec.1 _ _ _ _ _ _ _,
    by decide, by decide,
    next_value_spec.2.1 .null
      (.node .null .null 1 0 .BTAST_STRING .BTE_UNKNOWN (some "x".toList)) .null 1 0
      .BTE_PREAMBLE (some "preamble".toList) (by decide) (by decide)⟩

/-! ## find_commas on names with one or two commas -/

theorem charAt_set_self (l : List Char) (i : Nat) (c : Char) (h : i < l.length) :
    charAt (l.set i c) i = c := by
  simp [charAt, List.getD_eq_getElem?_getD, List.getElem?_set_self h]

theorem charAt_snoc (out : List Char) (c : Char) : charAt (out ++ [c]) out.length = c := by
  simp [charAt]

theorem update_depth_eq_add (c : Char) (d : Int) : update_depth c d = d + brace_depth [c] := by
  simp only [brace_depth, List.foldl_cons, List.foldl_nil, update_depth]
  split_ifs <;> omega

theorem brace_depth_cons (c : Char) (s : List Char) :
    brace_depth (c :: s) = brace_depth [c] + brace_depth s := by
  have e : c :: s = [c] ++ s := rfl
  rw [e, brace_depth_append]

/-- The loop `while (j > 0 && name[j-1] == ' ') j--;` stops on the last byte
that is not a space. -/
theorem back_over_spaces_eq (name : List Char) (j0 : Nat)
    (hstop : j0 = 0 ∨ charAt name (j0 - 1) ≠ ' ') (n : Nat) :
    (∀ k, j0 ≤ k → k < j0 + n → charAt name k = ' ') →
      back_over_spaces name (j0 + n) = j0 := by
  induction n with
  | zero =>
    intro _
    cases j0 with
    | zero => rfl
    | succ m =>
      rcases hstop with h | h
      · omega
      · simp only [Nat.add_sub_cancel] at h
        simp [back_over_spaces, h]
  | succ n ih =>
    intro h
    have e : j0 + (n + 1) = (j0 + n) + 1 := by omega
    rw [e, back_over_spaces, if_pos (h (j0 + n) (by omega) (by omega))]
    exact ih (fun k h1 h2 => h k h1 (by omega))

/-- The loop `while (i < len && name[i] == ' ') i++;` stops on the first byte
that is not a space. -/
theorem skip_spaces_eq (name : List Char) (len : Nat) (n : Nat) :
    ∀ (i fuel : Nat), n ≤ fuel → (∀ k, i ≤ k → k < i + n → charAt name k = ' ') →
      charAt name (i + n) ≠ ' ' → i + n ≤ len →
      skip_spaces name len fuel i = i + n := by
  induction n with
  | zero =>
    intro i fuel _ _ hstop _
    cases fuel with
    | zero => rfl
    | succ f =>
      have hn : ¬ (i < len ∧ charAt name i = ' ') := by
        rintro ⟨_, h⟩
        exact hstop h
      rw [skip_spaces, if_neg hn]
      rfl
  | succ n ih =>
    intro i fuel hf hsp hstop hle
    cases fuel with
    | zero => omega
    | succ f =>
      rw [skip_spaces, if_pos ⟨by omega, hsp i (Nat.le_refl _) (by omega)⟩,
        ih (i + 1) f (by omega) (fun k h1 h2 => hsp k (by omega) (by omega))
          (by rw [Nat.add_right_comm]; exact hstop) (by omega)]
      omega

/-- One pass of the second loop of `find_commas` on a byte that is not a
comma: the byte is copied down. -/
theorem comma_step_copy (len : Nat) (st : CommaLoop) (h : charAt st.name st.i ≠ ',') :
    comma_step len st =
      { i := st.i + 1
        j := st.j + 1
        depth := update_depth (charAt st.name st.i) st.depth
        num_commas := st.num_commas
        commas := st.commas
        name := if st.i ≠ st.j then st.name.set st.j (charAt st.name st.i) else st.name } := by
  simp [comma_step, h]

theorem comma_loop_done (len fuel : Nat) (st : CommaLoop) (h : ¬ st.i < len) :
    comma_loop len fuel st = st := by
  cases fuel with
  | zero => rfl
  | succ f => rw [comma_loop, if_neg h]

/-- The second loop of `find_commas` across a stretch without commas: the
stretch is copied down, the depth follows its braces. -/
theorem comma_loop_copy {I : List Char} {len : Nat} (hlen : len < I.length) :
    ∀ (seg out : List Char) (st : CommaLoop) (fuel : Nat), ',' ∉ seg → CommaInv I out st →
      (∀ m, m < seg.length → charAt I (st.i + m) = charAt seg m) →
      st.i + seg.length ≤ len →
      ∃ st', comma_loop len (seg.length + fuel) st = comma_loop len fuel st' ∧
        CommaInv I (out ++ seg) st' ∧ st'.i = st.i + seg.length ∧
        st'.depth = st.depth + brace_depth seg ∧ st'.num_commas = st.num_commas ∧
        st'.commas = st.commas := by
  intro seg
  induction seg with
  | nil =>
    intro out st fuel _ hinv _ _
    exact ⟨st, by simp, by simpa using hinv, rfl, by simp [brace_depth], rfl, rfl⟩
  | cons c seg ih =>
    intro out st fuel hc hinv hseg hle
    obtain ⟨hj, hji, hdone, htodo, hl⟩ := hinv
    simp only [List.length_cons] at hle hseg
    have hcur : charAt st.name st.i = c := by
      rw [htodo st.i (Nat.le_refl _)]
      simpa using hseg 0 (by omega)
    have hcne : c ≠ ',' := fun e => hc (by simp [e])
    have hstep := comma_step_copy len st (by rw [hcur]; exact hcne)
    rw [hcur] at hstep
    have hjlt : st.j < st.name.length := by omega
    have hinv' : CommaInv I (out ++ [c]) (comma_step len st) := by
      rw [hstep]
      refine ⟨by simp [hj], by simp only; omega, ?_, ?_, ?_⟩
      · intro k hk
        simp only [List.length_append, List.length_singleton] at hk
        simp only
        by_cases hkj : k = st.j
        · have e : charAt (out ++ [c]) k = c := by
            rw [hkj, hj]
            exact charAt_snoc out c
          rw [e]
          split_ifs with hne
          · rw [hkj]; exact charAt_set_self _ _ _ hjlt
          · have : st.i = st.j := by omega
            rw [hkj, ← this]; exact hcur
        · have hklt : k < out.length := by omega
          rw [charAt_append_left hklt, ← hdone k hklt]
          split_ifs
          · exact charAt_set_ne _ _ _ _ hkj
          · rfl
      · intro k hk
        simp only at hk ⊢
        rw [← htodo k (by omega)]
        split_ifs
        · exact charAt_set_ne _ _ _ _ (by omega)
        · rfl
      · simp only
        split_ifs
        · simp [hl]
        · exact hl
    obtain ⟨st', e, inv', i', d', n', c'⟩ := ih (out ++ [c]) (comma_step len st) fuel
      (fun h => hc (by simp [h])) hinv'
      (by
        intro m hm
        rw [hstep]
        simp only
        have := hseg (m + 1) (by omega)
        simp only [charAt, List.getD_cons_succ] at this ⊢
        rw [← this]
        congr 1
        omega)
      (by rw [hstep]; simp only; omega)
    refine ⟨st', ?_, by simpa using inv', ?_, ?_, ?_, ?_⟩
    · have e1 : (c :: seg).length + fuel = (seg.length + fuel) + 1 := by
        simp only [List.length_cons]; omega
      rw [e1, comma_loop, if_pos (by omega)]
      exact e
    · rw [i', hstep]; simp only [List.length_cons]; omega
    · rw [d', hstep]
      simp only
      rw [update_depth_eq_add, brace_depth_cons c seg]
      omega
    · rw [n', hstep]
    · rw [c', hstep]
theorem getLast?_eq_charAt {s : List Char} (h : s ≠ []) :
    s.getLast? = some (charAt s (s.length - 1)) := by
  have hpos : 0 < s.length := List.length_pos.2 h
  rw [List.getLast?_eq_getElem?, List.getElem?_eq_getElem (by omega),
    charAt_eq_getElem (by omega)]

theorem charAt_mid (A X B : List Char) {m : Nat} (h : m < X.length) :
    charAt (A ++ (X ++ B)) (A.length + m) = charAt X m := by
  rw [charAt_append_right, charAt_append_left h]

theorem brace_depth_spaces (sp : List Char) (h : ∀ c ∈ sp, c = ' ') : brace_depth sp = 0 := by
  apply brace_depth_of_no_brace
  · intro hm; exact absurd (h _ hm) (by decide)
  · intro hm; exact absurd (h _ hm) (by decide)

/-- One pass of the second loop of `find_commas` on a comma at depth 0: the
blanks written before it are dropped, the comma is written and recorded, the
blanks after it are skipped. -/
theorem comma_step_at {I : List Char} {len : Nat} (hlen : len < I.length)
    (out0 sp1 : List Char) (n2 : Nat) (st : CommaLoop)
    (hinv : CommaInv I (out0 ++ sp1) st) (hd : st.depth = 0)
    (hcomma : charAt I st.i = ',') (hsp1 : ∀ c ∈ sp1, c = ' ')
    (hout0 : out0 ≠ []) (hlast : charAt out0 (out0.length - 1) ≠ ' ')
    (hsp2 : ∀ m, m < n2 → charAt I (st.i + 1 + m) = ' ')
    (hstop : charAt I (st.i + 1 + n2) ≠ ' ') (hle : st.i + 1 + n2 ≤ len) :
    CommaInv I (out0 ++ [',']) (comma_step len st) ∧
      (comma_step len st).i = st.i + 1 + n2 ∧ (comma_step len st).depth = 0 ∧
      (comma_step len st).num_commas = st.num_commas + 1 ∧
      (comma_step len st).commas = st.commas ++ [out0.length] := by
  obtain ⟨hj, hji, hdone, htodo, hl⟩ := hinv
  have hpos : 0 < out0.length := List.length_pos.2 hout0
  simp only [List.length_append] at hj hdone
  have hcur : charAt st.name st.i = ',' := by rw [htodo st.i (Nat.le_refl _)]; exact hcomma
  have hback : back_over_spaces st.name st.j = out0.length := by
    rw [hj]
    apply back_over_spaces_eq
    · right
      rw [hdone _ (by omega), charAt_append_left (by omega)]
      exact hlast
    · intro k h1 h2
      rw [hdone k h2]
      have e : k = out0.length + (k - out0.length) := by omega
      rw [e, charAt_append_right]
      exact hsp1 _ (charAt_mem (by omega))
  have hstep : comma_step len st =
      { i := skip_spaces (if st.i ≠ out0.length then st.name.set out0.length ',' else st.name)
               len (len - (st.i + 1)) (st.i + 1)
        j := out0.length + 1
        depth := 0
        num_commas := st.num_commas + 1
        commas := st.commas ++ [out0.length]
        name := if st.i ≠ out0.length then st.name.set out0.length ',' else st.name } := by
    simp [comma_step, hd, hcur, hback, update_depth]
  have hname : ∀ k, k ≠ out0.length →
      charAt (if st.i ≠ out0.length then st.name.set out0.length ',' else st.name) k
        = charAt st.name k := by
    intro k hk
    split_ifs
    · exact charAt_set_ne _ _ _ _ hk
    · rfl
  have hskip : skip_spaces (if st.i ≠ out0.length then st.name.set out0.length ',' else st.name)
      len (len - (st.i + 1)) (st.i + 1) = st.i + 1 + n2 := by
    apply skip_spaces_eq
    · omega
    · intro k h1 h2
      rw [hname k (by omega), htodo k (by omega)]
      have e : k = st.i + 1 + (k - (st.i + 1)) := by omega
      rw [e]
      exact hsp2 _ (by omega)
    · rw [hname _ (by omega), htodo _ (by omega)]
      exact hstop
    · exact hle
  rw [hstep]
  refine ⟨⟨by simp, by simp only [hskip]; omega, ?_, ?_, ?_⟩, hskip, rfl, rfl, rfl⟩
  · intro k hk
    simp only [List.length_append, List.length_singleton] at hk
    simp only
    by_cases hkj : k = out0.length
    · have e : charAt (out0 ++ [',']) k = ',' := by
        rw [hkj]
        exact charAt_snoc out0 ','
      rw [e, hkj]
      split_ifs with hne
      · exact charAt_set_self _ _ _ (by omega)
      · have : st.i = out0.length := by omega
        rw [← this]; exact hcur
    · have hklt : k < out0.length := by omega
      rw [hname k hkj, hdone k (by omega), charAt_append_left hklt, charAt_append_left hklt]
  · intro k hk
    simp only [hskip] at hk
    simp only
    rw [hname k (by omega), htodo k (by omega)]
  · simp only
    split_ifs
    · simp [hl]
    · exact hl

/-- The second loop of `find_commas` across a stretch without commas that is
followed by a comma at depth 0, with blanks on either side of the comma. -/
theorem comma_loop_comma {I : List Char} {len : Nat} (hlen : len < I.length)
    (A seg sp1 sp2 B out : List Char) (st : CommaLoop) (fuel : Nat)
    (hI : I = A ++ ((seg ++ sp1) ++ (',' :: sp2 ++ B))) (hA : A.length = st.i)
    (hinv : CommaInv I out st) (hseg : ',' ∉ seg) (hne : seg ≠ [])
    (hlast : seg.getLast? ≠ some ' ')
    (hsp1 : ∀ c ∈ sp1, c = ' ') (hsp2 : ∀ c ∈ sp2, c = ' ') (hB : charAt B 0 ≠ ' ')
    (hd : st.depth + brace_depth seg = 0)
    (hle : st.i + seg.length + sp1.length + 1 + sp2.length ≤ len) :
    ∃ st', comma_loop len (seg.length + sp1.length + 1 + fuel) st = comma_loop len fuel st' ∧
      CommaInv I (out ++ seg ++ [',']) st' ∧
      st'.i = st.i + seg.length + sp1.length + 1 + sp2.length ∧ st'.depth = 0 ∧
      st'.num_commas = st.num_commas + 1 ∧
      st'.commas = st.commas ++ [out.length + seg.length] := by
  have hc1 : ',' ∉ seg ++ sp1 := by
    intro h
    rcases List.mem_append.1 h with h | h
    · exact hseg h
    · exact absurd (hsp1 _ h) (by decide)
  obtain ⟨st1, e1, inv1, i1, d1, n1, c1⟩ := comma_loop_copy hlen (seg ++ sp1) out st (1 + fuel)
    hc1 hinv
    (by
      intro m hm
      rw [hI, ← hA]
      exact charAt_mid A (seg ++ sp1) _ hm)
    (by simp only [List.length_append]; omega)
  simp only [List.length_append] at i1
  have hpos : 0 < seg.length := List.length_pos.2 hne
  have hat : ∀ m, charAt I (st1.i + m) = charAt (',' :: sp2 ++ B) m := by
    intro m
    have e : st1.i + m = A.length + ((seg ++ sp1).length + m) := by
      simp only [List.length_append]; omega
    rw [hI, e, charAt_append_right, charAt_append_right]
  have hstep := comma_step_at hlen (out ++ seg) sp1 sp2.length st1
    (by simpa [List.append_assoc] using inv1)
    (by rw [d1, brace_depth_append, brace_depth_spaces sp1 hsp1]; omega)
    (by simpa [charAt] using hat 0) hsp1 (by simp [hne])
    (by
      have e : (out ++ seg).length - 1 = out.length + (seg.length - 1) := by
        simp only [List.length_append]; omega
      rw [e, charAt_append_right]
      intro h
      apply hlast
      rw [getLast?_eq_charAt hne, h])
    (by
      intro m hm
      rw [Nat.add_assoc, hat (1 + m)]
      have e : charAt (',' :: sp2 ++ B) (1 + m) = charAt (sp2 ++ B) m := by
        simp [charAt, Nat.add_comm 1 m]
      rw [e, charAt_append_left hm]
      exact hsp2 _ (charAt_mem hm))
    (by
      rw [Nat.add_assoc, hat (1 + sp2.length)]
      have e : charAt (',' :: sp2 ++ B) (1 + sp2.length) = charAt (sp2 ++ B) (sp2.length + 0) := by
        simp [charAt, Nat.add_comm 1 sp2.length]
      rw [e, charAt_append_right]
      exact hB)
    (by omega)
  obtain ⟨inv2, i2, d2, n2, c2⟩ := hstep
  refine ⟨comma_step len st1, ?_, inv2, by rw [i2, i1]; omega, d2, by rw [n2, n1], ?_⟩
  · have e : seg.length + sp1.length + 1 + fuel = (seg ++ sp1).length + (1 + fuel) := by
      simp only [List.length_append]; omega
    rw [e, e1]
    have e2 : 1 + fuel = fuel + 1 := by omega
    rw [e2, comma_loop, if_pos (by omega)]
  · rw [c2, c1]
    simp
/-- The first loop of `find_commas` on a name with at most two commas: it
counts them and changes nothing. -/
theorem comma_scan_count (name : List Char) (h2 : name.count ',' ≤ 2) :
    comma_scan 2 name.length (name ++ [NUL])
      = { name := name ++ [NUL], num_commas := name.count ',', warned := false, diags := [] } := by
  have key : ∀ n, n ≤ name.length →
      (List.range n).foldl (comma_scan_step 2)
          { name := name ++ [NUL], num_commas := 0, warned := false, diags := [] }
        = { name := name ++ [NUL], num_commas := (name.take n).count ',', warned := false,
            diags := [] } := by
    intro n
    induction n with
    | zero => intro _; rfl
    | succ n ih =>
      intro hn
      have hlt : n < name.length := by omega
      rw [List.range_succ, List.foldl_append, ih (by omega), List.foldl_cons, List.foldl_nil]
      have htake : name.take (n + 1) = name.take n ++ [name[n]] := by
        rw [List.take_succ, List.getElem?_eq_getElem hlt]
        rfl
      have hle : (name.take (n + 1)).count ',' ≤ 2 :=
        Nat.le_trans ((List.take_sublist _ _).count_le _) h2
      have hcur : charAt (name ++ [NUL]) n = name[n] := by
        rw [charAt_append_left hlt, charAt_eq_getElem hlt]
      rw [htake, List.count_append] at hle ⊢
      unfold comma_scan_step
      simp only [hcur, true_and]
      by_cases hc : name[n] = ','
      · rw [hc] at hle ⊢
        simp only [List.count_singleton_self] at hle ⊢
        rw [if_pos trivial, if_neg (by omega)]
      · rw [if_neg hc]
        simp [List.count_singleton, hc]
  have := key name.length (Nat.le_refl _)
  rw [List.take_length] at this
  exact this

/-- The end of `find_commas` on a name with one or two commas, once the
second loop has squeezed the name to `out` and `out` does not end in a
comma. -/
theorem find_commas_finish (name out : List Char) (st : CommaLoop) (hnul : NUL ∉ name)
    (h1 : 1 ≤ name.count ',') (h2 : name.count ',' ≤ 2)
    (hrun : comma_loop name.length name.length
      { i := 0, j := 0, depth := 0, num_commas := 0, commas := [], name := name ++ [NUL] } = st)
    (hinv : CommaInv (name ++ [NUL]) out st) (hi : st.i = name.length) (hout : out ≠ [])
    (hlast : charAt out (out.length - 1) ≠ ',') :
    ∃ rest, find_commas (name ++ [NUL]) 2
      = .ok { name := out ++ NUL :: rest, num_commas := st.num_commas, commas := st.commas,
              diags := [] } := by
  obtain ⟨hj, hji, hdone, htodo, hl⟩ := hinv
  have hpos : 0 < out.length := List.length_pos.2 hout
  have hjlt : st.j < st.name.length := by
    rw [hl]; simp only [List.length_append, List.length_singleton]; omega
  have hname2 : ∀ k, k ≠ st.j →
      charAt (if st.i ≠ st.j then st.name.set st.j NUL else st.name) k = charAt st.name k := by
    intro k hk
    split_ifs
    · exact charAt_set_ne _ _ _ _ hk
    · rfl
  have hend : charAt (if st.i ≠ st.j then st.name.set st.j NUL else st.name) st.j = NUL := by
    split_ifs with hne
    · exact charAt_set_self _ _ _ hjlt
    · have e : st.j = name.length := by omega
      rw [htodo st.j (by omega), e]
      exact charAt_snoc name NUL
  have hlen2 : (if st.i ≠ st.j then st.name.set st.j NUL else st.name).length = st.name.length := by
    split_ifs
    · simp
    · rfl
  have hdecomp : (if st.i ≠ st.j then st.name.set st.j NUL else st.name)
      = out ++ NUL :: (if st.i ≠ st.j then st.name.set st.j NUL else st.name).drop (st.j + 1) := by
    generalize hN : (if st.i ≠ st.j then st.name.set st.j NUL else st.name) = N at *
    have hjN : st.j < N.length := by omega
    have htake : N.take st.j = out := by
      apply List.ext_getElem
      · simp [hj]; omega
      · intro k hk1 hk2
        have h3 := hname2 k (by omega)
        rw [hdone k hk2, charAt_eq_getElem (by omega), charAt_eq_getElem hk2] at h3
        rw [List.getElem_take]
        exact h3
    have hdrop : N.drop st.j = NUL :: N.drop (st.j + 1) := by
      rw [List.drop_eq_getElem_cons hjN, ← charAt_eq_getElem hjN, hend]
    rw [← htake, ← hdrop, List.take_append_drop]
  refine ⟨(if st.i ≠ st.j then st.name.set st.j NUL else st.name).drop (st.j + 1), ?_⟩
  unfold find_commas
  simp only [strlen_append_NUL name [] hnul, comma_scan_count name h2]
  rw [if_neg (by omega)]
  simp only [Bool.false_eq_true, if_false, hrun]
  have hjs : st.j = (out.length - 1) + 1 := by omega
  rw [hjs]
  simp only
  rw [← hjs, if_neg]
  · rw [← hdecomp]
  · rw [hname2 _ (by omega), hdone _ (by omega)]
    exact hlast
theorem comma_not_mem_spaces {sp : List Char} (h : ∀ c ∈ sp, c = ' ') : ',' ∉ sp :=
  fun hm => absurd (h _ hm) (by decide)

theorem NUL_not_mem_spaces {sp : List Char} (h : ∀ c ∈ sp, c = ' ') : NUL ∉ sp :=
  fun hm => absurd (h _ hm) (by decide)

theorem CommaInv_init (I : List Char) :
    CommaInv I []
      { i := 0, j := 0, depth := 0, num_commas := 0, commas := [], name := I } :=
  ⟨rfl, Nat.le_refl _, fun _ hk => absurd hk (by simp), fun _ _ => rfl, rfl⟩

theorem charAt_getLast_ne {s : List Char} {c : Char} (hne : s ≠ []) (h : c ∉ s) :
    charAt s (s.length - 1) ≠ c := by
  intro e
  have hpos : 0 < s.length := List.length_pos.2 hne
  exact h (e ▸ charAt_mem (by omega))

/-- On a name with one comma, at depth 0 and with text on either side,
`find_commas` returns 1 and drops the blanks around the comma. -/
theorem find_commas_one (pre sp1 sp2 post : List Char)
    (hpre : pre ≠ []) (hpost : post ≠ [])
    (hnul1 : NUL ∉ pre) (hnul2 : NUL ∉ post) (hc1 : ',' ∉ pre) (hc2 : ',' ∉ post)
    (hlast : pre.getLast? ≠ some ' ') (hhead : charAt post 0 ≠ ' ')
    (hsp1 : ∀ c ∈ sp1, c = ' ') (hsp2 : ∀ c ∈ sp2, c = ' ') (hd : brace_depth pre = 0) :
    ∃ rest, find_commas ((pre ++ sp1 ++ ',' :: sp2 ++ post) ++ [NUL]) 2
      = .ok { name := (pre ++ ',' :: post) ++ NUL :: rest, num_commas := 1,
              commas := [pre.length], diags := [] } := by
  have hcount : (pre ++ sp1 ++ ',' :: sp2 ++ post).count ',' = 1 := by
    simp [List.count_append, List.count_cons, List.count_eq_zero.2 hc1,
      List.count_eq_zero.2 hc2, List.count_eq_zero.2 (comma_not_mem_spaces hsp1),
      List.count_eq_zero.2 (comma_not_mem_spaces hsp2)]
  have hnul : NUL ∉ pre ++ sp1 ++ ',' :: sp2 ++ post := by
    simp only [List.mem_append, List.mem_cons, not_or]
    exact ⟨⟨⟨hnul1, NUL_not_mem_spaces hsp1⟩, by decide, NUL_not_mem_spaces hsp2⟩, hnul2⟩
  have hlen : (pre ++ sp1 ++ ',' :: sp2 ++ post).length
      = pre.length + sp1.length + 1 + sp2.length + post.length := by
    simp only [List.length_append, List.length_cons]; omega
  have hI : (pre ++ sp1 ++ ',' :: sp2 ++ post) ++ [NUL]
      = [] ++ ((pre ++ sp1) ++ (',' :: sp2 ++ (post ++ [NUL]))) := by
    simp [List.append_assoc]
  have hlt : (pre ++ sp1 ++ ',' :: sp2 ++ post).length
      < ((pre ++ sp1 ++ ',' :: sp2 ++ post) ++ [NUL]).length := by simp
  have hpos : 0 < post.length := List.length_pos.2 hpost
  obtain ⟨st1, e1, inv1, i1, d1, n1, c1⟩ := comma_loop_comma hlt [] pre sp1 sp2 (post ++ [NUL]) []
    { i := 0, j := 0, depth := 0, num_commas := 0, commas := [],
      name := (pre ++ sp1 ++ ',' :: sp2 ++ post) ++ [NUL] }
    (sp2.length + post.length) hI rfl (CommaInv_init _) hc1 hpre hlast hsp1 hsp2
    (by rw [charAt_append_left hpos]; exact hhead) (by simp [hd])
    (by rw [hlen]; simp only; omega)
  simp only at i1
  obtain ⟨st2, e2, inv2, i2, d2, n2, c2⟩ := comma_loop_copy hlt post _ st1 sp2.length hc2 inv1
    (by
      intro m hm
      have e : st1.i + m = ([] : List Char).length + ((pre ++ sp1).length
          + ((',' :: sp2).length + m)) := by
        simp only [List.length_append, List.length_cons, List.length_nil]; omega
      have e' : ',' :: sp2 ++ (post ++ [NUL]) = (',' :: sp2) ++ (post ++ [NUL]) := rfl
      rw [hI, e, charAt_append_right, charAt_append_right, e', charAt_append_right,
        charAt_append_left hm])
    (by rw [hlen]; omega)
  have hrun : comma_loop (pre ++ sp1 ++ ',' :: sp2 ++ post).length
      (pre ++ sp1 ++ ',' :: sp2 ++ post).length
      { i := 0, j := 0, depth := 0, num_commas := 0, commas := [],
        name := (pre ++ sp1 ++ ',' :: sp2 ++ post) ++ [NUL] } = st2 := by
    have e : (pre ++ sp1 ++ ',' :: sp2 ++ post).length
        = pre.length + sp1.length + 1 + (sp2.length + post.length) := by rw [hlen]; omega
    nth_rewrite 2 [e]
    rw [e1, Nat.add_comm sp2.length post.length, e2]
    exact comma_loop_done _ _ _ (by rw [i2, hlen]; omega)
  obtain ⟨rest, hfc⟩ := find_commas_finish _ ([] ++ pre ++ [','] ++ post) st2 hnul
    (by omega) (by omega) hrun inv2 (by rw [i2, hlen]; omega) (by simp [hpost])
    (by
      have e : ([] ++ pre ++ [','] ++ post).length - 1
          = ([] ++ pre ++ [',']).length + (post.length - 1) := by
        simp only [List.length_append, List.length_cons, List.length_nil]; omega
      rw [e, charAt_append_right]
      exact charAt_getLast_ne hpost hc2)
  refine ⟨rest, ?_⟩
  rw [hfc, n2, n1, c2, c1]
  simp [List.append_assoc]
/-- On a name with two commas, both at depth 0 and with text before, between
and after them, `find_commas` returns 2 and drops the blanks around the
commas. -/
theorem find_commas_two (pre sp1 sp2 mid sp3 sp4 post : List Char)
    (hpre : pre ≠ []) (hmid : mid ≠ []) (hpost : post ≠ [])
    (hnul1 : NUL ∉ pre) (hnul2 : NUL ∉ mid) (hnul3 : NUL ∉ post)
    (hc1 : ',' ∉ pre) (hc2 : ',' ∉ mid) (hc3 : ',' ∉ post)
    (hlast1 : pre.getLast? ≠ some ' ') (hhead2 : charAt mid 0 ≠ ' ')
    (hlast2 : mid.getLast? ≠ some ' ') (hhead3 : charAt post 0 ≠ ' ')
    (hsp1 : ∀ c ∈ sp1, c = ' ') (hsp2 : ∀ c ∈ sp2, c = ' ')
    (hsp3 : ∀ c ∈ sp3, c = ' ') (hsp4 : ∀ c ∈ sp4, c = ' ')
    (hd1 : brace_depth pre = 0) (hd2 : brace_depth mid = 0) :
    ∃ rest, find_commas
        ((pre ++ sp1 ++ ',' :: sp2 ++ mid ++ sp3 ++ ',' :: sp4 ++ post) ++ [NUL]) 2
      = .ok { name := (pre ++ ',' :: mid ++ ',' :: post) ++ NUL :: rest, num_commas := 2,
              commas := [pre.length, pre.length + 1 + mid.length], diags := [] } := by
  have hcount : (pre ++ sp1 ++ ',' :: sp2 ++ mid ++ sp3 ++ ',' :: sp4 ++ post).count ',' = 2 := by
    simp [List.count_append, List.count_cons, List.count_eq_zero.2 hc1,
      List.count_eq_zero.2 hc2, List.count_eq_zero.2 hc3,
      List.count_eq_zero.2 (comma_not_mem_spaces hsp1),
      List.count_eq_zero.2 (comma_not_mem_spaces hsp2),
      List.count_eq_zero.2 (comma_not_mem_spaces hsp3),
      List.count_eq_zero.2 (comma_not_mem_spaces hsp4)]
  have hnul : NUL ∉ pre ++ sp1 ++ ',' :: sp2 ++ mid ++ sp3 ++ ',' :: sp4 ++ post := by
    simp only [List.mem_append, List.mem_cons, not_or]
    exact ⟨⟨⟨⟨⟨⟨hnul1, NUL_not_mem_spaces hsp1⟩, by decide, NUL_not_mem_spaces hsp2⟩, hnul2⟩,
      NUL_not_mem_spaces hsp3⟩, by decide, NUL_not_mem_spaces hsp4⟩, hnul3⟩
  generalize hname : pre ++ sp1 ++ ',' :: sp2 ++ mid ++ sp3 ++ ',' :: sp4 ++ post = name at *
  have hlen : name.length = pre.length + sp1.length + 1 + sp2.length + mid.length + sp3.length
      + 1 + sp4.length + post.length := by
    rw [← hname]
    simp only [List.length_append, List.length_cons]; omega
  have hI1 : name ++ [NUL] = [] ++ ((pre ++ sp1) ++
      (',' :: sp2 ++ (mid ++ sp3 ++ ',' :: sp4 ++ post ++ [NUL]))) := by
    rw [← hname]; simp [List.append_assoc]
  have hI2 : name ++ [NUL] = (pre ++ sp1 ++ ',' :: sp2) ++ ((mid ++ sp3) ++
      (',' :: sp4 ++ (post ++ [NUL]))) := by
    rw [← hname]; simp [List.append_assoc]
  have hlt : name.length < (name ++ [NUL]).length := by simp
  have hpos2 : 0 < mid.length := List.length_pos.2 hmid
  have hpos3 : 0 < post.length := List.length_pos.2 hpost
  obtain ⟨st1, e1, inv1, i1, d1, n1, c1⟩ := comma_loop_comma hlt [] pre sp1 sp2
    (mid ++ sp3 ++ ',' :: sp4 ++ post ++ [NUL]) []
    { i := 0, j := 0, depth := 0, num_commas := 0, commas := [], name := name ++ [NUL] }
    (sp2.length + (mid.length + sp3.length + 1 + (sp4.length + post.length))) hI1 rfl
    (CommaInv_init _) hc1 hpre hlast1 hsp1 hsp2
    (by
      simp only [List.append_assoc]
      rw [charAt_append_left hpos2]; exact hhead2)
    (by simp [hd1]) (by rw [hlen]; simp only; omega)
  simp only at i1
  obtain ⟨st2, e2, inv2, i2, d2, n2, c2⟩ := comma_loop_comma hlt (pre ++ sp1 ++ ',' :: sp2)
    mid sp3 sp4 (post ++ [NUL]) _ st1 (sp2.length + (sp4.length + post.length)) hI2
    (by rw [i1]; simp only [List.length_append, List.length_cons]; omega)
    inv1 hc2 hmid hlast2 hsp3 hsp4
    (by rw [charAt_append_left hpos3]; exact hhead3) (by rw [d1, hd2]; rfl)
    (by rw [hlen]; omega)
  obtain ⟨st3, e3, inv3, i3, d3, n3, c3⟩ := comma_loop_copy hlt post _ st2
    (sp2.length + sp4.length) hc3 inv2
    (by
      intro m hm
      have e : st2.i + m = (pre ++ sp1 ++ ',' :: sp2).length + ((mid ++ sp3).length
          + ((',' :: sp4).length + m)) := by
        simp only [List.length_append, List.length_cons]; omega
      have e' : ',' :: sp4 ++ (post ++ [NUL]) = (',' :: sp4) ++ (post ++ [NUL]) := rfl
      rw [hI2, e, charAt_append_right, charAt_append_right, e', charAt_append_right,
        charAt_append_left hm])
    (by rw [hlen]; omega)
  have hrun : comma_loop name.length name.length
      { i := 0, j := 0, depth := 0, num_commas := 0, commas := [], name := name ++ [NUL] }
        = st3 := by
    have e : name.length = pre.length + sp1.length + 1
        + (sp2.length + (mid.length + sp3.length + 1 + (sp4.length + post.length))) := by
      rw [hlen]; omega
    nth_rewrite 2 [e]
    rw [e1]
    have e' : sp2.length + (mid.length + sp3.length + 1 + (sp4.length + post.length))
        = mid.length + sp3.length + 1 + (sp2.length + (sp4.length + post.length)) := by omega
    rw [e', e2]
    have e'' : sp2.length + (sp4.length + post.length)
        = post.length + (sp2.length + sp4.length) := by omega
    rw [e'', e3]
    exact comma_loop_done _ _ _ (by rw [i3, hlen]; omega)
  obtain ⟨rest, hfc⟩ := find_commas_finish _ ([] ++ pre ++ [','] ++ mid ++ [','] ++ post) st3
    hnul (by omega) (by omega) hrun inv3 (by rw [i3, hlen]; omega) (by simp [hpost])
    (by
      have e : ([] ++ pre ++ [','] ++ mid ++ [','] ++ post).length - 1
          = ([] ++ pre ++ [','] ++ mid ++ [',']).length + (post.length - 1) := by
        simp only [List.length_append, List.length_cons, List.length_nil]; omega
      rw [e, charAt_append_right]
      exact charAt_getLast_ne hpost hc3)
  refine ⟨rest, ?_⟩
  rw [hfc, n3, n2, n1, c3, c2, c1]
  simp [List.append_assoc]

/-! ## find_tokens on names with one or two commas -/

/-- One pass of the loop of `find_tokens` inside a comma-free, collapsed
stretch of the name. -/
theorem token_step_seg {buf0 seg : List Char} {off : Nat} {st0 st : TokenLoop} (cap : Int)
    (hbuf : ∀ m, m < seg.length → charAt buf0 (off + m) = charAt seg m)
    (hc : ',' ∉ seg) (hcol : Collapsed seg) (hlt : st.i < off + seg.length)
    (h : SegInv buf0 seg off st0 st) :
    ∃ st', token_step cap st = .ok st' ∧ SegInv buf0 seg off st0 st' ∧ st'.i = st.i + 1 := by
  obtain ⟨hge, hnge, hnlt, hnfirst, ⟨new, hitems, hnew, hnewne⟩, hct, hbd, hstart, hdepth⟩ := h
  have hm : st.i - off < seg.length := by omega
  have hcur : charAt st.name st.i = charAt seg (st.i - off) := by
    rw [hnge st.i (Nat.le_refl _), ← hbuf _ hm]
    congr 1; omega
  have hnc : charAt seg (st.i - off) ≠ ',' := fun e => hc (e ▸ charAt_mem hm)
  have hdep : brace_depth (seg.take (st.i + 1 - off))
      = update_depth (charAt seg (st.i - off)) st.depth := by
    have e : st.i + 1 - off = (st.i - off) + 1 := by omega
    rw [e, brace_depth_take_succ seg _, ← hdepth]
  by_cases hsp : st.depth = 0 ∧ charAt seg (st.i - off) = ' '
  · obtain ⟨hd0, hspace⟩ := hsp
    have hnb : st.in_boundary = false := by
      by_contra hb
      have hb' : st.in_boundary = true := by simpa using hb
      rcases hbd hb' with h0 | hprev
      · rw [h0, Nat.sub_self] at hspace; exact hcol.1 hspace
      · have h1 : 1 ≤ st.i - off := by
          by_contra h0
          have e : st.i - off = 0 := by omega
          rw [e] at hspace; exact hcol.1 hspace
        have := hcol.2.2 (st.i - off - 1) (by omega) hprev
        rw [Nat.sub_add_cancel h1] at this
        exact this hspace
    have hoff : off < st.i := by
      by_contra h0
      have := hstart (by omega)
      rw [hnb] at this
      exact Bool.noConfusion this
    have hilt : st.i < st.name.length := charAt_lt_of_space (by rw [hcur]; exact hspace)
    have hstep : token_step cap st = .ok
        { i := st.i + 1
          in_boundary := true
          depth := st.depth
          items := st.items
          comma_token := st.comma_token
          name := st.name.set st.i NUL } := by
      unfold token_step
      rw [if_pos ⟨hd0, Or.inl (by rw [hcur]; exact hspace)⟩,
        if_neg (by rw [hcur]; exact hnc)]
      simp [hnb, charAt_set_self _ _ _ hilt, update_depth, NUL]
    refine ⟨_, hstep, ⟨by simp only; omega, ?_, ?_, ?_, ⟨new, hitems, hnew, fun _ => hnewne hoff⟩,
      hct, ?_, ?_, ?_⟩, rfl⟩
    · intro k hk
      simp only at hk ⊢
      rw [charAt_set_ne _ _ _ _ (by omega)]
      exact hnge k (by omega)
    · intro k hk
      simp only
      rw [charAt_set_ne _ _ _ _ (by omega)]
      exact hnlt k hk
    · intro _
      simp only
      rw [charAt_set_ne _ _ _ _ (by omega)]
      exact hnfirst hoff
    · intro _
      right
      simp only
      have e : st.i + 1 - off - 1 = st.i - off := by omega
      rw [e]; exact hspace
    · intro h0; simp only at h0; omega
    · simp only
      rw [hdep, hspace]
      simp [update_depth]
  · have hcond : ¬ (st.depth = 0 ∧ (charAt st.name st.i = ' ' ∨ charAt st.name st.i = ',')) := by
      rw [hcur]
      rintro ⟨h1, h2 | h2⟩
      · exact hsp ⟨h1, h2⟩
      · exact hnc h2
    unfold token_step
    rw [if_neg hcond]
    refine ⟨_, rfl, ⟨by simp only; omega, ?_, ?_, ?_, ?_, hct, ?_, ?_, ?_⟩, rfl⟩
    · intro k hk
      exact hnge k (by simp only at hk; omega)
    · exact hnlt
    · intro _
      simp only
      by_cases hoff : off < st.i
      · exact hnfirst hoff
      · have e : st.i = off := by omega
        rw [← e, hcur, e, Nat.sub_self]
    · simp only
      by_cases hpush : st.depth = 0 ∧ st.in_boundary = true
      · rw [if_pos hpush]
        refine ⟨new ++ [some st.i], by rw [hitems, List.append_assoc], ?_, fun _ => by simp⟩
        intro it hit
        rcases List.mem_append.1 hit with h1 | h1
        · exact hnew it h1
        · simp only [List.mem_singleton] at h1
          rw [h1]; simp
      · rw [if_neg hpush]
        refine ⟨new, hitems, hnew, ?_⟩
        intro _
        apply hnewne
        by_contra h0
        have e : st.i = off := by omega
        apply hpush
        refine ⟨?_, hstart e⟩
        rw [hdepth, e, Nat.sub_self]
        rfl
    · intro hb; simp at hb
    · intro h0; simp only at h0; omega
    · simp only
      rw [hdep, hcur]

/-- The loop of `find_tokens` across a comma-free, collapsed stretch. -/
theorem token_loop_seg {buf0 seg : List Char} {off : Nat} {st0 : TokenLoop} (len : Nat)
    (cap : Int) (hbuf : ∀ m, m < seg.length → charAt buf0 (off + m) = charAt seg m)
    (hc : ',' ∉ seg) (hcol : Collapsed seg) (hle : off + seg.length ≤ len) (fuel : Nat) :
    ∀ (n : Nat) (st : TokenLoop), SegInv buf0 seg off st0 st → st.i + n = off + seg.length →
      ∃ st', token_loop len cap (n + fuel) st = token_loop len cap fuel st' ∧
        SegInv buf0 seg off st0 st' ∧ st'.i = off + seg.length := by
  intro n
  induction n with
  | zero => intro st h hi; exact ⟨st, by simp, h, by omega⟩
  | succ n ih =>
    intro st h hi
    obtain ⟨st1, e1, inv1, i1⟩ := token_step_seg cap hbuf hc hcol (by omega) h
    obtain ⟨st', e, inv', i'⟩ := ih st1 inv1 (by omega)
    refine ⟨st', ?_, inv', i'⟩
    have e2 : n + 1 + fuel = (n + fuel) + 1 := by omega
    rw [e2, token_loop, if_pos (by omega), e1]
    exact e
theorem SegInv_start {buf0 seg : List Char} {off : Nat} {st : TokenLoop}
    (h : AtBoundary buf0 off st) : SegInv buf0 seg off st st where
  i_ge := by rw [h.i_eq]
  name_ge := fun k hk => h.name_ge k (by rw [← h.i_eq]; exact hk)
  name_lt := fun _ _ => rfl
  name_first := fun hlt => absurd hlt (by rw [h.i_eq]; omega)
  items_ext := ⟨[], by simp, by simp, fun hlt => absurd hlt (by rw [h.i_eq]; omega)⟩
  comma_eq := rfl
  boundary := fun _ => Or.inl h.i_eq
  at_start := fun _ => h.inb
  depth_eq := by rw [h.i_eq, Nat.sub_self, h.depth0]; rfl

theorem token_loop_done (len : Nat) (cap : Int) (fuel : Nat) (st : TokenLoop)
    (h : ¬ st.i < len) : token_loop len cap fuel st = .ok st := by
  cases fuel with
  | zero => rfl
  | succ f => rw [token_loop, if_neg h]

/-- The state of the loop of `find_tokens` once it has crossed a non-empty,
comma-free, collapsed stretch: it is inside the last token of the stretch. -/
theorem SegInv_end {buf0 seg : List Char} {off : Nat} {st0 st : TokenLoop}
    (hne : seg ≠ []) (hcol : Collapsed seg) (h : SegInv buf0 seg off st0 st)
    (hi : st.i = off + seg.length) :
    st.in_boundary = false ∧ st.depth = brace_depth seg ∧
      ∃ new, st.items = st0.items ++ new ∧ new ≠ [] ∧ ∀ it ∈ new, it ≠ none := by
  have hpos : 0 < seg.length := List.length_pos.2 hne
  obtain ⟨new, hitems, hnew, hnewne⟩ := h.items_ext
  refine ⟨?_, ?_, new, hitems, hnewne (by omega), hnew⟩
  · by_contra hb
    have hb' : st.in_boundary = true := by simpa using hb
    rcases h.boundary hb' with h0 | hprev
    · omega
    · apply hcol.2.1
      have e : st.i - off - 1 = seg.length - 1 := by omega
      rw [getLast?_eq_charAt hne, ← e, hprev]
  · rw [h.depth_eq]
    have e : st.i - off = seg.length := by omega
    rw [e, List.take_length]

/-- One pass of the loop of `find_tokens` on a comma at depth 0 that ends a
token. -/
theorem token_step_comma (cap : Int) (st : TokenLoop) (hcur : charAt st.name st.i = ',')
    (hd : st.depth = 0) (hnb : st.in_boundary = false)
    (hcap : (st.comma_token.length : Int) < cap) :
    token_step cap st = .ok
      { i := st.i + 1
        in_boundary := true
        depth := 0
        items := st.items
        comma_token := st.comma_token ++ [(st.items.length : Int) - 1]
        name := st.name.set st.i NUL } := by
  have hilt : st.i < st.name.length := charAt_lt_of_ne_NUL (by rw [hcur]; decide)
  unfold token_step
  rw [if_pos ⟨hd, Or.inr hcur⟩, if_pos hcur, if_neg (by omega), if_neg (by omega)]
  simp [hnb, hd, charAt_set_self _ _ _ hilt, update_depth, NUL]

/-- The loop of `find_tokens` across a non-empty, comma-free, collapsed
stretch with balanced braces that a comma follows: the stretch adds tokens,
none of them `NULL`, and the comma is recorded after the last of them. -/
theorem token_loop_seg_comma {buf0 seg : List Char} {off : Nat} {st : TokenLoop} (len : Nat)
    (cap : Int) (hbuf : ∀ m, m < seg.length → charAt buf0 (off + m) = charAt seg m)
    (hcomma : charAt buf0 (off + seg.length) = ',')
    (hne : seg ≠ []) (hc : ',' ∉ seg) (hcol : Collapsed seg) (hd : brace_depth seg = 0)
    (hle : off + seg.length + 1 ≤ len) (hcap : (st.comma_token.length : Int) < cap)
    (hst : AtBoundary buf0 (off) st) (fuel : Nat) :
    ∃ st' new, token_loop len cap (seg.length + 1 + fuel) st = token_loop len cap fuel st' ∧
      AtBoundary buf0 (off + seg.length + 1) st' ∧
      st'.items = st.items ++ new ∧ new ≠ [] ∧ (∀ it ∈ new, it ≠ none) ∧
      st'.comma_token = st.comma_token ++ [((st.items ++ new).length : Int) - 1] ∧
      (∀ k, k < off → charAt st'.name k = charAt st.name k) ∧
      charAt st'.name off = charAt seg 0 := by
  have hpos : 0 < seg.length := List.length_pos.2 hne
  obtain ⟨st1, e1, inv1, i1⟩ := token_loop_seg len cap hbuf hc hcol (by omega) (1 + fuel)
    seg.length st (SegInv_start hst) (by rw [hst.i_eq])
  obtain ⟨hnb, hdep, new, hitems, hnewne, hnew⟩ := SegInv_end hne hcol inv1 i1
  have hcur : charAt st1.name st1.i = ',' := by
    rw [inv1.name_ge _ (Nat.le_refl _), i1]; exact hcomma
  have hstep := token_step_comma cap st1 hcur (by rw [hdep, hd]) hnb
    (by rw [inv1.comma_eq]; exact hcap)
  refine ⟨{ i := st1.i + 1, in_boundary := true, depth := 0, items := st1.items,
            comma_token := st1.comma_token ++ [(st1.items.length : Int) - 1],
            name := st1.name.set st1.i NUL },
    new, ?_, ⟨?_, rfl, rfl, ?_⟩, hitems, hnewne, hnew, ?_, ?_, ?_⟩
  · have e2 : seg.length + 1 + fuel = seg.length + (1 + fuel) := by omega
    have e3 : 1 + fuel = fuel + 1 := by omega
    rw [e2, e1, e3, token_loop, if_pos (by omega), hstep]
  · simp only; omega
  · intro k hk
    simp only
    rw [charAt_set_ne _ _ _ _ (by omega)]
    exact inv1.name_ge k (by omega)
  · simp only
    rw [inv1.comma_eq, hitems]
  · intro k hk
    simp only
    rw [charAt_set_ne _ _ _ _ (by omega)]
    exact inv1.name_lt k hk
  · simp only
    rw [charAt_set_ne _ _ _ _ (by omega)]
    exact inv1.name_first (by omega)

/-- The loop of `find_tokens` across the last stretch of the name. -/
theorem token_loop_seg_last {buf0 seg : List Char} {off : Nat} {st : TokenLoop} (len : Nat)
    (cap : Int) (hbuf : ∀ m, m < seg.length → charAt buf0 (off + m) = charAt seg m)
    (hne : seg ≠ []) (hc : ',' ∉ seg) (hcol : Collapsed seg)
    (hle : off + seg.length = len) (hst : AtBoundary buf0 (off) st) (fuel : Nat) :
    ∃ st' new, token_loop len cap (seg.length + fuel) st = .ok st' ∧
      st'.items = st.items ++ new ∧ new ≠ [] ∧ (∀ it ∈ new, it ≠ none) ∧
      st'.comma_token = st.comma_token ∧
      (∀ k, k < off → charAt st'.name k = charAt st.name k) ∧
      charAt st'.name off = charAt seg 0 := by
  have hpos : 0 < seg.length := List.length_pos.2 hne
  obtain ⟨st1, e1, inv1, i1⟩ := token_loop_seg len cap hbuf hc hcol (by omega) fuel
    seg.length st (SegInv_start hst) (by rw [hst.i_eq])
  obtain ⟨_, _, new, hitems, hnewne, hnew⟩ := SegInv_end hne hcol inv1 i1
  refine ⟨st1, new, ?_, hitems, hnewne, hnew, inv1.comma_eq, inv1.name_lt,
    inv1.name_first (by omega)⟩
  rw [e1]
  exact token_loop_done _ _ _ _ (by omega)
theorem AtBoundary_init (buf0 : List Char) :
    AtBoundary buf0 0
      { i := 0, in_boundary := true, depth := 0, items := [], comma_token := [],
        name := buf0 } :=
  ⟨rfl, rfl, rfl, fun _ _ => rfl⟩

theorem charAt_head_ne_NUL {s : List Char} (hne : s ≠ []) (hnul : NUL ∉ s) :
    charAt s 0 ≠ NUL :=
  fun e => hnul (e ▸ charAt_mem (List.length_pos.2 hne))

/-- On a squeezed name with one comma `find_tokens` returns at least one token
on either side of the comma, none of them `NULL`, and records the comma after
the last token before it. -/
theorem find_tokens_one (pre post rest : List Char) (hpre : pre ≠ []) (hpost : post ≠ [])
    (hnul1 : NUL ∉ pre) (hnul2 : NUL ∉ post) (hc1 : ',' ∉ pre) (hc2 : ',' ∉ post)
    (hcol1 : Collapsed pre) (hcol2 : Collapsed post) (hd : brace_depth pre = 0) :
    ∃ (toks : bt_stringlist) (c : Nat),
      find_tokens ((pre ++ ',' :: post) ++ NUL :: rest) 1 = .ok (toks, [(c : Int)]) ∧
      toks.num_items = some toks.items.length ∧ (∀ it ∈ toks.items, it ≠ none) ∧
      strlen toks.string ≠ 0 ∧ c + 1 < toks.items.length := by
  generalize hN : (pre ++ ',' :: post) ++ NUL :: rest = N
  have hnul : NUL ∉ pre ++ ',' :: post := by
    simp only [List.mem_append, List.mem_cons, not_or]
    exact ⟨hnul1, by decide, hnul2⟩
  have hlen : strlen N = pre.length + 1 + post.length := by
    rw [← hN, strlen_append_NUL _ _ hnul]
    simp only [List.length_append, List.length_cons]; omega
  have hN1 : N = [] ++ (pre ++ (',' :: post ++ NUL :: rest)) := by
    rw [← hN]; simp [List.append_assoc]
  have hN2 : N = pre ++ ([','] ++ (post ++ NUL :: rest)) := by
    rw [← hN]; simp [List.append_assoc]
  have hN3 : N = (pre ++ [',']) ++ (post ++ NUL :: rest) := by
    rw [← hN]; simp [List.append_assoc]
  obtain ⟨st1, new1, e1, at1, items1, ne1, some1, ct1, _, first1⟩ :=
    @token_loop_seg_comma N pre 0 _ (strlen N) 1
      (by
        intro m hm
        have := charAt_mid [] pre (',' :: post ++ NUL :: rest) hm
        rw [← hN1] at this
        exact this)
      (by
        have := charAt_mid pre [','] (post ++ NUL :: rest) (Nat.zero_lt_one)
        rw [← hN2] at this
        simpa [charAt] using this)
      hpre hc1 hcol1 hd (by rw [hlen]; omega) (by simp) (AtBoundary_init N) post.length
  obtain ⟨st2, new2, e2, items2, ne2, some2, ct2, lt2, _⟩ :=
    @token_loop_seg_last N post (0 + pre.length + 1) st1 (strlen N) 1
      (by
        intro m hm
        have := charAt_mid (pre ++ [',']) post (NUL :: rest) hm
        rw [← hN3] at this
        simpa using this)
      hpost hc2 hcol2 (by rw [hlen]; omega) at1 0
  have hpos1 : 0 < new1.length := List.length_pos.2 ne1
  have hpos2 : 0 < new2.length := List.length_pos.2 ne2
  refine ⟨{ string := st2.name, num_items := some st2.items.length, items := st2.items },
    new1.length - 1, ?_, rfl, ?_, ?_, ?_⟩
  · unfold find_tokens
    simp only
    rw [if_neg (by rw [hlen]; omega)]
    have e : strlen N = pre.length + 1 + post.length := hlen
    nth_rewrite 2 [e]
    rw [e1]
    simp only [Nat.add_zero] at e2
    rw [e2]
    simp only [ct2, ct1, List.nil_append, List.length_append, List.length_nil]
    congr 3
    omega
  · intro it hit
    simp only [items2, items1, List.nil_append, List.mem_append] at hit
    rcases hit with h | h
    · exact some1 it h
    · exact some2 it h
  · apply strlen_ne_zero
    simp only
    rw [lt2 0 (by omega), first1]
    exact charAt_head_ne_NUL hpre hnul1
  · simp only [items2, items1, List.nil_append, List.length_append]
    omega
/-- On a squeezed name with two commas `find_tokens` returns at least one
token before, between and after the commas, none of them `NULL`, and records
each comma after the last token before it. -/
theorem find_tokens_two (pre mid post rest : List Char)
    (hpre : pre ≠ []) (hmid : mid ≠ []) (hpost : post ≠ [])
    (hnul1 : NUL ∉ pre) (hnul2 : NUL ∉ mid) (hnul3 : NUL ∉ post)
    (hc1 : ',' ∉ pre) (hc2 : ',' ∉ mid) (hc3 : ',' ∉ post)
    (hcol1 : Collapsed pre) (hcol2 : Collapsed mid) (hcol3 : Collapsed post)
    (hd1 : brace_depth pre = 0) (hd2 : brace_depth mid = 0) :
    ∃ (toks : bt_stringlist) (c1 c2 : Nat),
      find_tokens ((pre ++ ',' :: mid ++ ',' :: post) ++ NUL :: rest) 2
        = .ok (toks, [(c1 : Int), (c2 : Int)]) ∧
      toks.num_items = some toks.items.length ∧ (∀ it ∈ toks.items, it ≠ none) ∧
      strlen toks.string ≠ 0 ∧ c1 < c2 ∧ c2 + 1 < toks.items.length := by
  generalize hN : (pre ++ ',' :: mid ++ ',' :: post) ++ NUL :: rest = N
  have hnul : NUL ∉ pre ++ ',' :: mid ++ ',' :: post := by
    simp only [List.mem_append, List.mem_cons, not_or]
    exact ⟨⟨hnul1, by decide, hnul2⟩, by decide, hnul3⟩
  have hlen : strlen N = pre.length + 1 + mid.length + 1 + post.length := by
    rw [← hN, strlen_append_NUL _ _ hnul]
    simp only [List.length_append, List.length_cons]; omega
  have hN1 : N = [] ++ (pre ++ (',' :: mid ++ ',' :: post ++ NUL :: rest)) := by
    rw [← hN]; simp [List.append_assoc]
  have hN2 : N = pre ++ ([','] ++ (mid ++ ',' :: post ++ NUL :: rest)) := by
    rw [← hN]; simp [List.append_assoc]
  have hN3 : N = (pre ++ [',']) ++ (mid ++ (',' :: post ++ NUL :: rest)) := by
    rw [← hN]; simp [List.append_assoc]
  have hN4 : N = (pre ++ ',' :: mid) ++ ([','] ++ (post ++ NUL :: rest)) := by
    rw [← hN]; simp [List.append_assoc]
  have hN5 : N = (pre ++ ',' :: mid ++ [',']) ++ (post ++ NUL :: rest) := by
    rw [← hN]; simp [List.append_assoc]
  obtain ⟨st1, new1, e1, at1, items1, ne1, some1, ct1, _, first1⟩ :=
    @token_loop_seg_comma N pre 0 _ (strlen N) 2
      (by
        intro m hm
        have := charAt_mid [] pre (',' :: mid ++ ',' :: post ++ NUL :: rest) hm
        rw [← hN1] at this
        exact this)
      (by
        have := charAt_mid pre [','] (mid ++ ',' :: post ++ NUL :: rest) (Nat.zero_lt_one)
        rw [← hN2] at this
        simpa [charAt] using this)
      hpre hc1 hcol1 hd1 (by rw [hlen]; omega) (by simp) (AtBoundary_init N)
      (mid.length + 1 + post.length)
  obtain ⟨st2, new2, e2, at2, items2, ne2, some2, ct2, lt2, _⟩ :=
    @token_loop_seg_comma N mid (0 + pre.length + 1) st1 (strlen N) 2
      (by
        intro m hm
        have := charAt_mid (pre ++ [',']) mid (',' :: post ++ NUL :: rest) hm
        rw [← hN3] at this
        simpa using this)
      (by
        have := charAt_mid (pre ++ ',' :: mid) [','] (post ++ NUL :: rest) (Nat.zero_lt_one)
        rw [← hN4] at this
        simp only [List.length_append, List.length_cons] at this
        have e : 0 + pre.length + 1 + mid.length = pre.length + (mid.length + 1) + 0 := by omega
        rw [e, this]
        rfl)
      hmid hc2 hcol2 hd2 (by rw [hlen]; omega) (by rw [ct1]; simp) at1 post.length
  obtain ⟨st3, new3, e3, items3, ne3, some3, ct3, lt3, _⟩ :=
    @token_loop_seg_last N post (0 + pre.length + 1 + mid.length + 1) st2 (strlen N) 2
      (by
        intro m hm
        have := charAt_mid (pre ++ ',' :: mid ++ [',']) post (NUL :: rest) hm
        rw [← hN5] at this
        simp only [List.length_append, List.length_cons, List.length_nil] at this
        have e : 0 + pre.length + 1 + mid.length + 1 + m
            = pre.length + (mid.length + 1) + (0 + 1) + m := by omega
        rw [e, this])
      hpost hc3 hcol3 (by rw [hlen]; omega) at2 0
  have hpos1 : 0 < new1.length := List.length_pos.2 ne1
  have hpos2 : 0 < new2.length := List.length_pos.2 ne2
  have hpos3 : 0 < new3.length := List.length_pos.2 ne3
  refine ⟨{ string := st3.name, num_items := some st3.items.length, items := st3.items },
    new1.length - 1, new1.length + new2.length - 1, ?_, rfl, ?_, ?_, by omega, ?_⟩
  · unfold find_tokens
    simp only
    rw [if_neg (by rw [hlen]; omega)]
    have e : strlen N = pre.length + 1 + (mid.length + 1 + post.length) := by rw [hlen]; omega
    nth_rewrite 2 [e]
    rw [e1, e2]
    simp only [Nat.add_zero] at e3
    rw [e3]
    simp only [ct3, ct2, ct1, items1, List.nil_append, List.length_append, List.length_nil,
      List.cons_append]
    congr 3
    · omega
    · congr 1
      omega
  · intro it hit
    simp only [items3, items2, items1, List.nil_append, List.mem_append] at hit
    rcases hit with (h | h) | h
    · exact some1 it h
    · exact some2 it h
    · exact some3 it h
  · apply strlen_ne_zero
    simp only
    rw [lt3 0 (by omega), lt2 0 (by omega), first1]
    exact charAt_head_ne_NUL hpre hnul1
  · simp only [items3, items2, items1, List.nil_append, List.length_append]
    omega

/-! ## bt_split_name on names with one or two commas -/

theorem texts_of_some (toks : bt_stringlist) (hsome : ∀ it ∈ toks.items, it ≠ none) :
    ∃ T : List (List Char), toks.texts = T.map some ∧ T.length = toks.items.length := by
  obtain ⟨T, hT⟩ := eq_map_some_of_ne_none toks.texts (by
    intro x hx
    simp only [bt_stringlist.texts, List.mem_map] at hx
    obtain ⟨it, hit, rfl⟩ := hx
    cases it with
    | none => exact absurd rfl (hsome none hit)
    | some off => simp)
  refine ⟨T, hT, ?_⟩
  have := congrArg List.length hT
  simpa [bt_stringlist.texts] using this.symm

/-- For a name with one comma, at depth 0 and with whitespace-collapsed text
on either side, `bt_split_name` returns what `split_general_name` makes of
the name's tokens, of the token before the comma and of the first run of
lowercase tokens. -/
theorem bt_split_name_one (pre sp1 sp2 post : List Char)
    (hpre : pre ≠ []) (hpost : post ≠ [])
    (hnul1 : NUL ∉ pre) (hnul2 : NUL ∉ post) (hc1 : ',' ∉ pre) (hc2 : ',' ∉ post)
    (hcol1 : Collapsed pre) (hcol2 : Collapsed post)
    (hsp1 : ∀ c ∈ sp1, c = ' ') (hsp2 : ∀ c ∈ sp2, c = ' ') (hd : brace_depth pre = 0) :
    ∃ (toks : bt_stringlist) (T : List (List Char)) (c : Nat) (f l : Int) (rest : List Char),
      toks.texts = T.map some ∧ c + 1 < T.length ∧
        FirstLcRun (token_is_lc toks) T.length f l ∧
        find_commas ((pre ++ sp1 ++ ',' :: sp2 ++ post) ++ [NUL]) 2
          = .ok { name := (pre ++ ',' :: post) ++ NUL :: rest, num_commas := 1,
                  commas := [pre.length], diags := [] } ∧
        find_tokens ((pre ++ ',' :: post) ++ NUL :: rest) 1 = .ok (toks, [(c : Int)]) ∧
        bt_split_name (some (pre ++ sp1 ++ ',' :: sp2 ++ post))
          = split_general_name toks (T.length : Int) 1 [(c : Int)] f l := by
  obtain ⟨rest, hfc⟩ := find_commas_one pre sp1 sp2 post hpre hpost hnul1 hnul2 hc1 hc2
    hcol1.2.1 hcol2.1 hsp1 hsp2 hd
  obtain ⟨toks, c, hft, hnum, hsome, hstr, hcn⟩ := find_tokens_one pre post rest hpre hpost
    hnul1 hnul2 hc1 hc2 hcol1 hcol2 hd
  obtain ⟨T, hT, hlen⟩ := texts_of_some toks hsome
  obtain ⟨f, l, hlc, hrun⟩ := find_lc_tokens_spec hnum hsome
  refine ⟨toks, T, c, f, l, rest, hT, by omega, by rw [hlen]; exact hrun, hfc, hft, ?_⟩
  have hnul : NUL ∉ pre ++ sp1 ++ ',' :: sp2 ++ post := by
    simp only [List.mem_append, List.mem_cons, not_or]
    exact ⟨⟨⟨hnul1, NUL_not_mem_spaces hsp1⟩, by decide, NUL_not_mem_spaces hsp2⟩, hnul2⟩
  unfold bt_split_name
  simp only [hfc, hft, hlc, hnum, hlen, strlen_append_NUL _ [] hnul]
  rw [if_neg (by
    simp only [List.length_append, List.length_cons, Nat.cast_add, Nat.cast_one]
    omega), if_neg hstr, if_neg (by decide)]
  cases split_general_name toks (toks.items.length : Int) 1 [(c : Int)] f l with
  | error e => rfl
  | ok r => simp
/-- For a name with two commas, both at depth 0 and with whitespace-collapsed
text before, between and after them, `bt_split_name` returns what
`split_general_name` makes of the name's tokens, of the tokens before the
commas and of the first run of lowercase tokens. -/
theorem bt_split_name_two (pre sp1 sp2 mid sp3 sp4 post : List Char)
    (hpre : pre ≠ []) (hmid : mid ≠ []) (hpost : post ≠ [])
    (hnul1 : NUL ∉ pre) (hnul2 : NUL ∉ mid) (hnul3 : NUL ∉ post)
    (hc1 : ',' ∉ pre) (hc2 : ',' ∉ mid) (hc3 : ',' ∉ post)
    (hcol1 : Collapsed pre) (hcol2 : Collapsed mid) (hcol3 : Collapsed post)
    (hsp1 : ∀ c ∈ sp1, c = ' ') (hsp2 : ∀ c ∈ sp2, c = ' ')
    (hsp3 : ∀ c ∈ sp3, c = ' ') (hsp4 : ∀ c ∈ sp4, c = ' ')
    (hd1 : brace_depth pre = 0) (hd2 : brace_depth mid = 0) :
    ∃ (toks : bt_stringlist) (T : List (List Char)) (c1 c2 : Nat) (f l : Int)
        (rest : List Char),
      toks.texts = T.map some ∧ c1 < c2 ∧ c2 + 1 < T.length ∧
        FirstLcRun (token_is_lc toks) T.length f l ∧
        find_commas ((pre ++ sp1 ++ ',' :: sp2 ++ mid ++ sp3 ++ ',' :: sp4 ++ post) ++ [NUL]) 2
          = .ok { name := (pre ++ ',' :: mid ++ ',' :: post) ++ NUL :: rest, num_commas := 2,
                  commas := [pre.length, pre.length + 1 + mid.length], diags := [] } ∧
        find_tokens ((pre ++ ',' :: mid ++ ',' :: post) ++ NUL :: rest) 2
          = .ok (toks, [(c1 : Int), (c2 : Int)]) ∧
        bt_split_name (some (pre ++ sp1 ++ ',' :: sp2 ++ mid ++ sp3 ++ ',' :: sp4 ++ post))
          = split_general_name toks (T.length : Int) 2 [(c1 : Int), (c2 : Int)] f l := by
  obtain ⟨rest, hfc⟩ := find_commas_two pre sp1 sp2 mid sp3 sp4 post hpre hmid hpost
    hnul1 hnul2 hnul3 hc1 hc2 hc3 hcol1.2.1 hcol2.1 hcol2.2.1 hcol3.1 hsp1 hsp2 hsp3 hsp4 hd1 hd2
  obtain ⟨toks, c1, c2, hft, hnum, hsome, hstr, hcc, hcn⟩ := find_tokens_two pre mid post rest
    hpre hmid hpost hnul1 hnul2 hnul3 hc1 hc2 hc3 hcol1 hcol2 hcol3 hd1 hd2
  obtain ⟨T, hT, hlen⟩ := texts_of_some toks hsome
  obtain ⟨f, l, hlc, hrun⟩ := find_lc_tokens_spec hnum hsome
  refine ⟨toks, T, c1, c2, f, l, rest, hT, hcc, by omega, by rw [hlen]; exact hrun, hfc, hft, ?_⟩
  have hnul : NUL ∉ pre ++ sp1 ++ ',' :: sp2 ++ mid ++ sp3 ++ ',' :: sp4 ++ post := by
    simp only [List.mem_append, List.mem_cons, not_or]
    exact ⟨⟨⟨⟨⟨⟨hnul1, NUL_not_mem_spaces hsp1⟩, by decide, NUL_not_mem_spaces hsp2⟩, hnul2⟩,
      NUL_not_mem_spaces hsp3⟩, by decide, NUL_not_mem_spaces hsp4⟩, hnul3⟩
  unfold bt_split_name
  simp only [hfc, hft, hlc, hnum, hlen, strlen_append_NUL _ [] hnul]
  rw [if_neg (by
    have h1 : 0 < pre.length := List.length_pos.2 hpre
    have h2 : 0 < mid.length := List.length_pos.2 hmid
    simp only [List.length_append, List.length_cons, Nat.cast_add, Nat.cast_one]
    omega), if_neg hstr, if_neg (by decide)]
  cases split_general_name toks (toks.items.length : Int) 2 [(c1 : Int), (c2 : Int)] f l with
  | error e => rfl
  | ok r => simp
theorem first_lc_run_zero {flag : Nat → Bool} {n : Nat} {l : Int}
    (h : FirstLcRun flag n 0 l) : flag 0 = true := by
  rcases h with ⟨hf, _, _⟩ | ⟨a, b, hf, _, hab, _, _, hin, _⟩
  · omega
  · have e : a = 0 := by omega
    subst e
    exact hin 0 (Nat.le_refl _) (Nat.zero_le _)

theorem first_lc_run_from_start {toks : bt_stringlist} {T : List (List Char)} {f l : Int}
    (hT : toks.texts = T.map some) (h : FirstLcRun (token_is_lc toks) T.length f l) {b : Nat}
    (hb : LcRunFromStart T b) : f = 0 ∧ l = (b : Int) := by
  obtain ⟨hlt, hrun, hstop⟩ := hb
  have hflag : ∀ {k : Nat} (hk : k < T.length), token_is_lc toks k = lc_initial T[k] :=
    fun hk => token_is_lc_eq hT (List.getElem?_eq_getElem hk)
  have hlc : ∀ k, k ≤ b → token_is_lc toks k = true := by
    intro k hk
    have hklt : k < T.length := by omega
    rw [hflag hklt]
    exact hrun k _ hk (List.getElem?_eq_getElem hklt)
  have hnot : token_is_lc toks (b + 1) = false := by
    rw [hflag hlt]
    exact hstop _ (List.getElem?_eq_getElem hlt)
  rcases h with ⟨_, _, hnone⟩ | ⟨a, b', hf, hl, hab, hb', hbefore, hin, hafter⟩
  · have := hnone 0 (by omega)
    rw [hlc 0 (Nat.zero_le _)] at this
    exact Bool.noConfusion this
  · have ha : a = 0 := by
      by_contra hne
      have := hbefore 0 (by omega)
      rw [hlc 0 (Nat.zero_le _)] at this
      exact Bool.noConfusion this
    subst ha
    have h1 : b ≤ b' := by
      by_contra hlt'
      have := hafter (by omega)
      rw [hlc (b' + 1) (by omega)] at this
      exact Bool.noConfusion this
    have h2 : b' ≤ b := by
      by_contra hlt'
      have := hin (b + 1) (Nat.zero_le _) (by omega)
      rw [hnot] at this
      exact Bool.noConfusion this
    exact ⟨by omega, by omega⟩

theorem first_lc_ne_zero {toks : bt_stringlist} {T : List (List Char)} {f l : Int}
    (hT : toks.texts = T.map some) (h : FirstLcRun (token_is_lc toks) T.length f l)
    (hpos : 0 < T.length) (h0 : ∀ t, T[0]? = some t → lc_initial t = false) : f ≠ 0 := by
  intro hf
  subst hf
  have := first_lc_run_zero h
  rw [token_is_lc_eq hT (List.getElem?_eq_getElem hpos),
    h0 _ (List.getElem?_eq_getElem hpos)] at this
  exact Bool.noConfusion this

/-- The result of `split_general_name` on a name with one comma: first is
what follows the comma, jr is empty, last ends at the comma and starts after
von. -/
theorem split_general_name_one (toks : bt_stringlist) (n c f l : Int) :
    split_general_name toks n 1 [c] f l
      = .ok ({ tokens := some toks
               first := (resolve_token_range (c + 1, n - 1)).1
               n_first := (resolve_token_range (c + 1, n - 1)).2
               von := (resolve_token_range
                 (if f = 0 then (if l = c then (0, l - 1) else (0, l)) else (0, -1))).1
               n_von := (resolve_token_range
                 (if f = 0 then (if l = c then (0, l - 1) else (0, l)) else (0, -1))).2
               last := (resolve_token_range
                 ((if f = 0 then (if l = c then l - 1 else l) else -1) + 1, c)).1
               n_last := (resolve_token_range
                 ((if f = 0 then (if l = c then l - 1 else l) else -1) + 1, c)).2
               jr := none, n_jr := 0 },
             if f = 0 ∧ l = c then [Diag.no_capitalized_before_comma] else []) := by
  by_cases hf : f = 0
  · by_cases hl : l = c
    · subst hf hl
      simp [split_general_name, read_comma_token, resolve_token_range]
    · subst hf
      simp [split_general_name, read_comma_token, resolve_token_range, hl]
  · simp [split_general_name, read_comma_token, resolve_token_range, hf]
/-- C11, at an input where the claim as stated fails: the one comma of
`Alan Perlis,` follows the last token, and the code strips it and splits the
name in the simple form, first = [Alan], last = [Perlis], instead of putting
both tokens in last. -/
theorem split_name_trailing_comma_simple :
    split_name_parts "Alan Perlis,".toList
      = some ({ first := [some "Alan".toList], von := [], last := [some "Perlis".toList],
                jr := [] },
              [Diag.comma_at_end]) := by
  decide

/-- The result of `split_general_name` on a name with two commas: first is
what follows the second comma, jr lies between the commas, last ends at the
first comma and starts after von. -/
theorem split_general_name_two (toks : bt_stringlist) (n c1 c2 f l : Int) :
    split_general_name toks n 2 [c1, c2] f l
      = .ok ({ tokens := some toks
               first := (resolve_token_range (c2 + 1, n - 1)).1
               n_first := (resolve_token_range (c2 + 1, n - 1)).2
               von := (resolve_token_range
                 (if f = 0 then (if l = c1 then (0, l - 1) else (0, l)) else (0, -1))).1
               n_von := (resolve_token_range
                 (if f = 0 then (if l = c1 then (0, l - 1) else (0, l)) else (0, -1))).2
               last := (resolve_token_range
                 ((if f = 0 then (if l = c1 then l - 1 else l) else -1) + 1, c1)).1
               n_last := (resolve_token_range
                 ((if f = 0 then (if l = c1 then l - 1 else l) else -1) + 1, c1)).2
               jr := (resolve_token_range (c1 + 1, c2)).1
               n_jr := (resolve_token_range (c1 + 1, c2)).2 },
             if f = 0 ∧ l = c1 then [Diag.no_capitalized_before_comma] else []) := by
  by_cases hf : f = 0
  · by_cases hl : l = c1
    · subst hf hl
      simp [split_general_name, read_comma_token]
    · subst hf
      simp [split_general_name, read_comma_token, hl]
  · simp [split_general_name, read_comma_token, hf]

/-- C12, at an input where the claim as stated fails: the second comma of
`Smith, Jr.,` follows the last token, and the code strips it and splits the
name in the one-comma form, first = [Jr.] and jr empty, instead of
jr = [Jr.] and first empty. -/
theorem split_name_trailing_second_comma :
    split_name_parts "Smith, Jr.,".toList
      = some ({ first := [some "Jr.".toList], von := [], last := [some "Smith".toList],
                jr := [] },
              [Diag.comma_at_end]) := by
  decide

/-- The general form with two commas.  For every name with
exactly two commas, both at depth 0, with whitespace-collapsed, non-empty
text before, between and after them and at most one space before and after
each (a C string, so free of NUL), with tokens t0..tn and the commas recorded
after tokens tc1 and tc2: c1 < c2 < n; jr = t(c1+1)..t(c2) and
first = t(c2+1)..tn; von and last are determined from t0..tc1 as in the
one-comma form: if t0 is lowercase-initial and the initial lowercase run
t0..tb ends before tc1 (b < c1) then von = t0..tb and last = t(b+1)..tc1; if
t0 is not lowercase-initial then von is empty and last = t0..tc1.
`King, Jr., Martin Luther` gives last = [King], jr = [Jr.],
first = [Martin, Luther]. -/
theorem two_commas_form (pre sp1 sp2 mid sp3 sp4 post : List Char)
    (hpre : pre ≠ []) (hmid : mid ≠ []) (hpost : post ≠ [])
    (hnul1 : NUL ∉ pre) (hnul2 : NUL ∉ mid) (hnul3 : NUL ∉ post)
    (hc1 : ',' ∉ pre) (hc2 : ',' ∉ mid) (hc3 : ',' ∉ post)
    (hcol1 : Collapsed pre) (hcol2 : Collapsed mid) (hcol3 : Collapsed post)
    (hsp1 : sp1 = [] ∨ sp1 = [' ']) (hsp2 : sp2 = [] ∨ sp2 = [' '])
    (hsp3 : sp3 = [] ∨ sp3 = [' ']) (hsp4 : sp4 = [] ∨ sp4 = [' '])
    (hd1 : brace_depth pre = 0) (hd2 : brace_depth mid = 0) :
    (∃ (nm : bt_name) (diags : List Diag) (toks : bt_stringlist) (T : List (List Char))
        (c1 c2 : Nat) (rest : List Char),
      bt_split_name (some (pre ++ sp1 ++ ',' :: sp2 ++ mid ++ sp3 ++ ',' :: sp4 ++ post))
          = .ok (nm, diags) ∧
        nm.tokens = some toks ∧ toks.texts = T.map some ∧
        find_tokens ((pre ++ ',' :: mid ++ ',' :: post) ++ NUL :: rest) 2
          = .ok (toks, [(c1 : Int), (c2 : Int)]) ∧
        c1 < c2 ∧ c2 + 1 < T.length ∧
        nm.parts.jr = ((T.drop (c1 + 1)).take (c2 - c1)).map some ∧
        nm.parts.first = (T.drop (c2 + 1)).map some ∧
        (∀ b, b < c1 → LcRunFromStart T b →
          nm.parts.von = (T.take (b + 1)).map some ∧
            nm.parts.last = ((T.drop (b + 1)).take (c1 - b)).map some) ∧
        ((∀ t, T[0]? = some t → lc_initial t = false) →
          nm.parts.von = [] ∧ nm.parts.last = (T.take (c1 + 1)).map some)) ∧
      split_name_parts "King, Jr., Martin Luther".toList
        = some ({ first := [some "Martin".toList, some "Luther".toList]
                  von := []
                  last := [some "King".toList]
                  jr := [some "Jr.".toList] }, []) := by
  refine ⟨?_, by decide⟩
  have hs : ∀ sp : List Char, (sp = [] ∨ sp = [' ']) → ∀ c ∈ sp, c = ' ' := by
    intro sp h
    rcases h with h | h <;> simp [h]
  obtain ⟨toks, T, c1, c2, f, l, rest, hT, hcc, hcn, hrun, _, hft, hres⟩ :=
    bt_split_name_two pre sp1 sp2 mid sp3 sp4 post hpre hmid hpost hnul1 hnul2 hnul3 hc1 hc2 hc3
      hcol1 hcol2 hcol3 (hs _ hsp1) (hs _ hsp2) (hs _ hsp3) (hs _ hsp4) hd1 hd2
  rw [split_general_name_two] at hres
  refine ⟨_, _, toks, T, c1, c2, rest, hres, rfl, hT, hft, hcc, hcn, ?_, ?_, ?_, ?_⟩
  · simp only [bt_name.parts]
    rw [component_texts_slice rfl hT _ _ (c1 + 1) (c2 + 1) (by omega) (by omega) (by omega)]
    congr 2
    omega
  · simp only [bt_name.parts]
    rw [component_texts_slice rfl hT _ _ (c2 + 1) T.length (by omega) (by omega) (Nat.le_refl _),
      List.take_of_length_le (by simp)]
  · intro b hb hrunb
    obtain ⟨hf, hl⟩ := first_lc_run_from_start hT hrun hrunb
    subst hf hl
    have hne : ¬ ((b : Int) = (c1 : Int)) := by omega
    simp only [bt_name.parts, if_true, if_neg hne]
    rw [component_texts_slice rfl hT _ _ 0 (b + 1) (by omega) (by omega) (by omega),
      component_texts_slice rfl hT _ _ (b + 1) (c1 + 1) (by omega) (by omega) (by omega)]
    simp only [List.drop_zero, Nat.sub_zero, true_and]
    congr 2
    omega
  · intro h0
    have hf := first_lc_ne_zero hT hrun (by omega) h0
    simp only [bt_name.parts, if_neg hf]
    rw [component_texts_slice rfl hT _ _ 0 0 (by omega) (by omega) (by omega),
      component_texts_slice rfl hT _ _ 0 (c1 + 1) (by omega) (by omega) (by omega)]
    simp
/-! ## Claims about bt_split_name: the guards, excess and trailing commas, empty names -/

/-- C13, at the failing input: in `von beethoven, ludwig` the run of lowercase
tokens continues past the comma, the test `last_lc == comma_token[0]` does not
fire, and von takes all three tokens, the one before the comma and the one
after it included, while last is left empty. -/
theorem split_name_lc_run_past_comma :
    split_name_parts "von beethoven, ludwig".toList
      = some ({ first := [some "ludwig".toList]
                von := [some "von".toList, some "beethoven".toList, some "ludwig".toList]
                last := []
                jr := [] }, []) := by
  decide

/-- C14, at the failing input: the third comma of `A,B,,` is replaced by a
space and the name re-collapsed to `A,B,`, but the length taken before the
collapse makes the test for a trailing comma read the byte after the name,
so the comma stays and jr = [B], first = []; for the name `A,B,` itself the
trailing comma is stripped and first = [B], jr = []. -/
theorem split_name_excess_comma_at_end :
    collapse_whitespace "A,B, ".toList = "A,B,".toList ∧
    split_name_parts "A,B,,".toList
      = some ({ first := [], von := [], last := [some "A".toList], jr := [some "B".toList] },
              [Diag.too_many_commas]) ∧
    split_name_parts "A,B,".toList
      = some ({ first := [some "B".toList], von := [], last := [some "A".toList], jr := [] },
              [Diag.comma_at_end]) := by
  decide

/-- C15, at the failing input: in `\x7ba,b,c\x7d Smith, John` the two commas
inside the braces are counted by the first loop of `find_commas`, the comma
after `Smith` is then the third, is replaced by a space with the warning
"too many commas", and the name splits in the simple form. -/
theorem split_name_braced_commas_excess :
    split_name_parts "\x7ba,b,c\x7d Smith, John".toList
      = some ({ first := [some "\x7ba,b,c\x7d".toList, some "Smith".toList]
                von := []
                last := [some "John".toList]
                jr := [] },
              [Diag.too_many_commas]) := by
  decide

/-- C16, at the failing input: the trailing comma of `\x7ba,b,c\x7d Smith,`
is the third comma the first loop of `find_commas` counts, so it is removed
as an excess comma with the warning "too many commas" and the warning
"comma(s) at end of name" is not given; the components are those of the name
without the comma, which gives no warning. -/
theorem split_name_trailing_comma_as_excess :
    split_name_parts "\x7ba,b,c\x7d Smith,".toList
      = some ({ first := [some "\x7ba,b,c\x7d".toList], von := []
                last := [some "Smith".toList], jr := [] },
              [Diag.too_many_commas]) ∧
    split_name_parts "\x7ba,b,c\x7d Smith".toList
      = some ({ first := [some "\x7ba,b,c\x7d".toList], von := []
                last := [some "Smith".toList], jr := [] }, []) := by
  decide

/-- C17, at the failing input: for the empty string `find_tokens` returns
before it sets `num_items`, and `find_lc_tokens` reads it, so the call does
not return the empty name; for a `NULL` name it does. -/
theorem split_name_empty_string :
    bt_split_name (some []) = .error Fault.uninitialized_read ∧
    bt_split_name none = .ok (empty_name, []) := by
  decide

/-- The function `resolve_token_range`: the count is `max (0, hi - lo + 1)`
and the component is `NULL` exactly when the count is 0. -/
theorem resolve_token_range_spec (r : Int × Int) :
    (resolve_token_range r).2 = max 0 (r.2 - r.1 + 1) ∧
      ((resolve_token_range r).1 = none ↔ (resolve_token_range r).2 = 0) := by
  unfold resolve_token_range
  simp only
  by_cases h : r.2 - r.1 + 1 ≤ 0
  · rw [if_pos h]
    simp only [true_iff, and_true]
    omega
  · rw [if_neg h]
    refine ⟨by simp only; omega, fun h0 => by simp at h0, fun h0 => ?_⟩
    simp only at h0
    omega

theorem CountsAgree_ranges (toks : Option bt_stringlist) (a b c d : Int × Int) :
    CountsAgree
      { tokens := toks
        first := (resolve_token_range a).1, n_first := (resolve_token_range a).2
        von := (resolve_token_range b).1, n_von := (resolve_token_range b).2
        last := (resolve_token_range c).1, n_last := (resolve_token_range c).2
        jr := (resolve_token_range d).1, n_jr := (resolve_token_range d).2 } :=
  ⟨(resolve_token_range_spec a).2, (resolve_token_range_spec b).2,
    (resolve_token_range_spec c).2, (resolve_token_range_spec d).2⟩

theorem CountsAgree_simple (toks : bt_stringlist) (n f l : Int) :
    CountsAgree (split_simple_name toks n f l).1 := by
  unfold split_simple_name
  split_ifs <;>
    exact ⟨(resolve_token_range_spec _).2, (resolve_token_range_spec _).2,
      (resolve_token_range_spec _).2, by simp⟩

theorem CountsAgree_general (toks : bt_stringlist) (n k : Int) (ct : List Int) (f l : Int)
    (r : bt_name × List Diag) (h : split_general_name toks n k ct f l = .ok r) :
    CountsAgree r.1 := by
  unfold split_general_name at h
  simp only at h
  split at h
  · exact absurd h (by simp)
  · split at h
    · exact absurd h (by simp)
    · split at h
      · exact absurd h (by simp)
      · simp only [Except.ok.injEq] at h
        rw [← h]
        exact CountsAgree_ranges _ _ _ _ _

/-- The part of C17 that the code keeps: whenever `bt_split_name` returns,
each of the four components is `NULL` exactly when its count is 0. -/
theorem split_name_counts (name : Option (List Char)) (nm : bt_name) (diags : List Diag)
    (h : bt_split_name name = .ok (nm, diags)) : CountsAgree nm := by
  have hempty : CountsAgree empty_name := by simp [CountsAgree, empty_name]
  unfold bt_split_name at h
  split at h
  · simp only [Except.ok.injEq, Prod.mk.injEq] at h
    rw [← h.1]; exact hempty
  · simp only at h
    split at h
    · exact absurd h (by simp)
    · split at h
      · exact absurd h (by simp)
      · split at h
        · exact absurd h (by simp)
        · split at h
          · exact absurd h (by simp)
          · split at h
            · simp only [Except.ok.injEq, Prod.mk.injEq] at h
              rw [← h.1]; exact hempty
            · split at h
              · exact absurd h (by simp)
              · split at h
                · simp only [Except.ok.injEq, Prod.mk.injEq] at h
                  rw [← h.1]; exact CountsAgree_simple _ _ _ _
                · split at h
                  · rename_i r hr
                    simp only [Except.ok.injEq, Prod.mk.injEq] at h
                    rw [← h.1]; exact CountsAgree_general _ _ _ _ _ _ r hr
                  · exact absurd h (by simp)

/-! ## Claims about the options and bt_get_text -/

/-- C25: option presets.  The five flags are the single bits 1, 2, 4, 8, 16,
pairwise disjoint; `BTO_FULL` is the union of the four content flags, 15;
`BTO_MACRO` is `BTO_FULL` without collapse-whitespace, 7; `BTO_MINIMAL` is
delete-quotes alone, 1; `BTO_STRINGMASK` equals `BTO_FULL`; no-store is
disjoint from `BTO_STRINGMASK`, and masking any option set with
`BTO_STRINGMASK` gives the same set without the no-store flag. -/
theorem option_presets :
    (BTO_DELQUOTES = 2 ^ 0 ∧ BTO_EXPAND = 2 ^ 1 ∧ BTO_PASTE = 2 ^ 2 ∧ BTO_COLLAPSE = 2 ^ 3 ∧
      BTO_NOSTORE = 2 ^ 4) ∧
    [BTO_DELQUOTES, BTO_EXPAND, BTO_PASTE, BTO_COLLAPSE, BTO_NOSTORE].Pairwise
      (fun a b => a ≠ b ∧ a &&& b = 0) ∧
    (BTO_FULL = BTO_DELQUOTES ||| BTO_EXPAND ||| BTO_PASTE ||| BTO_COLLAPSE ∧ BTO_FULL = 15) ∧
    ( BTO_MACRO ||| BTO_COLLAPSE = BTO_FULL ∧ BTO_MACRO &&& BTO_COLLAPSE = 0 ∧ BTO_MACRO = 7) ∧
    (BTO_MINIMAL = BTO_DELQUOTES ∧ BTO_MINIMAL = 1) ∧
    BTO_STRINGMASK = BTO_FULL ∧
    BTO_NOSTORE &&& BTO_STRINGMASK = 0 ∧
    (∀ q e p c n : Bool,
      option_set q e p c n &&& BTO_STRINGMASK = option_set q e p c false ∧
        (option_set q e p c n &&& BTO_STRINGMASK) ||| (option_set q e p c n &&& BTO_NOSTORE)
          = option_set q e p c n) := by
  decide

/-- C21: `bt_get_text` uses the option set `BTO_FULL` (15: delete-quotes,
expand-macros, paste-strings, collapse-whitespace, without no-store) and
`replace = FALSE`.  For a Field node it returns
`postprocess_field (node, 15, FALSE)`, for an Entry of metatype comment or
preamble `postprocess_value (node->down, 15, FALSE)`, and for every other
node it returns absent, whatever the two post-processing functions are. -/
theorem get_text_spec
    (postprocess_field postprocess_value : AST → Nat → Bool → Option (List Char))
    (r d : AST) (l o : Int) (nt : bt_nodetype_t) (mt : bt_metatype_t)
    (t : Option (List Char)) :
    (BTO_FULL = 15 ∧ BTO_FULL &&& BTO_NOSTORE = 0) ∧
    (nt = .BTAST_FIELD →
      bt_get_text postprocess_field postprocess_value (.node r d l o nt mt t)
        = .ok (postprocess_field (.node r d l o nt mt t) BTO_FULL false)) ∧
    (nt = .BTAST_ENTRY ∧ (mt = .BTE_COMMENT ∨ mt = .BTE_PREAMBLE) →
      bt_get_text postprocess_field postprocess_value (.node r d l o nt mt t)
        = .ok (postprocess_value d BTO_FULL false)) ∧
    (nt ≠ .BTAST_FIELD ∧ ¬ (nt = .BTAST_ENTRY ∧ (mt = .BTE_COMMENT ∨ mt = .BTE_PREAMBLE)) →
      bt_get_text postprocess_field postprocess_value (.node r d l o nt mt t) = .ok none) := by
  have e : (BTO_DELQUOTES ||| BTO_EXPAND ||| BTO_PASTE ||| BTO_COLLAPSE) % 2 ^ 16 = BTO_FULL := by
    decide
  refine ⟨by decide, ?_, ?_, ?_⟩
  · intro h
    simp only [bt_get_text, e, h, if_true]
  · rintro ⟨h1, h2⟩
    subst h1
    simp only [bt_get_text, e]
    rw [if_neg (by decide), if_pos ⟨trivial, h2⟩]
  · rintro ⟨h1, h2⟩
    simp only [bt_get_text, e]
    rw [if_neg h1, if_neg h2]

/-- C21 at concrete inputs: a field, a preamble entry and a regular entry,
with post-processing functions that return the node's own text. -/
theorem get_text_spec_witness :
    bt_get_text (fun n _ _ => (n.text.toOption).join) (fun n _ _ => (n.text.toOption).join)
        (.node .null (.node .null .null 1 9 .BTAST_STRING .BTE_UNKNOWN (some "Knuth".toList))
          1 0 .BTAST_FIELD .BTE_UNKNOWN (some "author".toList))
      = .ok (some "author".toList) ∧
    bt_get_text (fun n _ _ => (n.text.toOption).join) (fun n _ _ => (n.text.toOption).join)
        (.node .null (.node .null .null 1 9 .BTAST_STRING .BTE_UNKNOWN (some "Knuth".toList))
          1 0 .BTAST_ENTRY .BTE_PREAMBLE (some "preamble".toList))
      = .ok (some "Knuth".toList) ∧
    bt_get_text (fun n _ _ => (n.text.toOption).join) (fun n _ _ => (n.text.toOption).join)
        (.node .null (.node .null .null 1 9 .BTAST_STRING .BTE_UNKNOWN (some "Knuth".toList))
          1 0 .BTAST_ENTRY .BTE_REGULAR (some "book".toList))
      = .ok none :=
  ⟨(get_text_spec _ _ .null _ 1 0 .BTAST_FIELD .BTE_UNKNOWN (some "author".toList)).2.1 rfl,
    (get_text_spec _ _ .null _ 1 0 .BTAST_ENTRY .BTE_PREAMBLE (some "preamble".toList)).2.2.1
      ⟨rfl, Or.inr rfl⟩,
    (get_text_spec _ _ .null _ 1 0 .BTAST_ENTRY .BTE_REGULAR (some "book".toList)).2.2.2
      ⟨by decide, by decide⟩⟩

/-! ## Claims about macros.c -/

/-- What a call of `add_macro` that returns has done: one record for the
name, holding the installed text, is now the newest of the table, and the
warning "overriding existing definition" was given exactly when the name was
already defined. -/
theorem add_macro_ok (postprocess_field : AST → Nat → Bool → Option (List Char))
    (r vr vd : AST) (l o vl vo : Int) (nt vn : bt_nodetype_t) (mt vm : bt_metatype_t)
    (vt : Option (List Char)) (name : List Char) (options : Nat) (st st' : MacroState)
    (h : add_macro postprocess_field
        (.node r (.node vr vd vl vo vn vm vt) l o nt mt (some name)) options st = .ok st') :
    st' = { table :=
              { symbol := name
                text := installed_text postprocess_field
                  (.node r (.node vr vd vl vo vn vm vt) l o nt mt (some name)) options vt }
                :: st.table
            warnings :=
              if (zzs_get st.table name).isSome then
                st.warnings ++ [ContentWarning.overriding_definition name]
              else st.warnings } := by
  unfold add_macro at h
  simp only at h
  unfold installed_text
  by_cases hopt : options &&& BTO_STRINGMASK ≠ BTO_MACRO
  · rw [if_pos hopt] at h
    rw [if_pos hopt]
    simp only [Except.ok.injEq] at h
    rw [← h]
    simp [zzs_newadd]
  · rw [if_neg hopt] at h
    rw [if_neg hopt]
    cases vt with
    | none => simp at h
    | some t =>
      simp only at h
      by_cases c1 : vn ≠ .BTAST_STRING ∨ vr ≠ .null ∨ charAt t 0 = '"' ∨ charAt t 0 = '{'
      · rw [if_pos c1] at h
        simp at h
      · rw [if_neg c1] at h
        by_cases c2 : t.length = 0
        · rw [if_pos c2] at h
          simp at h
        · rw [if_neg c2] at h
          by_cases c3 : charAt t (t.length - 1) = '"' ∨ charAt t (t.length - 1) = '}'
          · rw [if_pos c3] at h
            simp at h
          · rw [if_neg c3] at h
            simp only [Except.ok.injEq] at h
            rw [← h]
            simp [zzs_newadd]

/-- C22: last definition wins.  After a call of `add_macro` that installs a
text under a name and a second call that installs a text `t2` under the same
name, `macro_text` for a reference to that name returns `t2` and gives no
warning; the second call gave exactly one warning, "overriding existing
definition" of that name; and the first call gave none if the name was not
defined before it. -/
theorem last_definition_wins (postprocess_field : AST → Nat → Bool → Option (List Char))
    (name : List Char) (r1 vr1 vd1 r2 vr2 vd2 : AST) (l1 o1 vl1 vo1 l2 o2 vl2 vo2 : Int)
    (nt1 vn1 nt2 vn2 : bt_nodetype_t) (mt1 vm1 mt2 vm2 : bt_metatype_t)
    (vt1 vt2 : Option (List Char)) (options1 options2 : Nat) (st st1 st2 : MacroState)
    (h1 : add_macro postprocess_field
        (.node r1 (.node vr1 vd1 vl1 vo1 vn1 vm1 vt1) l1 o1 nt1 mt1 (some name)) options1 st
      = .ok st1)
    (h2 : add_macro postprocess_field
        (.node r2 (.node vr2 vd2 vl2 vo2 vn2 vm2 vt2) l2 o2 nt2 mt2 (some name)) options2 st1
      = .ok st2) :
    (∀ (ur ud : AST) (ul uo : Int) (un : bt_nodetype_t) (um : bt_metatype_t),
      macro_text (.node ur ud ul uo un um (some name)) st2
        = .ok (installed_text postprocess_field
            (.node r2 (.node vr2 vd2 vl2 vo2 vn2 vm2 vt2) l2 o2 nt2 mt2 (some name))
            options2 vt2, st2)) ∧
    st2.warnings = st1.warnings ++ [ContentWarning.overriding_definition name] ∧
    (zzs_get st.table name = none → st1.warnings = st.warnings) := by
  have e1 := add_macro_ok _ _ _ _ _ _ _ _ _ _ _ _ _ _ _ _ _ h1
  have e2 := add_macro_ok _ _ _ _ _ _ _ _ _ _ _ _ _ _ _ _ _ h2
  have hdef : (zzs_get st1.table name).isSome = true := by
    rw [e1]
    simp [zzs_get]
  refine ⟨?_, ?_, ?_⟩
  · intro ur ud ul uo un um
    have hget : zzs_get st2.table name
        = some { symbol := name
                 text := installed_text postprocess_field
                   (.node r2 (.node vr2 vd2 vl2 vo2 vn2 vm2 vt2) l2 o2 nt2 mt2 (some name))
                   options2 vt2 } := by
      rw [e2]
      simp [zzs_get]
    simp only [macro_text, hget]
  · rw [e2]
    simp only [hdef, if_true]
  · intro hnone
    rw [e1]
    simp [hnone]

/-- C22 at a concrete input: `me` is defined as `Greg Ward` and then as
`G. Ward`, both already processed with the macro preset, in an empty table. -/
theorem last_definition_wins_witness :
    ( add_macro (fun _ _ _ => none)
          (.node .null (.node .null .null 1 13 .BTAST_STRING .BTE_UNKNOWN
            (some "Greg Ward".toList)) 1 0 .BTAST_ENTRY .BTE_MACRODEF (some "me".toList))
          BTO_MACRO { table := [], warnings := [] }
        = .ok { table := [{ symbol := "me".toList, text := some "Greg Ward".toList }]
                warnings := [] } ∧
      add_macro (fun _ _ _ => none)
          (.node .null (.node .null .null 2 13 .BTAST_STRING .BTE_UNKNOWN
            (some "G. Ward".toList)) 2 0 .BTAST_ENTRY .BTE_MACRODEF (some "me".toList))
          BTO_MACRO
          { table := [{ symbol := "me".toList, text := some "Greg Ward".toList }]
            warnings := [] }
        = .ok { table := [{ symbol := "me".toList, text := some "G. Ward".toList },
                          { symbol := "me".toList, text := some "Greg Ward".toList }]
                warnings := [ContentWarning.overriding_definition "me".toList] }) ∧
    ((∀ (ur ud : AST) (ul uo : Int) (un : bt_nodetype_t) (um : bt_metatype_t),
      macro_text (.node ur ud ul uo un um (some "me".toList))
          { table := [{ symbol := "me".toList, text := some "G. Ward".toList },
                      { symbol := "me".toList, text := some "Greg Ward".toList }]
            warnings := [ContentWarning.overriding_definition "me".toList] }
        = .ok (installed_text (fun _ _ _ => none)
            (.node .null (.node .null .null 2 13 .BTAST_STRING .BTE_UNKNOWN
              (some "G. Ward".toList)) 2 0 .BTAST_ENTRY .BTE_MACRODEF (some "me".toList))
            BTO_MACRO (some "G. Ward".toList),
          { table := [{ symbol := "me".toList, text := some "G. Ward".toList },
                      { symbol := "me".toList, text := some "Greg Ward".toList }]
            warnings := [ContentWarning.overriding_definition "me".toList] })) ∧
      [ContentWarning.overriding_definition "me".toList]
        = [] ++ [ContentWarning.overriding_definition "me".toList] ∧
      (zzs_get [] "me".toList = none → ([] : List ContentWarning) = [])) :=
  ⟨⟨by decide, by decide⟩,
    last_definition_wins (fun _ _ _ => none) "me".toList .null .null .null .null .null .null
      1 0 1 13 2 0 2 13 .BTAST_ENTRY .BTAST_STRING .BTAST_ENTRY .BTAST_STRING
      .BTE_MACRODEF .BTE_UNKNOWN .BTE_MACRODEF .BTE_UNKNOWN
      (some "Greg Ward".toList) (some "G. Ward".toList) BTO_MACRO BTO_MACRO
      { table := [], warnings := [] }
      { table := [{ symbol := "me".toList, text := some "Greg Ward".toList }], warnings := [] }
      { table := [{ symbol := "me".toList, text := some "G. Ward".toList },
                  { symbol := "me".toList, text := some "Greg Ward".toList }]
        warnings := [ContentWarning.overriding_definition "me".toList] }
      (by decide) (by decide)⟩

/-- The part of C23 that the code keeps.  For a name without a definition in
the table `macro_text` gives exactly one warning, "undefined macro" with that
name, and returns absent, and `macro_length` returns 0.  For a name whose
definition holds the text `t`, `macro_text` returns `t` without a warning and
`macro_length` returns the length of `t`. -/
theorem macro_lookup_spec (name : List Char) (st : MacroState) (ur ud : AST) (ul uo : Int)
    (un : bt_nodetype_t) (um : bt_metatype_t) :
    (zzs_get st.table name = none →
      macro_text (.node ur ud ul uo un um (some name)) st
          = .ok (none, { table := st.table
                         warnings := st.warnings ++ [ContentWarning.undefined_name name] }) ∧
        macro_length (some name) st = .ok 0) ∧
    (∀ (sym : Sym) (t : List Char), zzs_get st.table name = some sym → sym.text = some t →
      macro_text (.node ur ud ul uo un um (some name)) st = .ok (some t, st) ∧
        macro_length (some name) st = .ok t.length) := by
  constructor
  · intro h
    simp [macro_text, macro_length, h]
  · intro sym t h ht
    simp [macro_text, macro_length, h, ht]

/-- The lookups at concrete inputs: a table that defines `me` as `Greg Ward`,
looked up for `you` and for `me`. -/
theorem macro_lookup_spec_witness :
    (zzs_get [{ symbol := "me".toList, text := some "Greg Ward".toList }] "you".toList = none ∧
      macro_text (.node .null .null 3 8 .BTAST_MACRO .BTE_UNKNOWN (some "you".toList))
          { table := [{ symbol := "me".toList, text := some "Greg Ward".toList }]
            warnings := [] }
        = .ok (none, { table := [{ symbol := "me".toList, text := some "Greg Ward".toList }]
                       warnings := [] ++ [ContentWarning.undefined_name "you".toList] }) ∧
      macro_length (some "you".toList)
          { table := [{ symbol := "me".toList, text := some "Greg Ward".toList }]
            warnings := [] }
        = .ok 0) ∧
    (zzs_get [{ symbol := "me".toList, text := some "Greg Ward".toList }] "me".toList
        = some { symbol := "me".toList, text := some "Greg Ward".toList } ∧
      macro_text (.node .null .null 3 8 .BTAST_MACRO .BTE_UNKNOWN (some "me".toList))
          { table := [{ symbol := "me".toList, text := some "Greg Ward".toList }]
            warnings := [] }
        = .ok (some "Greg Ward".toList,
            { table := [{ symbol := "me".toList, text := some "Greg Ward".toList }]
              warnings := [] }) ∧
      macro_length (some "me".toList)
          { table := [{ symbol := "me".toList, text := some "Greg Ward".toList }]
            warnings := [] }
        = .ok "Greg Ward".toList.length) :=
  ⟨⟨by decide,
      (macro_lookup_spec "you".toList
        { table := [{ symbol := "me".toList, text := some "Greg Ward".toList }], warnings := [] }
        .null .null 3 8 .BTAST_MACRO .BTE_UNKNOWN).1 (by decide)⟩,
    ⟨by decide,
      (macro_lookup_spec "me".toList
        { table := [{ symbol := "me".toList, text := some "Greg Ward".toList }], warnings := [] }
        .null .null 3 8 .BTAST_MACRO .BTE_UNKNOWN).2
        { symbol := "me".toList, text := some "Greg Ward".toList } "Greg Ward".toList
        (by decide) rfl⟩⟩

/-- The sanity check of `add_macro`, for options whose string mask is the
macro preset and a value node with a non-empty text: the internal error is
reported exactly when the value is not a String node, has a following
sibling, or its text begins with a quote or an opening brace or ends with a
quote or a closing brace. -/
theorem add_macro_sanity_check (postprocess_field : AST → Nat → Bool → Option (List Char))
    (r vr vd : AST) (l o vl vo : Int) (nt vn : bt_nodetype_t) (mt vm : bt_metatype_t)
    (t name : List Char) (options : Nat) (st : MacroState)
    (hopt : options &&& BTO_STRINGMASK = BTO_MACRO) (ht : t ≠ []) :
    add_macro postprocess_field
        (.node r (.node vr vd vl vo vn vm (some t)) l o nt mt (some name)) options st
      = .error Fault.internal_macro_value ↔
    (vn ≠ .BTAST_STRING ∨ vr ≠ .null ∨ charAt t 0 = '"' ∨ charAt t 0 = '{' ∨
      charAt t (t.length - 1) = '"' ∨ charAt t (t.length - 1) = '}') := by
  have hlen : t.length ≠ 0 := fun e => ht (List.length_eq_zero.1 e)
  unfold add_macro
  simp only
  rw [if_neg (by simp [hopt])]
  simp only [if_neg hlen]
  by_cases c1 : vn ≠ .BTAST_STRING ∨ vr ≠ .null ∨ charAt t 0 = '"' ∨ charAt t 0 = '{'
  · rw [if_pos c1]
    simp only [true_iff]
    rcases c1 with h | h | h | h
    · exact Or.inl h
    · exact Or.inr (Or.inl h)
    · exact Or.inr (Or.inr (Or.inl h))
    · exact Or.inr (Or.inr (Or.inr (Or.inl h)))
  · rw [if_neg c1]
    by_cases c3 : charAt t (t.length - 1) = '"' ∨ charAt t (t.length - 1) = '}'
    · rw [if_pos c3]
      simp only [true_iff]
      rcases c3 with h | h
      · exact Or.inr (Or.inr (Or.inr (Or.inr (Or.inl h))))
      · exact Or.inr (Or.inr (Or.inr (Or.inr (Or.inr h))))
    · rw [if_neg c3]
      simp only [reduceCtorEq, false_iff]
      rintro (h | h | h | h | h | h)
      · exact c1 (Or.inl h)
      · exact c1 (Or.inr (Or.inl h))
      · exact c1 (Or.inr (Or.inr (Or.inl h)))
      · exact c1 (Or.inr (Or.inr (Or.inr h)))
      · exact c3 (Or.inl h)
      · exact c3 (Or.inr h)

/-- C24, at the failing input: the definition `acm = "{ACM}"`, correctly
processed with the macro preset, is a single String node with the text
`{ACM}`; the sanity check of `add_macro` takes the brace that begins the
text for an outer delimiter left in place and reports an internal error, as
it does for the text `\emph{x}`, which ends with a brace.  With any other
options the same definition is installed. -/
theorem add_macro_rejects_braced_text :
    (∀ (postprocess_field : AST → Nat → Bool → Option (List Char)) (st : MacroState),
      add_macro postprocess_field
          (.node .null (.node .null .null 1 14 .BTAST_STRING .BTE_UNKNOWN
            (some "\x7bACM\x7d".toList)) 1 0 .BTAST_ENTRY .BTE_MACRODEF (some "acm".toList))
          BTO_MACRO st
        = .error Fault.internal_macro_value) ∧
    (∀ (postprocess_field : AST → Nat → Bool → Option (List Char)) (st : MacroState),
      add_macro postprocess_field
          (.node .null (.node .null .null 1 14 .BTAST_STRING .BTE_UNKNOWN
            (some "\\emph\x7bx\x7d".toList)) 1 0 .BTAST_ENTRY .BTE_MACRODEF (some "em".toList))
          BTO_MACRO st
        = .error Fault.internal_macro_value) ∧
    add_macro (fun _ _ _ => some "\x7bACM\x7d".toList)
        (.node .null (.node .null .null 1 14 .BTAST_STRING .BTE_UNKNOWN
          (some "\"\x7bACM\x7d\"".toList)) 1 0 .BTAST_ENTRY .BTE_MACRODEF (some "acm".toList))
        BTO_FULL { table := [], warnings := [] }
      = .ok { table := [{ symbol := "acm".toList, text := some "\x7bACM\x7d".toList }]
              warnings := [] } := by
  refine ⟨fun _ _ => rfl, fun _ _ => rfl, by decide⟩

/-! ## The letter case of the string and of the delimiter -/

theorem tolower_of_not_upper (c : Char) (h : ¬ (c.toNat ≥ 65 ∧ c.toNat ≤ 90)) :
    tolower c = c := by
  unfold tolower Char.toLower
  simp [h]

/-- The function `tolower` maps no byte but the space to the space, and
likewise for NUL and the braces. -/
theorem tolower_eq_iff (c k : Char) (hk : k = ' ' ∨ k = NUL ∨ k = '{' ∨ k = '}') :
    tolower c = k ↔ c = k := by
  by_cases h : c.toNat ≥ 65 ∧ c.toNat ≤ 90
  · have h1 : tolower c ≠ k := by
      unfold tolower Char.toLower
      simp only [h, and_self, if_true]
      obtain ⟨h1, h2⟩ := h
      generalize c.toNat = n at *
      rcases hk with rfl | rfl | rfl | rfl <;> interval_cases n <;> decide
    have h2 : c ≠ k := by
      intro e
      rw [e] at h
      rcases hk with rfl | rfl | rfl | rfl <;> revert h <;> decide
    exact ⟨fun e => absurd e h1, fun e => absurd e h2⟩
  · rw [tolower_of_not_upper c h]

theorem charAt_map_tolower (s : List Char) (i : Nat) :
    charAt (s.map tolower) i = tolower (charAt s i) := by
  unfold charAt
  simp only [List.getD_eq_getElem?_getD, List.getElem?_map]
  cases s[i]? with
  | none => decide
  | some c => rfl

theorem update_depth_tolower (c : Char) (depth : Int) :
    update_depth (tolower c) depth = update_depth c depth := by
  unfold update_depth
  simp only [tolower_eq_iff c '{' (Or.inr (Or.inr (Or.inl rfl))),
    tolower_eq_iff c '}' (Or.inr (Or.inr (Or.inr rfl)))]

/-- One pass of the loop of `bt_split_list` does the same on a string and on
the string in lowercase. -/
theorem split_step_map_tolower (s d : List Char) (st : SplitLoop) :
    split_step (s.map tolower) d st = split_step s d st := by
  unfold split_step
  simp only [charAt_map_tolower, tolower_idem, update_depth_tolower, List.length_map,
    tolower_eq_iff _ ' ' (Or.inl rfl)]
  have e : (tolower (charAt s st.i) != ' ') = (charAt s st.i != ' ') := by
    by_cases h : charAt s st.i = ' '
    · rw [h]; decide
    · have h' : tolower (charAt s st.i) ≠ ' ' :=
        fun e => h ((tolower_eq_iff _ ' ' (Or.inl rfl)).1 e)
      rw [bne_iff_ne.2 h', bne_iff_ne.2 h]
  rw [e]

theorem split_loop_map_tolower (s d : List Char) (m : Int) (fuel : Nat) :
    ∀ st : SplitLoop, split_loop (s.map tolower) d m fuel st = split_loop s d m fuel st := by
  induction fuel with
  | zero => intro st; rfl
  | succ n ih =>
    intro st
    simp only [split_loop, split_step_map_tolower, ih]

/-- A delimiter with an uppercase letter is never recognized. -/
theorem split_points_upper_delim (s d : List Char) (h : ∃ c ∈ d, tolower c ≠ c) :
    split_points s d = [] := by
  obtain ⟨c, hc, hne⟩ := h
  obtain ⟨k, hk, hck⟩ := List.getElem_of_mem hc
  apply List.eq_nil_iff_forall_not_mem.2
  intro e he
  obtain ⟨p, _, _, _, hm, _⟩ := split_points_boundary s d e he
  have := hm k hk
  rw [charAt_eq_getElem hk, hck] at this
  apply hne
  rw [← this, tolower_idem]

/-- C26, as stated, fails: `john AND jane` is split into `john`, `jane` by
the delimiter `and`, but the delimiter `AND` is not recognized in it and the
list is the single item `john AND jane`. -/
theorem split_list_upper_delim_misses :
    split_list_texts "john AND jane".toList "and".toList
        = some ([some "john".toList, some "jane".toList], []) ∧
      split_list_texts "john AND jane".toList "AND".toList
        = some ([some "john AND jane".toList], []) ∧
      split_points "john AND jane".toList "AND".toList
        ≠ split_points "john AND jane".toList ("AND".toList.map tolower) := by
  decide

/-- C26 (amended): the letter case of the string is ignored, that of the
delimiter is not.  For every string and every delimiter, `bt_split_list`
recognizes the same delimiters in the string as in the string in lowercase;
a delimiter that contains an uppercase letter is never recognized.
`john AND jane` is split into `john`, `jane` by the delimiter `and` and left
whole by the delimiter `AND`. -/
theorem split_list_delim_case :
    (∀ s d : List Char, split_points (s.map tolower) d = split_points s d) ∧
    (∀ s d : List Char, (∃ c ∈ d, tolower c ≠ c) → split_points s d = []) ∧
    split_list_texts "john AND jane".toList "and".toList
        = some ([some "john".toList, some "jane".toList], []) ∧
    split_list_texts "john AND jane".toList "AND".toList
        = some ([some "john AND jane".toList], []) := by
  refine ⟨?_, split_points_upper_delim, by decide, by decide⟩
  intro s d
  unfold split_points split_scan maxoffs
  rw [List.length_map, split_loop_map_tolower]

/-- C26 (amended) at concrete inputs: `JOHN And JANE` and its lowercase form
with the delimiter `and`, and `a And b` with the delimiter `And`. -/
theorem split_list_delim_case_witness :
    (split_points ("JOHN And JANE".toList.map tolower) "and".toList = [5] ∧
      split_points "JOHN And JANE".toList "and".toList = [5]) ∧
    ((∃ c ∈ "And".toList, tolower c ≠ c) ∧ split_points "a And b".toList "And".toList = []) :=
  ⟨⟨(split_list_delim_case.1 "JOHN And JANE".toList "and".toList).trans (by decide), by decide⟩,
    ⟨by decide, split_list_delim_case.2.1 "a And b".toList "And".toList (by decide)⟩⟩

/-! ## The number of divisions of bt_split_list -/

theorem split_init_bound (s d : List Char) : SplitBound s d split_init :=
  ⟨by simp [split_init], Or.inl rfl, by simp [split_init]⟩

theorem split_step_bound {s d : List Char} {st : SplitLoop}
    (hg : (st.i : Int) < maxoffs s d) (h : SplitBound s d st) :
    SplitBound s d (split_step s d st) := by
  obtain ⟨hu, _, hl⟩ := h
  unfold split_step
  split_ifs with hc hsp
  · refine ⟨?_, Or.inr (by simp only; push_cast; omega), by simp [hl]⟩
    simp only [List.length_append, List.length_singleton, Nat.add_zero]
    rw [Nat.add_mul]
    omega
  · exact ⟨by simp only; omega, Or.inr (by simp only; push_cast; omega), hl⟩
  · exact ⟨by simp only; omega, Or.inr (by simp only; push_cast; omega), hl⟩

theorem split_loop_bound {s d : List Char} (fuel : Nat) :
    ∀ st : SplitLoop, SplitBound s d st →
      SplitBound s d (split_loop s d (maxoffs s d) fuel st) := by
  induction fuel with
  | zero => intro st h; exact h
  | succ n ih =>
    intro st h
    unfold split_loop
    split_ifs with hg
    · exact ih _ (split_step_bound hg h)
    · exact h

/-- The bound on the divisions: at most `string_len / delim_len` of them. -/
theorem split_bound_div {s d : List Char} {st : SplitLoop} (hd : 1 ≤ d.length)
    (h : SplitBound s d st) : st.stop.length ≤ s.length / d.length := by
  obtain ⟨hu, hi, _⟩ := h
  rw [Nat.le_div_iff_mul_le (by omega)]
  rw [Nat.mul_add, Nat.mul_one] at hu
  unfold maxoffs at hi
  rcases hi with h0 | h1
  · have : st.stop.length = 0 := by omega
    rw [this]; omega
  · by_cases hz : st.stop.length = 0
    · rw [hz]; omega
    · omega

/-- C29: division-array bound.  For every string and every non-empty
delimiter, after any number of passes of the scanning loop the number of
recognized delimiters is at most `string_len / delim_len`, and `start` holds
one entry more than `stop`: every entry of `stop` and of `start` was written
at an index below `maxdiv = string_len / delim_len + 1`, the final
`stop[numdiv]` included; and `num_items` is at most `maxdiv` in every list
the function returns. -/
theorem split_list_division_bound (s d : List Char) (hd : d ≠ []) :
    (∀ fuel : Nat,
      (split_loop s d (maxoffs s d) fuel split_init).stop.length ≤ s.length / d.length ∧
        (split_loop s d (maxoffs s d) fuel split_init).start.length
          = (split_loop s d (maxoffs s d) fuel split_init).stop.length + 1) ∧
    (split_scan s d).stop.length + 1 ≤ s.length / d.length + 1 ∧
    (∀ (l : bt_stringlist) (diags : List Diag), bt_split_list s d = .ok (l, diags) →
      ∃ n, l.num_items = some n ∧ n ≤ s.length / d.length + 1) := by
  have hd1 : 1 ≤ d.length := List.length_pos.2 hd
  have key : ∀ fuel : Nat, SplitBound s d (split_loop s d (maxoffs s d) fuel split_init) :=
    fun fuel => split_loop_bound fuel _ (split_init_bound s d)
  refine ⟨fun fuel => ⟨split_bound_div hd1 (key fuel), (key fuel).lens⟩, ?_, ?_⟩
  · have := split_bound_div hd1 (key s.length)
    unfold split_scan
    omega
  · intro l diags h
    unfold bt_split_list at h
    rw [if_neg (by omega)] at h
    simp only at h
    split at h
    · simp only [Except.ok.injEq, Prod.mk.injEq] at h
      refine ⟨(split_scan s d).stop.length + 1, by rw [← h.1], ?_⟩
      have := split_bound_div hd1 (key s.length)
      unfold split_scan
      omega
    · exact Except.noConfusion h

/-- C29 at a concrete input: `a and b and c` with the delimiter `and`, two
divisions with `string_len / delim_len = 4`. -/
theorem split_list_division_bound_witness :
    "and".toList ≠ [] ∧
    (split_scan "a and b and c".toList "and".toList).stop.length = 2 ∧
    "a and b and c".toList.length / "and".toList.length = 4 ∧
    ((∀ fuel : Nat,
      (split_loop "a and b and c".toList "and".toList
          (maxoffs "a and b and c".toList "and".toList) fuel split_init).stop.length
          ≤ "a and b and c".toList.length / "and".toList.length ∧
        (split_loop "a and b and c".toList "and".toList
          (maxoffs "a and b and c".toList "and".toList) fuel split_init).start.length
          = (split_loop "a and b and c".toList "and".toList
              (maxoffs "a and b and c".toList "and".toList) fuel split_init).stop.length + 1) ∧
    (split_scan "a and b and c".toList "and".toList).stop.length + 1
      ≤ "a and b and c".toList.length / "and".toList.length + 1 ∧
    (∀ (l : bt_stringlist) (diags : List Diag),
      bt_split_list "a and b and c".toList "and".toList = .ok (l, diags) →
      ∃ n, l.num_items = some n ∧
        n ≤ "a and b and c".toList.length / "and".toList.length + 1)) :=
  ⟨by decide, by decide, by decide,
    split_list_division_bound "a and b and c".toList "and".toList (by decide)⟩

/-! ## The items of bt_split_list: where they start and stop -/

/-- The divisions are recorded from left to right, each delimiter beginning
after the space that follows the one before. -/
theorem split_loop_sorted {s d : List Char} (hd : 1 ≤ d.length) (fuel : Nat) :
    ∀ st : SplitLoop, SplitInv s d st →
      st.stop.Pairwise (fun x y => x + (d.length : Int) + 1 ≤ y) →
      (split_loop s d (maxoffs s d) fuel st).stop.Pairwise
        (fun x y => x + (d.length : Int) + 1 ≤ y) := by
  induction fuel with
  | zero => intro st _ h; exact h
  | succ n ih =>
    intro st hinv h
    unfold split_loop
    split_ifs with hg
    · apply ih _ (split_step_inv (by unfold maxoffs at hg; omega) hinv)
      have hj := hinv.j_le
      unfold split_step
      split_ifs with hc hsp
      · simp only
        rw [List.pairwise_append]
        refine ⟨h, List.pairwise_singleton _ _, ?_⟩
        intro a ha b hb
        simp only [List.mem_singleton] at hb
        obtain ⟨p, hp, _, hlt⟩ := hinv.stops a ha
        rw [hb, hp]
        omega
      · exact h
      · exact h
    · exact h

theorem split_scan_sorted {s d : List Char} (hd : 1 ≤ d.length) :
    (split_scan s d).stop.Pairwise (fun x y => x + (d.length : Int) + 1 ≤ y) :=
  split_loop_sorted hd _ _ (split_init_inv s d) (by simp [split_init])

/-- The second loop of `bt_split_list` returns when no item has
`stop == start`. -/
theorem split_fill_returns :
    ∀ (pairs : List (Int × Int)) (i : Nat) (buf : List Char),
      (∀ pr ∈ pairs, pr.2 ≠ pr.1) → ∃ r, split_fill pairs i buf = .ok r := by
  intro pairs
  induction pairs with
  | nil => intro i buf _; exact ⟨_, rfl⟩
  | cons pr rest ih =>
    intro i buf h
    obtain ⟨start, stop⟩ := pr
    have hne : stop ≠ start := h (start, stop) (by simp)
    have hrest : ∀ q ∈ rest, q.2 ≠ q.1 := fun q hq => h q (by simp [hq])
    simp only [split_fill]
    by_cases h1 : stop > start
    · rw [if_pos h1]
      obtain ⟨⟨b, its, ds⟩, e⟩ := ih (i + 1) (buf.set stop.toNat NUL) hrest
      rw [e]
      exact ⟨_, rfl⟩
    · rw [if_neg h1, if_pos (by omega)]
      obtain ⟨⟨b, its, ds⟩, e⟩ := ih (i + 1) buf hrest
      rw [e]
      exact ⟨_, rfl⟩

/-- In a non-empty, whitespace-collapsed string every item either stops
after its start or is the empty item between two adjacent delimiters. -/
theorem item_pairs_collapsed {s d : List Char} (hs : s ≠ []) (hcol : Collapsed s)
    (SP : List Int) :
    ∀ (E : List Int) (a : Nat),
      (a = 0 ∨ (1 ≤ a ∧ charAt s (a - 1) = ' ' ∧ (a : Int) - (d.length : Int) - 1 ∈ SP)) →
      (∀ e ∈ E, ∃ p : Nat, e = (p : Int) - 1 ∧ BoundaryAt s d p ∧ a ≤ p ∧ e + 1 ∈ SP) →
      E.Pairwise (fun x y => x + (d.length : Int) + 1 ≤ y) →
      ∀ pr ∈ List.zip ((a : Int) :: E.map (fun e => e + (d.length : Int) + 2))
          (E ++ [(s.length : Int)]),
        pr.2 > pr.1 ∨
          (pr.2 + 1 = pr.1 ∧ pr.1 - (d.length : Int) - 1 ∈ SP ∧ pr.1 ∈ SP) := by
  have hpos : 0 < s.length := List.length_pos.2 hs
  intro E
  induction E with
  | nil =>
    intro a ha _ _ pr hpr
    simp only [List.map_nil, List.nil_append, List.zip_cons_cons, List.zip_nil_right,
      List.mem_singleton] at hpr
    rw [hpr]
    left
    simp only
    rcases ha with h0 | ⟨h1, hsp, _⟩
    · omega
    · have hlt := charAt_lt_of_space hsp
      have : a ≠ s.length := by
        intro e
        apply hcol.2.1
        rw [getLast?_eq_charAt hs, ← e, hsp]
      omega
  | cons e E ih =>
    intro a ha hE hsorted pr hpr
    obtain ⟨p, hp, ⟨hp1, hpsp, hm, hfol⟩, hap, hmem⟩ := hE e (by simp)
    simp only [List.map_cons, List.cons_append, List.zip_cons_cons, List.mem_cons] at hpr
    rcases hpr with hpr | hpr
    · rw [hpr]
      simp only
      by_cases h1 : a + 1 < p
      · left; omega
      · by_cases h2 : p = a
        · right
          rcases ha with h0 | ⟨_, _, hprev⟩
          · omega
          · refine ⟨by omega, hprev, ?_⟩
            have e1 : (a : Int) = e + 1 := by omega
            rw [e1]; exact hmem
        · exfalso
          have h3 : p = a + 1 := by omega
          rw [h3, Nat.add_sub_cancel] at hpsp
          rcases ha with h0 | ⟨ha1, hsp, _⟩
          · rw [h0] at hpsp; exact hcol.1 hpsp
          · have := hcol.2.2 (a - 1) (charAt_lt_of_space hsp) hsp
            rw [Nat.sub_add_cancel ha1] at this
            exact this hpsp
    · have hrest := List.pairwise_cons.1 hsorted
      have ea : e + (d.length : Int) + 2 = ((p + d.length + 1 : Nat) : Int) := by
        rw [hp]; push_cast; omega
      rw [ea] at hpr
      apply ih (p + d.length + 1) _ _ hrest.2 pr hpr
      · right
        refine ⟨by omega, ?_, ?_⟩
        · rw [Nat.add_sub_cancel]; exact hfol
        · have e2 : ((p + d.length + 1 : Nat) : Int) - (d.length : Int) - 1 = e + 1 := by
            rw [hp]; push_cast; omega
          rw [e2]; exact hmem
      · intro e' he'
        obtain ⟨p', hp', hb', _, hmem'⟩ := hE e' (by simp [he'])
        have := hrest.1 e' he'
        exact ⟨p', hp', hb', by omega, hmem'⟩

/-- C27: the case `stop == start` never happens on well-formed input.  For
every non-empty, whitespace-collapsed string and every non-empty delimiter
(space-free, brace-free and lowercase or not), `bt_split_list` returns, so it
does not reach its internal error; and every item either has
`stop > start`, or has `stop + 1 == start` and is the absent item between two
adjacent recognized delimiters: one begins where the item starts, the other
`delim_len + 1` bytes before. -/
theorem split_list_no_stop_eq_start (s d : List Char) (hs : s ≠ []) (hcol : Collapsed s)
    (hd : d ≠ []) :
    (∃ (l : bt_stringlist) (diags : List Diag), bt_split_list s d = .ok (l, diags)) ∧
    ∀ pr ∈ (split_scan s d).start.zip ((split_scan s d).stop ++ [(s.length : Int)]),
      pr.2 > pr.1 ∨
        (pr.2 + 1 = pr.1 ∧ pr.1 - (d.length : Int) - 1 ∈ split_points s d ∧
          pr.1 ∈ split_points s d) := by
  have hd1 : 1 ≤ d.length := List.length_pos.2 hd
  have hinv := split_scan_inv (s := s) hd1
  have hpairs : ∀ pr ∈ (split_scan s d).start.zip ((split_scan s d).stop ++ [(s.length : Int)]),
      pr.2 > pr.1 ∨
        (pr.2 + 1 = pr.1 ∧ pr.1 - (d.length : Int) - 1 ∈ split_points s d ∧
          pr.1 ∈ split_points s d) := by
    rw [hinv.starts]
    apply item_pairs_collapsed hs hcol (split_points s d) _ 0 (Or.inl rfl) _
      (split_scan_sorted hd1)
    intro e he
    obtain ⟨p, hp, hb, _⟩ := hinv.stops e he
    exact ⟨p, hp, hb, Nat.zero_le _, List.mem_map.2 ⟨e, he, rfl⟩⟩
  refine ⟨?_, hpairs⟩
  obtain ⟨⟨buf, items, diags⟩, e⟩ := split_fill_returns _ 0 (s ++ [NUL]) (fun pr hpr => by
    rcases hpairs pr hpr with h | ⟨h, _⟩ <;> omega)
  refine ⟨{ string := buf, num_items := some ((split_scan s d).stop.length + 1),
            items := items }, diags, ?_⟩
  unfold bt_split_list
  rw [if_neg (by omega)]
  simp only [e]

/-- C27 at a concrete input: `al and and bob`, whose second item is absent. -/
theorem split_list_no_stop_eq_start_witness :
    ("al and and bob".toList ≠ [] ∧ Collapsed "al and and bob".toList ∧ "and".toList ≠ []) ∧
    (split_scan "al and and bob".toList "and".toList).start.zip
        ((split_scan "al and and bob".toList "and".toList).stop
          ++ [("al and and bob".toList.length : Int)])
      = [(0, 2), (7, 6), (11, 14)] ∧
    ((∃ (l : bt_stringlist) (diags : List Diag),
        bt_split_list "al and and bob".toList "and".toList = .ok (l, diags)) ∧
      ∀ pr ∈ (split_scan "al and and bob".toList "and".toList).start.zip
          ((split_scan "al and and bob".toList "and".toList).stop
            ++ [("al and and bob".toList.length : Int)]),
        pr.2 > pr.1 ∨
          (pr.2 + 1 = pr.1 ∧
            pr.1 - ("and".toList.length : Int) - 1
              ∈ split_points "al and and bob".toList "and".toList ∧
            pr.1 ∈ split_points "al and and bob".toList "and".toList)) :=
  ⟨⟨by decide, by decide, by decide⟩, by decide,
    split_list_no_stop_eq_start "al and and bob".toList "and".toList (by decide) (by decide)
      (by decide)⟩

/-- For the empty string the one item of `bt_split_list` has
`stop == start == 0`, whatever the delimiter. -/
theorem split_list_empty_string (d : List Char) (hd : d ≠ []) :
    bt_split_list [] d = .error (Fault.internal_stop_eq_start 0) := by
  have hd1 : 1 ≤ d.length := List.length_pos.2 hd
  unfold bt_split_list
  rw [if_neg (by omega)]
  rfl

/-- C28, at the failing input: for the empty string and the delimiter `and`
(and likewise `,`) the loop is not entered, `start[0] == stop[0] == 0`, and
`bt_split_list` reports the internal error "stop == start for substring 0"
instead of returning. -/
theorem split_list_empty_string_faults :
    bt_split_list [] "and".toList = .error (Fault.internal_stop_eq_start 0) ∧
      bt_split_list [] ",".toList = .error (Fault.internal_stop_eq_start 0) ∧
      split_list_texts [] "and".toList = none := by
  decide

/-! ## Joining the items of bt_split_list -/

theorem join_with_single (x : List Char) (ms : List (List Char)) : join_with [x] ms = x := by
  cases ms <;> rfl

theorem join_with_cons (x y m : List Char) (rest ms : List (List Char)) :
    join_with (x :: y :: rest) (m :: ms) = x ++ ' ' :: (m ++ ' ' :: join_with (y :: rest) ms) :=
  rfl

theorem mem_join_with :
    ∀ (xs ms : List (List Char)), xs.length = ms.length + 1 →
      ∀ x ∈ xs, ∀ c ∈ x, c ∈ join_with xs ms := by
  intro xs
  induction xs with
  | nil => intro ms h; simp at h
  | cons x rest ih =>
    intro ms hlen z hz c hc
    cases rest with
    | nil =>
      simp only [List.mem_singleton] at hz
      rw [join_with_single, ← hz]
      exact hc
    | cons y r =>
      cases ms with
      | nil => simp at hlen
      | cons m ms' =>
        rw [join_with_cons]
        simp only [List.mem_cons] at hz
        rcases hz with hz | hz
        · rw [hz] at hc
          exact List.mem_append_left _ hc
        · have := ih ms' (by simpa using hlen) z (by simpa using hz) c hc
          apply List.mem_append_right
          apply List.mem_cons_of_mem
          apply List.mem_append_right
          exact List.mem_cons_of_mem _ this

/-- The string from an item's start on, cut at the recognized delimiters:
when every item stops after its start, the string is the items joined by the
delimiters as they stand in it, each between two spaces. -/
theorem join_of_stops {s d : List Char} :
    ∀ (E : List Int) (a : Nat),
      (∀ e ∈ E, ∃ p : Nat, e = (p : Int) - 1 ∧ BoundaryAt s d p) →
      (∀ pr ∈ List.zip ((a : Int) :: E.map (fun e => e + (d.length : Int) + 2))
          (E ++ [(s.length : Int)]), pr.2 > pr.1) →
      ∃ xs ms : List (List Char),
        s.drop a = join_with xs ms ∧ xs.length = E.length + 1 ∧ ms.length = E.length ∧
          (∀ m ∈ ms, m.length = d.length ∧ m.map tolower = d.map tolower) ∧
          List.zip ((a : Int) :: E.map (fun e => e + (d.length : Int) + 2))
              (E ++ [(s.length : Int)])
            = item_bounds d.length a xs ∧
          (∀ x ∈ xs, x ≠ []) := by
  intro E
  induction E with
  | nil =>
    intro a _ hgt
    have h := hgt ((a : Int), (s.length : Int)) (by simp)
    simp only at h
    refine ⟨[s.drop a], [], (join_with_single _ _).symm, rfl, rfl, by simp, ?_, ?_⟩
    · simp only [List.map_nil, List.nil_append, List.zip_cons_cons, List.zip_nil_right,
        item_bounds, List.length_drop]
      have e : a + (s.length - a) = s.length := by omega
      rw [e]
    · intro x hx
      simp only [List.mem_singleton] at hx
      rw [hx]
      intro e
      have := congrArg List.length e
      simp only [List.length_drop, List.length_nil] at this
      omega
  | cons e E ih =>
    intro a hE hgt
    obtain ⟨p, hp, hp1, hpsp, hm, hfol⟩ := hE e (by simp)
    have hlt1 : p - 1 < s.length := charAt_lt_of_space hpsp
    have hlt2 : p + d.length < s.length := charAt_lt_of_space hfol
    have hae : e > (a : Int) := hgt ((a : Int), e) (by simp)
    have ea : e + (d.length : Int) + 2 = ((p + d.length + 1 : Nat) : Int) := by
      rw [hp]; push_cast; omega
    have hrest : ∀ pr ∈ List.zip (((p + d.length + 1 : Nat) : Int) ::
        E.map (fun e => e + (d.length : Int) + 2)) (E ++ [(s.length : Int)]), pr.2 > pr.1 := by
      intro pr hpr
      apply hgt
      simp only [List.map_cons, List.cons_append, List.zip_cons_cons, List.mem_cons]
      right
      rw [ea]; exact hpr
    obtain ⟨xs', ms', hjoin, hxl, hml, hms, hzip, hne⟩ := ih (p + d.length + 1)
      (fun e' he' => hE e' (by simp [he'])) hrest
    obtain ⟨y, r, rfl⟩ : ∃ y r, xs' = y :: r := by
      cases xs' with
      | nil => simp at hxl
      | cons y r => exact ⟨y, r, rfl⟩
    have hn : a + (p - 1 - a) = p - 1 := by omega
    have e1 : s.drop a = (s.drop a).take (p - 1 - a) ++ s.drop (p - 1) := by
      conv_lhs => rw [← List.take_append_drop (p - 1 - a) (s.drop a)]
      rw [List.drop_drop, hn]
    have e2 : s.drop (p - 1) = ' ' :: s.drop p := by
      rw [List.drop_eq_getElem_cons hlt1, ← charAt_eq_getElem hlt1, hpsp]
      congr 2
      omega
    have e3 : s.drop p = (s.drop p).take d.length ++ s.drop (p + d.length) := by
      conv_lhs => rw [← List.take_append_drop d.length (s.drop p)]
      rw [List.drop_drop]
    have e4 : s.drop (p + d.length) = ' ' :: s.drop (p + d.length + 1) := by
      rw [List.drop_eq_getElem_cons hlt2, ← charAt_eq_getElem hlt2, hfol]
    have hxlen : ((s.drop a).take (p - 1 - a)).length = p - 1 - a := by
      simp only [List.length_take, List.length_drop]
      omega
    have hmlen : ((s.drop p).take d.length).length = d.length := by
      simp only [List.length_take, List.length_drop]
      omega
    refine ⟨(s.drop a).take (p - 1 - a) :: y :: r, (s.drop p).take d.length :: ms', ?_, ?_, ?_,
      ?_, ?_, ?_⟩
    · rw [join_with_cons, ← hjoin, ← e4, ← e3, ← e2, ← e1]
    · simp only [List.length_cons] at hxl ⊢
      omega
    · simp only [List.length_cons, hml]
    · intro m hmem
      simp only [List.mem_cons] at hmem
      rcases hmem with hmem | hmem
      · rw [hmem]
        refine ⟨hmlen, ?_⟩
        apply List.ext_getElem
        · simp only [List.length_map, hmlen]
        · intro k hk1 hk2
          simp only [List.length_map] at hk2
          simp only [List.getElem_map, List.getElem_take, List.getElem_drop]
          have := hm k hk2
          rw [charAt_eq_getElem (by omega), charAt_eq_getElem hk2] at this
          rw [← this, tolower_idem]
      · exact hms m hmem
    · simp only [List.map_cons, List.cons_append, List.zip_cons_cons, item_bounds, hxlen]
      rw [ea, hzip]
      have e5 : a + (p - 1 - a) + d.length + 2 = p + d.length + 1 := by omega
      have e6 : ((a + (p - 1 - a) : Nat) : Int) = e := by rw [hn, hp]; omega
      rw [e5, e6]
    · intro x hx
      simp only [List.mem_cons] at hx
      rcases hx with hx | hx
      · rw [hx]
        intro e0
        have := congrArg List.length e0
        rw [hxlen] at this
        simp only [List.length_nil] at this
        omega
      · exact hne x (by simpa using hx)

/-- The second loop of `bt_split_list` on items joined by separators of the
delimiter's length: no warning, and every item reads back as it was. -/
theorem split_fill_joined (dl : Nat) :
    ∀ (xs ms : List (List Char)), xs.length = ms.length + 1 → (∀ m ∈ ms, m.length = dl) →
      (∀ x ∈ xs, x ≠ [] ∧ NUL ∉ x) →
      ∀ (i : Nat) (A : List Char),
        ∃ B items,
          split_fill (item_bounds dl A.length xs) i
              (A ++ (join_with xs ms ++ [NUL])) = .ok (A ++ B, items, []) ∧
            items.map (fun it => it.map (cstr_at (A ++ B))) = xs.map some := by
  intro xs
  induction xs with
  | nil => intro ms h; simp at h
  | cons x rest ih =>
    intro ms hlen hms hgood i A
    obtain ⟨hxne, hxnul⟩ := hgood x (by simp)
    have hxpos : 0 < x.length := List.length_pos.2 hxne
    have hgt : ((A.length + x.length : Nat) : Int) > (A.length : Int) := by omega
    cases rest with
    | nil =>
      refine ⟨x ++ [NUL], [some A.length], ?_, ?_⟩
      · have hset : (A ++ (x ++ [NUL])).set (A.length + x.length) NUL = A ++ (x ++ [NUL]) := by
          rw [← List.append_assoc, List.set_append_right _ _ (by simp)]
          simp
        simp only [item_bounds, split_fill, hgt, if_true, Int.toNat_ofNat, join_with_single,
          hset]
      · simp only [List.map_cons, List.map_nil, Option.map_some']
        rw [cstr_at_append A x [] hxnul]
    | cons y r =>
      cases ms with
      | nil => simp at hlen
      | cons m ms' =>
        have hmlen : m.length = dl := hms m (by simp)
        have e1 : A ++ (join_with (x :: y :: r) (m :: ms') ++ [NUL])
            = (A ++ x) ++ (' ' :: (m ++ [' '] ++ (join_with (y :: r) ms' ++ [NUL]))) := by
          rw [join_with_cons]; simp
        have hset : (A ++ (join_with (x :: y :: r) (m :: ms') ++ [NUL])).set
              (A.length + x.length) NUL
            = (A ++ x ++ NUL :: (m ++ [' '])) ++ (join_with (y :: r) ms' ++ [NUL]) := by
          rw [e1, List.set_append_right _ _ (by simp)]
          simp
        have elen : (A ++ x ++ NUL :: (m ++ [' '])).length = A.length + x.length + dl + 2 := by
          simp; omega
        obtain ⟨B, items, hfill, htexts⟩ := ih ms' (by simpa using hlen)
          (fun z hz => hms z (by simp [hz])) (fun z hz => hgood z (by simp [hz]))
          (i + 1) (A ++ x ++ NUL :: (m ++ [' ']))
        rw [elen] at hfill
        have eB : A ++ x ++ NUL :: (m ++ [' ']) ++ B = A ++ (x ++ NUL :: (m ++ [' '] ++ B)) := by
          simp
        refine ⟨x ++ NUL :: (m ++ [' '] ++ B), some A.length :: items, ?_, ?_⟩
        · simp only [item_bounds, split_fill, hgt, if_true, Int.toNat_ofNat, hset, hfill, eB]
        · rw [eB] at htexts
          simp only [List.map_cons, Option.map_some', htexts]
          rw [cstr_at_append A x _ hxnul]

/-- C30: join undoes split.  For every string `s` (a C string, so free of NUL)
and every non-empty delimiter `d`, if `bt_split_list (s, d)` returns a list
with no absent item, then it returns without a warning, and there are
`n >= 1` texts `xs` and `n - 1` separators `ms`, each of them equal to `d`
ignoring letter case, such that `s` is `x1 ++ " " ++ m1 ++ " " ++ x2 ++ ...`,
`num_items = n`, the items read back as `xs` in that order, none of them
empty, and item `k` points at the offset where `x(k)` begins in `s`: the
items lie left to right and do not overlap, each ends just before the space
preceding a delimiter and the next starts just after the space following it.
(The hypotheses of the claim on `s` and `d` are a special case.) -/
theorem join_undoes_split (s d : List Char) (hnul : NUL ∉ s) (hd : d ≠ [])
    (l : bt_stringlist) (diags : List Diag) (h : bt_split_list s d = .ok (l, diags))
    (hall : ∀ it ∈ l.items, it ≠ none) :
    ∃ xs ms : List (List Char),
      s = join_with xs ms ∧ 1 ≤ xs.length ∧ xs.length = ms.length + 1 ∧
        (∀ m ∈ ms, m.map tolower = d.map tolower) ∧ (∀ x ∈ xs, x ≠ []) ∧
        l.num_items = some xs.length ∧ l.texts = xs.map some ∧
        l.items = (item_bounds d.length 0 xs).map (fun pr => some pr.1.toNat) ∧
        (∀ pr ∈ item_bounds d.length 0 xs, pr.1 < pr.2) ∧ diags = [] := by
  have hdl : d.length ≠ 0 := fun e => hd (List.length_eq_zero.1 e)
  have hinv := split_scan_inv (s := s) (d := d) (by omega)
  unfold bt_split_list at h
  rw [if_neg hdl] at h
  simp only at h
  split at h
  swap
  · exact Except.noConfusion h
  rename_i buf items ds heq
  simp only [Except.ok.injEq, Prod.mk.injEq] at h
  obtain ⟨hl, hds⟩ := h
  subst hl hds
  simp only at hall
  obtain ⟨hitems, _⟩ := split_fill_ok _ _ _ _ _ _ heq
  have hpairs : ∀ pr ∈ (split_scan s d).start.zip ((split_scan s d).stop ++ [(s.length : Int)]),
      pr.2 > pr.1 := by
    intro pr hpr
    by_contra hle
    apply hall none _ rfl
    rw [hitems]
    exact List.mem_map.2 ⟨pr, hpr, by rw [if_neg hle]⟩
  rw [hinv.starts] at heq hpairs
  obtain ⟨xs, ms, hjoin, hxl, hml, hms, hzip, hne⟩ := join_of_stops (s := s) (d := d)
    (split_scan s d).stop 0
    (fun e he => by
      obtain ⟨p, hp, hb, _⟩ := hinv.stops e he
      exact ⟨p, hp, hb⟩)
    (by simpa using hpairs)
  simp only [List.drop_zero] at hjoin
  have hgood : ∀ x ∈ xs, x ≠ [] ∧ NUL ∉ x := by
    intro x hx
    refine ⟨hne x hx, fun hmem => hnul ?_⟩
    rw [hjoin]
    exact mem_join_with xs ms (by omega) x hx NUL hmem
  obtain ⟨B, its, hfill, htexts⟩ := split_fill_joined d.length xs ms (by omega)
    (fun m hm => (hms m hm).1) hgood 0 []
  simp only [List.length_nil, List.nil_append, ← hjoin] at hfill htexts
  have hzip0 : List.zip (0 :: (split_scan s d).stop.map (fun e => e + (d.length : Int) + 2))
      ((split_scan s d).stop ++ [(s.length : Int)]) = item_bounds d.length 0 xs := by
    simpa using hzip
  rw [hzip0, hfill] at heq
  simp only [Except.ok.injEq, Prod.mk.injEq] at heq
  obtain ⟨eb, ei, ed⟩ := heq
  subst eb ei ed
  rw [hzip0] at hpairs
  refine ⟨xs, ms, hjoin, by omega, by omega, fun m hm => (hms m hm).2, hne, ?_, htexts, ?_,
    fun pr hpr => hpairs pr hpr, rfl⟩
  · simp only [hxl]
  · rw [hitems, hinv.starts, hzip0]
    apply List.map_congr_left
    intro pr hpr
    rw [if_pos (hpairs pr hpr)]

/-- C30 at a concrete input: `john AND jane and al` split at `and` is `john`,
`jane`, `al`, and joining them with `AND` and `and` gives the string back. -/
theorem join_undoes_split_witness :
    (NUL ∉ "john AND jane and al".toList ∧ "and".toList ≠ [] ∧
      bt_split_list "john AND jane and al".toList "and".toList
        = .ok ({ string := "john".toList ++ NUL :: "AND jane".toList ++ NUL :: "and al".toList
                   ++ [NUL],
                 num_items := some 3, items := [some 0, some 9, some 18] }, [])) ∧
    ∃ xs ms : List (List Char),
      "john AND jane and al".toList = join_with xs ms ∧ 1 ≤ xs.length ∧
        xs.length = ms.length + 1 ∧
        (∀ m ∈ ms, m.map tolower = "and".toList.map tolower) ∧ (∀ x ∈ xs, x ≠ []) ∧
        (some 3 : Option Nat) = some xs.length ∧
        bt_stringlist.texts
            ({ string := "john".toList ++ NUL :: "AND jane".toList ++ NUL :: "and al".toList
                 ++ [NUL],
               num_items := some 3, items := [some 0, some 9, some 18] } : bt_stringlist)
          = xs.map some ∧
        [some 0, some 9, some 18]
          = (item_bounds "and".toList.length 0 xs).map (fun pr => some pr.1.toNat) ∧
        (∀ pr ∈ item_bounds "and".toList.length 0 xs, pr.1 < pr.2) ∧
        ([] : List Diag) = [] :=
  ⟨⟨by decide, by decide, by decide⟩,
    join_undoes_split "john AND jane and al".toList "and".toList (by decide) (by decide)
      { string := "john".toList ++ NUL :: "AND jane".toList ++ NUL :: "and al".toList
          ++ [NUL],
        num_items := some 3, items := [some 0, some 9, some 18] } [] (by decide) (by decide)⟩

/-! ## Claims about the lexer tables of scan.c -/

theorem digit_from_start :
    ∀ i : Fin 10, dfa_next 1 10 (48 + (i.val : Int)) = some 16 ∧
      dfa_next 1 16 (48 + (i.val : Int)) = some 16 := by
  decide

theorem nondigit_from_number :
    ∀ i : Fin 257, ¬ (49 ≤ i.val ∧ i.val ≤ 58) →
      dfa_next 1 16 ((i.val : Int) - 1) = some DfaStates := by
  decide

theorem dfa_run_digits :
    ∀ w : List Int, (∀ c ∈ w, 48 ≤ c ∧ c ≤ 57) → dfa_run 1 16 w = some 16 := by
  intro w
  induction w with
  | nil => intro _; rfl
  | cons c w ih =>
    intro h
    obtain ⟨h1, h2⟩ := h c (by simp)
    have e := (digit_from_start ⟨(c - 48).toNat, by omega⟩).2
    have ec : (48 : Int) + (((c - 48).toNat : Nat) : Int) = c := by
      rw [Int.toNat_of_nonneg (by omega)]; omega
    simp only [ec] at e
    simp only [dfa_run, e, Option.some_bind]
    exact ih (fun c' hc' => h c' (by simp [hc']))

theorem dfa_run_append (zzauto : Nat) :
    ∀ (w v : List Int) (s : Nat),
      dfa_run zzauto s (w ++ v) = (dfa_run zzauto s w).bind (fun t => dfa_run zzauto t v) := by
  intro w
  induction w with
  | nil => intro v s; rfl
  | cons c w ih =>
    intro v s
    simp only [List.cons_append, dfa_run]
    cases dfa_next zzauto s c with
    | none => rfl
    | some t => exact ih v t

/-- C38: NUMBER is a maximal digit run.  In lexer mode 1, whose start state is
`dfa_base[1] = 10`, every non-empty string of the digits `0` .. `9` takes the
automaton from the start state to state 16, whose action is `act12`,
`NLA = NUMBER`; from state 16 every other byte and end-of-input lead to the
dead state `DfaStates`, so the automaton is live on the digits and on nothing
more.  On `1995a` it is in state 16 after `1995` and dead at `a`, and `a` from
the start state leads to state 15, whose action sets `NLA = NAME`. -/
theorem number_maximal_digit_run (w : List Int) (hne : w ≠ [])
    (hdig : ∀ c ∈ w, 48 ≤ c ∧ c ≤ 57) :
    dfa_base[1]? = some 10 ∧ dfa_run 1 10 w = some 16 ∧
    state_action 16 = some (.act .NUMBER none) ∧
    (∀ c : Int, -1 ≤ c → c ≤ 255 → ¬ (48 ≤ c ∧ c ≤ 57) →
      dfa_next 1 16 c = some DfaStates ∧ dfa_run 1 10 (w ++ [c]) = some DfaStates) ∧
    (dfa_run 1 10 (input_bytes "1995".toList) = some 16 ∧
      dfa_run 1 10 (input_bytes "1995a".toList) = some DfaStates ∧
      dfa_run 1 10 (input_bytes "a".toList) = some 15 ∧
      state_action 15 = some (.act .NAME (some .name))) := by
  have hrun : dfa_run 1 10 w = some 16 := by
    cases w with
    | nil => exact absurd rfl hne
    | cons c w =>
      obtain ⟨h1, h2⟩ := hdig c (by simp)
      have e := (digit_from_start ⟨(c - 48).toNat, by omega⟩).1
      have ec : (48 : Int) + (((c - 48).toNat : Nat) : Int) = c := by
        rw [Int.toNat_of_nonneg (by omega)]; omega
      simp only [ec] at e
      simp only [dfa_run, e, Option.some_bind]
      exact dfa_run_digits w (fun c' hc' => hdig c' (by simp [hc']))
  refine ⟨rfl, hrun, by decide, ?_, by decide⟩
  intro c h1 h2 hnd
  have e := nondigit_from_number ⟨(c + 1).toNat, by omega⟩ (by
    simp only
    omega)
  have ec : ((((c + 1).toNat : Nat) : Int)) - 1 = c := by
    rw [Int.toNat_of_nonneg (by omega)]; omega
  simp only [ec] at e
  refine ⟨e, ?_⟩
  rw [dfa_run_append, hrun]
  simp only [Option.some_bind, dfa_run, e]

/-- C38 at a concrete input: the digits `2024`, followed by a comma. -/
theorem number_maximal_digit_run_witness :
    (input_bytes "2024".toList ≠ [] ∧ ∀ c ∈ input_bytes "2024".toList, 48 ≤ c ∧ c ≤ 57) ∧
    dfa_run 1 10 (input_bytes "2024".toList) = some 16 ∧
    dfa_next 1 16 44 = some DfaStates ∧
    dfa_run 1 10 (input_bytes "2024".toList ++ [44]) = some DfaStates :=
  ⟨⟨by decide, by decide⟩,
    (number_maximal_digit_run (input_bytes "2024".toList) (by decide) (by decide)).2.1,
    ((number_maximal_digit_run (input_bytes "2024".toList) (by decide) (by decide)).2.2.2.1
      44 (by decide) (by decide) (by decide)).1,
    ((number_maximal_digit_run (input_bytes "2024".toList) (by decide) (by decide)).2.2.2.1
      44 (by decide) (by decide) (by decide)).2⟩

/-- C39, at the failing input: in lexer mode 0 every byte and end-of-input
lead from the start state 0 to a state whose action is not `zzerraction`
(`@` to state 2, the newline to 3, `%` to 4, blanks to 5, every other byte to
6, end-of-input to 1), but `%` followed by a blank (or by `@`) leads on to
state 7, the inside of a `%` comment, whose action is `actions[0]`,
`zzerraction`, and which has no transition for end-of-input: a last line
`% ` that no newline ends leaves the automaton there.  Of the states 0 .. 9 of
this mode 0 and 7 are the ones with the action `zzerraction`.  The same line
without the blank, `%a`, ends in state 9, whose action is `toplevel_junk`. -/
theorem toplevel_comment_cut_by_end_of_input :
    (∀ i : Fin 257,
      dfa_next 0 0 ((i.val : Int) - 1) ≠ some DfaStates ∧
        (dfa_next 0 0 ((i.val : Int) - 1)).bind state_action ≠ none ∧
        (dfa_next 0 0 ((i.val : Int) - 1)).bind state_action ≠ some .zzerraction) ∧
    (dfa_run 0 0 (input_bytes "% ".toList) = some 7 ∧
      dfa_run 0 0 (input_bytes "%@".toList) = some 7 ∧
      state_action 7 = some .zzerraction ∧
      dfa_next 0 7 (-1) = some DfaStates) ∧
    (List.range 10).filter (fun s => state_action s == some .zzerraction) = [0, 7] ∧
    (dfa_run 0 0 (input_bytes "%a".toList) = some 9 ∧
      state_action 9 = some (.act (.code 6) (some .toplevel_junk)) ∧
      dfa_run 0 0 (input_bytes "% \n".toList) = some 8 ∧
      state_action 8 = some (.act .COMMENT (some .comment))) := by
  decide

/-! ## Claims about find_lc_tokens -/

theorem items_some_of_texts {toks : bt_stringlist} {T : List (List Char)}
    (hT : toks.texts = T.map some) :
    (∀ it ∈ toks.items, it ≠ none) ∧ T.length = toks.items.length := by
  constructor
  · intro it hit hnone
    subst hnone
    have : (none : Option (List Char)) ∈ toks.texts := by
      unfold bt_stringlist.texts
      exact List.mem_map.2 ⟨none, hit, rfl⟩
    rw [hT] at this
    simp at this
  · have := congrArg List.length hT
    simpa [bt_stringlist.texts] using this.symm

/-- C34: lowercase-run detection.  For every token list without an absent
token, with the token texts `T`, `find_lc_tokens` returns.  It returns
`(-1, -1)` when no token begins with a lowercase letter.  When some token
does, `first_lc` is the smallest index of such a token and `last_lc` is the
largest index up to which every token from `first_lc` on begins with a
lowercase letter.  The test reads the first character of a token only, so a
token that begins with `{` is not lowercase whatever follows the brace. -/
theorem lc_run_detection (toks : bt_stringlist) (T : List (List Char))
    (hnum : toks.num_items = some toks.items.length) (hT : toks.texts = T.map some) :
    ∃ first_lc last_lc : Int, find_lc_tokens toks = .ok (first_lc, last_lc) ∧
      ((∀ (k : Nat) (t : List Char), T[k]? = some t → lc_initial t = false) →
        first_lc = -1 ∧ last_lc = -1) ∧
      ((∃ (k : Nat) (t : List Char), T[k]? = some t ∧ lc_initial t = true) →
        ∃ a b : Nat, first_lc = (a : Int) ∧ last_lc = (b : Int) ∧ a ≤ b ∧ b < T.length ∧
          (∀ k t, k < a → T[k]? = some t → lc_initial t = false) ∧
          (∀ k t, a ≤ k → k ≤ b → T[k]? = some t → lc_initial t = true) ∧
          (∀ b', b' < T.length →
            (∀ k t, a ≤ k → k ≤ b' → T[k]? = some t → lc_initial t = true) → b' ≤ b)) ∧
      (∀ (c : Char) (rest : List Char), lc_initial (c :: rest) = islower c) ∧
      islower '{' = false := by
  obtain ⟨hsome, hlen⟩ := items_some_of_texts hT
  obtain ⟨f, l, hfind, hrun⟩ := find_lc_tokens_spec hnum hsome
  rw [← hlen] at hrun
  refine ⟨f, l, hfind, ?_, ?_, fun _ _ => rfl, by decide⟩
  · intro hno
    rcases hrun with ⟨h1, h2, _⟩ | ⟨a, b, _, _, hab, hb, _, hin, _⟩
    · exact ⟨h1, h2⟩
    · exfalso
      obtain ⟨t, ht⟩ : ∃ t, T[a]? = some t := ⟨T[a], List.getElem?_eq_getElem (by omega)⟩
      have h1 := hin a (le_refl a) hab
      rw [token_is_lc_eq hT ht, hno a t ht] at h1
      exact Bool.false_ne_true h1
  · rintro ⟨k, t, hk, hlc⟩
    rcases hrun with ⟨_, _, hall⟩ | ⟨a, b, hf, hl, hab, hb, hbefore, hin, hafter⟩
    · exfalso
      have hk' : k < T.length := by
        rcases Nat.lt_or_ge k T.length with h | h
        · exact h
        · rw [List.getElem?_eq_none h] at hk
          exact absurd hk (by simp)
      have h1 := hall k hk'
      rw [token_is_lc_eq hT hk, hlc] at h1
      exact Bool.false_ne_true h1.symm
    · refine ⟨a, b, hf, hl, hab, hb, ?_, ?_, ?_⟩
      · intro k' t' hk' ht'
        rw [← token_is_lc_eq hT ht']
        exact hbefore k' hk'
      · intro k' t' h1 h2 ht'
        rw [← token_is_lc_eq hT ht']
        exact hin k' h1 h2
      · intro b' hb' hall
        by_contra hgt
        have hlt : b + 1 < T.length := by omega
        obtain ⟨t', ht'⟩ : ∃ t, T[b + 1]? = some t :=
          ⟨T[b + 1], List.getElem?_eq_getElem hlt⟩
        have h1 := hall (b + 1) t' (by omega) (by omega) ht'
        have h2 := hafter hlt
        rw [token_is_lc_eq hT ht', h1] at h2
        exact Bool.false_ne_true h2.symm

/-- C34 at a concrete input: the tokens `{de}`, `La`, `von`, `der`, `Berg`,
`de`, `Haan`.  The run is `von der`, tokens 2 and 3: `{de}` begins with a
brace and the later `de` is ignored. -/
theorem lc_run_detection_witness :
    ((some 7 : Option Nat) = some [some 0, some 5, some 8, some 12, some 16, some 21,
        some 24].length ∧
      bt_stringlist.texts
          ({ string := "\x7bde\x7d".toList ++ NUL :: "La".toList ++ NUL :: "von".toList
                 ++ NUL :: "der".toList ++ NUL :: "Berg".toList ++ NUL :: "de".toList
                 ++ NUL :: "Haan".toList ++ [NUL],
             num_items := some 7,
             items := [some 0, some 5, some 8, some 12, some 16, some 21, some 24] } :
            bt_stringlist)
        = ["\x7bde\x7d".toList, "La".toList, "von".toList, "der".toList, "Berg".toList,
            "de".toList, "Haan".toList].map some) ∧
    find_lc_tokens
        { string := "\x7bde\x7d".toList ++ NUL :: "La".toList ++ NUL :: "von".toList
            ++ NUL :: "der".toList ++ NUL :: "Berg".toList ++ NUL :: "de".toList
            ++ NUL :: "Haan".toList ++ [NUL],
          num_items := some 7,
          items := [some 0, some 5, some 8, some 12, some 16, some 21, some 24] }
      = .ok (2, 3) ∧
    ∃ first_lc last_lc : Int,
      find_lc_tokens
          { string := "\x7bde\x7d".toList ++ NUL :: "La".toList ++ NUL :: "von".toList
              ++ NUL :: "der".toList ++ NUL :: "Berg".toList ++ NUL :: "de".toList
              ++ NUL :: "Haan".toList ++ [NUL],
            num_items := some 7,
            items := [some 0, some 5, some 8, some 12, some 16, some 21, some 24] }
        = .ok (first_lc, last_lc) :=
  ⟨⟨by decide, by decide⟩, by decide,
    (lc_run_detection
      { string := "\x7bde\x7d".toList ++ NUL :: "La".toList ++ NUL :: "von".toList
          ++ NUL :: "der".toList ++ NUL :: "Berg".toList ++ NUL :: "de".toList
          ++ NUL :: "Haan".toList ++ [NUL],
        num_items := some 7,
        items := [some 0, some 5, some 8, some 12, some 16, some 21, some 24] }
      ["\x7bde\x7d".toList, "La".toList, "von".toList, "der".toList, "Berg".toList,
        "de".toList, "Haan".toList] (by decide) (by decide)).imp
      (fun _ h => h.imp (fun _ h' => h'.1))⟩

/-! ## Claims about bt_split_name: absent tokens, names of commas, the token count -/

/-- C33, at the failing input: `Smith,,John` has the tokens `Smith`, an absent
token and `John`; no token before the absent one begins with a lowercase
letter, so `find_lc_tokens` reads `tokens->items[1][0]` through the `NULL`
pointer and `bt_split_name` does not return.  The same happens for `,Smith`,
whose first token is absent.  In `von Smith,,John` the run `von` is found
before the absent token is reached, and the absent token is returned as the
`jr` component. -/
theorem split_name_absent_token_faults :
    (find_tokens ("Smith,,John".toList ++ [NUL]) 2
        = .ok ({ string := "Smith".toList ++ NUL :: NUL :: "John".toList ++ [NUL],
                 num_items := some 3, items := [some 0, none, some 7] }, [0, 1]) ∧
      find_lc_tokens
          { string := "Smith".toList ++ NUL :: NUL :: "John".toList ++ [NUL],
            num_items := some 3, items := [some 0, none, some 7] }
        = .error Fault.null_dereference ∧
      bt_split_name (some "Smith,,John".toList) = .error Fault.null_dereference) ∧
    (find_tokens (",Smith".toList ++ [NUL]) 1
        = .ok ({ string := NUL :: "Smith".toList ++ [NUL],
                 num_items := some 2, items := [none, some 1] }, [0]) ∧
      bt_split_name (some ",Smith".toList) = .error Fault.null_dereference) ∧
    split_name_parts "von Smith,,John".toList
      = some ({ first := [some "John".toList], von := [some "von".toList],
                last := [some "Smith".toList], jr := [none] }, []) := by
  decide

/-- C35, at the failing input: for the name `,` the second loop of
`find_commas` leaves `j = 0` and `name[0] == ','`; the trailing-comma loop
writes `name[0] = 0`, decrements `j` to -1 and tests `name[-1]`, a byte before
the string.  The same happens for `,,`, and `bt_split_name` does not get
past `find_commas`.  For `a,` the loop stops at `name[0]`. -/
theorem find_commas_reads_before_name :
    strip_commas 1 (",".toList ++ [NUL]) 1 = .error Fault.out_of_bounds ∧
    find_commas (",".toList ++ [NUL]) 2 = .error Fault.out_of_bounds ∧
    find_commas (",,".toList ++ [NUL]) 2 = .error Fault.out_of_bounds ∧
    bt_split_name (some ",".toList) = .error Fault.out_of_bounds ∧
    find_commas ("a,".toList ++ [NUL]) 2
      = .ok { name := "a".toList ++ [NUL, NUL], num_commas := 0, commas := [1],
              diags := [Diag.comma_at_end] } := by
  decide

/-- C36, at the failing input: in `{a,` the comma is at brace depth 1, so the
second loop of `find_commas` does not count it (`num_commas = 0`), but the
trailing-comma loop strips it and decrements the count: `find_commas`
returns -1.  `bt_split_name` then takes `num_commas != 0` for a name with
commas and `split_general_name` reads `comma_token[0]` of the array that was
never allocated. -/
theorem find_commas_negative_count :
    find_commas ("\x7ba,".toList ++ [NUL]) 2
      = .ok { name := "\x7ba".toList ++ [NUL, NUL], num_commas := -1, commas := [],
              diags := [Diag.comma_at_end] } ∧
    find_tokens ("\x7ba".toList ++ [NUL, NUL]) (-1)
      = .ok ({ string := "\x7ba".toList ++ [NUL, NUL], num_items := some 1,
               items := [some 0] }, []) ∧
    bt_split_name (some "\x7ba,".toList) = .error Fault.null_dereference := by
  decide

/-- C31, at the failing input: `von beethoven, ludwig` has three tokens, all
lowercase, and the comma follows token 1.  `bt_split_name` returns `von` as
the three tokens from token 0 on and `first` as the one token 2: token 2 is
in both components and the four counts add up to 4.  With capitals,
`von Beethoven, Ludwig`, the components are the tokens 0, 1 and 2 once
each. -/
theorem split_name_token_in_two_components :
    bt_split_name (some "von beethoven, ludwig".toList)
      = .ok ({ tokens := some
                 { string := "von".toList ++ NUL :: "beethoven".toList ++ NUL ::
                     "ludwig".toList ++ [NUL, NUL],
                   num_items := some 3, items := [some 0, some 4, some 14] },
               first := some 2, n_first := 1, von := some 0, n_von := 3,
               last := none, n_last := 0, jr := none, n_jr := 0 }, []) ∧
    ((1 : Int) + 3 + 0 + 0 ≠ 3) ∧
    bt_split_name (some "von Beethoven, Ludwig".toList)
      = .ok ({ tokens := some
                 { string := "von".toList ++ NUL :: "Beethoven".toList ++ NUL ::
                     "Ludwig".toList ++ [NUL, NUL],
                   num_items := some 3, items := [some 0, some 4, some 14] },
               first := some 2, n_first := 1, von := some 0, n_von := 1,
               last := some 1, n_last := 1, jr := none, n_jr := 0 }, []) := by
  decide

/-! ## find_tokens on any name -/

theorem charAt_append_head (A X : List Char) (c : Char) : charAt (A ++ c :: X) A.length = c := by
  unfold charAt
  rw [List.getD_eq_getElem?_getD, List.getElem?_append_right (le_refl _)]
  simp

theorem set_append_head (A X : List Char) (c c' : Char) :
    (A ++ c :: X).set A.length c' = A ++ c' :: X := by
  rw [List.set_append_right _ _ (le_refl _)]
  simp

theorem cstr_at_NUL (A X : List Char) : cstr_at (A ++ NUL :: X) A.length = [] := by
  have := cstr_at_append A [] X (by simp)
  simpa using this

theorem cstr_at_cons (A X : List Char) (c : Char) (hc : c ≠ NUL) :
    cstr_at (A ++ c :: X) A.length = c :: cstr_at ((A ++ [c]) ++ X) (A.length + 1) := by
  unfold cstr_at
  have e : ((A ++ [c]) ++ X).drop (A.length + 1) = X := by
    have : (A ++ [c]).length = A.length + 1 := by simp
    rw [← this, List.drop_left]
  rw [List.drop_left, e, List.takeWhile_cons, if_pos (by simpa using hc)]

theorem update_depth_delim {c : Char} (h : is_delim c = true) (d : Int) :
    update_depth c d = d := by
  unfold is_delim at h
  simp only [Bool.or_eq_true, beq_iff_eq] at h
  unfold update_depth
  rcases h with h | h <;> subst h <;> rfl

/-- One pass of the loop of `find_tokens` at a space or comma at depth 0. -/
theorem token_step_delim (cap : Int) (st : TokenLoop) (A X : List Char) (c : Char) (k : Nat)
    (hi : st.i = A.length) (hname : st.name = A ++ c :: X) (hd : st.depth = 0)
    (hc : is_delim c = true)
    (hk : st.items.length = if st.in_boundary then k else k + 1)
    (hcap : c = ',' → (st.comma_token.length : Int) < cap) :
    token_step cap st = .ok
      { i := A.length + 1
        in_boundary := true
        depth := 0
        items := st.items ++ (if st.in_boundary then [none] else [])
        comma_token := st.comma_token ++ (if c = ',' then [(k : Int)] else [])
        name := A ++ NUL :: X } := by
  have hcur : charAt st.name A.length = c := by rw [hname, charAt_append_head]
  have hc' : c = ' ' ∨ c = ',' := by
    unfold is_delim at hc
    simpa using hc
  have hset : st.name.set A.length NUL = A ++ NUL :: X := by rw [hname, set_append_head]
  have hnul : charAt (A ++ NUL :: X) A.length = NUL := charAt_append_head A X NUL
  have hud : update_depth NUL 0 = 0 := by decide
  unfold token_step
  simp only [hi, hcur, hd, hset, hnul, hud, true_and]
  rw [if_pos hc']
  cases hb : st.in_boundary with
  | true =>
    rw [hb] at hk
    simp only [if_true] at hk
    have hitems : (st.items ++ [some A.length]).set (k + 1 - 1) none = st.items ++ [none] := by
      have : k + 1 - 1 = st.items.length := by omega
      rw [this, List.set_append_right _ _ (le_refl _)]
      simp
    have hval : (((k + 1 : Nat) : Int)) - 1 = (k : Int) := by push_cast; omega
    by_cases hcomma : c = ','
    · have h1 := hcap hcomma
      rw [if_pos hcomma, if_neg (by omega), if_neg (by omega)]
      simp only [if_true, if_pos hcomma, List.length_append, List.length_singleton, hk, hitems,
        hval]
    · rw [if_neg hcomma]
      simp only [if_true, if_neg hcomma, List.append_nil, List.length_append,
        List.length_singleton, hk, hitems]
  | false =>
    rw [hb] at hk
    simp only [Bool.false_eq_true, if_false] at hk
    have hval : (((k + 1 : Nat) : Int)) - 1 = (k : Int) := by push_cast; omega
    by_cases hcomma : c = ','
    · have h1 := hcap hcomma
      rw [if_pos hcomma, if_neg (by omega), if_neg (by omega)]
      simp only [Bool.false_eq_true, if_false, if_pos hcomma, hk, List.append_nil, hval]
    · rw [if_neg hcomma]
      simp only [Bool.false_eq_true, if_false, if_neg hcomma, List.append_nil]

/-- One pass of the loop of `find_tokens` at a byte that does not end a
token. -/
theorem token_step_inside (cap : Int) (st : TokenLoop) (A X : List Char) (c : Char)
    (hi : st.i = A.length) (hname : st.name = A ++ c :: X)
    (hc : ¬ (st.depth = 0 ∧ is_delim c = true)) :
    token_step cap st = .ok
      { i := A.length + 1
        in_boundary := false
        depth := update_depth c st.depth
        items := st.items ++ (if st.depth = 0 ∧ st.in_boundary = true then [some A.length] else [])
        comma_token := st.comma_token
        name := A ++ c :: X } := by
  have hcur : charAt st.name A.length = c := by rw [hname, charAt_append_head]
  have hc' : ¬ (st.depth = 0 ∧ (c = ' ' ∨ c = ',')) := by
    intro h
    apply hc
    refine ⟨h.1, ?_⟩
    unfold is_delim
    simpa using h.2
  unfold token_step
  simp only [hi, hcur]
  rw [if_neg hc']
  by_cases hb : st.depth = 0 ∧ st.in_boundary = true
  · simp only [if_pos hb, hi, hname]
  · simp only [if_neg hb, hi, hname, List.append_nil]

/-- The loop of `find_tokens` over the rest `t` of a name: it returns, with
the depth-0 delimiters of `t` overwritten by NUL, the entries of `scan_items`
added to the tokens and the entries the specification gives added to
`comma_token`, provided that the array has room for them. -/
theorem token_loop_scan (rest : List Char) (cap : Int) (len : Nat) :
    ∀ (t A : List Char) (st : TokenLoop) (k fuel : Nat),
      st.i = A.length → st.name = A ++ (t ++ NUL :: rest) → A.length + t.length = len →
      t.length ≤ fuel → (st.in_boundary = true → st.depth = 0) →
      (st.items.length = if st.in_boundary then k else k + 1) →
      (spec_comma_token st.depth k t ≠ [] →
        (st.comma_token.length : Int) + ((spec_comma_token st.depth k t).length : Int) ≤ cap) →
      ∃ st', token_loop len cap fuel st = .ok st' ∧
        st'.name = A ++ (nul_out st.depth t ++ NUL :: rest) ∧
        st'.items = st.items ++ scan_items st.depth st.in_boundary A.length t ∧
        st'.comma_token = st.comma_token ++ spec_comma_token st.depth k t := by
  intro t
  induction t with
  | nil =>
    intro A st k fuel hi hname hlen _ _ _ _
    refine ⟨st, token_loop_done len cap fuel st (by simp at hlen; omega), ?_, ?_, ?_⟩
    · simpa [nul_out] using hname
    · simp [scan_items]
    · simp [spec_comma_token]
  | cons c r ih =>
    intro A st k fuel hi hname hlen hfuel hb hk hcap
    obtain ⟨f, rfl⟩ : ∃ f, fuel = f + 1 := ⟨fuel - 1, by simp at hfuel; omega⟩
    have hlt : st.i < len := by simp at hlen; omega
    have hname' : st.name = A ++ c :: (r ++ NUL :: rest) := by simpa using hname
    unfold token_loop
    rw [if_pos hlt]
    by_cases hc : st.depth = 0 ∧ is_delim c = true
    · have hcap' : c = ',' → (st.comma_token.length : Int) < cap := by
        intro hcomma
        have hb1 := hcap (by
          rw [spec_comma_token, if_pos hc, if_pos hcomma]
          simp)
        simp only [spec_comma_token, if_pos hc, if_pos hcomma, List.length_append,
          List.length_singleton] at hb1
        push_cast at hb1
        omega
      rw [token_step_delim cap st A _ c k hi hname' hc.1 hc.2 hk hcap']
      simp only
      obtain ⟨st', hrun, h1, h2, h3⟩ := ih (A ++ [NUL])
        { i := A.length + 1
          in_boundary := true
          depth := 0
          items := st.items ++ (if st.in_boundary then [none] else [])
          comma_token := st.comma_token ++ (if c = ',' then [(k : Int)] else [])
          name := A ++ NUL :: (r ++ NUL :: rest) } (k + 1) f
        (by simp) (by simp) (by simp at hlen ⊢; omega) (by simp at hfuel; omega)
        (fun _ => rfl)
        (by
          simp only [if_true, List.length_append, hk]
          cases st.in_boundary <;> simp)
        (by
          intro hr
          have hb1 := hcap (by
            simp only [spec_comma_token, if_pos hc]
            intro h0
            rw [List.append_eq_nil] at h0
            exact hr (by rw [← hc.1]; exact h0.2))
          simp only [spec_comma_token, if_pos hc, List.length_append] at hb1
          simp only [List.length_append]
          rw [← hc.1]
          push_cast at hb1 ⊢
          omega)
      refine ⟨st', hrun, ?_, ?_, ?_⟩
      · rw [h1]
        simp [nul_out, hc.1, hc.2]
      · rw [h2]
        simp [scan_items, hc.1, hc.2]
      · rw [h3]
        simp [spec_comma_token, hc.1, hc.2]
    · rw [token_step_inside cap st A _ c hi hname' hc]
      simp only
      obtain ⟨st', hrun, h1, h2, h3⟩ := ih (A ++ [c])
        { i := A.length + 1
          in_boundary := false
          depth := update_depth c st.depth
          items := st.items
            ++ (if st.depth = 0 ∧ st.in_boundary = true then [some A.length] else [])
          comma_token := st.comma_token
          name := A ++ c :: (r ++ NUL :: rest) } k f
        (by simp) (by simp) (by simp at hlen ⊢; omega) (by simp at hfuel; omega)
        (fun h => absurd h (by simp))
        (by
          simp only [Bool.false_eq_true, if_false, List.length_append, hk]
          cases hbb : st.in_boundary with
          | true => simp [hb hbb]
          | false => simp)
        (by
          simp only [spec_comma_token, if_neg hc] at hcap
          exact hcap)
      refine ⟨st', hrun, ?_, ?_, ?_⟩
      · rw [h1]
        simp [nul_out, if_neg hc]
      · rw [h2]
        simp [scan_items, if_neg hc]
      · rw [h3]
        simp [spec_comma_token, if_neg hc]

theorem spec_tokens_delim (cur : List Char) (c : Char) (r : List Char)
    (h : is_delim c = true) :
    spec_tokens 0 cur (c :: r) = (if cur = [] then none else some cur) :: spec_tokens 0 [] r := by
  simp [spec_tokens, h]

theorem spec_tokens_inside (d : Int) (cur : List Char) (c : Char) (r : List Char)
    (h : ¬ (d = 0 ∧ is_delim c = true)) :
    spec_tokens d cur (c :: r) = spec_tokens (update_depth c d) (cur ++ [c]) r := by
  rw [spec_tokens, if_neg h]

theorem nul_out_delim (c : Char) (r : List Char) (h : is_delim c = true) :
    nul_out 0 (c :: r) = NUL :: nul_out 0 r := by
  simp [nul_out, h]

theorem nul_out_inside (d : Int) (c : Char) (r : List Char)
    (h : ¬ (d = 0 ∧ is_delim c = true)) :
    nul_out d (c :: r) = c :: nul_out (update_depth c d) r := by
  rw [nul_out, if_neg h]

theorem scan_items_delim (b : Bool) (off : Nat) (c : Char) (r : List Char)
    (h : is_delim c = true) :
    scan_items 0 b off (c :: r) = (if b then [none] else []) ++ scan_items 0 true (off + 1) r := by
  simp [scan_items, h]

theorem scan_items_inside (d : Int) (b : Bool) (off : Nat) (c : Char) (r : List Char)
    (h : ¬ (d = 0 ∧ is_delim c = true)) :
    scan_items d b off (c :: r)
      = (if d = 0 ∧ b = true then [some off] else [])
          ++ scan_items (update_depth c d) false (off + 1) r := by
  rw [scan_items, if_neg h]

/-- Reading the entries of `scan_items` in the buffer whose delimiters are
overwritten gives the tokens of the specification: after a token in progress
with the text `cur` so far, and at the start of a token. -/
theorem scan_items_texts (rest : List Char) :
    ∀ (t A : List Char) (d : Int), NUL ∉ t →
      (∀ cur : List Char, cur ≠ [] →
        spec_tokens d cur t
          = some (cur ++ cstr_at (A ++ (nul_out d t ++ NUL :: rest)) A.length) ::
            (scan_items d false A.length t).map
              (fun it => it.map (cstr_at (A ++ (nul_out d t ++ NUL :: rest))))) ∧
      (d = 0 →
        spec_tokens 0 [] t
          = (scan_items 0 true A.length t).map
              (fun it => it.map (cstr_at (A ++ (nul_out 0 t ++ NUL :: rest))))) := by
  intro t
  induction t with
  | nil =>
    intro A d _
    constructor
    · intro cur hcur
      simp only [spec_tokens, if_neg hcur, nul_out, List.nil_append, scan_items, List.map_nil,
        cstr_at_NUL, List.append_nil]
    · intro _
      simp [spec_tokens, scan_items]
  | cons c r ih =>
    intro A d hnul
    have hc0 : c ≠ NUL := fun h => hnul (by simp [h])
    have hr : NUL ∉ r := fun h => hnul (by simp [h])
    by_cases hc : d = 0 ∧ is_delim c = true
    · obtain ⟨hd, hdel⟩ := hc
      subst hd
      have hbuf : A ++ (NUL :: nul_out 0 r ++ NUL :: rest)
          = (A ++ [NUL]) ++ (nul_out 0 r ++ NUL :: rest) := by simp
      have hlen : (A ++ [NUL]).length = A.length + 1 := by simp
      have ih2 := (ih (A ++ [NUL]) 0 hr).2 rfl
      rw [hlen] at ih2
      have hread : cstr_at (A ++ (NUL :: nul_out 0 r ++ NUL :: rest)) A.length = [] :=
        cstr_at_NUL A _
      constructor
      · intro cur hcur
        rw [spec_tokens_delim cur c r hdel, nul_out_delim c r hdel,
          scan_items_delim false A.length c r hdel, if_neg hcur, hread, ih2, hbuf]
        simp
      · intro _
        rw [spec_tokens_delim [] c r hdel, nul_out_delim c r hdel,
          scan_items_delim true A.length c r hdel, ih2, hbuf]
        simp
    · have hbuf : A ++ (c :: nul_out (update_depth c d) r ++ NUL :: rest)
          = (A ++ [c]) ++ (nul_out (update_depth c d) r ++ NUL :: rest) := by simp
      have hlen : (A ++ [c]).length = A.length + 1 := by simp
      have ih1 := (ih (A ++ [c]) (update_depth c d) hr).1
      rw [hlen, ← hbuf] at ih1
      have hread : cstr_at (A ++ (c :: nul_out (update_depth c d) r ++ NUL :: rest)) A.length
          = c :: cstr_at (A ++ (c :: nul_out (update_depth c d) r ++ NUL :: rest))
              (A.length + 1) := by
        have := cstr_at_cons A (nul_out (update_depth c d) r ++ NUL :: rest) c hc0
        rw [← hbuf] at this
        simpa using this
      constructor
      · intro cur _
        rw [spec_tokens_inside d cur c r hc, nul_out_inside d c r hc,
          scan_items_inside d false A.length c r hc, ih1 (cur ++ [c]) (by simp), hread]
        simp
      · intro hd
        subst hd
        rw [spec_tokens_inside 0 [] c r hc, nul_out_inside 0 c r hc,
          scan_items_inside 0 true A.length c r hc, ih1 ([] ++ [c]) (by simp)]
        simp only [List.cons_append] at hread
        simp only [eq_self_iff_true, and_self, if_true, List.singleton_append, List.nil_append,
          List.map_cons, Option.map_some', List.cons_append]
        rw [hread]

/-- C32: tokenization.  For every non-empty name (a C string, so free of NUL,
in a buffer with anything after its terminator) and every `comma_token` array
with room for the commas at depth 0, `find_tokens` returns: it has written a
NUL over exactly the spaces and commas at brace depth 0, its tokens read back
as the tokens of the specification (the name cut at those bytes, a token that
is empty being absent), and `comma_token` holds, for each comma at depth 0 in
order, the index of the token that the comma ends.  `{Barnes and Noble} Inc`
has 2 tokens; `a,,b` has the tokens `a`, absent, `b` and the comma tokens 0
and 1. -/
theorem tokenization_spec (s rest : List Char) (cap : Int) (hne : s ≠ []) (hnul : NUL ∉ s)
    (hcap : ((spec_comma_token 0 0 s).length : Int) ≤ cap) :
    (∃ toks : bt_stringlist,
      find_tokens (s ++ NUL :: rest) cap = .ok (toks, spec_comma_token 0 0 s) ∧
        toks.string = nul_out 0 s ++ NUL :: rest ∧
        toks.num_items = some toks.items.length ∧
        toks.texts = spec_tokens 0 [] s) ∧
    (spec_tokens 0 [] "\x7bBarnes and Noble\x7d Inc".toList
        = [some "\x7bBarnes and Noble\x7d".toList, some "Inc".toList] ∧
      spec_comma_token 0 0 "\x7bBarnes and Noble\x7d Inc".toList = [] ∧
      spec_tokens 0 [] "a,,b".toList = [some "a".toList, none, some "b".toList] ∧
      spec_comma_token 0 0 "a,,b".toList = [0, 1] ∧
      nul_out 0 "a,,b".toList = ['a', NUL, NUL, 'b']) := by
  refine ⟨?_, by decide⟩
  have hlen : strlen (s ++ NUL :: rest) = s.length := strlen_append_NUL s rest hnul
  have hpos : s.length ≠ 0 := fun h => hne (List.length_eq_zero.1 h)
  obtain ⟨st', hrun, h1, h2, h3⟩ := token_loop_scan rest cap s.length s []
    { i := 0, in_boundary := true, depth := 0, items := [], comma_token := [],
      name := s ++ NUL :: rest } 0 s.length rfl (by simp) (by simp) (le_refl _) (fun _ => rfl)
    (by simp) (fun _ => by simpa using hcap)
  simp only [List.nil_append, List.length_nil] at h1 h2 h3
  refine ⟨{ string := st'.name, num_items := some st'.items.length, items := st'.items },
    ?_, h1, rfl, ?_⟩
  · unfold find_tokens
    simp only [hlen, if_neg hpos, hrun, h3]
  · have := (scan_items_texts rest s [] 0 hnul).2 rfl
    simp only [List.nil_append, List.length_nil] at this
    unfold bt_stringlist.texts
    simp only [h1, h2]
    exact this.symm

/-- C32 at a concrete input: `a,,b` in a buffer with two commas allowed. -/
theorem tokenization_spec_witness :
    ("a,,b".toList ≠ [] ∧ NUL ∉ "a,,b".toList ∧
      ((spec_comma_token 0 0 "a,,b".toList).length : Int) ≤ 2) ∧
    find_tokens ("a,,b".toList ++ NUL :: []) 2
      = .ok ({ string := ['a', NUL, NUL, 'b', NUL], num_items := some 3,
               items := [some 0, none, some 3] }, [0, 1]) ∧
    ∃ toks : bt_stringlist,
      find_tokens ("a,,b".toList ++ NUL :: []) 2
          = .ok (toks, spec_comma_token 0 0 "a,,b".toList) ∧
        toks.string = nul_out 0 "a,,b".toList ++ NUL :: [] ∧
        toks.num_items = some toks.items.length ∧
        toks.texts = spec_tokens 0 [] "a,,b".toList :=
  ⟨⟨by decide, by decide, by decide⟩, by decide,
    (tokenization_spec "a,,b".toList [] 2 (by decide) (by decide) (by decide)).1⟩

/-! ## The second loop of find_commas on any name -/

theorem drop_trailing_spec (c0 : Char) :
    ∀ out : List Char, ∃ m : Nat,
      out = drop_trailing c0 out ++ List.replicate m c0 ∧
        (drop_trailing c0 out = [] ∨
          charAt (drop_trailing c0 out) ((drop_trailing c0 out).length - 1) ≠ c0) := by
  intro out
  induction out with
  | nil => exact ⟨0, rfl, Or.inl rfl⟩
  | cons c r ih =>
    obtain ⟨m, hm, hlast⟩ := ih
    by_cases h : drop_trailing c0 r = [] ∧ c = c0
    · refine ⟨m + 1, ?_, Or.inl (by simp [drop_trailing, h])⟩
      have e : drop_trailing c0 (c :: r) = [] := by simp [drop_trailing, h]
      rw [e, List.nil_append]
      rw [h.1, List.nil_append] at hm
      rw [hm, h.2]
      rfl
    · have e : drop_trailing c0 (c :: r) = c :: drop_trailing c0 r := by
        rw [drop_trailing, if_neg h]
      refine ⟨m, ?_, Or.inr ?_⟩
      · rw [e, List.cons_append, ← hm]
      · rw [e]
        by_cases hr : drop_trailing c0 r = []
        · rw [hr]
          simp only [List.length_singleton, Nat.sub_self]
          intro hc
          exact h ⟨hr, by simpa [charAt] using hc⟩
        · rcases hlast with h1 | h1
          · exact absurd h1 hr
          · have hpos : 0 < (drop_trailing c0 r).length := List.length_pos.2 hr
            have e2 : (c :: drop_trailing c0 r).length - 1
                = ((drop_trailing c0 r).length - 1) + 1 := by
              simp only [List.length_cons]; omega
            rw [e2]
            simpa [charAt] using h1

theorem leading_spaces (r : List Char) :
    ∃ (n : Nat) (t : List Char), r = List.replicate n ' ' ++ t ∧ charAt t 0 ≠ ' ' := by
  induction r with
  | nil => exact ⟨0, [], rfl, by decide⟩
  | cons c r ih =>
    by_cases h : c = ' '
    · obtain ⟨n, t, hr, ht⟩ := ih
      exact ⟨n + 1, t, by rw [hr, h]; rfl, ht⟩
    · exact ⟨0, c :: r, rfl, by simpa [charAt] using h⟩

theorem squeeze_skip (d : Int) (out : List Char) (cs : List Nat) (t : List Char) :
    ∀ n : Nat, squeeze d true out cs (List.replicate n ' ' ++ t) = squeeze d true out cs t := by
  intro n
  induction n with
  | zero => rfl
  | succ n ih =>
    rw [List.replicate_succ, List.cons_append, squeeze, if_pos ⟨rfl, rfl⟩]
    exact ih

theorem squeeze_flag (d : Int) (out : List Char) (cs : List Nat) (t : List Char)
    (h : charAt t 0 ≠ ' ') : squeeze d true out cs t = squeeze d false out cs t := by
  cases t with
  | nil => rfl
  | cons c r =>
    have hc : c ≠ ' ' := by simpa [charAt] using h
    simp only [squeeze]
    rw [if_neg (fun h' => hc h'.2), if_neg (fun h' : false = true ∧ c = ' ' => hc h'.2)]

/-- One pass of the second loop of `find_commas` on a byte that is not a comma
at depth 0: the byte is copied down. -/
theorem comma_step_other (len : Nat) (st : CommaLoop)
    (h : ¬ (st.depth = 0 ∧ charAt st.name st.i = ',')) :
    comma_step len st =
      { i := st.i + 1
        j := st.j + 1
        depth := update_depth (charAt st.name st.i) st.depth
        num_commas := st.num_commas
        commas := st.commas
        name := if st.i ≠ st.j then st.name.set st.j (charAt st.name st.i) else st.name } := by
  have h' : (decide (st.depth = 0) && (charAt st.name st.i == ',')) = false := by
    by_cases hd : st.depth = 0
    · have : charAt st.name st.i ≠ ',' := fun e => h ⟨hd, e⟩
      simp [hd, this]
    · simp [hd]
  simp [comma_step, h']

theorem comma_inv_other {I : List Char} {len : Nat} (hlen : len < I.length) {out : List Char}
    {st : CommaLoop} (hinv : CommaInv I out st) (hlt : st.i < len)
    (h : ¬ (st.depth = 0 ∧ charAt I st.i = ',')) :
    CommaInv I (out ++ [charAt I st.i]) (comma_step len st) ∧
      (comma_step len st).i = st.i + 1 ∧
      (comma_step len st).depth = update_depth (charAt I st.i) st.depth ∧
      (comma_step len st).num_commas = st.num_commas ∧
      (comma_step len st).commas = st.commas := by
  obtain ⟨hj, hji, hdone, htodo, hl⟩ := hinv
  have hcur : charAt st.name st.i = charAt I st.i := htodo st.i (Nat.le_refl _)
  have hstep := comma_step_other len st (by rw [hcur]; exact h)
  rw [hcur] at hstep
  have hjlt : st.j < st.name.length := by omega
  rw [hstep]
  refine ⟨⟨by simp [hj], by simp only; omega, ?_, ?_, ?_⟩, rfl, rfl, rfl, rfl⟩
  · intro k hk
    simp only [List.length_append, List.length_singleton] at hk
    simp only
    by_cases hkj : k = st.j
    · have e : charAt (out ++ [charAt I st.i]) k = charAt I st.i := by
        rw [hkj, hj]
        exact charAt_snoc out _
      rw [e]
      split_ifs with hne
      · rw [hkj]; exact charAt_set_self _ _ _ hjlt
      · have : st.i = st.j := by omega
        rw [hkj, ← this]; exact hcur
    · have hklt : k < out.length := by omega
      rw [charAt_append_left hklt, ← hdone k hklt]
      split_ifs
      · exact charAt_set_ne _ _ _ _ hkj
      · rfl
  · intro k hk
    simp only at hk ⊢
    rw [← htodo k (by omega)]
    split_ifs
    · exact charAt_set_ne _ _ _ _ (by omega)
    · rfl
  · simp only
    split_ifs
    · simp [hl]
    · exact hl

/-- One pass of the second loop of `find_commas` at a comma at depth 0: the
spaces before it are dropped from the text written so far, the comma is
written, and the spaces after it are skipped. -/
theorem comma_step_at_any {I : List Char} {len : Nat} (hlen : len < I.length)
    (out : List Char) (n2 : Nat) (st : CommaLoop)
    (hinv : CommaInv I out st) (hlt : st.i < len) (hd : st.depth = 0)
    (hcomma : charAt I st.i = ',')
    (hsp2 : ∀ m, m < n2 → charAt I (st.i + 1 + m) = ' ')
    (hstop : charAt I (st.i + 1 + n2) ≠ ' ') (hle : st.i + 1 + n2 ≤ len) :
    CommaInv I (drop_trailing ' ' out ++ [',']) (comma_step len st) ∧
      (comma_step len st).i = st.i + 1 + n2 ∧ (comma_step len st).depth = 0 ∧
      (comma_step len st).num_commas = st.num_commas + 1 ∧
      (comma_step len st).commas = st.commas ++ [(drop_trailing ' ' out).length] := by
  obtain ⟨m1, hout, hlast⟩ := drop_trailing_spec ' ' out
  generalize drop_trailing ' ' out = out0 at hout hlast ⊢
  obtain ⟨hj, hji, hdone, htodo, hl⟩ := hinv
  have holen : out.length = out0.length + m1 := by
    have := congrArg List.length hout
    simpa using this
  have hcur : charAt st.name st.i = ',' := by rw [htodo st.i (Nat.le_refl _)]; exact hcomma
  have hback : back_over_spaces st.name st.j = out0.length := by
    rw [hj, holen]
    apply back_over_spaces_eq
    · rcases hlast with h | h
      · left; rw [h]; rfl
      · rcases Nat.eq_zero_or_pos out0.length with h0 | hpos
        · left; exact h0
        · right
          rw [hdone _ (by omega), hout, charAt_append_left (by omega)]
          exact h
    · intro k h1 h2
      rw [hdone k (by omega), hout]
      have e : k = out0.length + (k - out0.length) := by omega
      rw [e, charAt_append_right]
      exact List.eq_of_mem_replicate (charAt_mem (by simp; omega))
  have hstep : comma_step len st =
      { i := skip_spaces (if st.i ≠ out0.length then st.name.set out0.length ',' else st.name)
               len (len - (st.i + 1)) (st.i + 1)
        j := out0.length + 1
        depth := 0
        num_commas := st.num_commas + 1
        commas := st.commas ++ [out0.length]
        name := if st.i ≠ out0.length then st.name.set out0.length ',' else st.name } := by
    simp [comma_step, hd, hcur, hback, update_depth]
  have hname : ∀ k, k ≠ out0.length →
      charAt (if st.i ≠ out0.length then st.name.set out0.length ',' else st.name) k
        = charAt st.name k := by
    intro k hk
    split_ifs
    · exact charAt_set_ne _ _ _ _ hk
    · rfl
  have hskip : skip_spaces (if st.i ≠ out0.length then st.name.set out0.length ',' else st.name)
      len (len - (st.i + 1)) (st.i + 1) = st.i + 1 + n2 := by
    apply skip_spaces_eq
    · omega
    · intro k h1 h2
      rw [hname k (by omega), htodo k (by omega)]
      have e : k = st.i + 1 + (k - (st.i + 1)) := by omega
      rw [e]
      exact hsp2 _ (by omega)
    · rw [hname _ (by omega), htodo _ (by omega)]
      exact hstop
    · exact hle
  rw [hstep]
  refine ⟨⟨by simp, by simp only [hskip]; omega, ?_, ?_, ?_⟩, hskip, rfl, rfl, rfl⟩
  · intro k hk
    simp only [List.length_append, List.length_singleton] at hk
    simp only
    by_cases hkj : k = out0.length
    · have e : charAt (out0 ++ [',']) k = ',' := by
        rw [hkj]
        exact charAt_snoc out0 ','
      rw [e, hkj]
      split_ifs with hne
      · exact charAt_set_self _ _ _ (by omega)
      · have : st.i = out0.length := by omega
        rw [← this]; exact hcur
    · have hklt : k < out0.length := by omega
      rw [hname k hkj, hdone k (by omega), hout, charAt_append_left hklt,
        charAt_append_left hklt]
  · intro k hk
    simp only [hskip] at hk
    simp only
    rw [hname k (by omega), htodo k (by omega)]
  · simp only
    split_ifs
    · simp [hl]
    · exact hl

theorem charAt_replicate_append (n : Nat) (c : Char) (t : List Char) :
    (∀ m, m < n → charAt (List.replicate n c ++ t) m = c) ∧
      ∀ m, charAt (List.replicate n c ++ t) (n + m) = charAt t m := by
  constructor
  · intro m hm
    rw [charAt_append_left (by simpa using hm)]
    exact List.eq_of_mem_replicate (charAt_mem (by simpa using hm))
  · intro m
    have := charAt_append_right (List.replicate n c) t m
    simpa using this

theorem charAt_cons_succ (c : Char) (r : List Char) (m : Nat) :
    charAt (c :: r) (m + 1) = charAt r m := by
  simp [charAt]

/-- The second loop of `find_commas` over the rest `t` of a name: it writes
what `squeeze` makes of `t` after the text written so far. -/
theorem comma_loop_squeeze {I : List Char} {len : Nat} (hlen : len < I.length)
    (hterm : charAt I len ≠ ' ') :
    ∀ (n : Nat) (t out : List Char) (st : CommaLoop) (fuel : Nat), t.length ≤ n →
      t.length ≤ fuel → CommaInv I out st →
      (∀ m, m < t.length → charAt I (st.i + m) = charAt t m) → st.i + t.length = len →
      (comma_loop len fuel st).i = len ∧
        CommaInv I (squeeze st.depth false out st.commas t).1 (comma_loop len fuel st) ∧
        (comma_loop len fuel st).commas = (squeeze st.depth false out st.commas t).2 ∧
        (comma_loop len fuel st).num_commas
          = st.num_commas + (((comma_loop len fuel st).commas.length : Int)
              - (st.commas.length : Int)) := by
  intro n
  induction n with
  | zero =>
    intro t out st fuel hn _ hinv _ hi
    have ht : t = [] := List.length_eq_zero.1 (by omega)
    subst ht
    simp only [List.length_nil, Nat.add_zero] at hi
    rw [comma_loop_done len fuel st (by omega)]
    exact ⟨hi, by simpa [squeeze] using hinv, by simp [squeeze], by simp⟩
  | succ n ih =>
    intro t out st fuel hn hfuel hinv hseg hi
    cases t with
    | nil =>
      simp only [List.length_nil, Nat.add_zero] at hi
      rw [comma_loop_done len fuel st (by omega)]
      exact ⟨hi, by simpa [squeeze] using hinv, by simp [squeeze], by simp⟩
    | cons c r =>
      simp only [List.length_cons] at hn hfuel hi hseg
      obtain ⟨f, rfl⟩ : ∃ f, fuel = f + 1 := ⟨fuel - 1, by omega⟩
      have hlt : st.i < len := by omega
      have hcur : charAt I st.i = c := by
        have := hseg 0 (by omega)
        simpa [charAt] using this
      rw [comma_loop, if_pos hlt]
      by_cases h : st.depth = 0 ∧ c = ','
      · obtain ⟨n2, t', hr, ht'⟩ := leading_spaces r
        have hrlen : r.length = n2 + t'.length := by
          have := congrArg List.length hr
          simpa using this
        have hsegr : ∀ m, m < r.length → charAt I (st.i + 1 + m) = charAt r m := by
          intro m hm
          have := hseg (m + 1) (by omega)
          rw [charAt_cons_succ] at this
          rw [← this]
          congr 1
          omega
        obtain ⟨hinv', hi', hd', hn', hc'⟩ := comma_step_at_any hlen out n2 st hinv hlt h.1
          (by rw [hcur]; exact h.2)
          (fun m hm => by
            rw [hsegr m (by omega), hr]
            exact (charAt_replicate_append n2 ' ' t').1 m hm)
          (by
            rcases Nat.eq_zero_or_pos t'.length with h0 | h0
            · have : st.i + 1 + n2 = len := by omega
              rw [this]; exact hterm
            · rw [hsegr n2 (by omega), hr]
              have := (charAt_replicate_append n2 ' ' t').2 0
              rw [Nat.add_zero] at this
              rw [this]
              exact ht')
          (by omega)
        obtain ⟨e1, e2, e3, e4⟩ := ih t' (drop_trailing ' ' out ++ [',']) (comma_step len st) f
          (by omega) (by omega) hinv'
          (fun m hm => by
            rw [hi']
            have e : st.i + 1 + n2 + m = st.i + 1 + (n2 + m) := by omega
            rw [e, hsegr (n2 + m) (by omega), hr]
            exact (charAt_replicate_append n2 ' ' t').2 m)
          (by rw [hi']; omega)
        have hsq : squeeze st.depth false out st.commas (c :: r)
            = squeeze (comma_step len st).depth false (drop_trailing ' ' out ++ [','])
                (comma_step len st).commas t' := by
          rw [hd', hc']
          simp only [squeeze]
          rw [if_neg (fun h' : false = true ∧ c = ' ' => absurd h'.1 (by simp)), if_pos h, h.1,
            hr, squeeze_skip, squeeze_flag _ _ _ _ ht']
        rw [hsq]
        refine ⟨e1, e2, e3, ?_⟩
        rw [e4, hn', hc']
        simp only [List.length_append, List.length_singleton]
        push_cast
        omega
      · obtain ⟨hinv', hi', hd', hn', hc'⟩ := comma_inv_other hlen hinv hlt
          (by rw [hcur]; exact h)
        rw [hcur] at hinv' hd'
        obtain ⟨e1, e2, e3, e4⟩ := ih r (out ++ [c]) (comma_step len st) f
          (by omega) (by omega) hinv'
          (fun m hm => by
            rw [hi']
            have := hseg (m + 1) (by omega)
            rw [charAt_cons_succ] at this
            rw [← this]
            congr 1
            omega)
          (by rw [hi']; omega)
        have hsq : squeeze st.depth false out st.commas (c :: r)
            = squeeze (comma_step len st).depth false (out ++ [c]) (comma_step len st).commas
                r := by
          rw [hd', hc']
          simp only [squeeze]
          rw [if_neg (fun h' : false = true ∧ c = ' ' => absurd h'.1 (by simp)), if_neg h]
        rw [hsq]
        refine ⟨e1, e2, e3, ?_⟩
        rw [e4, hn', hc']

theorem drop_trailing_snoc (c0 : Char) :
    ∀ out : List Char, drop_trailing c0 (out ++ [c0]) = drop_trailing c0 out := by
  intro out
  induction out with
  | nil => simp [drop_trailing]
  | cons c r ih =>
    rw [List.cons_append, drop_trailing, ih]
    conv_rhs => rw [drop_trailing]

theorem brace_depth_step (a : Char) (A : List Char) (d : Int) :
    update_depth a d + brace_depth A = d + brace_depth (a :: A) := by
  rw [update_depth_eq_add, brace_depth_cons a A]
  omega

/-- A space before a comma at depth 0 does not change what the second loop of
`find_commas` writes. -/
theorem squeeze_space_before (B : List Char) :
    ∀ (A : List Char) (d : Int) (skip : Bool) (out : List Char) (cs : List Nat),
      d + brace_depth A = 0 →
      squeeze d skip out cs (A ++ ' ' :: ',' :: B) = squeeze d skip out cs (A ++ ',' :: B) := by
  intro A
  induction A with
  | nil =>
    intro d skip out cs hd
    have hd0 : d = 0 := by simpa [brace_depth] using hd
    subst hd0
    cases skip with
    | true =>
      simp only [List.nil_append]
      rw [squeeze, if_pos ⟨rfl, rfl⟩]
    | false =>
      simp only [List.nil_append]
      rw [squeeze, if_neg (fun h => absurd h.1 (by simp)),
        if_neg (fun h => absurd h.2 (by decide))]
      have e : update_depth ' ' 0 = 0 := by decide
      rw [e, squeeze, if_neg (fun h => absurd h.1 (by simp)), if_pos ⟨rfl, rfl⟩,
        drop_trailing_snoc]
      conv_rhs => rw [squeeze, if_neg (fun h => absurd h.1 (by simp)), if_pos ⟨rfl, rfl⟩]
  | cons a A ih =>
    intro d skip out cs hd
    simp only [List.cons_append, squeeze]
    by_cases h1 : skip = true ∧ a = ' '
    · rw [if_pos h1, if_pos h1]
      apply ih
      rw [← hd, h1.2, brace_depth_cons]
      simp [brace_depth, update_depth]
    · rw [if_neg h1, if_neg h1]
      by_cases h2 : d = 0 ∧ a = ','
      · rw [if_pos h2, if_pos h2]
        apply ih
        rw [← hd, h2.2, brace_depth_cons]
        simp [brace_depth, update_depth]
      · rw [if_neg h2, if_neg h2]
        apply ih
        rw [brace_depth_step, hd]

/-- A space after a comma at depth 0 does not change what the second loop of
`find_commas` writes. -/
theorem squeeze_space_after (B : List Char) :
    ∀ (A : List Char) (d : Int) (skip : Bool) (out : List Char) (cs : List Nat),
      d + brace_depth A = 0 →
      squeeze d skip out cs (A ++ ',' :: ' ' :: B) = squeeze d skip out cs (A ++ ',' :: B) := by
  intro A
  induction A with
  | nil =>
    intro d skip out cs hd
    have hd0 : d = 0 := by simpa [brace_depth] using hd
    subst hd0
    simp only [List.nil_append]
    rw [squeeze, if_neg (fun h => absurd h.2 (by decide)), if_pos ⟨rfl, rfl⟩, squeeze,
      if_pos ⟨rfl, rfl⟩]
    conv_rhs => rw [squeeze, if_neg (fun h => absurd h.2 (by decide)), if_pos ⟨rfl, rfl⟩]
  | cons a A ih =>
    intro d skip out cs hd
    simp only [List.cons_append, squeeze]
    by_cases h1 : skip = true ∧ a = ' '
    · rw [if_pos h1, if_pos h1]
      apply ih
      rw [← hd, h1.2, brace_depth_cons]
      simp [brace_depth, update_depth]
    · rw [if_neg h1, if_neg h1]
      by_cases h2 : d = 0 ∧ a = ','
      · rw [if_pos h2, if_pos h2]
        apply ih
        rw [← hd, h2.2, brace_depth_cons]
        simp [brace_depth, update_depth]
      · rw [if_neg h2, if_neg h2]
        apply ih
        rw [brace_depth_step, hd]

theorem squeeze_out_ne :
    ∀ (t : List Char) (d : Int) (skip : Bool) (out : List Char) (cs : List Nat),
      (out ≠ [] ∨ (t ≠ [] ∧ skip = false)) → (squeeze d skip out cs t).1 ≠ [] := by
  intro t
  induction t with
  | nil =>
    intro d skip out cs h
    rcases h with h | h
    · simpa [squeeze] using h
    · exact absurd rfl h.1
  | cons c r ih =>
    intro d skip out cs h
    simp only [squeeze]
    by_cases h1 : skip = true ∧ c = ' '
    · rw [if_pos h1]
      apply ih
      rcases h with h | h
      · exact Or.inl h
      · rw [h1.1] at h
        exact absurd h.2 (by simp)
    · rw [if_neg h1]
      by_cases h2 : d = 0 ∧ c = ','
      · rw [if_pos h2]
        exact ih _ _ _ _ (Or.inl (by simp))
      · rw [if_neg h2]
        exact ih _ _ _ _ (Or.inl (by simp))

theorem squeeze_commas_le :
    ∀ (t : List Char) (d : Int) (skip : Bool) (out : List Char) (cs : List Nat),
      (squeeze d skip out cs t).2.length ≤ cs.length + t.length := by
  intro t
  induction t with
  | nil => intro d skip out cs; simp [squeeze]
  | cons c r ih =>
    intro d skip out cs
    simp only [squeeze, List.length_cons]
    split_ifs
    · have := ih d true out cs
      omega
    · have := ih d true (drop_trailing ' ' out ++ [',']) (cs ++ [(drop_trailing ' ' out).length])
      simp only [List.length_append, List.length_singleton] at this
      omega
    · have := ih (update_depth c d) false (out ++ [c]) cs
      omega

/-- The trailing-comma loop of `find_commas` on a buffer that holds the text
`core`, which does not end with a comma, followed by `m` commas: it reads the
byte before the buffer when `core` is empty, and otherwise overwrites the
commas and takes `m` from the count. -/
theorem strip_commas_spec (core : List Char)
    (hlast : core = [] ∨ charAt core (core.length - 1) ≠ ',') :
    ∀ (m : Nat) (X : List Char) (n : Int),
      strip_commas (core.length + m) (core ++ (List.replicate m ',' ++ X)) n
        = if core = [] then .error Fault.out_of_bounds
          else .ok (core ++ (List.replicate m NUL ++ X), n - (m : Int)) := by
  intro m
  induction m with
  | zero =>
    intro X n
    simp only [Nat.add_zero, List.replicate_zero, List.nil_append, Nat.cast_zero, sub_zero]
    by_cases hc : core = []
    · subst hc
      rfl
    · rw [if_neg hc]
      have hpos : 0 < core.length := List.length_pos.2 hc
      obtain ⟨k, hk⟩ : ∃ k, core.length = k + 1 := ⟨core.length - 1, by omega⟩
      rw [hk, strip_commas]
      have hcur : charAt (core ++ X) k ≠ ',' := by
        rw [charAt_append_left (by omega)]
        rcases hlast with h | h
        · exact absurd h hc
        · rw [hk] at h
          simpa using h
      rw [if_neg hcur]
  | succ m ih =>
    intro X n
    have e1 : core.length + (m + 1) = (core.length + m) + 1 := by omega
    have e2 : core ++ (List.replicate (m + 1) ',' ++ X)
        = (core ++ List.replicate m ',') ++ ',' :: X := by
      rw [List.replicate_succ']
      simp
    have e3 : (core ++ List.replicate m ',').length = core.length + m := by simp
    rw [e1, strip_commas, e2, ← e3, charAt_append_head, if_pos rfl, set_append_head, e3]
    have e4 : (core ++ List.replicate m ',') ++ NUL :: X
        = core ++ (List.replicate m ',' ++ NUL :: X) := by simp
    rw [e4, ih (NUL :: X) (n - 1)]
    by_cases hc : core = []
    · rw [if_pos hc, if_pos hc]
    · rw [if_neg hc, if_neg hc]
      have e5 : List.replicate m NUL ++ NUL :: X = List.replicate (m + 1) NUL ++ X := by
        rw [List.replicate_succ']
        simp
      rw [e5]
      congr 2
      push_cast
      omega

/-- What `find_commas` returns for a name with one or two commas in all: the
name as the second loop squeezes it, without its trailing commas, and the
number of commas at depth 0 less the number of trailing commas; for a name of
nothing but commas the trailing-comma loop reads the byte before the name. -/
theorem find_commas_squeezed (s : List Char) (hnul : NUL ∉ s) (h1 : 1 ≤ s.count ',')
    (h2 : s.count ',' ≤ 2) :
    (drop_trailing ',' (squeeze 0 false [] [] s).1 = [] →
      find_commas (s ++ [NUL]) 2 = .error Fault.out_of_bounds) ∧
    (drop_trailing ',' (squeeze 0 false [] [] s).1 ≠ [] →
      ∃ rest, find_commas (s ++ [NUL]) 2
        = .ok { name := drop_trailing ',' (squeeze 0 false [] [] s).1 ++ NUL :: rest
                num_commas := ((squeeze 0 false [] [] s).2.length : Int)
                  - (((squeeze 0 false [] [] s).1.length
                      - (drop_trailing ',' (squeeze 0 false [] [] s).1).length : Nat) : Int)
                commas := (squeeze 0 false [] [] s).2
                diags :=
                  if (drop_trailing ',' (squeeze 0 false [] [] s).1).length
                      = (squeeze 0 false [] [] s).1.length then []
                  else [Diag.comma_at_end] }) := by
  have hne : s ≠ [] := by
    intro h
    rw [h] at h1
    simp at h1
  have hlenI : s.length < (s ++ [NUL]).length := by simp
  obtain ⟨hi, hinv, hcs, hnc⟩ := comma_loop_squeeze hlenI
    (by rw [charAt_snoc]; decide) s.length s []
    { i := 0, j := 0, depth := 0, num_commas := 0, commas := [], name := s ++ [NUL] } s.length
    (le_refl _) (le_refl _) (CommaInv_init _)
    (fun m hm => by simpa using charAt_append_left hm) (by simp)
  simp only at hinv hcs hnc
  generalize hst : comma_loop s.length s.length
      { i := 0, j := 0, depth := 0, num_commas := 0, commas := [], name := s ++ [NUL] } = st
    at hi hinv hcs hnc
  have hsqne : (squeeze 0 false [] [] s).1 ≠ [] :=
    squeeze_out_ne s 0 false [] [] (Or.inr ⟨hne, rfl⟩)
  generalize hout : (squeeze 0 false [] [] s).1 = out at hinv hsqne ⊢
  generalize hcs' : (squeeze 0 false [] [] s).2 = cs at hcs ⊢
  obtain ⟨m, hm, hlast⟩ := drop_trailing_spec ',' out
  generalize hcore : drop_trailing ',' out = core at hm hlast ⊢
  have holen : out.length = core.length + m := by
    have := congrArg List.length hm
    simpa using this
  obtain ⟨hj, hji, hdone, htodo, hl⟩ := hinv
  have hpos : 0 < out.length := List.length_pos.2 hsqne
  have hjlt : st.j < st.name.length := by
    rw [hl]; simp only [List.length_append, List.length_singleton]; omega
  have hname2 : ∀ k, k ≠ st.j →
      charAt (if st.i ≠ st.j then st.name.set st.j NUL else st.name) k = charAt st.name k := by
    intro k hk
    split_ifs
    · exact charAt_set_ne _ _ _ _ hk
    · rfl
  have hend : charAt (if st.i ≠ st.j then st.name.set st.j NUL else st.name) st.j = NUL := by
    split_ifs with hne'
    · exact charAt_set_self _ _ _ hjlt
    · have e : st.j = s.length := by omega
      rw [htodo st.j (by omega), e]
      exact charAt_snoc s NUL
  have hlen2 : (if st.i ≠ st.j then st.name.set st.j NUL else st.name).length = st.name.length := by
    split_ifs
    · simp
    · rfl
  have hdecomp : (if st.i ≠ st.j then st.name.set st.j NUL else st.name)
      = out ++ NUL :: (if st.i ≠ st.j then st.name.set st.j NUL else st.name).drop (st.j + 1) := by
    generalize hN : (if st.i ≠ st.j then st.name.set st.j NUL else st.name) = N at *
    have hjN : st.j < N.length := by omega
    have htake : N.take st.j = out := by
      apply List.ext_getElem
      · simp [hj]; omega
      · intro k hk1 hk2
        have h3 := hname2 k (by omega)
        rw [hdone k hk2, charAt_eq_getElem (by omega), charAt_eq_getElem hk2] at h3
        rw [List.getElem_take]
        exact h3
    have hdrop : N.drop st.j = NUL :: N.drop (st.j + 1) := by
      rw [List.drop_eq_getElem_cons hjN, ← charAt_eq_getElem hjN, hend]
    rw [← htake, ← hdrop, List.take_append_drop]
  generalize hrest : (if st.i ≠ st.j then st.name.set st.j NUL else st.name).drop (st.j + 1)
    = rest0 at hdecomp
  have hfc : find_commas (s ++ [NUL]) 2
      = if charAt (out ++ NUL :: rest0) (out.length - 1) = ',' then
          match strip_commas out.length (out ++ NUL :: rest0) st.num_commas with
          | .ok (name3, n) =>
            .ok { name := name3, num_commas := n, commas := st.commas,
                  diags := [Diag.comma_at_end] }
          | .error e => .error e
        else .ok { name := out ++ NUL :: rest0, num_commas := st.num_commas,
                   commas := st.commas, diags := [] } := by
    unfold find_commas
    simp only [strlen_append_NUL s [] hnul, comma_scan_count s h2]
    rw [if_neg (by omega)]
    simp only [Bool.false_eq_true, if_false, hst, hdecomp, List.nil_append]
    have hjs : st.j = (out.length - 1) + 1 := by omega
    rw [hjs]
    simp only
    rw [← hjs, hj]
    try rfl
  have hbuf : out ++ NUL :: rest0 = core ++ (List.replicate m ',' ++ NUL :: rest0) := by
    rw [hm]; simp
  have hncs : st.num_commas = (cs.length : Int) := by
    rw [hnc, hcs]
    simp
  have hstrip := strip_commas_spec core hlast m (NUL :: rest0) st.num_commas
  rw [← holen, ← hbuf] at hstrip
  have hlastc : charAt (out ++ NUL :: rest0) (out.length - 1) = ',' ↔ 1 ≤ m := by
    rw [charAt_append_left (by omega)]
    constructor
    · intro hc
      by_contra hm0
      have hm0' : m = 0 := by omega
      subst hm0'
      simp only [List.replicate_zero, List.append_nil] at hm
      rcases hlast with h | h
      · rw [h] at hm
        exact hsqne hm
      · rw [← hm] at h
        exact h hc
    · intro hm1
      rw [hm]
      have e : (core ++ List.replicate m ',').length - 1 = core.length + (m - 1) := by
        simp; omega
      rw [e, charAt_append_right]
      exact List.eq_of_mem_replicate (charAt_mem (by simp; omega))
  constructor
  · intro hc
    rw [hfc, if_pos (hlastc.2 (by
      rw [hc] at holen
      simp only [List.length_nil, Nat.zero_add] at holen
      omega)), hstrip, if_pos hc]
  · intro hc
    by_cases hm1 : 1 ≤ m
    · rw [hfc, if_pos (hlastc.2 hm1), hstrip, if_neg hc]
      refine ⟨List.replicate m NUL ++ rest0, ?_⟩
      simp only
      rw [if_neg (by omega), hcs, hncs]
      have e : core ++ (List.replicate m NUL ++ NUL :: rest0)
          = core ++ NUL :: (List.replicate m NUL ++ rest0) := by
        have : List.replicate m NUL ++ NUL :: rest0 = NUL :: (List.replicate m NUL ++ rest0) := by
          have e1 : List.replicate m NUL ++ NUL :: rest0
              = List.replicate (m + 1) NUL ++ rest0 := by
            rw [List.replicate_succ']; simp
          rw [e1, List.replicate_succ]; rfl
        rw [this]
      rw [e]
      congr 2
      omega
    · have hm0 : m = 0 := by omega
      subst hm0
      simp only [List.replicate_zero, List.append_nil] at hm
      rw [hfc, if_neg (fun h => hm1 (hlastc.1 h))]
      refine ⟨rest0, ?_⟩
      rw [if_pos (by omega), hcs, hncs, ← hm]
      congr 2
      omega

/-! ## bt_split_name and the bytes after the name's terminator -/

theorem bt_split_name_after (s : List Char) :
    bt_split_name (some s)
      = match find_commas (s ++ [NUL]) 2 with
        | .error e => .error e
        | .ok cr =>
          if cr.num_commas > ((strlen (s ++ [NUL]) : Nat) : Int) then
            .error Fault.assertion_failed
          else split_after_commas cr.name cr.num_commas cr.diags := by
  unfold bt_split_name split_after_commas
  dsimp only

theorem split_name_parts_eq (s : List Char) :
    split_name_parts s = result_parts (bt_split_name (some s)) := by
  unfold split_name_parts result_parts
  cases bt_split_name (some s) with
  | error e => rfl
  | ok r => rfl

theorem token_step_comma_fault (cap : Int) (st : TokenLoop) (A X : List Char)
    (hi : st.i = A.length) (hname : st.name = A ++ ',' :: X) (hd : st.depth = 0)
    (hcap : cap ≤ 0 ∨ cap ≤ (st.comma_token.length : Int)) :
    ∃ e, token_step cap st = .error e := by
  have hcur : charAt st.name A.length = ',' := by rw [hname, charAt_append_head]
  unfold token_step
  simp only [hi, hcur, hd, true_and]
  rw [if_pos (Or.inr trivial)]
  by_cases h0 : cap ≤ 0
  · exact ⟨Fault.null_dereference, by simp [h0]⟩
  · have h1 : cap ≤ (st.comma_token.length : Int) := by
      rcases hcap with h | h
      · exact absurd h h0
      · exact h
    exact ⟨Fault.out_of_bounds, by simp [h0, h1]⟩

/-- The loop of `find_tokens` faults when the array `comma_token` has no room
for the commas at depth 0 that are still to come. -/
theorem token_loop_fault (rest : List Char) (cap : Int) (len : Nat) :
    ∀ (t A : List Char) (st : TokenLoop) (k fuel : Nat),
      st.i = A.length → st.name = A ++ (t ++ NUL :: rest) → A.length + t.length = len →
      t.length ≤ fuel → (st.in_boundary = true → st.depth = 0) →
      (st.items.length = if st.in_boundary then k else k + 1) →
      spec_comma_token st.depth k t ≠ [] →
      (cap ≤ 0 ∨
        cap < (st.comma_token.length : Int) + ((spec_comma_token st.depth k t).length : Int)) →
      ∃ e, token_loop len cap fuel st = .error e := by
  intro t
  induction t with
  | nil =>
    intro A st k fuel _ _ _ _ _ _ hne _
    exact absurd rfl hne
  | cons c r ih =>
    intro A st k fuel hi hname hlen hfuel hb hk hne hcap
    obtain ⟨f, rfl⟩ : ∃ f, fuel = f + 1 := ⟨fuel - 1, by simp at hfuel; omega⟩
    have hlt : st.i < len := by simp at hlen; omega
    have hname' : st.name = A ++ c :: (r ++ NUL :: rest) := by simpa using hname
    unfold token_loop
    rw [if_pos hlt]
    by_cases hc : st.depth = 0 ∧ is_delim c = true
    · by_cases hfault : c = ',' ∧ (cap ≤ 0 ∨ cap ≤ (st.comma_token.length : Int))
      · obtain ⟨hcomma, hf⟩ := hfault
        subst hcomma
        obtain ⟨e, he⟩ := token_step_comma_fault cap st A _ hi hname' hc.1 hf
        exact ⟨e, by rw [he]⟩
      · have hcap' : c = ',' → (st.comma_token.length : Int) < cap := by
          intro hcomma
          by_contra hnot
          exact hfault ⟨hcomma, Or.inr (by omega)⟩
        rw [token_step_delim cap st A _ c k hi hname' hc.1 hc.2 hk hcap']
        simp only
        have hspec : spec_comma_token st.depth k (c :: r)
            = (if c = ',' then [(k : Int)] else []) ++ spec_comma_token st.depth (k + 1) r := by
          rw [spec_comma_token, if_pos hc]
        rw [hspec, hc.1] at hne hcap
        have hlen' : ((if c = ',' then [(k : Int)] else []).length : Int)
            = if c = ',' then 1 else 0 := by
          split_ifs <;> rfl
        simp only [List.length_append] at hcap
        push_cast at hcap
        rw [hlen'] at hcap
        apply ih (A ++ [NUL])
          { i := A.length + 1
            in_boundary := true
            depth := 0
            items := st.items ++ (if st.in_boundary then [none] else [])
            comma_token := st.comma_token ++ (if c = ',' then [(k : Int)] else [])
            name := A ++ NUL :: (r ++ NUL :: rest) } (k + 1) f
          (by simp) (by simp) (by simp at hlen ⊢; omega) (by simp at hfuel; omega)
          (fun _ => rfl)
          (by
            simp only [if_true, List.length_append, hk]
            cases st.in_boundary <;> simp)
        · simp only
          intro h0
          by_cases hcomma : c = ','
          · have h1 := hcap' hcomma
            rw [h0, if_pos hcomma] at hcap
            simp only [List.length_nil, Nat.cast_zero, add_zero] at hcap
            rcases hcap with h | h <;> omega
          · rw [if_neg hcomma] at hne
            exact hne (by simpa using h0)
        · simp only [List.length_append]
          push_cast
          rw [hlen']
          rcases hcap with h | h
          · exact Or.inl h
          · exact Or.inr (by omega)
    · rw [token_step_inside cap st A _ c hi hname' hc]
      simp only
      have hspec : spec_comma_token st.depth k (c :: r)
          = spec_comma_token (update_depth c st.depth) k r := by
        rw [spec_comma_token, if_neg hc]
      rw [hspec] at hne hcap
      exact ih (A ++ [c])
        { i := A.length + 1
          in_boundary := false
          depth := update_depth c st.depth
          items := st.items
            ++ (if st.depth = 0 ∧ st.in_boundary = true then [some A.length] else [])
          comma_token := st.comma_token
          name := A ++ c :: (r ++ NUL :: rest) } k f
        (by simp) (by simp) (by simp at hlen ⊢; omega) (by simp at hfuel; omega)
        (fun h => absurd h (by simp))
        (by
          simp only [Bool.false_eq_true, if_false, List.length_append, hk]
          cases hbb : st.in_boundary with
          | true => simp [hb hbb]
          | false => simp)
        hne hcap

/-- What `find_tokens` returns for a non-empty name when `comma_token` has room
for the commas at depth 0. -/
theorem find_tokens_scan (s rest : List Char) (cap : Int) (hne : s ≠ []) (hnul : NUL ∉ s)
    (hcap : spec_comma_token 0 0 s ≠ [] → ((spec_comma_token 0 0 s).length : Int) ≤ cap) :
    find_tokens (s ++ NUL :: rest) cap
      = .ok ({ string := nul_out 0 s ++ NUL :: rest
               num_items := some (scan_items 0 true 0 s).length
               items := scan_items 0 true 0 s }, spec_comma_token 0 0 s) := by
  have hlen : strlen (s ++ NUL :: rest) = s.length := strlen_append_NUL s rest hnul
  have hpos : s.length ≠ 0 := fun h => hne (List.length_eq_zero.1 h)
  obtain ⟨st', hrun, h1, h2, h3⟩ := token_loop_scan rest cap s.length s []
    { i := 0, in_boundary := true, depth := 0, items := [], comma_token := [],
      name := s ++ NUL :: rest } 0 s.length rfl (by simp) (by simp) (le_refl _) (fun _ => rfl)
    (by simp) (fun h => by simpa using hcap h)
  simp only [List.nil_append, List.length_nil] at h1 h2 h3
  unfold find_tokens
  simp only [hlen, if_neg hpos, hrun, h1, h2, h3]

/-- A non-empty name for which `comma_token` has no room makes `find_tokens`
fault. -/
theorem find_tokens_fault (s rest : List Char) (cap : Int) (hnul : NUL ∉ s)
    (hne : spec_comma_token 0 0 s ≠ [])
    (hcap : cap < ((spec_comma_token 0 0 s).length : Int)) :
    ∃ e, find_tokens (s ++ NUL :: rest) cap = .error e := by
  have hlen : strlen (s ++ NUL :: rest) = s.length := strlen_append_NUL s rest hnul
  have hs : s ≠ [] := by
    intro h
    rw [h] at hne
    exact hne rfl
  have hpos : s.length ≠ 0 := fun h => hs (List.length_eq_zero.1 h)
  obtain ⟨e, he⟩ := token_loop_fault rest cap s.length s []
    { i := 0, in_boundary := true, depth := 0, items := [], comma_token := [],
      name := s ++ NUL :: rest } 0 s.length rfl (by simp) (by simp) (le_refl _) (fun _ => rfl)
    (by simp) hne (Or.inr (by simpa using hcap))
  refine ⟨e, ?_⟩
  unfold find_tokens
  simp only [hlen, if_neg hpos, he]

theorem takeWhile_stop (X r : List Char) :
    (X ++ NUL :: r).takeWhile (fun c => c != NUL) = X.takeWhile (fun c => c != NUL) := by
  induction X with
  | nil => simp
  | cons c X ih =>
    simp only [List.cons_append, List.takeWhile_cons, ih]

theorem strlen_rest (X r : List Char) :
    strlen (X ++ NUL :: r) = (X.takeWhile (fun c => c != NUL)).length := by
  unfold strlen
  rw [takeWhile_stop]

theorem cstr_at_rest (X r : List Char) (off : Nat) (h : off ≤ X.length) :
    cstr_at (X ++ NUL :: r) off = (X.drop off).takeWhile (fun c => c != NUL) := by
  unfold cstr_at
  rw [List.drop_append_of_le_length h, takeWhile_stop]

theorem nul_out_length : ∀ (t : List Char) (d : Int), (nul_out d t).length = t.length := by
  intro t
  induction t with
  | nil => intro d; rfl
  | cons c r ih =>
    intro d
    simp only [nul_out]
    split_ifs <;> simp [ih]

theorem scan_items_bound :
    ∀ (t : List Char) (d : Int) (b : Bool) (off o : Nat),
      some o ∈ scan_items d b off t → off ≤ o ∧ o < off + t.length := by
  intro t
  induction t with
  | nil => intro d b off o h; simp [scan_items] at h
  | cons c r ih =>
    intro d b off o h
    simp only [scan_items] at h
    simp only [List.length_cons]
    split_ifs at h with h1 h2 h3
    · simp only [List.singleton_append, List.mem_cons, reduceCtorEq, false_or] at h
      have := ih _ _ _ _ h
      omega
    · simp only [List.nil_append] at h
      have := ih _ _ _ _ h
      omega
    · simp only [List.singleton_append, List.mem_cons, Option.some.injEq] at h
      rcases h with h | h
      · omega
      · have := ih _ _ _ _ h
        omega
    · simp only [List.nil_append] at h
      have := ih _ _ _ _ h
      omega

theorem token_first_char_agree {toks1 toks2 : bt_stringlist} (h : TokensAgree toks1 toks2)
    (i : Nat) : token_first_char toks1 i = token_first_char toks2 i := by
  unfold token_first_char
  rw [← h.items]
  cases hi : toks1.items.get? i with
  | none => rfl
  | some it =>
    cases it with
    | none => rfl
    | some off =>
      simp only
      rw [h.first off (List.get?_mem hi)]

theorem lc_run_agree {toks1 toks2 : bt_stringlist} (h : TokensAgree toks1 toks2) (n : Nat) :
    ∀ fuel i, lc_run toks1 n fuel i = lc_run toks2 n fuel i := by
  intro fuel
  induction fuel with
  | zero => intro i; rfl
  | succ f ih =>
    intro i
    simp only [lc_run, token_first_char_agree h, ih]

theorem lc_loop_agree {toks1 toks2 : bt_stringlist} (h : TokensAgree toks1 toks2) (n : Nat) :
    ∀ fuel i f l, lc_loop toks1 n fuel i f l = lc_loop toks2 n fuel i f l := by
  intro fuel
  induction fuel with
  | zero => intro i f l; rfl
  | succ k ih =>
    intro i f l
    simp only [lc_loop, token_first_char_agree h, lc_run_agree h, ih]

theorem find_lc_tokens_agree {toks1 toks2 : bt_stringlist} (h : TokensAgree toks1 toks2) :
    find_lc_tokens toks1 = find_lc_tokens toks2 := by
  unfold find_lc_tokens
  rw [← h.num_items]
  cases toks1.num_items with
  | none => rfl
  | some n => exact lc_loop_agree h n n 0 (-1) (-1)

theorem token_text_agree {toks1 toks2 : bt_stringlist} (h : TokensAgree toks1 toks2)
    (k : Int) : token_text toks1 k = token_text toks2 k := by
  unfold token_text
  rw [← h.items]
  cases hi : toks1.items.get? k.toNat with
  | none => rfl
  | some it =>
    cases it with
    | none => rfl
    | some off =>
      simp only
      rw [h.text off (List.get?_mem hi)]

theorem component_texts_agree {toks1 toks2 : bt_stringlist} (h : TokensAgree toks1 toks2)
    (nm1 nm2 : bt_name) (h1 : nm1.tokens = some toks1) (h2 : nm2.tokens = some toks2)
    (comp : Option Int) (n : Int) :
    component_texts nm1 comp n = component_texts nm2 comp n := by
  unfold component_texts
  rw [h1, h2]
  cases comp with
  | none => rfl
  | some c => simp only [token_text_agree h]

theorem split_simple_name_agree {toks1 toks2 : bt_stringlist} (h : TokensAgree toks1 toks2)
    (n f l : Int) :
    (split_simple_name toks1 n f l).1.parts = (split_simple_name toks2 n f l).1.parts ∧
      (split_simple_name toks1 n f l).2 = (split_simple_name toks2 n f l).2 := by
  have key : ∀ toks : bt_stringlist,
      (split_simple_name toks n f l).1.tokens = some toks := by
    intro toks
    unfold split_simple_name
    simp only
  have hrest : ∀ toks : bt_stringlist,
      (split_simple_name toks n f l).1
        = { (split_simple_name toks2 n f l).1 with tokens := some toks } ∧
      (split_simple_name toks n f l).2
        = (if f > -1 ∧ l = n - 1 then [Diag.no_capitalized_at_end (token_text toks (n - 1))]
           else []) := by
    intro toks
    unfold split_simple_name
    simp only
    split_ifs <;> simp_all
  constructor
  · unfold bt_name.parts
    rw [component_texts_agree h _ _ (key toks1) (key toks2),
      component_texts_agree h _ _ (key toks1) (key toks2),
      component_texts_agree h _ _ (key toks1) (key toks2),
      component_texts_agree h _ _ (key toks1) (key toks2)]
    rw [(hrest toks1).1]
  · rw [(hrest toks1).2, (hrest toks2).2, token_text_agree h]

theorem split_general_name_tokens (toks toks2 : bt_stringlist) (n nc : Int) (ct : List Int)
    (f l : Int) :
    split_general_name toks n nc ct f l
      = match split_general_name toks2 n nc ct f l with
        | .error e => .error e
        | .ok r => .ok ({ r.1 with tokens := some toks }, r.2) := by
  unfold split_general_name
  simp only
  split
  · rfl
  · split
    · rfl
    · split
      · rfl
      · rfl

theorem split_general_name_agree {toks1 toks2 : bt_stringlist} (h : TokensAgree toks1 toks2)
    (n nc : Int) (ct : List Int) (f l : Int) (diags : List Diag) :
    result_parts
        (match split_general_name toks1 n nc ct f l with
          | .ok r => .ok (r.1, diags ++ r.2)
          | .error e => .error e)
      = result_parts
        (match split_general_name toks2 n nc ct f l with
          | .ok r => .ok (r.1, diags ++ r.2)
          | .error e => .error e) := by
  have h2 := split_general_name_tokens toks2 toks2 n nc ct f l
  rw [split_general_name_tokens toks1 toks2]
  cases hsg : split_general_name toks2 n nc ct f l with
  | error e => rfl
  | ok r =>
    rw [hsg] at h2
    simp only [Except.ok.injEq] at h2
    have htok : r.1.tokens = some toks2 := by
      rw [h2]
    simp only [result_parts, bt_name.parts]
    rw [component_texts_agree h { r.1 with tokens := some toks1 } r.1 rfl htok,
      component_texts_agree h { r.1 with tokens := some toks1 } r.1 rfl htok,
      component_texts_agree h { r.1 with tokens := some toks1 } r.1 rfl htok,
      component_texts_agree h { r.1 with tokens := some toks1 } r.1 rfl htok]

/-- The rest of `bt_split_name` gives the same components and warnings for two
buffers whose tokens read alike. -/
theorem split_after_commas_agree (name1 name2 : List Char) (nc : Int) (diags : List Diag)
    (hfind : (∃ e1 e2, find_tokens name1 nc = .error e1 ∧ find_tokens name2 nc = .error e2) ∨
      ∃ toks1 toks2 ct, find_tokens name1 nc = .ok (toks1, ct) ∧
        find_tokens name2 nc = .ok (toks2, ct) ∧ TokensAgree toks1 toks2) :
    result_parts (split_after_commas name1 nc diags)
      = result_parts (split_after_commas name2 nc diags) := by
  unfold split_after_commas
  rcases hfind with ⟨e1, e2, h1, h2⟩ | ⟨toks1, toks2, ct, h1, h2, h⟩
  · rw [h1, h2]
    rfl
  · rw [h1, h2]
    simp only
    rw [find_lc_tokens_agree h]
    cases find_lc_tokens toks2 with
    | error e => rfl
    | ok fl =>
      obtain ⟨f, l⟩ := fl
      simp only
      rw [h.len, h.num_items]
      by_cases hz : strlen toks2.string = 0
      · rw [if_pos hz, if_pos hz]
      · rw [if_neg hz, if_neg hz]
        cases toks2.num_items with
        | none => rfl
        | some n =>
          simp only
          by_cases hnc : nc = 0
          · rw [if_pos hnc, if_pos hnc]
            simp only [result_parts]
            rw [(split_simple_name_agree h n f l).1, (split_simple_name_agree h n f l).2]
          · rw [if_neg hnc, if_neg hnc]
            exact split_general_name_agree h n nc ct f l diags

/-- For a name in a buffer, `find_tokens` faults whatever follows the name's
terminator, or it returns tokens that read alike whatever follows it. -/
theorem find_tokens_rest (s r1 r2 : List Char) (cap : Int) (hnul : NUL ∉ s) :
    (∃ e1 e2, find_tokens (s ++ NUL :: r1) cap = .error e1 ∧
        find_tokens (s ++ NUL :: r2) cap = .error e2) ∨
      ∃ toks1 toks2 ct, find_tokens (s ++ NUL :: r1) cap = .ok (toks1, ct) ∧
        find_tokens (s ++ NUL :: r2) cap = .ok (toks2, ct) ∧ TokensAgree toks1 toks2 := by
  by_cases hs : s = []
  · subst hs
    right
    refine ⟨{ string := NUL :: r1, num_items := none, items := [] },
      { string := NUL :: r2, num_items := none, items := [] }, [], ?_, ?_, ?_⟩
    · unfold find_tokens
      have : strlen (NUL :: r1) = 0 := by simp [strlen]
      simp only [List.nil_append, this, if_true]
    · unfold find_tokens
      have : strlen (NUL :: r2) = 0 := by simp [strlen]
      simp only [List.nil_append, this, if_true]
    · exact ⟨rfl, rfl, by simp [strlen], fun off h => by simp at h, fun off h => by simp at h⟩
  · by_cases hfault : spec_comma_token 0 0 s ≠ [] ∧ cap < ((spec_comma_token 0 0 s).length : Int)
    · left
      obtain ⟨e1, h1⟩ := find_tokens_fault s r1 cap hnul hfault.1 hfault.2
      obtain ⟨e2, h2⟩ := find_tokens_fault s r2 cap hnul hfault.1 hfault.2
      exact ⟨e1, e2, h1, h2⟩
    · right
      have hcap : spec_comma_token 0 0 s ≠ [] → ((spec_comma_token 0 0 s).length : Int) ≤ cap := by
        intro hne
        by_contra hlt
        exact hfault ⟨hne, by omega⟩
      refine ⟨_, _, _, find_tokens_scan s r1 cap hs hnul hcap,
        find_tokens_scan s r2 cap hs hnul hcap, ⟨rfl, rfl, ?_, ?_, ?_⟩⟩
      · simp only [strlen_rest]
      · intro off hoff
        have hb := (scan_items_bound s 0 true 0 off hoff).2
        simp only [Nat.zero_add] at hb
        simp only
        rw [charAt_append_left (by rw [nul_out_length]; exact hb),
          charAt_append_left (by rw [nul_out_length]; exact hb)]
      · intro off hoff
        have hb := (scan_items_bound s 0 true 0 off hoff).2
        simp only [Nat.zero_add] at hb
        simp only
        rw [cstr_at_rest _ _ _ (by rw [nul_out_length]; omega),
          cstr_at_rest _ _ _ (by rw [nul_out_length]; omega)]

theorem split_after_commas_rest (s r1 r2 : List Char) (nc : Int) (diags : List Diag)
    (hnul : NUL ∉ s) :
    result_parts (split_after_commas (s ++ NUL :: r1) nc diags)
      = result_parts (split_after_commas (s ++ NUL :: r2) nc diags) :=
  split_after_commas_agree _ _ nc diags (find_tokens_rest s r1 r2 nc hnul)

/-! ## Spaces around the commas of a name -/

theorem drop_trailing_mem (c0 : Char) (out : List Char) :
    ∀ c ∈ drop_trailing c0 out, c ∈ out := by
  intro c hc
  obtain ⟨m, hm, _⟩ := drop_trailing_spec c0 out
  rw [hm]
  exact List.mem_append_left _ hc

theorem squeeze_mem :
    ∀ (t : List Char) (d : Int) (skip : Bool) (out : List Char) (cs : List Nat),
      ∀ c ∈ (squeeze d skip out cs t).1, c ∈ out ∨ c ∈ t ∨ c = ',' := by
  intro t
  induction t with
  | nil =>
    intro d skip out cs c hc
    exact Or.inl (by simpa [squeeze] using hc)
  | cons a r ih =>
    intro d skip out cs c hc
    simp only [squeeze] at hc
    by_cases h1 : skip = true ∧ a = ' '
    · rw [if_pos h1] at hc
      rcases ih _ _ _ _ c hc with h | h | h
      · exact Or.inl h
      · exact Or.inr (Or.inl (List.mem_cons_of_mem _ h))
      · exact Or.inr (Or.inr h)
    · rw [if_neg h1] at hc
      by_cases h2 : d = 0 ∧ a = ','
      · rw [if_pos h2] at hc
        rcases ih _ _ _ _ c hc with h | h | h
        · rcases List.mem_append.1 h with h | h
          · exact Or.inl (drop_trailing_mem _ _ c h)
          · exact Or.inr (Or.inr (by simpa using h))
        · exact Or.inr (Or.inl (List.mem_cons_of_mem _ h))
        · exact Or.inr (Or.inr h)
      · rw [if_neg h2] at hc
        rcases ih _ _ _ _ c hc with h | h | h
        · rcases List.mem_append.1 h with h | h
          · exact Or.inl h
          · exact Or.inr (Or.inl (by simp only [List.mem_singleton] at h; rw [h]; exact List.mem_cons_self _ _))
        · exact Or.inr (Or.inl (List.mem_cons_of_mem _ h))
        · exact Or.inr (Or.inr h)

/-- Two names with one or two commas in all that the second loop of
`find_commas` squeezes to the same text are split alike by `bt_split_name`. -/
theorem split_name_parts_of_squeeze (s1 s2 : List Char) (hnul1 : NUL ∉ s1) (hnul2 : NUL ∉ s2)
    (h11 : 1 ≤ s1.count ',') (h12 : s1.count ',' ≤ 2)
    (h21 : 1 ≤ s2.count ',') (h22 : s2.count ',' ≤ 2)
    (hsq : squeeze 0 false [] [] s1 = squeeze 0 false [] [] s2) :
    split_name_parts s1 = split_name_parts s2 := by
  rw [split_name_parts_eq, split_name_parts_eq, bt_split_name_after, bt_split_name_after]
  have f1 := find_commas_squeezed s1 hnul1 h11 h12
  have f2 := find_commas_squeezed s2 hnul2 h21 h22
  have c1 := squeeze_commas_le s1 0 false [] []
  have c2 := squeeze_commas_le s2 0 false [] []
  rw [hsq] at f1 c1
  have hl1 : strlen (s1 ++ [NUL]) = s1.length := strlen_append_NUL s1 [] hnul1
  have hl2 : strlen (s2 ++ [NUL]) = s2.length := strlen_append_NUL s2 [] hnul2
  simp only [List.length_nil, Nat.zero_add] at c1 c2
  by_cases hcore : drop_trailing ',' (squeeze 0 false [] [] s2).1 = []
  · rw [f1.1 hcore, f2.1 hcore]
  · obtain ⟨rest1, e1⟩ := f1.2 hcore
    obtain ⟨rest2, e2⟩ := f2.2 hcore
    rw [e1, e2]
    simp only
    rw [hl1, hl2]
    have a1 : ¬ (((squeeze 0 false [] [] s2).2.length : Int)
        - (((squeeze 0 false [] [] s2).1.length
            - (drop_trailing ',' (squeeze 0 false [] [] s2).1).length : Nat) : Int)
          > (s1.length : Int)) := by omega
    have a2 : ¬ (((squeeze 0 false [] [] s2).2.length : Int)
        - (((squeeze 0 false [] [] s2).1.length
            - (drop_trailing ',' (squeeze 0 false [] [] s2).1).length : Nat) : Int)
          > (s2.length : Int)) := by omega
    rw [if_neg a1, if_neg a2]
    apply split_after_commas_rest
    intro hmem
    rcases squeeze_mem s2 0 false [] [] NUL (drop_trailing_mem _ _ NUL hmem) with h | h | h
    · simp at h
    · exact hnul2 h
    · exact absurd h (by decide)

theorem no_space_prefix (X Y : List Char) (h : NoSpaceAtCommas (X ++ Y)) :
    NoSpaceAtCommas X := by
  intro p hp hc hd
  have hp2 : p < (X ++ Y).length := by rw [List.length_append]; omega
  have h1 := h p hp2 (by rw [charAt_append_left hp]; exact hc)
    (by rw [List.take_append_of_le_length (by omega)]; exact hd)
  refine ⟨fun h1p => ?_, ?_⟩
  · have := h1.1 h1p
    rwa [charAt_append_left (by omega)] at this
  · by_cases hlt : p + 1 < X.length
    · have := h1.2
      rwa [charAt_append_left hlt] at this
    · rw [charAt_of_le (by omega)]
      decide

theorem no_space_snoc (X : List Char) (c : Char) (h : NoSpaceAtCommas X)
    (hsp : c = ' ' → 1 ≤ X.length → charAt X (X.length - 1) = ',' →
      brace_depth (X.take (X.length - 1)) = 0 → False)
    (hcomma : c = ',' → brace_depth X = 0 → 1 ≤ X.length →
      charAt X (X.length - 1) ≠ ' ') :
    NoSpaceAtCommas (X ++ [c]) := by
  intro p hp hc hd
  rw [List.length_append, List.length_singleton] at hp
  by_cases hlt : p < X.length
  · rw [charAt_append_left hlt] at hc
    rw [List.take_append_of_le_length (by omega)] at hd
    have h1 := h p hlt hc hd
    refine ⟨fun h1p => ?_, ?_⟩
    · rw [charAt_append_left (by omega)]
      exact h1.1 h1p
    · by_cases hlt2 : p + 1 < X.length
      · rw [charAt_append_left hlt2]
        exact h1.2
      · have hp1 : p + 1 = X.length := by omega
        rw [hp1, charAt_snoc]
        intro hcs
        have hpe : p = X.length - 1 := by omega
        rw [hpe] at hc hd
        exact hsp hcs (by omega) hc hd
  · have hpe : p = X.length := by omega
    subst hpe
    rw [charAt_snoc] at hc
    rw [List.take_left] at hd
    refine ⟨fun h1p => ?_, ?_⟩
    · rw [charAt_append_left (by omega)]
      exact hcomma hc hd h1p
    · rw [charAt_of_le (by simp)]
      decide

theorem brace_depth_drop_spaces (out : List Char) :
    brace_depth (drop_trailing ' ' out) = brace_depth out := by
  obtain ⟨m, hm, _⟩ := drop_trailing_spec ' ' out
  conv_rhs => rw [hm]
  rw [brace_depth_append, brace_depth_spaces _ (fun c hc => List.eq_of_mem_replicate hc)]
  omega

/-- The text the second loop of `find_commas` writes has no space next to a
comma at brace depth 0. -/
theorem squeeze_no_space :
    ∀ (t : List Char) (d : Int) (skip : Bool) (out : List Char) (cs : List Nat),
      d = brace_depth out → NoSpaceAtCommas out →
      (1 ≤ out.length → charAt out (out.length - 1) = ',' →
        brace_depth (out.take (out.length - 1)) = 0 → skip = true) →
      NoSpaceAtCommas (squeeze d skip out cs t).1 := by
  intro t
  induction t with
  | nil =>
    intro d skip out cs _ h _
    exact h
  | cons c r ih =>
    intro d skip out cs hd h hlast
    simp only [squeeze]
    by_cases h1 : skip = true ∧ c = ' '
    · rw [if_pos h1]
      exact ih d true out cs hd h (fun _ _ _ => rfl)
    · rw [if_neg h1]
      by_cases h2 : d = 0 ∧ c = ','
      · rw [if_pos h2]
        obtain ⟨m, hm, hl⟩ := drop_trailing_spec ' ' out
        apply ih
        · rw [brace_depth_append, brace_depth_drop_spaces, ← hd, h2.1]
          rfl
        · apply no_space_snoc
          · apply no_space_prefix _ (List.replicate m ' ')
            rw [← hm]
            exact h
          · intro hcs
            exact absurd hcs (by decide)
          · intro _ _ hlen
            rcases hl with hl | hl
            · rw [hl] at hlen
              simp at hlen
            · exact hl
        · intro _ _ _
          rfl
      · rw [if_neg h2]
        apply ih
        · rw [brace_depth_append, ← hd, update_depth_eq_add]
        · apply no_space_snoc _ _ h
          · intro hcs hlen hc hdep
            exact h1 ⟨hlast hlen hc hdep, hcs⟩
          · intro hcc hdep _
            exact absurd ⟨by rw [hd, hdep], hcc⟩ h2
        · intro hlen hc hdep
          rw [List.length_append, List.length_singleton, Nat.add_sub_cancel] at hc hdep
          rw [charAt_snoc] at hc
          rw [List.take_left] at hdep
          exact absurd ⟨by rw [hd, hdep], hc⟩ h2

theorem drop_trailing_keeps (c0 c : Char) (out : List Char) (hc : c ≠ c0) (h : c ∈ out) :
    c ∈ drop_trailing c0 out := by
  obtain ⟨m, hm, _⟩ := drop_trailing_spec c0 out
  rw [hm] at h
  rcases List.mem_append.1 h with h | h
  · exact h
  · exact absurd (List.eq_of_mem_replicate h) hc

theorem squeeze_keeps (c : Char) (hc : c ≠ ' ') :
    ∀ (t : List Char) (d : Int) (skip : Bool) (out : List Char) (cs : List Nat),
      (c ∈ out ∨ c ∈ t) → c ∈ (squeeze d skip out cs t).1 := by
  intro t
  induction t with
  | nil =>
    intro d skip out cs h
    rcases h with h | h
    · exact h
    · simp at h
  | cons a r ih =>
    intro d skip out cs h
    simp only [squeeze]
    by_cases h1 : skip = true ∧ a = ' '
    · rw [if_pos h1]
      apply ih
      rcases h with h | h
      · exact Or.inl h
      · rcases List.mem_cons.1 h with h | h
        · exact absurd (h.trans h1.2) hc
        · exact Or.inr h
    · rw [if_neg h1]
      by_cases h2 : d = 0 ∧ a = ','
      · rw [if_pos h2]
        apply ih
        rcases h with h | h
        · exact Or.inl (List.mem_append_left _ (drop_trailing_keeps ' ' c out hc h))
        · rcases List.mem_cons.1 h with h | h
          · exact Or.inl (List.mem_append_right _ (by rw [h, h2.2]; simp))
          · exact Or.inr h
      · rw [if_neg h2]
        apply ih
        rcases h with h | h
        · exact Or.inl (List.mem_append_left _ h)
        · rcases List.mem_cons.1 h with h | h
          · exact Or.inl (List.mem_append_right _ (by rw [h]; simp))
          · exact Or.inr h

/-- What `find_commas` leaves of a name with one or two commas in all and a
byte other than space and comma: it returns, and the name it leaves has no
space next to a comma at brace depth 0. -/
theorem find_commas_no_space (s : List Char) (hnul : NUL ∉ s) (h1 : 1 ≤ s.count ',')
    (h2 : s.count ',' ≤ 2) (hc : ∃ c ∈ s, c ≠ ' ' ∧ c ≠ ',') :
    ∃ cr, find_commas (s ++ [NUL]) 2 = .ok cr ∧ NoSpaceAtCommas (cstr_at cr.name 0) := by
  obtain ⟨c, hcs, hc1, hc2⟩ := hc
  have hmem : c ∈ drop_trailing ',' (squeeze 0 false [] [] s).1 :=
    drop_trailing_keeps ',' c _ hc2 (squeeze_keeps c hc1 s 0 false [] [] (Or.inr hcs))
  have hne : drop_trailing ',' (squeeze 0 false [] [] s).1 ≠ [] := by
    intro h
    rw [h] at hmem
    simp at hmem
  obtain ⟨rest, e⟩ := (find_commas_squeezed s hnul h1 h2).2 hne
  refine ⟨_, e, ?_⟩
  have hnul2 : NUL ∉ drop_trailing ',' (squeeze 0 false [] [] s).1 := by
    intro hm
    rcases squeeze_mem s 0 false [] [] NUL (drop_trailing_mem _ _ NUL hm) with h | h | h
    · simp at h
    · exact hnul h
    · exact absurd h (by decide)
  have hcstr := cstr_at_append [] (drop_trailing ',' (squeeze 0 false [] [] s).1) rest hnul2
  simp only [List.nil_append, List.length_nil] at hcstr
  simp only
  rw [hcstr]
  obtain ⟨m, hm, _⟩ := drop_trailing_spec ',' (squeeze 0 false [] [] s).1
  apply no_space_prefix _ (List.replicate m ',')
  rw [← hm]
  exact squeeze_no_space s 0 false [] [] rfl
    (fun p hp => by simp at hp) (fun hlen => by simp at hlen)

/-! ## A comma at the end of a name -/

theorem squeeze_append :
    ∀ (X : List Char) (d : Int) (skip : Bool) (out : List Char) (cs : List Nat) (Y : List Char),
      ∃ skip' : Bool, squeeze d skip out cs (X ++ Y)
        = squeeze (d + brace_depth X) skip' (squeeze d skip out cs X).1
            (squeeze d skip out cs X).2 Y := by
  intro X
  induction X with
  | nil =>
    intro d skip out cs Y
    exact ⟨skip, by simp [squeeze, brace_depth]⟩
  | cons c r ih =>
    intro d skip out cs Y
    rw [List.cons_append]
    simp only [squeeze]
    by_cases h1 : skip = true ∧ c = ' '
    · rw [if_pos h1, if_pos h1]
      obtain ⟨skip', e⟩ := ih d true out cs Y
      refine ⟨skip', ?_⟩
      rw [e, ← brace_depth_step c r d, h1.2]
      rfl
    · rw [if_neg h1, if_neg h1]
      by_cases h2 : d = 0 ∧ c = ','
      · rw [if_pos h2, if_pos h2]
        obtain ⟨skip', e⟩ := ih d true (drop_trailing ' ' out ++ [','])
          (cs ++ [(drop_trailing ' ' out).length]) Y
        refine ⟨skip', ?_⟩
        rw [e, ← brace_depth_step c r d, h2.2]
        rfl
      · rw [if_neg h2, if_neg h2]
        obtain ⟨skip', e⟩ := ih (update_depth c d) false (out ++ [c]) cs Y
        refine ⟨skip', ?_⟩
        rw [e, brace_depth_step c r d]

theorem spec_comma_token_of_no_comma :
    ∀ (X : List Char) (d : Int) (k : Nat), ',' ∉ X → spec_comma_token d k X = [] := by
  intro X
  induction X with
  | nil => intro d k _; rfl
  | cons c r ih =>
    intro d k h
    have hc : c ≠ ',' := fun e => h (by simp [e])
    have hr : ',' ∉ r := fun e => h (by simp [e])
    simp only [spec_comma_token]
    split_ifs
    · simp [hc, ih d (k + 1) hr]
    · exact ih _ _ hr

/-- A text without a comma at brace depth 0 goes through the second loop of
`find_commas` unchanged. -/
theorem squeeze_clean :
    ∀ (X : List Char) (d : Int) (k : Nat) (skip : Bool) (out : List Char) (cs : List Nat)
      (Y : List Char), spec_comma_token d k X = [] → (skip = true → charAt X 0 ≠ ' ') →
      squeeze d skip out cs (X ++ Y)
        = squeeze (d + brace_depth X) (if X = [] then skip else false) (out ++ X) cs Y := by
  intro X
  induction X with
  | nil =>
    intro d k skip out cs Y _ _
    simp [brace_depth]
  | cons c r ih =>
    intro d k skip out cs Y hnc hsk
    have h1 : ¬ (skip = true ∧ c = ' ') := fun h => hsk h.1 (by simpa [charAt] using h.2)
    simp only [spec_comma_token] at hnc
    have h2 : ¬ (d = 0 ∧ c = ',') := by
      rintro ⟨hd, hc⟩
      rw [if_pos ⟨hd, by rw [hc]; rfl⟩, if_pos hc] at hnc
      simp at hnc
    have hr : spec_comma_token (update_depth c d) (if d = 0 ∧ is_delim c = true then k + 1 else k) r
        = [] := by
      by_cases hdl : d = 0 ∧ is_delim c = true
      · rw [if_pos hdl] at hnc ⊢
        rw [update_depth_delim hdl.2]
        exact (List.append_eq_nil.1 hnc).2
      · rw [if_neg hdl] at hnc ⊢
        exact hnc
    rw [List.cons_append]
    simp only [squeeze]
    rw [if_neg h1, if_neg h2, ih (update_depth c d) _ false (out ++ [c]) cs Y hr (by simp),
      brace_depth_step c r d]
    simp

theorem drop_trailing_id (c0 : Char) (X : List Char)
    (h : X = [] ∨ charAt X (X.length - 1) ≠ c0) : drop_trailing c0 X = X := by
  obtain ⟨m, hm, _⟩ := drop_trailing_spec c0 X
  rcases h with h | h
  · rw [h]; rfl
  · generalize hD : drop_trailing c0 X = D at hm
    have hm0 : m = 0 := by
      by_contra hne
      apply h
      rw [hm]
      have e : (D ++ List.replicate m c0).length - 1 = D.length + (m - 1) := by
        simp only [List.length_append, List.length_replicate]; omega
      rw [e, charAt_append_right]
      exact List.eq_of_mem_replicate (charAt_mem (by simp; omega))
    rw [hm0] at hm
    simpa using hm.symm

theorem last_of_collapsed {X : List Char} (hcol : Collapsed X) :
    X = [] ∨ charAt X (X.length - 1) ≠ ' ' := by
  by_cases h : X = []
  · exact Or.inl h
  · right
    have := hcol.2.1
    rw [getLast?_eq_charAt h] at this
    intro e
    exact this (by rw [e])

/-- The text the second loop of `find_commas` makes of a text that does not
end with a space does not end with a space. -/
theorem squeeze_last_ne_space (X : List Char) (hne : X ≠ [])
    (hlast : charAt X (X.length - 1) ≠ ' ') (d : Int) (skip : Bool) (out : List Char)
    (cs : List Nat) :
    (squeeze d skip out cs X).1 ≠ [] ∧
      charAt (squeeze d skip out cs X).1 ((squeeze d skip out cs X).1.length - 1) ≠ ' ' := by
  obtain ⟨X0, c, rfl⟩ : ∃ X0 c, X = X0 ++ [c] :=
    ⟨X.dropLast, X.getLast hne, (List.dropLast_append_getLast hne).symm⟩
  have hc : c ≠ ' ' := by
    simpa [charAt_snoc] using hlast
  obtain ⟨skip', e⟩ := squeeze_append X0 d skip out cs [c]
  rw [e]
  simp only [squeeze]
  rw [if_neg (fun h => hc h.2)]
  split_ifs with h2
  · simp only [squeeze]
    constructor
    · simp
    · rw [show (drop_trailing ' ' (squeeze d skip out cs X0).1 ++ [',']).length - 1
          = (drop_trailing ' ' (squeeze d skip out cs X0).1).length by simp, charAt_snoc]
      decide
  · simp only [squeeze]
    constructor
    · simp
    · rw [show ((squeeze d skip out cs X0).1 ++ [c]).length - 1
          = (squeeze d skip out cs X0).1.length by simp, charAt_snoc]
      exact hc

/-- What the second loop of `find_commas` makes of a text followed by a comma
at brace depth 0: the comma is written after what it makes of the text. -/
theorem squeeze_snoc_comma (X : List Char) (hd : brace_depth X = 0)
    (hlast : X = [] ∨ charAt X (X.length - 1) ≠ ' ') :
    squeeze 0 false [] [] (X ++ [','])
      = ((squeeze 0 false [] [] X).1 ++ [','],
          (squeeze 0 false [] [] X).2 ++ [(squeeze 0 false [] [] X).1.length]) := by
  obtain ⟨skip', e⟩ := squeeze_append X 0 false [] [] [',']
  rw [e, hd]
  have hdt : drop_trailing ' ' (squeeze 0 false [] [] X).1 = (squeeze 0 false [] [] X).1 := by
    apply drop_trailing_id
    rcases hlast with h | h
    · left
      rw [h]
      rfl
    · by_cases hX : X = []
      · left
        rw [hX]
        rfl
      · exact Or.inr (squeeze_last_ne_space X hX h 0 false [] []).2
  simp only [squeeze, zero_add]
  rw [if_neg (fun h => absurd h.2 (by decide)), if_pos ⟨trivial, trivial⟩, hdt]

/-- The warnings of `find_commas` are put before those of the rest of
`bt_split_name` and have no other part in it. -/
theorem split_after_commas_diags (name : List Char) (n : Int) (diags : List Diag) :
    result_parts (split_after_commas name n diags)
      = (result_parts (split_after_commas name n [])).map (fun r => (r.1, diags ++ r.2)) := by
  unfold split_after_commas
  cases find_tokens name n with
  | error e => rfl
  | ok tc =>
    obtain ⟨toks, ct⟩ := tc
    simp only
    cases find_lc_tokens toks with
    | error e => rfl
    | ok fl =>
      obtain ⟨f, l⟩ := fl
      simp only
      by_cases hz : strlen toks.string = 0
      · rw [if_pos hz, if_pos hz]
        simp [result_parts]
      · rw [if_neg hz, if_neg hz]
        cases toks.num_items with
        | none => rfl
        | some k =>
          simp only
          by_cases hn : n = 0
          · rw [if_pos hn, if_pos hn]
            simp [result_parts]
          · rw [if_neg hn, if_neg hn]
            cases split_general_name toks k n ct f l with
            | error e => rfl
            | ok r => simp [result_parts]

theorem NUL_not_mem_core (s : List Char) (hnul : NUL ∉ s) :
    NUL ∉ drop_trailing ',' (squeeze 0 false [] [] s).1 := by
  intro hm
  rcases squeeze_mem s 0 false [] [] NUL (drop_trailing_mem _ _ NUL hm) with h | h | h
  · simp at h
  · exact hnul h
  · exact absurd h (by decide)

/-- The result of `bt_split_name` on a name with one or two commas in all, by
what the second loop of `find_commas` makes of the name. -/
theorem split_name_parts_squeezed (s : List Char) (hnul : NUL ∉ s) (h1 : 1 ≤ s.count ',')
    (h2 : s.count ',' ≤ 2) :
    split_name_parts s
      = if drop_trailing ',' (squeeze 0 false [] [] s).1 = [] then none
        else (result_parts (split_after_commas
            (drop_trailing ',' (squeeze 0 false [] [] s).1 ++ [NUL])
            (((squeeze 0 false [] [] s).2.length : Int)
              - (((squeeze 0 false [] [] s).1.length
                  - (drop_trailing ',' (squeeze 0 false [] [] s).1).length : Nat) : Int))
            [])).map
          (fun r => (r.1,
            (if (drop_trailing ',' (squeeze 0 false [] [] s).1).length
                = (squeeze 0 false [] [] s).1.length then []
              else [Diag.comma_at_end]) ++ r.2)) := by
  rw [split_name_parts_eq, bt_split_name_after]
  have f := find_commas_squeezed s hnul h1 h2
  have c := squeeze_commas_le s 0 false [] []
  have hl : strlen (s ++ [NUL]) = s.length := strlen_append_NUL s [] hnul
  simp only [List.length_nil, Nat.zero_add] at c
  by_cases hcore : drop_trailing ',' (squeeze 0 false [] [] s).1 = []
  · rw [f.1 hcore, if_pos hcore]
    rfl
  · obtain ⟨rest, e⟩ := f.2 hcore
    rw [e, if_neg hcore]
    simp only
    rw [hl]
    have a : ¬ (((squeeze 0 false [] [] s).2.length : Int)
        - (((squeeze 0 false [] [] s).1.length
            - (drop_trailing ',' (squeeze 0 false [] [] s).1).length : Nat) : Int)
          > (s.length : Int)) := by omega
    rw [if_neg a, split_after_commas_diags,
      split_after_commas_rest _ rest [] _ _ (NUL_not_mem_core s hnul)]

/-- The result of `bt_split_name` on a name without a comma. -/
theorem split_name_parts_no_comma (X : List Char) (hnul : NUL ∉ X) (hc : ',' ∉ X) :
    split_name_parts X = result_parts (split_after_commas (X ++ [NUL]) 0 []) := by
  rw [split_name_parts_eq, bt_split_name_after, find_commas_of_no_comma X hnul hc]
  simp only
  rw [if_neg (by
    have : (0 : Int) ≤ ((strlen (X ++ [NUL]) : Nat) : Int) := Int.natCast_nonneg _
    omega)]

theorem squeeze_of_no_comma (X : List Char) (hc : ',' ∉ X) :
    squeeze 0 false [] [] X = (X, []) := by
  have h := squeeze_clean X 0 0 false [] [] [] (spec_comma_token_of_no_comma X 0 0 hc)
    (fun h => absurd h (by simp))
  simp only [List.append_nil, List.nil_append] at h
  rw [h]
  rfl

/-- A comma at the end of a name, at brace depth 0, is stripped: for a
whitespace-collapsed name with at most one comma, `bt_split_name` gives the
same components with and without a further comma at its end, and with it the
warning `comma(s) at end of name`. -/
theorem split_name_trailing_comma (X : List Char) (hnul : NUL ∉ X) (hcol : Collapsed X)
    (hcount : X.count ',' ≤ 1) (hd : brace_depth X = 0) :
    (split_name_parts (X ++ [','])).map Prod.fst = (split_name_parts X).map Prod.fst ∧
      ∀ r, split_name_parts (X ++ [',']) = some r → Diag.comma_at_end ∈ r.2 := by
  have hs : NUL ∉ X ++ [','] := by
    simp only [List.mem_append, List.mem_singleton, not_or]
    exact ⟨hnul, by decide⟩
  have hcs : (X ++ [',']).count ',' = X.count ',' + 1 := by
    rw [List.count_append]
    rfl
  have S := split_name_parts_squeezed (X ++ [',']) hs (by omega) (by omega)
  rw [squeeze_snoc_comma X hd (last_of_collapsed hcol)] at S
  simp only [drop_trailing_snoc, List.length_append, List.length_singleton] at S
  obtain ⟨m, hm, _⟩ := drop_trailing_spec ',' (squeeze 0 false [] [] X).1
  have hle : (drop_trailing ',' (squeeze 0 false [] [] X).1).length
      ≤ (squeeze 0 false [] [] X).1.length := by
    have := congrArg List.length hm
    simp only [List.length_append, List.length_replicate] at this
    omega
  rw [if_neg (show ¬ ((drop_trailing ',' (squeeze 0 false [] [] X).1).length
      = (squeeze 0 false [] [] X).1.length + 1) by omega)] at S
  have hn : (((squeeze 0 false [] [] X).2.length + 1 : Nat) : Int)
        - (((squeeze 0 false [] [] X).1.length + 1
            - (drop_trailing ',' (squeeze 0 false [] [] X).1).length : Nat) : Int)
      = ((squeeze 0 false [] [] X).2.length : Int)
        - (((squeeze 0 false [] [] X).1.length
            - (drop_trailing ',' (squeeze 0 false [] [] X).1).length : Nat) : Int) := by
    omega
  rw [hn] at S
  by_cases h1 : 1 ≤ X.count ','
  · have SX := split_name_parts_squeezed X hnul h1 (by omega)
    rw [S, SX]
    by_cases hcore : drop_trailing ',' (squeeze 0 false [] [] X).1 = []
    · rw [if_pos hcore, if_pos hcore]
      exact ⟨rfl, fun r h => absurd h (by simp)⟩
    · rw [if_neg hcore, if_neg hcore]
      constructor
      · rw [Option.map_map, Option.map_map]
        rfl
      · intro r hr
        rw [Option.map_eq_some'] at hr
        obtain ⟨a, _, rfl⟩ := hr
        simp
  · have hc : ',' ∉ X := by
      intro hmem
      exact h1 (List.count_pos_iff.2 hmem)
    by_cases hX : X = []
    · subst hX
      exact ⟨by decide, by decide⟩
    · rw [squeeze_of_no_comma X hc] at S
      rw [drop_trailing_id ',' X (Or.inr (charAt_getLast_ne hX hc))] at S
      simp only [List.length_nil, Nat.sub_self, Nat.cast_zero, sub_zero] at S
      rw [if_neg hX] at S
      rw [S, split_name_parts_no_comma X hnul hc]
      constructor
      · rw [Option.map_map]
        cases result_parts (split_after_commas (X ++ [NUL]) 0 []) <;> rfl
      · intro r hr
        rw [Option.map_eq_some'] at hr
        obtain ⟨a, _, rfl⟩ := hr
        simp

/-! ## Names with one comma at depth 0 and a comma inside braces -/

theorem spec_comma_token_length :
    ∀ (X : List Char) (d : Int) (k k' : Nat),
      (spec_comma_token d k X).length = (spec_comma_token d k' X).length := by
  intro X
  induction X with
  | nil => intro d k k'; rfl
  | cons c r ih =>
    intro d k k'
    simp only [spec_comma_token]
    split_ifs
    · simp [ih d (k + 1) (k' + 1)]
    · simp [ih d (k + 1) (k' + 1)]
    · exact ih _ k k'

theorem spec_comma_token_nil_of {X : List Char} {d : Int} {k : Nat}
    (h : spec_comma_token d k X = []) (k' : Nat) : spec_comma_token d k' X = [] := by
  apply List.length_eq_zero.1
  rw [spec_comma_token_length X d k' k, h]
  rfl

/-- In a whitespace-collapsed text every space is followed by a byte of the
text that is not a space. -/
theorem space_followed {X : List Char} (hcol : Collapsed X) :
    ∀ i, i < X.length → charAt X i = ' ' → i + 1 < X.length ∧ charAt X (i + 1) ≠ ' ' := by
  intro i hi hc
  refine ⟨?_, hcol.2.2 i hi hc⟩
  by_contra hlt
  have hi1 : i = X.length - 1 := by omega
  rcases last_of_collapsed hcol with h | h
  · rw [h] at hi
    simp at hi
  · rw [← hi1] at h
    exact h hc

/-- The tokens of a text without a comma at brace depth 0 in which every space
is followed by a byte that is not a space: no token is absent, and the text
ends inside a token. -/
theorem spec_tokens_clean :
    ∀ (X : List Char) (d : Int) (cur : List Char) (k : Nat),
      spec_comma_token d k X = [] →
      (∀ i, i < X.length → charAt X i = ' ' → i + 1 < X.length ∧ charAt X (i + 1) ≠ ' ') →
      (cur = [] → X ≠ [] ∧ charAt X 0 ≠ ' ') →
      ∃ (D : List (List Char)) (C : List Char), C ≠ [] ∧
        (∀ Y, spec_tokens d cur (X ++ Y)
            = D.map some ++ spec_tokens (d + brace_depth X) C Y) ∧
        (∀ Y, spec_comma_token d k (X ++ Y)
            = spec_comma_token (d + brace_depth X) (k + D.length) Y) := by
  intro X
  induction X with
  | nil =>
    intro d cur k _ _ h0
    have hcur : cur ≠ [] := fun h => (h0 h).1 rfl
    exact ⟨[], cur, hcur, fun Y => by simp [brace_depth], fun Y => by simp [brace_depth]⟩
  | cons c r ih =>
    intro d cur k hnc h1 h0
    have h1r : ∀ i, i < r.length → charAt r i = ' ' →
        i + 1 < r.length ∧ charAt r (i + 1) ≠ ' ' := by
      intro i hi hc
      have := h1 (i + 1) (by simp only [List.length_cons]; omega)
        (by rw [charAt_cons_succ]; exact hc)
      rw [charAt_cons_succ] at this
      simp only [List.length_cons] at this
      exact ⟨by omega, this.2⟩
    by_cases hdl : d = 0 ∧ is_delim c = true
    · have hcc : c ≠ ',' := by
        intro hc
        simp only [spec_comma_token] at hnc
        rw [if_pos hdl, if_pos hc] at hnc
        simp at hnc
      have hsp : c = ' ' := by
        have := hdl.2
        unfold is_delim at this
        simp only [Bool.or_eq_true, beq_iff_eq] at this
        rcases this with h | h
        · exact h
        · exact absurd h hcc
      have hcur : cur ≠ [] := by
        intro h
        exact (h0 h).2 (by simp [charAt, hsp])
      have hnr : spec_comma_token d (k + 1) r = [] := by
        simp only [spec_comma_token] at hnc
        rw [if_pos hdl] at hnc
        exact (List.append_eq_nil.1 hnc).2
      have h10 := h1 0 (by simp) (by simp [charAt, hsp])
      obtain ⟨D, C, hC, hT, hK⟩ := ih d [] (k + 1) hnr h1r (fun _ => by
        simp only [List.length_cons] at h10
        rw [show (0 : Nat) + 1 = 0 + 1 from rfl, charAt_cons_succ] at h10
        refine ⟨?_, h10.2⟩
        intro hr
        rw [hr] at h10
        simp at h10)
      have hdep : d + brace_depth (c :: r) = d + brace_depth r := by
        rw [← brace_depth_step c r d, update_depth_delim hdl.2]
      refine ⟨cur :: D, C, hC, ?_, ?_⟩
      · intro Y
        have hd0 : d = 0 := hdl.1
        subst hd0
        rw [List.cons_append, spec_tokens_delim cur c (r ++ Y) hdl.2, if_neg hcur, hT Y, hdep]
        rfl
      · intro Y
        rw [List.cons_append]
        simp only [spec_comma_token]
        rw [if_pos hdl, if_neg hcc, List.nil_append, hK Y, hdep, List.length_cons]
        congr 1
        omega
    · have hnr : spec_comma_token (update_depth c d) k r = [] := by
        simp only [spec_comma_token] at hnc
        rw [if_neg hdl] at hnc
        exact hnc
      obtain ⟨D, C, hC, hT, hK⟩ := ih (update_depth c d) (cur ++ [c]) k hnr h1r
        (fun h => absurd h (by simp))
      refine ⟨D, C, hC, ?_, ?_⟩
      · intro Y
        rw [List.cons_append, spec_tokens_inside d cur c (r ++ Y) hdl, hT Y,
          brace_depth_step c r d]
      · intro Y
        rw [List.cons_append]
        simp only [spec_comma_token]
        rw [if_neg hdl, hK Y, brace_depth_step c r d]

/-- What the second loop of `find_commas` makes of a name with one comma at
brace depth 0: the spaces around the comma are left out. -/
theorem squeeze_one_braced (pre sp1 sp2 post : List Char)
    (hcol1 : Collapsed pre) (hcol2 : Collapsed post)
    (hsp1 : sp1 = [] ∨ sp1 = [' ']) (hsp2 : sp2 = [] ∨ sp2 = [' '])
    (hd : brace_depth pre = 0)
    (hnc1 : spec_comma_token 0 0 pre = []) (hnc2 : spec_comma_token 0 0 post = []) :
    squeeze 0 false [] [] (pre ++ sp1 ++ ',' :: sp2 ++ post)
      = (pre ++ ',' :: post, [pre.length]) := by
  have hcore : squeeze 0 false [] [] (pre ++ ',' :: post) = (pre ++ ',' :: post, [pre.length]) := by
    rw [squeeze_clean pre 0 0 false [] [] _ hnc1 (fun h => absurd h (by simp)), hd]
    simp only [ite_self, List.nil_append, zero_add]
    rw [squeeze, if_neg (fun h => absurd h.1 (by simp)), if_pos ⟨rfl, rfl⟩,
      drop_trailing_id ' ' pre (last_of_collapsed hcol1)]
    have h := squeeze_clean post 0 0 true (pre ++ [',']) ([] ++ [pre.length]) [] hnc2
      (fun _ => hcol2.1)
    rw [List.append_nil] at h
    rw [h]
    simp [squeeze]
  have hA : (0 : Int) + brace_depth pre = 0 := by rw [hd]; rfl
  rcases hsp1 with h1 | h1 <;> rcases hsp2 with h2 | h2 <;> subst h1 <;> subst h2
  · simpa using hcore
  · have e : pre ++ [] ++ ',' :: [' '] ++ post = pre ++ ',' :: ' ' :: post := by simp
    rw [e, squeeze_space_after post pre 0 false [] [] hA, hcore]
  · have e : pre ++ [' '] ++ ',' :: [] ++ post = pre ++ ' ' :: ',' :: post := by simp
    rw [e, squeeze_space_before post pre 0 false [] [] hA, hcore]
  · have e : pre ++ [' '] ++ ',' :: [' '] ++ post = pre ++ ' ' :: ',' :: ' ' :: post := by simp
    have hA' : (0 : Int) + brace_depth (pre ++ [' ']) = 0 := by
      rw [brace_depth_append, hd]
      rfl
    have e2 : pre ++ ' ' :: ',' :: ' ' :: post = (pre ++ [' ']) ++ ',' :: ' ' :: post := by simp
    have e3 : (pre ++ [' ']) ++ ',' :: post = pre ++ ' ' :: ',' :: post := by simp
    rw [e, e2, squeeze_space_after post (pre ++ [' ']) 0 false [] [] hA', e3,
      squeeze_space_before post pre 0 false [] [] hA, hcore]

theorem find_commas_one_braced (pre sp1 sp2 post : List Char)
    (hpost : post ≠ []) (hnul1 : NUL ∉ pre) (hnul2 : NUL ∉ post)
    (hcol1 : Collapsed pre) (hcol2 : Collapsed post)
    (hsp1 : sp1 = [] ∨ sp1 = [' ']) (hsp2 : sp2 = [] ∨ sp2 = [' '])
    (hd : brace_depth pre = 0)
    (hnc1 : spec_comma_token 0 0 pre = []) (hnc2 : spec_comma_token 0 0 post = [])
    (hcount : (pre ++ post).count ',' ≤ 1) (hlast : post.getLast? ≠ some ',') :
    ∃ rest, find_commas ((pre ++ sp1 ++ ',' :: sp2 ++ post) ++ [NUL]) 2
      = .ok { name := (pre ++ ',' :: post) ++ NUL :: rest, num_commas := 1,
              commas := [pre.length], diags := [] } := by
  have hs1 : ∀ c ∈ sp1, c = ' ' := by
    rcases hsp1 with h | h <;> simp [h]
  have hs2 : ∀ c ∈ sp2, c = ' ' := by
    rcases hsp2 with h | h <;> simp [h]
  have hnul : NUL ∉ pre ++ sp1 ++ ',' :: sp2 ++ post := by
    simp only [List.mem_append, List.mem_cons, not_or]
    exact ⟨⟨⟨hnul1, NUL_not_mem_spaces hs1⟩, by decide, NUL_not_mem_spaces hs2⟩, hnul2⟩
  have hcnt : (pre ++ sp1 ++ ',' :: sp2 ++ post).count ','
      = (pre ++ post).count ',' + 1 := by
    simp only [List.count_append, List.count_cons_self,
      List.count_eq_zero_of_not_mem (comma_not_mem_spaces hs1),
      List.count_eq_zero_of_not_mem (comma_not_mem_spaces hs2)]
    omega
  have hsq := squeeze_one_braced pre sp1 sp2 post hcol1 hcol2 hsp1 hsp2 hd hnc1 hnc2
  have hdt : drop_trailing ',' (pre ++ ',' :: post) = pre ++ ',' :: post := by
    apply drop_trailing_id
    right
    have hne : pre ++ ',' :: post ≠ [] := by simp
    have hl : (pre ++ ',' :: post).getLast? = post.getLast? := by
      have e' : pre ++ ',' :: post = (pre ++ [',']) ++ post := by simp
      rw [e', List.getLast?_append_of_ne_nil _ hpost]
    rw [getLast?_eq_charAt hne] at hl
    intro e
    rw [e] at hl
    exact hlast hl.symm
  obtain ⟨rest, e⟩ := (find_commas_squeezed _ hnul (by omega) (by omega)).2 (by
    rw [hsq, hdt]; simp)
  refine ⟨rest, ?_⟩
  rw [e, hsq]
  simp only [hdt, List.length_singleton, Nat.sub_self, Nat.cast_one, Nat.cast_zero, sub_zero,
    if_true]

/-- On a squeezed name with one comma at brace depth 0 `find_tokens` returns
at least one token on either side of the comma, none of them `NULL`, and
records the comma after the last token before it. -/
theorem find_tokens_one_braced (pre post rest : List Char) (hpre : pre ≠ []) (hpost : post ≠ [])
    (hnul1 : NUL ∉ pre) (hnul2 : NUL ∉ post)
    (hcol1 : Collapsed pre) (hcol2 : Collapsed post) (hd : brace_depth pre = 0)
    (hnc1 : spec_comma_token 0 0 pre = []) (hnc2 : spec_comma_token 0 0 post = []) :
    ∃ (toks : bt_stringlist) (c : Nat),
      find_tokens ((pre ++ ',' :: post) ++ NUL :: rest) 1 = .ok (toks, [(c : Int)]) ∧
      toks.num_items = some toks.items.length ∧ (∀ it ∈ toks.items, it ≠ none) ∧
      strlen toks.string ≠ 0 ∧ c + 1 < toks.items.length ∧
      toks.texts = spec_tokens 0 [] (pre ++ ',' :: post) := by
  have hnul : NUL ∉ pre ++ ',' :: post := by
    simp only [List.mem_append, List.mem_cons, not_or]
    exact ⟨hnul1, by decide, hnul2⟩
  have hne : pre ++ ',' :: post ≠ [] := by simp
  obtain ⟨Dp, Cp, hCp, hTp, hKp⟩ := spec_tokens_clean pre 0 [] 0 hnc1 (space_followed hcol1)
    (fun _ => ⟨hpre, hcol1.1⟩)
  obtain ⟨Dq, Cq, hCq, hTq, hKq⟩ := spec_tokens_clean post 0 [] (Dp.length + 1)
    (spec_comma_token_nil_of hnc2 _) (space_followed hcol2) (fun _ => ⟨hpost, hcol2.1⟩)
  have hct : spec_comma_token 0 0 (pre ++ ',' :: post) = [(Dp.length : Int)] := by
    rw [hKp (',' :: post), hd]
    simp only [zero_add, spec_comma_token]
    rw [if_pos ⟨trivial, rfl⟩, if_pos trivial]
    have := hKq []
    rw [List.append_nil] at this
    rw [this]
    simp [spec_comma_token]
  have htx : spec_tokens 0 [] (pre ++ ',' :: post)
      = (Dp ++ [Cp] ++ Dq ++ [Cq]).map some := by
    rw [hTp (',' :: post), hd]
    simp only [zero_add]
    rw [spec_tokens_delim Cp ',' post rfl, if_neg hCp]
    have := hTq []
    rw [List.append_nil] at this
    rw [this]
    simp [spec_tokens, hCq]
  have hfind := find_tokens_scan (pre ++ ',' :: post) rest 1 hne hnul (fun _ => by
    rw [hct]; simp)
  rw [hct] at hfind
  have htexts : bt_stringlist.texts
      ({ string := nul_out 0 (pre ++ ',' :: post) ++ NUL :: rest,
         num_items := some (scan_items 0 true 0 (pre ++ ',' :: post)).length,
         items := scan_items 0 true 0 (pre ++ ',' :: post) } : bt_stringlist)
      = spec_tokens 0 [] (pre ++ ',' :: post) := by
    have := (scan_items_texts rest (pre ++ ',' :: post) [] 0 hnul).2 rfl
    simp only [List.nil_append, List.length_nil] at this
    unfold bt_stringlist.texts
    exact this.symm
  obtain ⟨hsome, hlen⟩ := items_some_of_texts (htexts.trans htx)
  refine ⟨_, Dp.length, hfind, rfl, hsome, ?_, ?_, htexts⟩
  · apply strlen_ne_zero
    obtain ⟨c0, r0, hpre0⟩ := List.exists_cons_of_ne_nil hpre
    have hc0 : ¬ ((0 : Int) = 0 ∧ is_delim c0 = true) := by
      rintro ⟨_, hdl⟩
      unfold is_delim at hdl
      simp only [Bool.or_eq_true, beq_iff_eq] at hdl
      rcases hdl with h | h
      · apply hcol1.1
        rw [hpre0, h]
        rfl
      · rw [hpre0, h] at hnc1
        simp [spec_comma_token, is_delim] at hnc1
    simp only
    rw [hpre0, List.cons_append, nul_out_inside 0 c0 _ hc0]
    simp only [List.cons_append, charAt, List.getD_cons_zero]
    intro h
    apply hnul1
    rw [hpre0, h]
    simp
  · simp only
    rw [← hlen]
    simp only [List.length_append, List.length_singleton]
    omega

/-- For a whitespace-collapsed name with one comma at brace depth 0, text on
either side of it and at most one more comma, inside braces, `bt_split_name`
returns what `split_general_name` makes of the name's tokens, of the token
before the comma and of the first run of lowercase tokens. -/
theorem bt_split_name_one_braced (pre sp1 sp2 post : List Char)
    (hpre : pre ≠ []) (hpost : post ≠ [])
    (hnul1 : NUL ∉ pre) (hnul2 : NUL ∉ post)
    (hcol1 : Collapsed pre) (hcol2 : Collapsed post)
    (hsp1 : sp1 = [] ∨ sp1 = [' ']) (hsp2 : sp2 = [] ∨ sp2 = [' '])
    (hd : brace_depth pre = 0)
    (hnc1 : spec_comma_token 0 0 pre = []) (hnc2 : spec_comma_token 0 0 post = [])
    (hcount : (pre ++ post).count ',' ≤ 1) (hlast : post.getLast? ≠ some ',') :
    ∃ (toks : bt_stringlist) (T : List (List Char)) (c : Nat) (f l : Int) (rest : List Char),
      toks.texts = T.map some ∧ c + 1 < T.length ∧
        T.map some = spec_tokens 0 [] (pre ++ ',' :: post) ∧
        FirstLcRun (token_is_lc toks) T.length f l ∧
        find_commas ((pre ++ sp1 ++ ',' :: sp2 ++ post) ++ [NUL]) 2
          = .ok { name := (pre ++ ',' :: post) ++ NUL :: rest, num_commas := 1,
                  commas := [pre.length], diags := [] } ∧
        find_tokens ((pre ++ ',' :: post) ++ NUL :: rest) 1 = .ok (toks, [(c : Int)]) ∧
        bt_split_name (some (pre ++ sp1 ++ ',' :: sp2 ++ post))
          = split_general_name toks (T.length : Int) 1 [(c : Int)] f l := by
  obtain ⟨rest, hfc⟩ := find_commas_one_braced pre sp1 sp2 post hpost hnul1 hnul2 hcol1 hcol2
    hsp1 hsp2 hd hnc1 hnc2 hcount hlast
  obtain ⟨toks, c, hft, hnum, hsome, hstr, hcn, htx⟩ := find_tokens_one_braced pre post rest
    hpre hpost hnul1 hnul2 hcol1 hcol2 hd hnc1 hnc2
  obtain ⟨T, hT, hlen⟩ := texts_of_some toks hsome
  obtain ⟨f, l, hlc, hrun⟩ := find_lc_tokens_spec hnum hsome
  refine ⟨toks, T, c, f, l, rest, hT, by omega, by rw [← hT, htx], by rw [hlen]; exact hrun,
    hfc, hft, ?_⟩
  have hs1 : ∀ c ∈ sp1, c = ' ' := by
    rcases hsp1 with h | h <;> simp [h]
  have hs2 : ∀ c ∈ sp2, c = ' ' := by
    rcases hsp2 with h | h <;> simp [h]
  have hnul : NUL ∉ pre ++ sp1 ++ ',' :: sp2 ++ post := by
    simp only [List.mem_append, List.mem_cons, not_or]
    exact ⟨⟨⟨hnul1, NUL_not_mem_spaces hs1⟩, by decide, NUL_not_mem_spaces hs2⟩, hnul2⟩
  unfold bt_split_name
  simp only [hfc, hft, hlc, hnum, hlen, strlen_append_NUL _ [] hnul]
  rw [if_neg (by
    simp only [List.length_append, List.length_cons, Nat.cast_add, Nat.cast_one]
    omega), if_neg hstr, if_neg (by decide)]
  cases split_general_name toks (toks.items.length : Int) 1 [(c : Int)] f l with
  | error e => rfl
  | ok r => simp

/-- Names with one comma at depth 0 that the general form leaves out.  In
`Smith, \x7ba,b,c\x7d John` the first loop of `find_commas` counts the commas
inside the braces and replaces the third comma by a space, so the token
`\x7ba,b,c\x7d` comes back as `\x7ba,b c\x7d`, with the warning
`too many commas`.  In `a, \x7bb,` the trailing-comma loop strips the comma
inside the open brace and `find_commas` returns 0 for a name that still has
its comma at depth 0; `find_tokens` then writes to the `comma_token` array
that was not allocated. -/
theorem one_comma_left_out :
    split_name_parts "Smith, \x7ba,b,c\x7d John".toList
      = some ({ first := [some "\x7ba,b c\x7d".toList, some "John".toList], von := [],
                last := [some "Smith".toList], jr := [] },
              [Diag.too_many_commas]) ∧
    find_commas ("a, \x7bb,".toList ++ [NUL]) 2
      = .ok { name := "a,\x7bb".toList ++ [NUL, NUL, NUL], num_commas := 0, commas := [1],
              diags := [Diag.comma_at_end] } ∧
    split_name_parts "a, \x7bb,".toList = none := by
  decide

/-- C11 (amended): general form with one comma.  For every whitespace-collapsed
name (a C string, so free of NUL) with one comma at brace depth 0, non-empty
text on either side of it, at most one space before and after it, at most one
more comma (inside braces) and no comma as its last byte, with the tokens
t0..tn of the name and the comma after token tc: c < n; first = t(c+1)..tn
and jr is empty; if t0 is lowercase-initial and the initial lowercase run
t0..tb ends before tc (b < c) then von = t0..tb and last = t(b+1)..tc; if t0
is not lowercase-initial then von is empty and last = t0..tc.  A comma after
the last token is stripped: a whitespace-collapsed name without a comma at
depth 0, with at most one comma inside braces and brace depth 0 at its end,
gives the same components with and without a comma at its end, and with it
the warning about a comma at the end.  `von Beethoven, Ludwig` gives
von = [von], last = [Beethoven], first = [Ludwig]; in
`\x7ba,b\x7d Smith, John` the comma inside the braces is no comma of the
name. -/
theorem split_name_one_comma (pre sp1 sp2 post : List Char)
    (hpre : pre ≠ []) (hpost : post ≠ [])
    (hnul1 : NUL ∉ pre) (hnul2 : NUL ∉ post)
    (hcol1 : Collapsed pre) (hcol2 : Collapsed post)
    (hsp1 : sp1 = [] ∨ sp1 = [' ']) (hsp2 : sp2 = [] ∨ sp2 = [' '])
    (hd : brace_depth pre = 0)
    (hnc1 : spec_comma_token 0 0 pre = []) (hnc2 : spec_comma_token 0 0 post = [])
    (hcount : (pre ++ post).count ',' ≤ 1) (hlast : post.getLast? ≠ some ',') :
    (∃ (nm : bt_name) (diags : List Diag) (toks : bt_stringlist) (T : List (List Char))
        (c : Nat) (rest : List Char),
      bt_split_name (some (pre ++ sp1 ++ ',' :: sp2 ++ post)) = .ok (nm, diags) ∧
        nm.tokens = some toks ∧ toks.texts = T.map some ∧
        T.map some = spec_tokens 0 [] (pre ++ ',' :: post) ∧
        find_tokens ((pre ++ ',' :: post) ++ NUL :: rest) 1 = .ok (toks, [(c : Int)]) ∧
        c + 1 < T.length ∧
        nm.parts.first = (T.drop (c + 1)).map some ∧ nm.parts.jr = [] ∧
        (∀ b, b < c → LcRunFromStart T b →
          nm.parts.von = (T.take (b + 1)).map some ∧
            nm.parts.last = ((T.drop (b + 1)).take (c - b)).map some) ∧
        ((∀ t, T[0]? = some t → lc_initial t = false) →
          nm.parts.von = [] ∧ nm.parts.last = (T.take (c + 1)).map some)) ∧
      (∀ X : List Char, NUL ∉ X → Collapsed X → X.count ',' ≤ 1 → brace_depth X = 0 →
        spec_comma_token 0 0 X = [] →
        (split_name_parts (X ++ [','])).map Prod.fst = (split_name_parts X).map Prod.fst ∧
          ∀ r, split_name_parts (X ++ [',']) = some r → Diag.comma_at_end ∈ r.2) ∧
      split_name_parts "von Beethoven, Ludwig".toList
        = some ({ first := [some "Ludwig".toList]
                  von := [some "von".toList]
                  last := [some "Beethoven".toList]
                  jr := [] }, []) ∧
      split_name_parts "\x7ba,b\x7d Smith, John".toList
        = some ({ first := [some "John".toList]
                  von := []
                  last := [some "\x7ba,b\x7d".toList, some "Smith".toList]
                  jr := [] }, []) := by
  refine ⟨?_, fun X h1 h2 h3 h4 _ => split_name_trailing_comma X h1 h2 h3 h4,
    by decide, by decide⟩
  obtain ⟨toks, T, c, f, l, rest, hT, hcn, htx, hrun, _, hft, hres⟩ :=
    bt_split_name_one_braced pre sp1 sp2 post hpre hpost hnul1 hnul2 hcol1 hcol2 hsp1 hsp2 hd
      hnc1 hnc2 hcount hlast
  rw [split_general_name_one] at hres
  refine ⟨_, _, toks, T, c, rest, hres, rfl, hT, htx, hft, hcn, ?_, ?_, ?_, ?_⟩
  · simp only [bt_name.parts]
    rw [component_texts_slice rfl hT _ _ (c + 1) T.length (by omega) (by omega) (Nat.le_refl _),
      List.take_of_length_le (by simp)]
  · simp [bt_name.parts, component_texts]
  · intro b hb hrunb
    obtain ⟨hf, hl⟩ := first_lc_run_from_start hT hrun hrunb
    subst hf hl
    have hne : ¬ ((b : Int) = (c : Int)) := by omega
    simp only [bt_name.parts, if_true, if_neg hne]
    rw [component_texts_slice rfl hT _ _ 0 (b + 1) (by omega) (by omega) (by omega),
      component_texts_slice rfl hT _ _ (b + 1) (c + 1) (by omega) (by omega) (by omega)]
    simp only [List.drop_zero, Nat.sub_zero, true_and]
    congr 2
    omega
  · intro h0
    have hf := first_lc_ne_zero hT hrun (by omega) h0
    simp only [bt_name.parts, if_neg hf]
    rw [component_texts_slice rfl hT _ _ 0 0 (by omega) (by omega) (by omega),
      component_texts_slice rfl hT _ _ 0 (c + 1) (by omega) (by omega) (by omega)]
    simp

/-- C11 (amended) at a concrete input: the name `\x7ba,b\x7d Smith, John`. -/
theorem split_name_one_comma_witness :
    ("\x7ba,b\x7d Smith".toList ≠ [] ∧ "John".toList ≠ [] ∧
      NUL ∉ "\x7ba,b\x7d Smith".toList ∧ NUL ∉ "John".toList ∧
      Collapsed "\x7ba,b\x7d Smith".toList ∧ Collapsed "John".toList ∧
      brace_depth "\x7ba,b\x7d Smith".toList = 0 ∧
      spec_comma_token 0 0 "\x7ba,b\x7d Smith".toList = [] ∧
      spec_comma_token 0 0 "John".toList = [] ∧
      ("\x7ba,b\x7d Smith".toList ++ "John".toList).count ',' ≤ 1 ∧
      "John".toList.getLast? ≠ some ',') ∧
    ∃ (nm : bt_name) (diags : List Diag) (toks : bt_stringlist) (T : List (List Char))
        (c : Nat) (rest : List Char),
      bt_split_name (some ("\x7ba,b\x7d Smith".toList ++ [] ++ ',' :: [' '] ++ "John".toList))
          = .ok (nm, diags) ∧
        nm.tokens = some toks ∧ toks.texts = T.map some ∧
        T.map some = spec_tokens 0 [] ("\x7ba,b\x7d Smith".toList ++ ',' :: "John".toList) ∧
        find_tokens (("\x7ba,b\x7d Smith".toList ++ ',' :: "John".toList) ++ NUL :: rest) 1
          = .ok (toks, [(c : Int)]) ∧
        c + 1 < T.length ∧
        nm.parts.first = (T.drop (c + 1)).map some ∧ nm.parts.jr = [] ∧
        (∀ b, b < c → LcRunFromStart T b →
          nm.parts.von = (T.take (b + 1)).map some ∧
            nm.parts.last = ((T.drop (b + 1)).take (c - b)).map some) ∧
        ((∀ t, T[0]? = some t → lc_initial t = false) →
          nm.parts.von = [] ∧ nm.parts.last = (T.take (c + 1)).map some) :=
  ⟨⟨by decide, by decide, by decide, by decide, by decide, by decide, by decide, by decide,
      by decide, by decide, by decide⟩,
    (split_name_one_comma "\x7ba,b\x7d Smith".toList [] [' '] "John".toList
      (by decide) (by decide) (by decide) (by decide) (by decide) (by decide)
      (Or.inl rfl) (Or.inr rfl) (by decide) (by decide) (by decide) (by decide) (by decide)).1⟩

/-- C12 (amended): general form with two commas.  For every name with
exactly two commas, both at depth 0, with whitespace-collapsed, non-empty
text before, between and after them and at most one space before and after
each (a C string, so free of NUL), with tokens t0..tn and the commas recorded
after tokens tc1 and tc2: c1 < c2 < n; jr = t(c1+1)..t(c2) and
first = t(c2+1)..tn; von and last are determined from t0..tc1 as in the
one-comma form: if t0 is lowercase-initial and the initial lowercase run
t0..tb ends before tc1 (b < c1) then von = t0..tb and last = t(b+1)..tc1; if
t0 is not lowercase-initial then von is empty and last = t0..tc1.  A second
comma after the last token is stripped: a whitespace-collapsed name with one
comma and brace depth 0 at its end gives the same components with and
without a further comma at its end, and with it the warning about a comma at
the end.  `King, Jr., Martin Luther`
gives last = [King], jr = [Jr.], first = [Martin, Luther]. -/
theorem split_name_two_commas (pre sp1 sp2 mid sp3 sp4 post : List Char)
    (hpre : pre ≠ []) (hmid : mid ≠ []) (hpost : post ≠ [])
    (hnul1 : NUL ∉ pre) (hnul2 : NUL ∉ mid) (hnul3 : NUL ∉ post)
    (hc1 : ',' ∉ pre) (hc2 : ',' ∉ mid) (hc3 : ',' ∉ post)
    (hcol1 : Collapsed pre) (hcol2 : Collapsed mid) (hcol3 : Collapsed post)
    (hsp1 : sp1 = [] ∨ sp1 = [' ']) (hsp2 : sp2 = [] ∨ sp2 = [' '])
    (hsp3 : sp3 = [] ∨ sp3 = [' ']) (hsp4 : sp4 = [] ∨ sp4 = [' '])
    (hd1 : brace_depth pre = 0) (hd2 : brace_depth mid = 0) :
    (∃ (nm : bt_name) (diags : List Diag) (toks : bt_stringlist) (T : List (List Char))
        (c1 c2 : Nat) (rest : List Char),
      bt_split_name (some (pre ++ sp1 ++ ',' :: sp2 ++ mid ++ sp3 ++ ',' :: sp4 ++ post))
          = .ok (nm, diags) ∧
        nm.tokens = some toks ∧ toks.texts = T.map some ∧
        find_tokens ((pre ++ ',' :: mid ++ ',' :: post) ++ NUL :: rest) 2
          = .ok (toks, [(c1 : Int), (c2 : Int)]) ∧
        c1 < c2 ∧ c2 + 1 < T.length ∧
        nm.parts.jr = ((T.drop (c1 + 1)).take (c2 - c1)).map some ∧
        nm.parts.first = (T.drop (c2 + 1)).map some ∧
        (∀ b, b < c1 → LcRunFromStart T b →
          nm.parts.von = (T.take (b + 1)).map some ∧
            nm.parts.last = ((T.drop (b + 1)).take (c1 - b)).map some) ∧
        ((∀ t, T[0]? = some t → lc_initial t = false) →
          nm.parts.von = [] ∧ nm.parts.last = (T.take (c1 + 1)).map some)) ∧
      (∀ X : List Char, NUL ∉ X → Collapsed X → X.count ',' = 1 → brace_depth X = 0 →
        (split_name_parts (X ++ [','])).map Prod.fst = (split_name_parts X).map Prod.fst ∧
          ∀ r, split_name_parts (X ++ [',']) = some r → Diag.comma_at_end ∈ r.2) ∧
      split_name_parts "King, Jr., Martin Luther".toList
        = some ({ first := [some "Martin".toList, some "Luther".toList]
                  von := []
                  last := [some "King".toList]
                  jr := [some "Jr.".toList] }, []) :=
  ⟨(two_commas_form pre sp1 sp2 mid sp3 sp4 post hpre hmid hpost hnul1 hnul2 hnul3
      hc1 hc2 hc3 hcol1 hcol2 hcol3 hsp1 hsp2 hsp3 hsp4 hd1 hd2).1,
    fun X h1 h2 h3 h4 => split_name_trailing_comma X h1 h2 (by omega) h4,
    by decide⟩

/-- C12 (amended) at a concrete input: the name `King, Jr., Martin Luther`. -/
theorem split_name_two_commas_witness :
    ("King".toList ≠ [] ∧ "Jr.".toList ≠ [] ∧ "Martin Luther".toList ≠ [] ∧
      NUL ∉ "King".toList ∧ NUL ∉ "Jr.".toList ∧ NUL ∉ "Martin Luther".toList ∧
      ',' ∉ "King".toList ∧ ',' ∉ "Jr.".toList ∧ ',' ∉ "Martin Luther".toList ∧
      Collapsed "King".toList ∧ Collapsed "Jr.".toList ∧ Collapsed "Martin Luther".toList ∧
      brace_depth "King".toList = 0 ∧ brace_depth "Jr.".toList = 0) ∧
    ∃ (nm : bt_name) (diags : List Diag) (toks : bt_stringlist) (T : List (List Char))
        (c1 c2 : Nat) (rest : List Char),
      bt_split_name (some ("King".toList ++ [] ++ ',' :: [' '] ++ "Jr.".toList ++ []
            ++ ',' :: [' '] ++ "Martin Luther".toList))
          = .ok (nm, diags) ∧
        nm.tokens = some toks ∧ toks.texts = T.map some ∧
        find_tokens (("King".toList ++ ',' :: "Jr.".toList ++ ',' :: "Martin Luther".toList)
            ++ NUL :: rest) 2
          = .ok (toks, [(c1 : Int), (c2 : Int)]) ∧
        c1 < c2 ∧ c2 + 1 < T.length ∧
        nm.parts.jr = ((T.drop (c1 + 1)).take (c2 - c1)).map some ∧
        nm.parts.first = (T.drop (c2 + 1)).map some ∧
        (∀ b, b < c1 → LcRunFromStart T b →
          nm.parts.von = (T.take (b + 1)).map some ∧
            nm.parts.last = ((T.drop (b + 1)).take (c1 - b)).map some) ∧
        ((∀ t, T[0]? = some t → lc_initial t = false) →
          nm.parts.von = [] ∧ nm.parts.last = (T.take (c1 + 1)).map some) :=
  ⟨⟨by decide, by decide, by decide, by decide, by decide, by decide, by decide, by decide,
      by decide, by decide, by decide, by decide, by decide, by decide⟩,
    (split_name_two_commas "King".toList [] [' '] "Jr.".toList [] [' '] "Martin Luther".toList
      (by decide) (by decide) (by decide) (by decide) (by decide) (by decide) (by decide)
      (by decide) (by decide) (by decide) (by decide) (by decide)
      (Or.inl rfl) (Or.inr rfl) (Or.inl rfl) (Or.inr rfl) (by decide) (by decide)).1⟩

/-! ## Whitespace collapsing -/

theorem intercalate_nonempty_cons (x : List Char) (L : List (List Char)) :
    [' '].intercalate (x :: L) = x ++ (if L = [] then [] else ' ' :: [' '].intercalate L) := by
  cases L with
  | nil => simp [List.intercalate]
  | cons y rest =>
    rw [intercalate_cons_cons]
    simp

/-- The three states of `collapse_run` in terms of the pieces between
whitespace bytes. -/
theorem collapse_run_split :
    ∀ (xs : List Char) (h : List Char) (T : List (List Char)),
      xs.splitOnP (fun c => isspace c) = h :: T →
      collapse_run false false xs
          = [' '].intercalate ((h :: T).filter (fun w => !w.isEmpty)) ∧
        collapse_run true false xs
          = h ++ (if T.filter (fun w => !w.isEmpty) = [] then []
                  else ' ' :: [' '].intercalate (T.filter (fun w => !w.isEmpty))) ∧
        collapse_run true true xs
          = (if (h :: T).filter (fun w => !w.isEmpty) = [] then []
             else ' ' :: [' '].intercalate ((h :: T).filter (fun w => !w.isEmpty))) := by
  intro xs
  induction xs with
  | nil =>
    intro h T hs
    rw [List.splitOnP_nil] at hs
    simp only [List.cons.injEq] at hs
    obtain ⟨rfl, rfl⟩ := hs
    simp [collapse_run, List.intercalate]
  | cons x xs ih =>
    intro h T hs
    obtain ⟨h', T', hs'⟩ : ∃ h' T', xs.splitOnP (fun c => isspace c) = h' :: T' := by
      cases hW : xs.splitOnP (fun c => isspace c) with
      | nil => exact absurd hW (List.splitOnP_ne_nil _ _)
      | cons a b => exact ⟨a, b, rfl⟩
    obtain ⟨ia, ib, ic⟩ := ih h' T' hs'
    rw [List.splitOnP_cons, hs'] at hs
    by_cases hx : isspace x = true
    · rw [if_pos hx] at hs
      simp only [List.cons.injEq] at hs
      obtain ⟨rfl, rfl⟩ := hs
      simp only [collapse_run, if_pos hx]
      refine ⟨?_, ?_, ?_⟩
      · rw [ia]
        simp
      · rw [ic]
        simp
      · rw [ic]
        simp
    · rw [if_neg hx] at hs
      simp only [List.modifyHead_cons, List.cons.injEq] at hs
      obtain ⟨rfl, rfl⟩ := hs
      simp only [collapse_run, if_neg hx]
      have hf : ((x :: h') :: T').filter (fun w => !w.isEmpty)
          = (x :: h') :: T'.filter (fun w => !w.isEmpty) := by
        simp [List.filter_cons]
      refine ⟨?_, ?_, ?_⟩
      · rw [ib, hf, intercalate_nonempty_cons]
        simp
      · rw [ib]
        simp
      · rw [ib, hf, intercalate_nonempty_cons]
        simp

/-- The whitespace collapsing of the specification, read from left to
right. -/
theorem collapse_whitespace_eq (s : List Char) :
    collapse_whitespace s = collapse_run false false s := by
  unfold collapse_whitespace
  cases hW : s.splitOnP isspace with
  | nil => exact absurd hW (List.splitOnP_ne_nil _ _)
  | cons h T => exact ((collapse_run_split s h T hW).1).symm

theorem collapse_run_append :
    ∀ (X : List Char) (st g : Bool) (Y : List Char),
      collapse_run st g (X ++ Y)
        = collapse_run st g X
          ++ collapse_run (collapse_state st g X).1 (collapse_state st g X).2 Y := by
  intro X
  induction X with
  | nil => intro st g Y; rfl
  | cons x r ih =>
    intro st g Y
    rw [List.cons_append]
    simp only [collapse_run, collapse_state]
    by_cases hx : isspace x = true
    · rw [if_pos hx, if_pos hx, if_pos hx]
      exact ih st st Y
    · rw [if_neg hx, if_neg hx, if_neg hx, ih true false Y, List.append_assoc]

/-- A text in which whitespace is single spaces, none of them at its end, is
left as it is by the collapsing. -/
theorem collapse_clean :
    ∀ (X : List Char) (st g : Bool), X ≠ [] →
      (∀ c ∈ X, isspace c = true → c = ' ') →
      (∀ i, i < X.length → charAt X i = ' ' → i + 1 < X.length ∧ charAt X (i + 1) ≠ ' ') →
      ((st = false ∨ g = true) → charAt X 0 ≠ ' ') →
      collapse_run st g X = (if g = true then ' ' :: X else X) ∧
        collapse_state st g X = (true, false) := by
  intro X
  induction X with
  | nil => intro st g h; exact absurd rfl h
  | cons x r ih =>
    intro st g _ hws h1 h0
    have hwr : ∀ c ∈ r, isspace c = true → c = ' ' :=
      fun c hc => hws c (List.mem_cons_of_mem _ hc)
    have h1r : ∀ i, i < r.length → charAt r i = ' ' →
        i + 1 < r.length ∧ charAt r (i + 1) ≠ ' ' := by
      intro i hi hc
      have := h1 (i + 1) (by simp only [List.length_cons]; omega)
        (by rw [charAt_cons_succ]; exact hc)
      rw [charAt_cons_succ] at this
      simp only [List.length_cons] at this
      exact ⟨by omega, this.2⟩
    simp only [collapse_run, collapse_state]
    by_cases hx : isspace x = true
    · have hsp : x = ' ' := hws x (List.mem_cons_self _ _) hx
      have hstg : st = true ∧ g = false := by
        have hne : ¬ (st = false ∨ g = true) := fun h => h0 h (by simp [charAt, hsp])
        simp only [not_or, Bool.not_eq_false, Bool.not_eq_true] at hne
        exact hne
      obtain ⟨rfl, rfl⟩ := hstg
      have h10 := h1 0 (by simp) (by simp [charAt, hsp])
      simp only [List.length_cons] at h10
      rw [show (0 : Nat) + 1 = 0 + 1 from rfl, charAt_cons_succ] at h10
      have hr : r ≠ [] := by
        intro hr
        rw [hr] at h10
        simp at h10
      obtain ⟨e1, e2⟩ := ih true true hr hwr h1r (fun _ => h10.2)
      rw [if_pos hx, if_pos hx, e1, e2, hsp]
      simp
    · rw [if_neg hx, if_neg hx]
      by_cases hr : r = []
      · subst hr
        cases g <;> simp [collapse_run, collapse_state]
      · obtain ⟨e1, e2⟩ := ih true false hr hwr h1r (fun h => by
          rcases h with h | h <;> simp at h)
        rw [e1, e2]
        cases g <;> simp

theorem collapse_run_gap (Y : List Char) :
    collapse_run true true Y = collapse_run true false Y ∨
      collapse_run true true Y = ' ' :: collapse_run true false Y := by
  cases Y with
  | nil => exact Or.inl rfl
  | cons x r =>
    simp only [collapse_run]
    by_cases hx : isspace x = true
    · rw [if_pos hx, if_pos hx]
      exact Or.inl rfl
    · rw [if_neg hx, if_neg hx]
      exact Or.inr rfl

theorem collapse_run_last :
    ∀ (Q : List Char) (st g : Bool) (c : Char),
      (collapse_run st g Q).getLast? = some c → c ∈ Q ∧ isspace c = false := by
  intro Q
  induction Q with
  | nil => intro st g c h; simp [collapse_run] at h
  | cons x r ih =>
    intro st g c h
    simp only [collapse_run] at h
    by_cases hx : isspace x = true
    · rw [if_pos hx] at h
      exact ⟨List.mem_cons_of_mem _ (ih st st c h).1, (ih st st c h).2⟩
    · rw [if_neg hx] at h
      by_cases hr : collapse_run true false r = []
      · rw [hr, List.append_nil] at h
        have hc : c = x := by
          cases g <;> simp at h <;> exact h.symm
        rw [hc]
        exact ⟨List.mem_cons_self _ _, by simpa using hx⟩
      · rw [List.getLast?_append_of_ne_nil _ hr] at h
        exact ⟨List.mem_cons_of_mem _ (ih true false c h).1, (ih true false c h).2⟩

theorem collapse_run_length :
    ∀ (X : List Char) (st g : Bool),
      (collapse_run st g X).length ≤ X.length + (if g = true then 1 else 0) := by
  intro X
  induction X with
  | nil => intro st g; simp [collapse_run]
  | cons x r ih =>
    intro st g
    simp only [collapse_run, List.length_cons]
    by_cases hx : isspace x = true
    · rw [if_pos hx]
      have := ih st st
      cases g <;> cases st <;> simp at this ⊢ <;> omega
    · rw [if_neg hx]
      have := ih true false
      cases g <;> simp at this ⊢ <;> omega

theorem collapse_run_mem :
    ∀ (X : List Char) (st g : Bool) (c : Char),
      c ∈ collapse_run st g X → c ∈ X ∨ c = ' ' := by
  intro X
  induction X with
  | nil => intro st g c h; simp [collapse_run] at h
  | cons x r ih =>
    intro st g c h
    simp only [collapse_run] at h
    by_cases hx : isspace x = true
    · rw [if_pos hx] at h
      rcases ih st st c h with h' | h'
      · exact Or.inl (List.mem_cons_of_mem _ h')
      · exact Or.inr h'
    · rw [if_neg hx] at h
      rcases List.mem_append.1 h with h' | h'
      · cases g <;> simp at h'
        · exact Or.inl (by rw [h']; exact List.mem_cons_self _ _)
        · rcases h' with h' | h'
          · exact Or.inr h'
          · exact Or.inl (by rw [h']; exact List.mem_cons_self _ _)
      · rcases ih true false c h' with h'' | h''
        · exact Or.inl (List.mem_cons_of_mem _ h'')
        · exact Or.inr h''

/-! ## The first loop of find_commas on any name -/

theorem blank_excess_length (m : Nat) :
    ∀ (X : List Char) (n : Nat), (blank_excess m n X).length = X.length := by
  intro X
  induction X with
  | nil => intro n; rfl
  | cons x r ih =>
    intro n
    simp only [blank_excess]
    split_ifs <;> simp [ih]

theorem blank_excess_append (m : Nat) :
    ∀ (X : List Char) (n : Nat) (Y : List Char),
      blank_excess m n (X ++ Y)
        = blank_excess m n X ++ blank_excess m (n + X.count ',') Y := by
  intro X
  induction X with
  | nil => intro n Y; simp [blank_excess]
  | cons x r ih =>
    intro n Y
    rw [List.cons_append]
    simp only [blank_excess]
    by_cases hx : x = ','
    · rw [if_pos hx, if_pos hx, ih (n + 1) Y, hx, List.count_cons_self]
      simp only [List.cons_append]
      congr 3
      omega
    · rw [if_neg hx, if_neg hx, ih n Y, List.count_cons_of_ne (fun h => hx h.symm)]
      rfl

theorem blank_excess_id (m : Nat) :
    ∀ (X : List Char) (n : Nat), n + X.count ',' ≤ m → blank_excess m n X = X := by
  intro X
  induction X with
  | nil => intro n _; rfl
  | cons x r ih =>
    intro n h
    simp only [blank_excess]
    by_cases hx : x = ','
    · rw [hx, List.count_cons_self] at h
      rw [if_pos hx, if_neg (by omega), ih (n + 1) (by omega), hx]
    · rw [List.count_cons_of_ne (fun h => hx h.symm)] at h
      rw [if_neg hx, ih n h]

theorem blank_excess_no_comma (m : Nat) :
    ∀ (X : List Char) (n : Nat), m ≤ n → ',' ∉ blank_excess m n X := by
  intro X
  induction X with
  | nil => intro n _; simp [blank_excess]
  | cons x r ih =>
    intro n h
    simp only [blank_excess]
    by_cases hx : x = ','
    · rw [if_pos hx, if_pos (by omega)]
      simp only [List.mem_cons, not_or]
      exact ⟨by decide, ih (n + 1) (by omega)⟩
    · rw [if_neg hx]
      simp only [List.mem_cons, not_or]
      exact ⟨fun h => hx h.symm, ih n h⟩

theorem blank_excess_mem (m : Nat) :
    ∀ (X : List Char) (n : Nat) (c : Char), c ∈ blank_excess m n X → c ∈ X ∨ c = ' ' := by
  intro X
  induction X with
  | nil => intro n c h; simp [blank_excess] at h
  | cons x r ih =>
    intro n c h
    simp only [blank_excess] at h
    by_cases hx : x = ','
    · rw [if_pos hx] at h
      rcases List.mem_cons.1 h with h' | h'
      · split_ifs at h'
        · exact Or.inr h'
        · exact Or.inl (by rw [h', hx]; exact List.mem_cons_self _ _)
      · rcases ih (n + 1) c h' with h'' | h''
        · exact Or.inl (List.mem_cons_of_mem _ h'')
        · exact Or.inr h''
    · rw [if_neg hx] at h
      rcases List.mem_cons.1 h with h' | h'
      · exact Or.inl (by rw [h']; exact List.mem_cons_self _ _)
      · rcases ih n c h' with h'' | h''
        · exact Or.inl (List.mem_cons_of_mem _ h'')
        · exact Or.inr h''

theorem comma_scan_step_at (B : List Char) (c : Char) (rest : List Char) (k : Nat) (w : Bool)
    (ds : List Diag) :
    comma_scan_step 2 { name := B ++ c :: rest, num_commas := k, warned := w, diags := ds }
        B.length
      = if c = ',' then
          (if k + 1 > 2 then
            { name := B ++ ' ' :: rest, num_commas := k + 1, warned := true,
              diags := if w = true then ds else ds ++ [Diag.too_many_commas] }
          else { name := B ++ c :: rest, num_commas := k + 1, warned := w, diags := ds })
        else { name := B ++ c :: rest, num_commas := k, warned := w, diags := ds } := by
  unfold comma_scan_step
  simp only [charAt_append_head, set_append_head, true_and]

/-- The first loop of `find_commas` on any name: it counts the commas and
replaces the third and every later one by a space, with one warning. -/
theorem comma_scan_blank (name : List Char) :
    comma_scan 2 name.length (name ++ [NUL])
      = { name := blank_excess 2 0 name ++ [NUL], num_commas := name.count ',',
          warned := decide (2 < name.count ','),
          diags := if 2 < name.count ',' then [Diag.too_many_commas] else [] } := by
  have key : ∀ n, n ≤ name.length →
      (List.range n).foldl (comma_scan_step 2)
          { name := name ++ [NUL], num_commas := 0, warned := false, diags := [] }
        = { name := blank_excess 2 0 (name.take n) ++ (name.drop n ++ [NUL]),
            num_commas := (name.take n).count ',',
            warned := decide (2 < (name.take n).count ','),
            diags := if 2 < (name.take n).count ',' then [Diag.too_many_commas] else [] } := by
    intro n
    induction n with
    | zero => intro _; rfl
    | succ n ih =>
      intro hn
      have hlt : n < name.length := by omega
      rw [List.range_succ, List.foldl_append, ih (by omega), List.foldl_cons, List.foldl_nil]
      have htake : name.take (n + 1) = name.take n ++ [name[n]] := by
        rw [List.take_succ, List.getElem?_eq_getElem hlt]
        rfl
      have hdrop : name.drop n = name[n] :: name.drop (n + 1) := List.drop_eq_getElem_cons hlt
      have hBlen : (blank_excess 2 0 (name.take n)).length = n := by
        rw [blank_excess_length, List.length_take]
        omega
      rw [htake, blank_excess_append, List.count_append, hdrop, List.cons_append]
      generalize hB : blank_excess 2 0 (name.take n) = B at hBlen ⊢
      generalize hk : (name.take n).count ',' = k
      generalize hc' : name[n] = c
      rw [← hBlen, comma_scan_step_at]
      by_cases hc : c = ','
      · subst hc
        rw [if_pos rfl]
        simp only [List.count_singleton_self, blank_excess, Nat.zero_add]
        by_cases h2 : k + 1 > 2
        · rw [if_pos h2, if_pos h2]
          by_cases hw : 2 < k
          · simp only [hw, decide_True, if_true, List.append_assoc, List.singleton_append]
            rw [if_pos (by omega)]
            simp
            omega
          · have hk2 : k = 2 := by omega
            subst hk2
            simp
        · rw [if_neg h2, if_neg h2]
          have hw : ¬ 2 < k := by omega
          have hw' : ¬ 2 < k + 1 := by omega
          simp [hw, hw']
      · rw [if_neg hc]
        simp only [blank_excess, if_neg hc, List.count_singleton, Nat.add_zero]
        have : (if c == ',' then 1 else 0) = 0 := by simp [hc]
        simp [hc, this]
  have := key name.length (Nat.le_refl _)
  rw [List.take_length, List.drop_length, List.nil_append] at this
  exact this

/-! ## find_commas on a name with more than two commas -/

theorem charAt_take {I : List Char} {len m : Nat} (h : m < len) :
    charAt (I.take len) m = charAt I m := by
  simp [charAt, List.getD_eq_getElem?_getD, List.getElem?_take, h]

/-- The second loop of `find_commas` on any buffer `I` of which it reads the
first `len` bytes, and the assignment `name[j] = 0` after it: the buffer then
holds what `squeeze` makes of the bytes read, and a NUL. -/
theorem comma_loop_result (I : List Char) (len : Nat) (hlen : len < I.length)
    (hterm : charAt I len = NUL) (hpos : 0 < len) (st : CommaLoop)
    (hst : comma_loop len len
      { i := 0, j := 0, depth := 0, num_commas := 0, commas := [], name := I } = st) :
    st.j = (squeeze 0 false [] [] (I.take len)).1.length ∧
      (squeeze 0 false [] [] (I.take len)).1 ≠ [] ∧
      st.commas = (squeeze 0 false [] [] (I.take len)).2 ∧
      st.num_commas = ((squeeze 0 false [] [] (I.take len)).2.length : Int) ∧
      ∃ rest0, (if st.i ≠ st.j then st.name.set st.j NUL else st.name)
        = (squeeze 0 false [] [] (I.take len)).1 ++ NUL :: rest0 := by
  have hRlen : (I.take len).length = len := by
    rw [List.length_take]
    omega
  have hRne : I.take len ≠ [] := by
    intro h
    rw [h] at hRlen
    simp at hRlen
    omega
  obtain ⟨hi, hinv, hcs, hnc⟩ := comma_loop_squeeze hlen
    (by rw [hterm]; decide) len (I.take len) []
    { i := 0, j := 0, depth := 0, num_commas := 0, commas := [], name := I } len
    (by omega) (by omega) (CommaInv_init _)
    (fun m hm => by
      simp only [Nat.zero_add]
      rw [charAt_take (by omega)])
    (by simp only [Nat.zero_add]; exact hRlen)
  simp only at hinv hcs hnc
  rw [hst] at hi hinv hcs hnc
  have hsqne : (squeeze 0 false [] [] (I.take len)).1 ≠ [] :=
    squeeze_out_ne _ 0 false [] [] (Or.inr ⟨hRne, rfl⟩)
  generalize hout : (squeeze 0 false [] [] (I.take len)).1 = out at hinv hsqne ⊢
  generalize hcs' : (squeeze 0 false [] [] (I.take len)).2 = cs at hcs ⊢
  obtain ⟨hj, hji, hdone, htodo, hl⟩ := hinv
  have hjlt : st.j < st.name.length := by
    rw [hl]; omega
  have hname2 : ∀ k, k ≠ st.j →
      charAt (if st.i ≠ st.j then st.name.set st.j NUL else st.name) k = charAt st.name k := by
    intro k hk
    split_ifs
    · exact charAt_set_ne _ _ _ _ hk
    · rfl
  have hend : charAt (if st.i ≠ st.j then st.name.set st.j NUL else st.name) st.j = NUL := by
    split_ifs with hne'
    · exact charAt_set_self _ _ _ hjlt
    · have e : st.j = len := by omega
      rw [htodo st.j (by omega), e]
      exact hterm
  have hlen2 : (if st.i ≠ st.j then st.name.set st.j NUL else st.name).length
      = st.name.length := by
    split_ifs
    · simp
    · rfl
  refine ⟨hj, hsqne, hcs, by rw [hnc, hcs]; simp, ?_⟩
  generalize hN : (if st.i ≠ st.j then st.name.set st.j NUL else st.name) = N at *
  have hjN : st.j < N.length := by omega
  have htake : N.take st.j = out := by
    apply List.ext_getElem
    · simp [hj]; omega
    · intro k hk1 hk2
      have h3 := hname2 k (by omega)
      rw [hdone k hk2, charAt_eq_getElem (by omega), charAt_eq_getElem hk2] at h3
      rw [List.getElem_take]
      exact h3
  have hdrop : N.drop st.j = NUL :: N.drop (st.j + 1) := by
    rw [List.drop_eq_getElem_cons hjN, ← charAt_eq_getElem hjN, hend]
  refine ⟨N.drop (st.j + 1), ?_⟩
  rw [← htake, ← hdrop, List.take_append_drop]

/-- What `find_commas` returns for a name with more than two commas when the
text that the second loop writes does not end with a comma: that text, the
number of commas the loop has recorded, and the warning of the first loop.
The second loop reads as many bytes as the name had before the excess commas
were replaced and the whitespace collapsed. -/
theorem find_commas_many (s : List Char) (hnul : NUL ∉ s) (h3 : 3 ≤ s.count ',')
    (hlast : charAt
        (squeeze 0 false [] []
          ((postprocess_string (blank_excess 2 0 s ++ [NUL])).take s.length)).1
        ((squeeze 0 false [] []
          ((postprocess_string (blank_excess 2 0 s ++ [NUL])).take s.length)).1.length - 1)
      ≠ ',')
    (hplen : (postprocess_string (blank_excess 2 0 s ++ [NUL])).length = s.length + 1)
    (hpterm : charAt (postprocess_string (blank_excess 2 0 s ++ [NUL])) s.length = NUL) :
    ∃ rest, find_commas (s ++ [NUL]) 2
      = .ok { name := (squeeze 0 false [] []
                  ((postprocess_string (blank_excess 2 0 s ++ [NUL])).take s.length)).1
                ++ NUL :: rest
              num_commas := ((squeeze 0 false [] []
                  ((postprocess_string (blank_excess 2 0 s ++ [NUL])).take s.length)).2.length
                : Int)
              commas := (squeeze 0 false [] []
                  ((postprocess_string (blank_excess 2 0 s ++ [NUL])).take s.length)).2
              diags := [Diag.too_many_commas] } := by
  have hspos : 0 < s.length := by
    have := List.count_le_length ',' s
    omega
  generalize hI : postprocess_string (blank_excess 2 0 s ++ [NUL]) = I at *
  generalize hst : comma_loop s.length s.length
      { i := 0, j := 0, depth := 0, num_commas := 0, commas := [], name := I } = st
  obtain ⟨hj, hne, hcs, hnc, rest0, hdec⟩ := comma_loop_result I s.length (by omega) hpterm
    hspos st hst
  generalize hout : (squeeze 0 false [] [] (I.take s.length)).1 = out at *
  generalize hcsq : (squeeze 0 false [] [] (I.take s.length)).2 = cs at *
  have hopos : 0 < out.length := List.length_pos.2 hne
  refine ⟨rest0, ?_⟩
  unfold find_commas
  simp only [strlen_append_NUL s [] hnul, comma_scan_blank s]
  rw [if_neg (by omega)]
  simp only [show decide (2 < s.count ',') = true from by simp; omega, if_true, hI, hst, hdec]
  have hjs : st.j = (out.length - 1) + 1 := by omega
  rw [hjs]
  simp only
  rw [charAt_append_left (by omega), if_neg hlast, if_pos (by omega), hnc, hcs]

theorem split_at_comma :
    ∀ (s : List Char) (n : Nat), n < s.count ',' →
      ∃ P0 Q0, s = P0 ++ ',' :: Q0 ∧ P0.count ',' = n := by
  intro s
  induction s with
  | nil => intro n h; simp at h
  | cons x r ih =>
    intro n h
    by_cases hx : x = ','
    · subst hx
      rw [List.count_cons_self] at h
      cases n with
      | zero => exact ⟨[], r, rfl, rfl⟩
      | succ n =>
        obtain ⟨P0, Q0, e, hc⟩ := ih n (by omega)
        exact ⟨',' :: P0, Q0, by rw [e]; rfl, by rw [List.count_cons_self, hc]⟩
    · rw [List.count_cons_of_ne (fun h => hx h.symm)] at h
      obtain ⟨P0, Q0, e, hc⟩ := ih n h
      exact ⟨x :: P0, Q0, by rw [e]; rfl,
        by rw [List.count_cons_of_ne (fun h => hx h.symm), hc]⟩

/-- The collapsing leaves the beginning of a whitespace-collapsed text as it
is, up to any byte that is not a space. -/
theorem collapse_prefix (P Q : List Char) (hcol : Collapsed (P ++ Q))
    (hws : ∀ c ∈ P, isspace c = true → c = ' ') (hne : P ≠ [])
    (hlast : charAt P (P.length - 1) ≠ ' ') (Y : List Char) :
    collapse_run false false (P ++ Y) = P ++ collapse_run true false Y := by
  have hpos : 0 < P.length := List.length_pos.2 hne
  have h := collapse_clean P false false hne hws (by
    intro i hi hc
    have hi' : i < (P ++ Q).length := by rw [List.length_append]; omega
    have h1 := hcol.2.2 i hi' (by rw [charAt_append_left hi]; exact hc)
    have hlt : i + 1 < P.length := by
      by_contra hcon
      have e : i = P.length - 1 := by omega
      rw [e] at hc
      exact hlast hc
    rw [charAt_append_left hlt] at h1
    exact ⟨hlt, h1⟩) (fun _ => by
    have := hcol.1
    rwa [charAt_append_left hpos] at this)
  rw [collapse_run_append, h.1, h.2]
  rfl

theorem squeeze_snoc_char (X : List Char) (c : Char) (hc1 : c ≠ ' ') (hc2 : c ≠ ',')
    (d : Int) (skip : Bool) (out : List Char) (cs : List Nat) :
    squeeze d skip out cs (X ++ [c])
      = ((squeeze d skip out cs X).1 ++ [c], (squeeze d skip out cs X).2) := by
  obtain ⟨skip', e⟩ := squeeze_append X d skip out cs [c]
  rw [e]
  simp only [squeeze]
  rw [if_neg (fun h => hc1 h.2), if_neg (fun h => hc2 h.2)]

theorem squeeze_after_nul (stale : List Char) (hc : ',' ∉ stale) (d : Int) (skip : Bool)
    (out : List Char) (cs : List Nat) :
    squeeze d skip out cs (NUL :: stale) = (out ++ NUL :: stale, cs) := by
  rw [squeeze, if_neg (fun h => absurd h.2 (by decide)),
    if_neg (fun h => absurd h.2 (by decide))]
  have h := squeeze_clean stale (update_depth NUL d) 0 false (out ++ [NUL]) cs []
    (spec_comma_token_of_no_comma stale _ 0 hc) (fun h => absurd h (by simp))
  rw [List.append_nil] at h
  rw [h]
  simp [squeeze]

/-- The buffer after `postprocess_string` for a whitespace-collapsed name
with more than two commas, and what the second loop of `find_commas` makes
of the bytes it reads: the collapsed name squeezed, then (when the name has
become shorter) the new terminator and old bytes of the name, none of them a
comma. -/
theorem squeeze_collapsed (s : List Char) (hnul : NUL ∉ s) (hcol : Collapsed s)
    (hws : ∀ c ∈ s, isspace c = true → c = ' ') (h3 : 3 ≤ s.count ',') :
    (postprocess_string (blank_excess 2 0 s ++ [NUL])).length = s.length + 1 ∧
    charAt (postprocess_string (blank_excess 2 0 s ++ [NUL])) s.length = NUL ∧
    ∃ Z : List Char, ',' ∉ Z ∧
      squeeze 0 false [] [] ((postprocess_string (blank_excess 2 0 s ++ [NUL])).take s.length)
        = ((squeeze 0 false [] [] (collapse_whitespace (blank_excess 2 0 s))).1 ++ Z,
            (squeeze 0 false [] [] (collapse_whitespace (blank_excess 2 0 s))).2) ∧
      (Z = [] ∨ charAt Z 0 = NUL) ∧
      charAt ((squeeze 0 false [] [] (collapse_whitespace (blank_excess 2 0 s))).1 ++ Z)
        (((squeeze 0 false [] [] (collapse_whitespace (blank_excess 2 0 s))).1 ++ Z).length - 1)
        ≠ ',' := by
  obtain ⟨P0, Q0, hs, hP0⟩ := split_at_comma s 1 (by omega)
  have hQ0c : 1 ≤ Q0.count ',' := by
    rw [hs, List.count_append, List.count_cons_self, hP0] at h3
    omega
  have hb : blank_excess 2 0 s = (P0 ++ [',']) ++ blank_excess 2 2 Q0 := by
    rw [hs, blank_excess_append, blank_excess_id 2 P0 0 (by omega), hP0]
    simp [blank_excess]
  generalize hQ : blank_excess 2 2 Q0 = Q at hb
  have hQc : ',' ∉ Q := by
    rw [← hQ]
    exact blank_excess_no_comma 2 Q0 2 (le_refl _)
  have hQlen : Q.length = Q0.length := by
    rw [← hQ, blank_excess_length]
  have hQpos : 0 < Q.length := by
    rw [hQlen]
    have := List.count_le_length ',' Q0
    omega
  have hslen : s.length = (P0 ++ [',']).length + Q.length := by
    rw [hs, hQlen]
    simp
    omega
  have hnb : NUL ∉ blank_excess 2 0 s := by
    intro h
    rcases blank_excess_mem 2 s 0 NUL h with h' | h'
    · exact hnul h'
    · exact absurd h' (by decide)
  have hsP : s = (P0 ++ [',']) ++ Q0 := by
    rw [hs]
    simp
  have ht : collapse_whitespace (blank_excess 2 0 s)
      = (P0 ++ [',']) ++ collapse_run true false Q := by
    rw [collapse_whitespace_eq, hb]
    apply collapse_prefix (P0 ++ [',']) Q0 (by rw [← hsP]; exact hcol)
    · intro c hc
      exact hws c (by rw [hsP]; exact List.mem_append_left _ hc)
    · simp
    · rw [show (P0 ++ [',']).length - 1 = P0.length by simp, charAt_snoc]
      decide
  generalize hZ : collapse_run true false Q = Z at ht
  have hZlen : Z.length ≤ Q.length := by
    have := collapse_run_length Q true false
    rw [hZ] at this
    simpa using this
  have hZc : ',' ∉ Z := by
    intro h
    rw [← hZ] at h
    rcases collapse_run_mem Q true false ',' h with h' | h'
    · exact hQc h'
    · exact absurd h' (by decide)
  generalize hP : P0 ++ [','] = P at *
  have hpp : postprocess_string (blank_excess 2 0 s ++ [NUL])
      = (P ++ Z) ++ NUL :: ((P ++ Q) ++ [NUL]).drop ((P ++ Z).length + 1) := by
    unfold postprocess_string
    have hcs : cstr_at (blank_excess 2 0 s ++ [NUL]) 0 = blank_excess 2 0 s := by
      have := cstr_at_append [] (blank_excess 2 0 s) [] hnb
      simpa using this
    simp only [hcs]
    rw [ht, hb]
    simp
  generalize hsq : squeeze 0 false [] [] (collapse_whitespace (blank_excess 2 0 s)) = q
  rw [ht] at hsq
  rw [hpp]
  by_cases hlt : Z.length < Q.length
  · have hdrop : ((P ++ Q) ++ [NUL]).drop ((P ++ Z).length + 1)
        = Q.drop (Z.length + 1) ++ [NUL] := by
      rw [List.drop_append_of_le_length (by simp only [List.length_append]; omega),
        List.length_append, Nat.add_assoc, List.drop_append]
    rw [hdrop]
    have hstale : ',' ∉ Q.drop (Z.length + 1) := fun h => hQc (List.mem_of_mem_drop h)
    have hR : ((P ++ Z) ++ NUL :: (Q.drop (Z.length + 1) ++ [NUL])).take s.length
        = (P ++ Z) ++ NUL :: Q.drop (Z.length + 1) := by
      have e : (P ++ Z) ++ NUL :: (Q.drop (Z.length + 1) ++ [NUL])
          = ((P ++ Z) ++ NUL :: Q.drop (Z.length + 1)) ++ [NUL] := by simp
      rw [e]
      apply List.take_left'
      simp only [List.length_append, List.length_cons, List.length_drop]
      omega
    refine ⟨?_, ?_, NUL :: Q.drop (Z.length + 1), ?_, ?_, Or.inr rfl, ?_⟩
    · simp only [List.length_append, List.length_cons, List.length_drop, List.length_nil]
      omega
    · have e : (P ++ Z) ++ NUL :: (Q.drop (Z.length + 1) ++ [NUL])
          = ((P ++ Z) ++ NUL :: Q.drop (Z.length + 1)) ++ [NUL] := by simp
      have hl : ((P ++ Z) ++ NUL :: Q.drop (Z.length + 1)).length = s.length := by
        simp only [List.length_append, List.length_cons, List.length_drop]
        omega
      rw [e, ← hl, charAt_snoc]
    · simp only [List.mem_cons, not_or]
      exact ⟨by decide, hstale⟩
    · rw [hR]
      obtain ⟨skip', e⟩ := squeeze_append (P ++ Z) 0 false [] [] (NUL :: Q.drop (Z.length + 1))
      rw [e, hsq, squeeze_after_nul _ hstale]
    · have hne : Q.drop (Z.length + 1) = [] ∨ Q.drop (Z.length + 1) ≠ [] := em _
      have e1 : q.1 ++ NUL :: Q.drop (Z.length + 1)
          = (q.1 ++ [NUL]) ++ Q.drop (Z.length + 1) := by simp
      rcases hne with h | h
      · rw [h]
        rw [show (q.1 ++ [NUL]).length - 1 = q.1.length by simp, charAt_snoc]
        decide
      · have hne2 : q.1 ++ NUL :: Q.drop (Z.length + 1) ≠ [] := by simp
        intro hc
        have hl := getLast?_eq_charAt hne2
        rw [hc, e1, List.getLast?_append_of_ne_nil _ h] at hl
        exact hstale (List.mem_of_getLast?_eq_some hl)
  · have hZQ : Z.length = Q.length := by omega
    have hdrop : ((P ++ Q) ++ [NUL]).drop ((P ++ Z).length + 1) = [] := by
      apply List.drop_eq_nil_of_le
      simp only [List.length_append, List.length_singleton]
      omega
    rw [hdrop]
    have hR : ((P ++ Z) ++ [NUL]).take s.length = P ++ Z := by
      apply List.take_left'
      simp only [List.length_append]
      omega
    have hZne : Z ≠ [] := by
      intro h
      rw [h] at hZQ
      simp at hZQ
      omega
    obtain ⟨c, hc⟩ : ∃ c, Z.getLast? = some c := by
      cases h : Z.getLast? with
      | none => exact absurd (List.getLast?_eq_none_iff.1 h) hZne
      | some c => exact ⟨c, rfl⟩
    have hcQ := collapse_run_last Q true false c (by rw [hZ]; exact hc)
    have hc1 : c ≠ ' ' := by
      intro h
      rw [h] at hcQ
      exact absurd hcQ.2 (by decide)
    have hc2 : c ≠ ',' := fun h => hQc (h ▸ hcQ.1)
    have hZd : Z = Z.dropLast ++ [c] := by
      have := List.dropLast_append_getLast? c hc
      exact this.symm
    refine ⟨?_, ?_, [], by simp, ?_, Or.inl rfl, ?_⟩
    · simp only [List.length_append, List.length_cons, List.length_nil]
      omega
    · have hl : (P ++ Z).length = s.length := by
        simp only [List.length_append]
        omega
      rw [← hl, charAt_snoc]
    · rw [hR, hsq]
      simp
    · rw [List.append_nil, ← hsq]
      have e : P ++ Z = (P ++ Z.dropLast) ++ [c] := by
        conv_lhs => rw [hZd]
        simp
      rw [e, squeeze_snoc_char _ c hc1 hc2]
      simp only
      rw [show ((squeeze 0 false [] [] (P ++ Z.dropLast)).1 ++ [c]).length - 1
          = (squeeze 0 false [] [] (P ++ Z.dropLast)).1.length by simp, charAt_snoc]
      exact hc2

theorem NUL_not_mem_collapsed (s : List Char) (hnul : NUL ∉ s) :
    NUL ∉ (squeeze 0 false [] [] (collapse_whitespace (blank_excess 2 0 s))).1 := by
  intro hm
  rcases squeeze_mem _ 0 false [] [] NUL hm with h | h | h
  · simp at h
  · rw [collapse_whitespace_eq] at h
    rcases collapse_run_mem _ false false NUL h with h' | h'
    · rcases blank_excess_mem 2 s 0 NUL h' with h'' | h''
      · exact hnul h''
      · exact absurd h'' (by decide)
    · exact absurd h' (by decide)
  · exact absurd h (by decide)

/-- What `find_commas` returns for a whitespace-collapsed name with more than
two commas: the name with the third and every later comma replaced by a
space, collapsed and squeezed, the number of commas at depth 0 in it, and the
warning `too many commas`. -/
theorem find_commas_collapsed (s : List Char) (hnul : NUL ∉ s) (hcol : Collapsed s)
    (hws : ∀ c ∈ s, isspace c = true → c = ' ') (h3 : 3 ≤ s.count ',') :
    ∃ rest, find_commas (s ++ [NUL]) 2
      = .ok { name := (squeeze 0 false [] [] (collapse_whitespace (blank_excess 2 0 s))).1
                ++ NUL :: rest
              num_commas :=
                ((squeeze 0 false [] [] (collapse_whitespace (blank_excess 2 0 s))).2.length
                  : Int)
              commas := (squeeze 0 false [] [] (collapse_whitespace (blank_excess 2 0 s))).2
              diags := [Diag.too_many_commas] } := by
  obtain ⟨hplen, hpterm, Z, _, hsq, hZ0, hlast⟩ := squeeze_collapsed s hnul hcol hws h3
  obtain ⟨rest, e⟩ := find_commas_many s hnul h3 (by rw [hsq]; exact hlast) hplen hpterm
  rw [hsq] at e
  simp only at e
  rcases hZ0 with h | h
  · subst h
    rw [List.append_nil] at e
    exact ⟨rest, e⟩
  · cases Z with
    | nil =>
      rw [List.append_nil] at e
      exact ⟨rest, e⟩
    | cons z Z' =>
      have hz : z = NUL := by simpa [charAt] using h
      subst hz
      refine ⟨Z' ++ NUL :: rest, ?_⟩
      rw [e]
      simp

/-- The result of `bt_split_name` on a whitespace-collapsed name with more
than two commas. -/
theorem split_name_parts_collapsed (s : List Char) (hnul : NUL ∉ s) (hcol : Collapsed s)
    (hws : ∀ c ∈ s, isspace c = true → c = ' ') (h3 : 3 ≤ s.count ',') :
    split_name_parts s
      = (result_parts (split_after_commas
            ((squeeze 0 false [] [] (collapse_whitespace (blank_excess 2 0 s))).1 ++ [NUL])
            ((squeeze 0 false [] [] (collapse_whitespace (blank_excess 2 0 s))).2.length : Int)
            [])).map
          (fun r => (r.1, [Diag.too_many_commas] ++ r.2)) := by
  rw [split_name_parts_eq, bt_split_name_after]
  obtain ⟨rest, e⟩ := find_commas_collapsed s hnul hcol hws h3
  have hl : strlen (s ++ [NUL]) = s.length := strlen_append_NUL s [] hnul
  have c1 := squeeze_commas_le (collapse_whitespace (blank_excess 2 0 s)) 0 false [] []
  have c2 := collapse_run_length (blank_excess 2 0 s) false false
  rw [← collapse_whitespace_eq, blank_excess_length] at c2
  simp only [List.length_nil, Nat.zero_add, Bool.false_eq_true, if_false, Nat.add_zero]
    at c1 c2
  rw [e]
  simp only
  rw [hl]
  have a : ¬ (((squeeze 0 false [] [] (collapse_whitespace (blank_excess 2 0 s))).2.length : Int)
      > (s.length : Int)) := by omega
  rw [if_neg a, split_after_commas_diags,
    split_after_commas_rest _ rest [] _ _ (NUL_not_mem_collapsed s hnul)]

theorem collapse_run_space_space (st g : Bool) (Y : List Char) :
    collapse_run st g (' ' :: ' ' :: Y) = collapse_run st g (' ' :: Y) := by
  have hsp : isspace ' ' = true := by decide
  simp only [collapse_run, hsp, if_true]

/-- A space before a comma at depth 0 of a whitespace-collapsed name does not
change what the first loop of `find_commas`, the whitespace collapsing and
the second loop make of the name. -/
theorem collapsed_space_before (A B : List Char) (hd : brace_depth A = 0)
    (hws : ∀ c ∈ A, isspace c = true → c = ' ')
    (hcol : Collapsed (A ++ ',' :: B)) (hcolv : Collapsed (A ++ ' ' :: ',' :: B)) :
    squeeze 0 false [] [] (collapse_whitespace (blank_excess 2 0 (A ++ ' ' :: ',' :: B)))
      = squeeze 0 false [] [] (collapse_whitespace (blank_excess 2 0 (A ++ ',' :: B))) := by
  have hA : A ≠ [] := by
    intro h
    subst h
    exact hcolv.1 rfl
  by_cases hn : A.count ',' + 1 > 2
  · have e1 : blank_excess 2 0 (A ++ ' ' :: ',' :: B)
        = blank_excess 2 0 A ++ ' ' :: ' ' :: blank_excess 2 (A.count ',' + 1) B := by
      rw [blank_excess_append]
      simp [blank_excess, hn]
    have e2 : blank_excess 2 0 (A ++ ',' :: B)
        = blank_excess 2 0 A ++ ' ' :: blank_excess 2 (A.count ',' + 1) B := by
      rw [blank_excess_append]
      simp [blank_excess, hn]
    rw [e1, e2, collapse_whitespace_eq, collapse_whitespace_eq, collapse_run_append,
      collapse_run_space_space, ← collapse_run_append]
  · have hid : blank_excess 2 0 A = A := blank_excess_id 2 A 0 (by omega)
    have e1 : blank_excess 2 0 (A ++ ' ' :: ',' :: B)
        = (A ++ [' ', ',']) ++ blank_excess 2 (A.count ',' + 1) B := by
      rw [blank_excess_append, hid]
      simp [blank_excess, hn]
    have e2 : blank_excess 2 0 (A ++ ',' :: B)
        = (A ++ [',']) ++ blank_excess 2 (A.count ',' + 1) B := by
      rw [blank_excess_append, hid]
      simp [blank_excess, hn]
    have hs1 : A ++ ',' :: B = (A ++ [',']) ++ B := by simp
    have hs2 : A ++ ' ' :: ',' :: B = (A ++ [' ', ',']) ++ B := by simp
    have hw1 : ∀ c ∈ A ++ [','], isspace c = true → c = ' ' := by
      intro c hc h
      rcases List.mem_append.1 hc with h' | h'
      · exact hws c h' h
      · simp only [List.mem_singleton] at h'
        rw [h'] at h
        exact absurd h (by decide)
    have hw2 : ∀ c ∈ A ++ [' ', ','], isspace c = true → c = ' ' := by
      intro c hc h
      rcases List.mem_append.1 hc with h' | h'
      · exact hws c h' h
      · simp only [List.mem_cons, List.mem_singleton, List.not_mem_nil, or_false] at h'
        rcases h' with h' | h'
        · exact h'
        · rw [h'] at h
          exact absurd h (by decide)
    rw [e1, e2, collapse_whitespace_eq, collapse_whitespace_eq,
      collapse_prefix (A ++ [' ', ',']) B (by rw [← hs2]; exact hcolv) hw2 (by simp)
        (by
          rw [show (A ++ [' ', ',']).length - 1 = (A ++ [' ']).length by simp,
            show A ++ [' ', ','] = (A ++ [' ']) ++ [','] by simp, charAt_snoc]
          decide),
      collapse_prefix (A ++ [',']) B (by rw [← hs1]; exact hcol) hw1 (by simp)
        (by
          rw [show (A ++ [',']).length - 1 = A.length by simp, charAt_snoc]
          decide)]
    have f1 : (A ++ [' ', ',']) ++ collapse_run true false (blank_excess 2 (A.count ',' + 1) B)
        = A ++ ' ' :: ',' :: collapse_run true false (blank_excess 2 (A.count ',' + 1) B) := by
      simp
    have f2 : (A ++ [',']) ++ collapse_run true false (blank_excess 2 (A.count ',' + 1) B)
        = A ++ ',' :: collapse_run true false (blank_excess 2 (A.count ',' + 1) B) := by
      simp
    rw [f1, f2]
    exact squeeze_space_before _ A 0 false [] [] (by rw [hd]; rfl)

/-- A space after a comma at depth 0 of a whitespace-collapsed name does not
change what the first loop of `find_commas`, the whitespace collapsing and
the second loop make of the name. -/
theorem collapsed_space_after (A B : List Char) (hd : brace_depth A = 0)
    (hws : ∀ c ∈ A, isspace c = true → c = ' ')
    (hcol : Collapsed (A ++ ',' :: B)) :
    squeeze 0 false [] [] (collapse_whitespace (blank_excess 2 0 (A ++ ',' :: ' ' :: B)))
      = squeeze 0 false [] [] (collapse_whitespace (blank_excess 2 0 (A ++ ',' :: B))) := by
  by_cases hn : A.count ',' + 1 > 2
  · have e1 : blank_excess 2 0 (A ++ ',' :: ' ' :: B)
        = blank_excess 2 0 A ++ ' ' :: ' ' :: blank_excess 2 (A.count ',' + 1) B := by
      rw [blank_excess_append]
      simp [blank_excess, hn]
    have e2 : blank_excess 2 0 (A ++ ',' :: B)
        = blank_excess 2 0 A ++ ' ' :: blank_excess 2 (A.count ',' + 1) B := by
      rw [blank_excess_append]
      simp [blank_excess, hn]
    rw [e1, e2, collapse_whitespace_eq, collapse_whitespace_eq, collapse_run_append,
      collapse_run_space_space, ← collapse_run_append]
  · have hid : blank_excess 2 0 A = A := blank_excess_id 2 A 0 (by omega)
    have e1 : blank_excess 2 0 (A ++ ',' :: ' ' :: B)
        = (A ++ [',']) ++ ' ' :: blank_excess 2 (A.count ',' + 1) B := by
      rw [blank_excess_append, hid]
      simp [blank_excess, hn]
    have e2 : blank_excess 2 0 (A ++ ',' :: B)
        = (A ++ [',']) ++ blank_excess 2 (A.count ',' + 1) B := by
      rw [blank_excess_append, hid]
      simp [blank_excess, hn]
    have hs1 : A ++ ',' :: B = (A ++ [',']) ++ B := by simp
    have hw1 : ∀ c ∈ A ++ [','], isspace c = true → c = ' ' := by
      intro c hc h
      rcases List.mem_append.1 hc with h' | h'
      · exact hws c h' h
      · simp only [List.mem_singleton] at h'
        rw [h'] at h
        exact absurd h (by decide)
    have hP := collapse_prefix (A ++ [',']) B (by rw [← hs1]; exact hcol) hw1 (by simp)
      (by
        rw [show (A ++ [',']).length - 1 = A.length by simp, charAt_snoc]
        decide)
    rw [e1, e2, collapse_whitespace_eq, collapse_whitespace_eq, hP, hP]
    have hstep : collapse_run true false (' ' :: blank_excess 2 (A.count ',' + 1) B)
        = collapse_run true true (blank_excess 2 (A.count ',' + 1) B) := by
      have hsp : isspace ' ' = true := by decide
      simp only [collapse_run, hsp, if_true]
    rw [hstep]
    rcases collapse_run_gap (blank_excess 2 (A.count ',' + 1) B) with h | h
    · rw [h]
    · rw [h]
      have f1 : (A ++ [','])
            ++ ' ' :: collapse_run true false (blank_excess 2 (A.count ',' + 1) B)
          = A ++ ',' :: ' ' :: collapse_run true false (blank_excess 2 (A.count ',' + 1) B) := by
        simp
      have f2 : (A ++ [',']) ++ collapse_run true false (blank_excess 2 (A.count ',' + 1) B)
          = A ++ ',' :: collapse_run true false (blank_excess 2 (A.count ',' + 1) B) := by
        simp
      rw [f1, f2]
      exact squeeze_space_after _ A 0 false [] [] (by rw [hd]; rfl)

end Btparse
